import Mathlib

/-!
ZX0 compressor: optimizer, encoder and decoder.

A shallow embedding of `zx0/optimizer.go`, `zx0/compressor.go` and
`zx0/decompressor.go`, and theorems about it.

Conventions of the embedding.

* A Go `[]byte` is a `List Byte` with `Byte = Fin 256`.
* A Go `*Block` is a `BlockRef`: the list of the blocks met by following `Chain`
  from the pointed block, the pointed block first; the nil pointer is `[]`.
  Blocks are never modified by the optimizer once created, so sharing a tail is
  the same as sharing a pointer.
* A run-time panic (index out of range, nil dereference) is `none`.
* Go `int` is 64 bit; the embedding uses unbounded `Int` and `Nat`, which agrees
  with the code as long as no quantity reaches `2^63`.
-/

set_option autoImplicit false

namespace Zx0

/-- A byte. -/
abbrev Byte := Fin 256

/-- The conversion `byte(v)` of a non-negative int. -/
def toByte (v : Nat) : Byte := ⟨v % 256, Nat.mod_lt _ (by decide)⟩

def INITIAL_OFFSET : Nat := 1

/-- Modelled from the spec: the parse node record `Block` (its declaration is not among
the source files): cumulative bit cost, input position, match offset (0 for a literal
run); the fourth field `Chain`, the link to the preceding node, is the tail of the
`BlockRef` list that holds the block. -/
structure Block where
  Bits : Int
  Index : Int
  Offset : Nat
deriving DecidableEq, Repr

/-- A `*Block`: the pointed block followed by its `Chain`; `[]` is nil. -/
abbrev BlockRef := List Block

/-- Modelled from the spec: the helper `btoi` (its declaration is not among the source
files), the conversion of a bool to the int 1 or 0. -/
def btoi (b : Bool) : Nat := if b then 1 else 0

/-- Slice read at an `int` index: `none` when out of range. -/
def idx? {α : Type} (xs : List α) (i : Int) : Option α :=
  if i < 0 then none else xs[i.toNat]?

/-- Slice write `xs[i] = v`: `none` when out of range. -/
def store {α : Type} (xs : List α) (i : Nat) (v : α) : Option (List α) :=
  if i < xs.length then some (xs.set i v) else none

/-- Field access through a pointer: `none` on nil. -/
def deref : BlockRef → Option Block
  | [] => none
  | b :: _ => some b

/-! ## optimizer.go -/

def offsetCeiling (index offsetLimit : Nat) : Nat :=
  min (max index INITIAL_OFFSET) offsetLimit

/-- The loop of `eliasGammaBits`; `value` halves at each turn, so `fuel = value` turns
are never used up. -/
def eliasGammaBitsLoop : Nat → Nat → Int → Int
  | 0, _, bits => bits
  | fuel + 1, value, bits =>
    if value > 1 then eliasGammaBitsLoop fuel (value >>> 1) (bits + 2) else bits

/-- For `value ≤ 1` (also negative) the loop body never runs. -/
def eliasGammaBits (value : Int) : Int :=
  eliasGammaBitsLoop value.toNat value.toNat 1

structure Optimizer where
  lastLiteral : List BlockRef
  lastMatch : List BlockRef
  optimal : List BlockRef
  matchLength : List Nat
  bestLength : List Nat
deriving DecidableEq, Repr

/-- The local variables of `processTask` together with the optimizer. -/
structure TaskState where
  o : Optimizer
  bestLengthSize : Nat
  optimalBlock : BlockRef
deriving DecidableEq, Repr

/-- The test `optimalBlock == nil || optimalBlock.Bits > bits`. -/
def improves (optimalBlock : BlockRef) (bits : Int) : Bool :=
  match optimalBlock with
  | [] => true
  | b :: _ => decide (b.Bits > bits)

/-- The body of the `for { ... }` loop that extends `bestLength`, run `n` times. The
source loop runs until `bestLengthSize` reaches `matchLength[offset]`, that is
`matchLength[offset] - bestLengthSize` times (at least once). -/
def bestLengthLoop (index : Nat) (optimal : List BlockRef) :
    Nat → List Nat → Nat → Int → Option (List Nat × Nat)
  | 0, bestLength, bestLengthSize, _ => some (bestLength, bestLengthSize)
  | n + 1, bestLength, bestLengthSize, bits => do
    let bestLengthSize := bestLengthSize + 1
    let p ← idx? optimal ((index : Int) - bestLengthSize)
    let b ← deref p
    let bits2 := b.Bits + eliasGammaBits ((bestLengthSize : Int) - 1)
    if bits2 ≤ bits then
      let bestLength ← store bestLength bestLengthSize bestLengthSize
      bestLengthLoop index optimal n bestLength bestLengthSize bits2
    else
      let prev ← bestLength[bestLengthSize - 1]?
      let bestLength ← store bestLength bestLengthSize prev
      bestLengthLoop index optimal n bestLength bestLengthSize bits

/-- The `if bestLengthSize < o.matchLength[offset] { ... }` statement. -/
def extendBestLength (index : Nat) (optimal : List BlockRef) (bestLength : List Nat)
    (bestLengthSize m : Nat) : Option (List Nat × Nat) :=
  if bestLengthSize < m then do
    let bl ← bestLength[bestLengthSize]?
    let p ← idx? optimal ((index : Int) - bl)
    let b ← deref p
    let bits := b.Bits + eliasGammaBits ((bl : Int) - 1)
    bestLengthLoop index optimal (m - bestLengthSize) bestLength bestLengthSize bits
  else some (bestLength, bestLengthSize)

/-- The condition `index != skip && index >= offset && input[index] == input[index-offset]`. -/
def matchAt (input : List Byte) (index skip offset : Nat) : Option Bool :=
  if index != skip && decide (index ≥ offset) then do
    let a ← input[index]?
    let b ← input[index - offset]?
    pure (a == b)
  else some false

/-- The "copy from last offset" part of the loop body. -/
def fromLastOffset (index offset : Nat) (s : TaskState) : Option TaskState := do
  let ll ← s.o.lastLiteral[offset]?
  match ll with
  | [] => pure s
  | l :: _ =>
    let length : Int := (index : Int) - l.Index
    let bits := l.Bits + 1 + eliasGammaBits length
    let blk : BlockRef := ⟨bits, index, offset⟩ :: ll
    let lastMatch ← store s.o.lastMatch offset blk
    pure { s with
      o := { s.o with lastMatch := lastMatch }
      optimalBlock := if improves s.optimalBlock bits then blk else s.optimalBlock }

/-- The "copy from new offset" part of the loop body. -/
def fromNewOffset (index offset : Nat) (s : TaskState) : Option TaskState := do
  let m0 ← s.o.matchLength[offset]?
  let matchLength ← store s.o.matchLength offset (m0 + 1)
  let m := m0 + 1
  let s := { s with o := { s.o with matchLength := matchLength } }
  if m > 1 then
    let (bestLength, bestLengthSize) ←
      extendBestLength index s.o.optimal s.o.bestLength s.bestLengthSize m
    let length ← bestLength[m]?
    let p ← idx? s.o.optimal ((index : Int) - length)
    let b ← deref p
    let bits := b.Bits + 8 + eliasGammaBits (((offset - 1) / 128 + 1 : Nat) : Int)
      + eliasGammaBits ((length : Int) - 1)
    let s := { s with o := { s.o with bestLength := bestLength }, bestLengthSize := bestLengthSize }
    let lm ← s.o.lastMatch[offset]?
    let replace : Bool := match lm with
      | [] => true
      | x :: _ => decide (x.Index ≠ index) || decide (x.Bits > bits)
    if replace then
      let blk : BlockRef := ⟨bits, index, offset⟩ :: p
      let lastMatch ← store s.o.lastMatch offset blk
      pure { s with
        o := { s.o with lastMatch := lastMatch }
        optimalBlock := if improves s.optimalBlock bits then blk else s.optimalBlock }
    else pure s
  else pure s

/-- The "copy literals" branch of the loop body. -/
def copyLiterals (index offset : Nat) (s : TaskState) : Option TaskState := do
  let matchLength ← store s.o.matchLength offset 0
  let s := { s with o := { s.o with matchLength := matchLength } }
  let lm ← s.o.lastMatch[offset]?
  match lm with
  | [] => pure s
  | x :: _ =>
    let length : Int := (index : Int) - x.Index
    let bits := x.Bits + 1 + eliasGammaBits length + length * 8
    let blk : BlockRef := ⟨bits, index, 0⟩ :: lm
    let lastLiteral ← store s.o.lastLiteral offset blk
    pure { s with
      o := { s.o with lastLiteral := lastLiteral }
      optimalBlock := if improves s.optimalBlock bits then blk else s.optimalBlock }

/-- One turn of the offset loop of `processTask`. -/
def processOffset (input : List Byte) (index skip offset : Nat) (s : TaskState) :
    Option TaskState := do
  if (← matchAt input index skip offset) then
    let s ← fromLastOffset index offset s
    fromNewOffset index offset s
  else copyLiterals index offset s

/-- The offset loop of `processTask`, `n` turns starting at `offset`. -/
def processLoop (input : List Byte) (index skip : Nat) : Nat → Nat → TaskState → Option TaskState
  | 0, _, s => some s
  | n + 1, offset, s => do
    let s ← processOffset input index skip offset s
    processLoop input index skip n (offset + 1) s

/-- `processTask`: the loop `for offset := initialOffset; offset <= finalOffset; offset++`
runs `finalOffset + 1 - initialOffset` times. Returns the optimizer and the block. -/
def processTask (o : Optimizer) (initialOffset finalOffset index skip : Nat)
    (input : List Byte) : Option (Optimizer × BlockRef) := do
  let s ← processLoop input index skip (finalOffset + 1 - initialOffset) initialOffset ⟨o, 2, []⟩
  pure (s.o, s.optimalBlock)

/-- The state set up by `Optimize` before its main loop. -/
def initOptimizer (input : List Byte) (skip offsetLimit : Nat) : Option Optimizer := do
  let arraySize := offsetCeiling (input.length - 1) offsetLimit + 1
  let bestLength := List.replicate input.length 0
  let bestLength := if bestLength.length > 2 then bestLength.set 2 2 else bestLength
  let lastMatch ← store (List.replicate arraySize []) INITIAL_OFFSET
    [⟨-1, (skip : Int) - 1, INITIAL_OFFSET⟩]
  pure {
    lastLiteral := List.replicate arraySize []
    lastMatch := lastMatch
    optimal := List.replicate input.length []
    matchLength := List.replicate arraySize 0
    bestLength := bestLength }

/-- The main loop of `Optimize` for `threads == 1`: `n` positions starting at `index`. -/
def optimizeLoop (input : List Byte) (skip offsetLimit : Nat) : Nat → Nat → Optimizer → Option Optimizer
  | 0, _, o => some o
  | n + 1, index, o => do
    let maxOffset := offsetCeiling index offsetLimit
    let (o, blk) ← processTask o 1 maxOffset index skip input
    let optimal ← store o.optimal index blk
    optimizeLoop input skip offsetLimit n (index + 1) { o with optimal := optimal }

/-- The result of one job of the worker pool. -/
structure JobResult where
  Block : BlockRef
  initialOffset : Nat
deriving DecidableEq, Repr

/-- The dispatch loop `for initialOffset := 1; initialOffset <= maxOffset;
initialOffset += taskSize`, each job run to completion by `worker` as it is dispatched
and its result kept when its block is not nil. `initialOffset` grows by `taskSize ≥ 1`
at each turn, so with `fuel = maxOffset` turns allowed the loop condition is false
when the fuel is used up. -/
def dispatchLoop (input : List Byte) (index skip maxOffset taskSize : Nat) :
    Nat → Nat → Optimizer → List JobResult → Option (Optimizer × List JobResult)
  | 0, _, o, results => some (o, results)
  | fuel + 1, initialOffset, o, results =>
    if initialOffset ≤ maxOffset then do
      let finalOffset := min (initialOffset + taskSize - 1) maxOffset
      let (o, blk) ← processTask o initialOffset finalOffset index skip input
      let results := if blk = [] then results else results ++ [⟨blk, initialOffset⟩]
      dispatchLoop input index skip maxOffset taskSize fuel (initialOffset + taskSize) o results
    else some (o, results)

/-- The reduction `for _, result := range results` onto `o.optimal[index]`. -/
def reduceResults (cur : BlockRef) : List JobResult → Option BlockRef
  | [] => some cur
  | r :: rest => do
    let b ← deref r.Block
    reduceResults (if improves cur b.Bits then r.Block else cur) rest

/-- The main loop of `Optimize` for `threads != 1`, the jobs of one position run one
after the other in dispatch order. -/
def optimizeLoopThreads (input : List Byte) (skip offsetLimit threads : Nat) :
    Nat → Nat → Optimizer → Option Optimizer
  | 0, _, o => some o
  | n + 1, index, o => do
    let maxOffset := offsetCeiling index offsetLimit
    if threads = 0 then none  -- integer division by zero
    let taskSize := maxOffset / threads + 1
    let (o, results) ← dispatchLoop input index skip maxOffset taskSize maxOffset 1 o []
    let results := results.insertionSort (fun a b => a.initialOffset ≤ b.initialOffset)
    let cur ← o.optimal[index]?
    let blk ← reduceResults cur results
    let optimal ← store o.optimal index blk
    optimizeLoopThreads input skip offsetLimit threads n (index + 1) { o with optimal := optimal }

/-- `Optimize`. `threads` is the thread count after the statement
`if threads <= 0 { threads = runtime.NumCPU() }`; printing is left out. The result is
`none` on a panic and `some []` when the returned pointer is nil. -/
def Optimize (input : List Byte) (skip offsetLimit threads : Nat) : Option BlockRef := do
  let o ← initOptimizer input skip offsetLimit
  let o ← if threads = 1 then optimizeLoop input skip offsetLimit (input.length - skip) skip o
    else optimizeLoopThreads input skip offsetLimit threads (input.length - skip) skip o
  idx? o.optimal ((input.length : Int) - 1)

/-! ## compressor.go -/

/-- The compressor, with `delta` standing for `delta[0]` of the slice handed to
`Compress`. The last field is not in the source: `reads` is a history variable that
records `(outputIndex, inputIndex)` at the end of every call of `readBytes`; nothing
is computed from it. -/
structure Compressor where
  output : List Byte
  outputIndex : Nat
  inputIndex : Int
  bitIndex : Nat
  bitMask : Nat
  diff : Int
  backtrack : Bool
  delta : Int
  reads : List (Nat × Int)
deriving DecidableEq, Repr

namespace Compressor

def readBytes (c : Compressor) (n : Int) : Compressor :=
  let c := { c with inputIndex := c.inputIndex + n, diff := c.diff + n,
                    reads := c.reads ++ [(c.outputIndex, c.inputIndex + n)] }
  if c.delta < c.diff then { c with delta := c.diff } else c

def writeByte (c : Compressor) (value : Nat) : Option Compressor := do
  let output ← store c.output c.outputIndex (toByte (value &&& 0xff))
  pure { c with output := output, outputIndex := c.outputIndex + 1, diff := c.diff - 1 }

/-- The statement `c.output[i] |= byte(m)`. -/
def orByte (output : List Byte) (i : Int) (m : Nat) : Option (List Byte) := do
  let old ← idx? output i
  store output i.toNat (toByte (old.val ||| (toByte m).val))

def writeBit (c : Compressor) (value : Nat) : Option Compressor :=
  if c.backtrack then do
    let output ← if value > 0 then orByte c.output ((c.outputIndex : Int) - 1) 1
      else pure c.output
    pure { c with output := output, backtrack := false }
  else do
    let c ← if c.bitMask = 0 then
        writeByte { c with bitMask := 128, bitIndex := c.outputIndex } 0
      else pure c
    let output ← if value > 0 then orByte c.output c.bitIndex c.bitMask else pure c.output
    pure { c with output := output, bitMask := c.bitMask >>> 1 }

/-- The loop `for i <= value { i <<= 1 }`; `i` at least doubles at each turn, so
`fuel = value` turns are never used up. `i` is unbounded here, which is the code for
`value < 2^62` (the lengths and offsets that `Compress` passes for an input of less than
`2^62` bytes); `gammaTop64` is the loop with an `int` of 64 bits, which never ends from
`2^62` on. -/
def gammaTop : Nat → Nat → Nat → Nat
  | 0, i, _ => i
  | fuel + 1, i, value => if i ≤ value then gammaTop fuel (i <<< 1) value else i

/-- The loop `for i >>= 1; i > 0; i >>= 1 { ... }` from its first test on; `i` halves at
each turn, so `fuel = i` turns are never used up. -/
def gammaPairs (value : Nat) (backwardsMode invertMode : Bool) :
    Nat → Nat → Compressor → Option Compressor
  | 0, _, c => some c
  | fuel + 1, i, c =>
    if i > 0 then do
      let c ← c.writeBit (btoi backwardsMode)
      let c ← c.writeBit (btoi (invertMode == ((value &&& i) == 0)))
      gammaPairs value backwardsMode invertMode fuel (i >>> 1) c
    else some c

/-- For `value ≤ 1` (also negative) no pair is written, so the loops run on
`value.toNat`. -/
def writeInterlacedEliasGamma (c : Compressor) (value : Int) (backwardsMode invertMode : Bool) :
    Option Compressor := do
  let v := value.toNat
  let i := gammaTop v 2 v
  let i := i >>> 1
  let c ← gammaPairs v backwardsMode invertMode (i >>> 1) (i >>> 1) c
  c.writeBit (btoi (!backwardsMode))

/-- The loop `for i := 0; i < length; i++` that copies literal values. -/
def copyLiteralValues (input : List Byte) : Nat → Compressor → Option Compressor
  | 0, c => some c
  | n + 1, c => do
    let b ← idx? input c.inputIndex
    let c ← c.writeByte b.val
    copyLiteralValues input n (c.readBytes 1)

/-- The body of the "generate output" loop for the block `optimal` that follows `prev`.
Returns the new `lastOffset`. -/
def emitBlock (input : List Byte) (backwardsMode invertMode : Bool) (prev optimal : Block)
    (lastOffset : Nat) (c : Compressor) : Option (Compressor × Nat) := do
  let length : Int := optimal.Index - prev.Index
  if optimal.Offset = 0 then
    let c ← c.writeBit 0
    let c ← c.writeInterlacedEliasGamma length backwardsMode false
    let c ← copyLiteralValues input length.toNat c
    pure (c, lastOffset)
  else if optimal.Offset = lastOffset then
    let c ← c.writeBit 0
    let c ← c.writeInterlacedEliasGamma length backwardsMode false
    pure (c.readBytes length, lastOffset)
  else
    let c ← c.writeBit 1
    let c ← c.writeInterlacedEliasGamma (((optimal.Offset - 1) / 128 + 1 : Nat) : Int)
      backwardsMode invertMode
    let c ← c.writeByte ((btoi backwardsMode * ((optimal.Offset - 1) % 128)) <<< 1
      + (btoi (!backwardsMode) * (127 - (optimal.Offset - 1) % 128)) <<< 1)
    let c := { c with backtrack := true }
    let c ← c.writeInterlacedEliasGamma (length - 1) backwardsMode false
    pure (c.readBytes length, optimal.Offset)

/-- The "generate output" loop over the un-reversed chain: `prev` and the blocks after
it, first to last. -/
def emitLoop (input : List Byte) (backwardsMode invertMode : Bool) :
    Block → List Block → Nat → Compressor → Option Compressor
  | _, [], _, c => some c
  | prev, optimal :: rest, lastOffset, c => do
    let (c, lastOffset) ← emitBlock input backwardsMode invertMode prev optimal lastOffset c
    emitLoop input backwardsMode invertMode optimal rest lastOffset c

/-- `Compress`, up to the final state of the compressor. The un-reversal of the chain
is `List.reverse`: afterwards `prev` is the last block of the chain (the root of a chain
made by `Optimize`) and following `Chain` from it walks the chain forwards. -/
def run (optimal : BlockRef) (input : List Byte) (skip : Nat)
    (backwardsMode invertMode : Bool) : Option Compressor := do
  let head ← deref optimal
  let size : Int := (head.Bits + 25).tdiv 8
  if size < 0 then none  -- make panics on a negative length
  let output : List Byte := List.replicate size.toNat 0
  match optimal.reverse with
  | [] => none
  | prev :: rest =>
    let c : Compressor := {
      output := output
      outputIndex := 0
      inputIndex := skip
      bitIndex := 0
      bitMask := 0
      diff := (output.length : Int) - input.length + skip
      backtrack := true
      delta := 0
      reads := [] }
    let c ← emitLoop input backwardsMode invertMode prev rest INITIAL_OFFSET c
    let c ← c.writeBit 1
    c.writeInterlacedEliasGamma 256 backwardsMode invertMode

end Compressor

/-- `Compress`: the returned slice together with the value left in `delta[0]`. -/
def Compress (optimal : BlockRef) (input : List Byte) (skip : Nat)
    (backwardsMode invertMode : Bool) : Option (List Byte × Int) := do
  let c ← Compressor.run optimal input skip backwardsMode invertMode
  pure (c.output, c.delta)

/-! ## decompressor.go -/

/-- Why a run of the decoder model stopped without a result: a run-time panic of the
code, or the fuel of the model used up (which no run of `Decompress` does). -/
inductive Stop where
  | panic
  | fuel
deriving DecidableEq, Repr

/-- Turns a failed slice access into a panic. -/
def orPanic {α : Type} : Option α → Except Stop α
  | some a => .ok a
  | none => .error .panic

structure Decompressor where
  lastOffset : Int
  inputData : List Byte
  output : List Byte
  inputIndex : Nat
  bitMask : Nat
  bitValue : Nat
  backwards : Bool
  inverted : Bool
  backtrack : Bool
  lastByte : Nat
deriving DecidableEq, Repr

inductive State where
  | COPY_LITERALS
  | COPY_FROM_LAST_OFFSET
  | COPY_FROM_NEW_OFFSET
  | COPY_END
  | COPY_UNKNOWN
deriving DecidableEq, Repr

namespace Decompressor

def readByte (d : Decompressor) : Except Stop (Nat × Decompressor) := do
  let b ← orPanic d.inputData[d.inputIndex]?
  pure (b.val, { d with lastByte := b.val, inputIndex := d.inputIndex + 1 })

def readBit (d : Decompressor) : Except Stop (Nat × Decompressor) :=
  if d.backtrack then do
    let b ← orPanic (idx? d.inputData ((d.inputIndex : Int) - 1))
    pure (b.val &&& 0x01, { d with backtrack := false })
  else do
    let d := { d with bitMask := d.bitMask >>> 1 }
    let d ← if d.bitMask = 0 then do
        let (v, d) ← readByte { d with bitMask := 128 }
        pure { d with bitValue := v }
      else pure d
    if d.bitValue &&& d.bitMask ≠ 0 then pure (1, d) else pure (0, d)

/-- The loop of `readInterlacedEliasGamma`. It ends by a stop bit or by a panic at the
end of the input; the model stops with `Stop.fuel` after `fuel` turns. `value` is
unbounded here, which is the code on the streams whose codes stay below `2^63` (those
that `Compress` writes); `gammaLoop64` is the loop with an `int` of 64 bits, for
arbitrary input. -/
def gammaLoop (msb : Bool) : Nat → Nat → Decompressor → Except Stop (Nat × Decompressor)
  | 0, _, _ => .error .fuel
  | fuel + 1, value, d => do
    let (bit, d) ← d.readBit
    if bit = btoi d.backwards then
      let (bit, d) ← d.readBit
      gammaLoop msb fuel (((value <<< 1) ||| bit) ^^^ btoi (msb && d.inverted)) d
    else pure (value, d)

/-- Every turn of the loop but the first reads two bits of the input, and the first at
least one, so the loop makes at most `4 * len(inputData) + 1` turns. -/
def readInterlacedEliasGamma (d : Decompressor) (msb : Bool) : Except Stop (Nat × Decompressor) :=
  gammaLoop msb (4 * d.inputData.length + 2) 1 d

def writeByte (d : Decompressor) (value : Nat) : Decompressor :=
  { d with output := d.output ++ [toByte (value &&& 0xff)] }

/-- The loop `for ; length > 0; length--`. -/
def copyBytes (d : Decompressor) : Nat → Except Stop Decompressor
  | 0 => pure d
  | length + 1 => do
    let b ← orPanic (idx? d.output ((d.output.length : Int) - d.lastOffset))
    copyBytes { d with output := d.output ++ [b] } length

/-- The loop `for i := 0; i < length; i++ { d.writeByte(d.readByte()) }`. -/
def copyLiteralBytes : Nat → Decompressor → Except Stop Decompressor
  | 0, d => pure d
  | n + 1, d => do
    let (v, d) ← d.readByte
    copyLiteralBytes n (d.writeByte v)

end Decompressor

open Decompressor in
def State.Process (s : State) (d : Decompressor) : Except Stop (State × Decompressor) :=
  match s with
  | .COPY_LITERALS => do
    let (length, d) ← d.readInterlacedEliasGamma false
    let d ← copyLiteralBytes length d
    let (bit, d) ← d.readBit
    if bit = 0 then pure (.COPY_FROM_LAST_OFFSET, d) else pure (.COPY_FROM_NEW_OFFSET, d)
  | .COPY_FROM_LAST_OFFSET => do
    let (length, d) ← d.readInterlacedEliasGamma false
    let d ← d.copyBytes length
    let (bit, d) ← d.readBit
    if bit = 0 then pure (.COPY_LITERALS, d) else pure (.COPY_FROM_NEW_OFFSET, d)
  | .COPY_FROM_NEW_OFFSET => do
    let (msb, d) ← d.readInterlacedEliasGamma true
    if msb = 256 then pure (.COPY_END, d) else
    let (b, d) ← d.readByte
    let lsb := b >>> 1
    let d := if d.backwards then { d with lastOffset := (msb : Int) * 128 + lsb - 127 }
      else { d with lastOffset := (msb : Int) * 128 - lsb }
    let d := { d with backtrack := true }
    let (length, d) ← d.readInterlacedEliasGamma false
    let d ← d.copyBytes (length + 1)
    let (bit, d) ← d.readBit
    if bit = 0 then pure (.COPY_LITERALS, d) else pure (.COPY_FROM_NEW_OFFSET, d)
  | _ => pure (.COPY_UNKNOWN, d)

/-- What a call of `Decompress` does. -/
inductive Outcome where
  /-- Returns `(output, nil)`. -/
  | returned (output : List Byte)
  /-- Returns `(nil, "Decompression error: invalid state")`. -/
  | invalidState
  /-- A run-time panic (index out of range). -/
  | panic
  /-- The fuel of the model is used up. -/
  | outOfFuel
deriving DecidableEq, Repr

/-- The loop `for state != COPY_END` of `Decompress`. -/
def decompressLoop : Nat → State → Decompressor → Outcome
  | 0, state, d => if state = .COPY_END then .returned d.output else .outOfFuel
  | fuel + 1, state, d =>
    if state = .COPY_END then .returned d.output else
    match state.Process d with
    | .error .panic => .panic
    | .error .fuel => .outOfFuel
    | .ok (state, d) =>
      if state = .COPY_UNKNOWN then .invalidState else decompressLoop fuel state d

/-- `Decompress`. Every call of `Process` reads at least one bit of the input that no
earlier call has read, so the loop makes at most `8 * len(input)` turns. -/
def Decompress (input : List Byte) (backwardsMode invertMode : Bool) : Outcome :=
  decompressLoop (8 * input.length + 1) .COPY_LITERALS {
    lastOffset := INITIAL_OFFSET
    inputData := input
    output := []
    inputIndex := 0
    bitMask := 0
    bitValue := 0
    backwards := backwardsMode
    inverted := invertMode
    backtrack := false
    lastByte := 0 }

/-! ## Parse chains: validity and the state of the optimizer -/

/-- `Index` of the pointed block (`0` for nil). -/
def headIndex : BlockRef → Int
  | [] => 0
  | b :: _ => b.Index

/-- `Offset` of the pointed block (`0` for nil). -/
def headOffset : BlockRef → Nat
  | [] => 0
  | b :: _ => b.Offset

/-- `Bits` of the pointed block (`0` for nil). -/
def headBits : BlockRef → Int
  | [] => 0
  | b :: _ => b.Bits

/-- The offset in force after the segment of the pointed block: the offset of the nearest
block of the chain that is not a literal run (the root counts, with `INITIAL_OFFSET`).
It is the value of `lastOffset` in `Compress` and in `Decompress` after that segment. -/
def lastOff : BlockRef → Nat
  | [] => 0
  | b :: p => if b.Offset = 0 then lastOff p else b.Offset

/-- Every position `j` with `lo < j ≤ hi` can be copied from `offset` positions back. -/
def Copyable (input : List Byte) (lo hi : Int) (offset : Nat) : Prop :=
  ∀ j : Nat, lo < j → (j : Int) ≤ hi → offset ≤ j ∧ input[j]? = input[j - offset]?

/-- A chain that `Compress` can encode and `Decompress` can decode: it ends in the root,
indices grow, every block carries the cost of its segment, a literal run follows a
back-reference or the root, a back-reference copies equal bytes, one that keeps the
offset in force follows a literal run, and one with another offset is at least two bytes
long and is not the first segment. -/
def Valid (input : List Byte) (skip limit : Nat) : BlockRef → Prop
  | [] => False
  | [r] => r = ⟨-1, (skip : Int) - 1, INITIAL_OFFSET⟩
  | b :: h :: q =>
    Valid input skip limit (h :: q) ∧ h.Index < b.Index ∧ b.Index < input.length ∧
    if b.Offset = 0 then
      h.Offset ≠ 0 ∧
      b.Bits = h.Bits + 1 + eliasGammaBits (b.Index - h.Index) + (b.Index - h.Index) * 8
    else
      b.Offset ≤ limit ∧ Copyable input h.Index b.Index b.Offset ∧
      if lastOff (h :: q) = b.Offset then
        h.Offset = 0 ∧ b.Bits = h.Bits + 1 + eliasGammaBits (b.Index - h.Index)
      else
        q ≠ [] ∧ h.Index + 2 ≤ b.Index ∧
        b.Bits = h.Bits + 8 + eliasGammaBits (((b.Offset - 1) / 128 + 1 : Nat) : Int)
          + eliasGammaBits (b.Index - h.Index - 1)

/-- The condition of `processTask` that offset `offset` matches at position `j`. -/
def Matches (input : List Byte) (skip j offset : Nat) : Prop :=
  matchAt input j skip offset = some true

/-- `optimal[index-l].Bits + eliasGammaBits(l-1)`: what the new-offset candidate of length
`l` costs at `index`, the offset apart. -/
def lengthCost (optimal : List BlockRef) (index l : Nat) : Int :=
  headBits (optimal.getD (index - l) []) + eliasGammaBits ((l : Int) - 1)

/-- The best length among `2..k` found by a search from scratch: the largest `l` of
least `lengthCost`. -/
def bestLen (optimal : List BlockRef) (index : Nat) : Nat → Nat
  | 0 => 2
  | k + 1 =>
    if k + 1 ≤ 2 then 2
    else if lengthCost optimal index (k + 1) ≤ lengthCost optimal index (bestLen optimal index k)
    then k + 1 else bestLen optimal index k

/-- The size of the per-offset arrays. -/
def arraySize (input : List Byte) (limit : Nat) : Nat :=
  offsetCeiling (input.length - 1) limit + 1

/-- The best block for position `p` while position `n` is processed: `optimalBlock` for
`n` itself, `optimal[p]` before. -/
def optAt (s : TaskState) (n p : Nat) : BlockRef :=
  if p = n then s.optimalBlock else s.o.optimal.getD p []

/-- What holds of a block stored in `optimal[p]`. -/
structure OptOK (input : List Byte) (skip limit : Nat) (optimal : List BlockRef)
    (c : BlockRef) (p : Nat) : Prop where
  valid : Valid input skip limit c
  two : 2 ≤ c.length
  index : headIndex c = p
  anchor : headOffset c ≠ 0 → lastOff c.tail ≠ headOffset c →
    ∃ p' : Nat, skip ≤ p' ∧ p' < p ∧ headIndex c.tail = p' ∧ c.tail = optimal.getD p' []

/-- The invariant of the slots of one offset, `lastLiteral[offset] = ll`,
`lastMatch[offset] = lm` and `matchLength[offset] = m`, when the positions before `τ`
have been processed for this offset. -/
structure SlotInv (input : List Byte) (skip limit : Nat) (opt : Nat → BlockRef)
    (τ offset : Nat) (ll lm : BlockRef) (m : Nat) : Prop where
  run_lo : m = 0 ∨ m + skip < τ
  run : ∀ j, τ ≤ j + m → j < τ → Matches input skip j offset
  run_max : skip + m < τ → ¬ Matches input skip (τ - m - 1) offset
  lm_ok : lm = [] ∨ (Valid input skip limit lm ∧ headOffset lm = offset ∧ headIndex lm < τ)
  ll_ok : ll = [] ∨ (Valid input skip limit ll ∧ headOffset ll = 0 ∧
    headIndex ll + m + 1 = τ ∧ lastOff ll = offset)
  ll_lm : lm = [] → ll = []
  link_lit : ∀ p, skip ≤ p → τ ≤ p + m + 1 → p < τ → headOffset (opt p) = 0 →
    lastOff (opt p) = offset → ll = opt p
  link_match : ∀ p, skip ≤ p → τ ≤ p + m + 1 → p < τ → headOffset (opt p) = offset →
    headOffset (opt p).tail = 0 → lastOff (opt p).tail = offset → ll = (opt p).tail
  fresh : τ ≤ offset → 2 ≤ offset → ll = [] ∧ lm = [] ∧ m = 0

/-- The invariant of `processTask` at position `n` when the offsets below `cursor` have
been processed. -/
structure TaskInv (input : List Byte) (skip limit : Nat) (s : TaskState) (n cursor : Nat) :
    Prop where
  len_ll : s.o.lastLiteral.length = arraySize input limit
  len_lm : s.o.lastMatch.length = arraySize input limit
  len_ml : s.o.matchLength.length = arraySize input limit
  len_opt : s.o.optimal.length = input.length
  len_bl : s.o.bestLength.length = input.length
  opt_ok : ∀ p, skip ≤ p → p < n →
    OptOK input skip limit s.o.optimal (s.o.optimal.getD p []) p
  slots : ∀ offset, 1 ≤ offset → offset < arraySize input limit →
    ∃ ll lm m, s.o.lastLiteral[offset]? = some ll ∧ s.o.lastMatch[offset]? = some lm ∧
      s.o.matchLength[offset]? = some m ∧
      SlotInv input skip limit (optAt s n) (if offset < cursor then n + 1 else n) offset ll lm m
  one_lm : ∃ lm, s.o.lastMatch[1]? = some lm ∧ lm ≠ []
  one_ll : skip < n ∨ 1 < cursor → ∃ ll, s.o.lastLiteral[1]? = some ll ∧ ll ≠ []
  bl_size : 2 ≤ s.bestLengthSize ∧ (s.bestLengthSize = 2 ∨ s.bestLengthSize + skip ≤ n)
  bl_two : 2 < input.length → s.o.bestLength[2]? = some 2
  bl_ok : ∀ k, 3 ≤ k → k ≤ s.bestLengthSize →
    s.o.bestLength[k]? = some (bestLen s.o.optimal n k)
  cur_some : 1 < cursor → s.optimalBlock ≠ []
  cur_ok : s.optimalBlock = [] ∨
    (OptOK input skip limit s.o.optimal s.optimalBlock n ∧ lastOff s.optimalBlock < cursor)

/-! ## Definitions used by the proofs -/

/-- The literal block made by the "copy literals" branch. -/
def litBlock (lm : BlockRef) (index : Nat) : BlockRef :=
  match lm with
  | [] => []
  | x :: _ => ⟨x.Bits + 1 + eliasGammaBits ((index : Int) - x.Index) + ((index : Int) - x.Index) * 8,
      index, 0⟩ :: lm

/-- The block made by the "copy from last offset" part. -/
def reuseBlock (ll : BlockRef) (index offset : Nat) : BlockRef :=
  match ll with
  | [] => []
  | l :: _ => ⟨l.Bits + 1 + eliasGammaBits ((index : Int) - l.Index), index, offset⟩ :: ll

/-- The block made by the "copy from new offset" part. -/
def newBlock (p : BlockRef) (index offset length : Nat) : BlockRef :=
  ⟨headBits p + 8 + eliasGammaBits (((offset - 1) / 128 + 1 : Nat) : Int)
    + eliasGammaBits ((length : Int) - 1), index, offset⟩ :: p

/-- The update of `optimalBlock` by a new block. -/
def offer (optimalBlock blk : BlockRef) : BlockRef :=
  if improves optimalBlock (headBits blk) then blk else optimalBlock

/-- The test that lets the new-offset block replace `lastMatch[offset]`. -/
def replaces (lm : BlockRef) (index : Nat) (bits : Int) : Bool :=
  match lm with
  | [] => true
  | x :: _ => decide (x.Index ≠ index) || decide (x.Bits > bits)

instance (input : List Byte) (skip j offset : Nat) : Decidable (Matches input skip j offset) := by
  unfold Matches; infer_instance

/-- The invariant of `Optimize` before position `n` is processed. -/
def PosInv (input : List Byte) (skip limit : Nat) (o : Optimizer) (n : Nat) : Prop :=
  TaskInv input skip limit ⟨o, 2, []⟩ n 1

/-- The root block made by `Optimize`. -/
def rootBlock (skip : Nat) : Block := ⟨-1, (skip : Int) - 1, INITIAL_OFFSET⟩

/-- The optimizer as `Optimize` sets it up. -/
def initState (input : List Byte) (skip limit : Nat) : Optimizer where
  lastLiteral := List.replicate (arraySize input limit) []
  lastMatch := (List.replicate (arraySize input limit) []).set 1 [rootBlock skip]
  optimal := List.replicate input.length []
  matchLength := List.replicate (arraySize input limit) 0
  bestLength := if (List.replicate input.length 0).length > 2
    then (List.replicate input.length 0).set 2 2 else List.replicate input.length 0

/-- The state of the optimizer when the main loop of `Optimize` (one thread) ends. -/
def optimizeState (input : List Byte) (skip offsetLimit : Nat) : Option Optimizer :=
  (initOptimizer input skip offsetLimit).bind fun o =>
    optimizeLoop input skip offsetLimit (input.length - skip) skip o

/-- The first of two blocks that has the least `Bits`, nil standing for no block. -/
def merge (a b : BlockRef) : BlockRef := if b = [] then a else offer a b

/-- What one turn of the offset loop does to `optimalBlock`, from the slots of the
offset. -/
def slotOB (input : List Byte) (skip : Nat) (optimal : List BlockRef) (n offset : Nat)
    (ll lm : BlockRef) (m : Nat) (ob : BlockRef) : BlockRef :=
  if Matches input skip n offset then
    let ob1 := if ll = [] then ob else offer ob (reuseBlock ll n offset)
    if 1 ≤ m ∧ replaces (if ll = [] then lm else reuseBlock ll n offset) n
        (headBits (newBlock (optimal.getD (n - bestLen optimal n (m + 1)) []) n offset
          (bestLen optimal n (m + 1)))) = true
    then offer ob1 (newBlock (optimal.getD (n - bestLen optimal n (m + 1)) []) n offset
          (bestLen optimal n (m + 1)))
    else ob1
  else if lm = [] then ob else offer ob (litBlock lm n)

/-- What one turn of the offset loop stores in `lastLiteral[offset]`. -/
def slotLL (input : List Byte) (skip : Nat) (n offset : Nat) (ll lm : BlockRef) : BlockRef :=
  if Matches input skip n offset then ll else if lm = [] then ll else litBlock lm n

/-- What one turn of the offset loop stores in `lastMatch[offset]`. -/
def slotLM (input : List Byte) (skip : Nat) (optimal : List BlockRef) (n offset : Nat)
    (ll lm : BlockRef) (m : Nat) : BlockRef :=
  if Matches input skip n offset then
    if 1 ≤ m ∧ replaces (if ll = [] then lm else reuseBlock ll n offset) n
        (headBits (newBlock (optimal.getD (n - bestLen optimal n (m + 1)) []) n offset
          (bestLen optimal n (m + 1)))) = true
    then newBlock (optimal.getD (n - bestLen optimal n (m + 1)) []) n offset
          (bestLen optimal n (m + 1))
    else if ll = [] then lm else reuseBlock ll n offset
  else lm

/-- What one turn of the offset loop stores in `matchLength[offset]`. -/
def slotML (input : List Byte) (skip : Nat) (n offset : Nat) (m : Nat) : Nat :=
  if Matches input skip n offset then m + 1 else 0

/-- Two optimizers that differ at most in stale entries of `bestLength`. -/
structure RelO (input : List Byte) (o1 o2 : Optimizer) : Prop where
  ll : o2.lastLiteral = o1.lastLiteral
  lm : o2.lastMatch = o1.lastMatch
  ml : o2.matchLength = o1.matchLength
  opt : o2.optimal = o1.optimal
  bl_len : o2.bestLength.length = input.length
  bl_two : 2 < input.length → o2.bestLength[2]? = some 2

/-- The state `t` of a task on a sub-range of offsets against the state `s` of the task
on the whole range, `a` being the `optimalBlock` of `s` when the sub-range starts. -/
structure Rel (input : List Byte) (skip n : Nat) (a : BlockRef) (s t : TaskState) : Prop where
  o : RelO input s.o t.o
  size : 2 ≤ t.bestLengthSize ∧ (t.bestLengthSize = 2 ∨ t.bestLengthSize + skip ≤ n)
  bl_ok : ∀ k, 3 ≤ k → k ≤ t.bestLengthSize →
    t.o.bestLength[k]? = some (bestLen t.o.optimal n k)
  ob : s.optimalBlock = merge a t.optimalBlock

/-- No position from `n` on has a block yet. -/
def Fresh (o : Optimizer) (n : Nat) : Prop := ∀ p, n ≤ p → o.optimal.getD p [] = []

/-- The bit slots still free in the byte that collects bits, from `bitMask`. -/
def freeBits (bitMask : Nat) : Nat :=
  match bitMask with
  | 1 => 1
  | 2 => 2
  | 4 => 3
  | 8 => 4
  | 16 => 5
  | 32 => 6
  | 64 => 7
  | _ => 0

/-- The bit slots of the output used so far, a byte counting for eight. -/
def Compressor.used (c : Compressor) : Nat := 8 * c.outputIndex - freeBits c.bitMask

/-- The part of the compressor that the output depends on. -/
def Compressor.core (c : Compressor) : List Byte × Nat × Nat × Nat × Bool :=
  (c.output, c.outputIndex, c.bitIndex, c.bitMask, c.backtrack)

/-- The invariant of the output side of the compressor. -/
structure WInv (c : Compressor) : Prop where
  oi_le : c.outputIndex ≤ c.output.length
  mask : c.bitMask = 0 ∨ c.bitMask = 1 ∨ c.bitMask = 2 ∨ c.bitMask = 4 ∨ c.bitMask = 8 ∨
    c.bitMask = 16 ∨ c.bitMask = 32 ∨ c.bitMask = 64
  bi : c.bitMask ≠ 0 → c.bitIndex < c.outputIndex ∧
    ∃ x, c.output[c.bitIndex]? = some x ∧ x.val % (2 * c.bitMask) = 0
  bt : c.backtrack = true → 1 ≤ c.outputIndex ∧ (c.bitMask ≠ 0 → c.bitIndex + 1 < c.outputIndex) ∧
    ∃ x, c.output[c.outputIndex - 1]? = some x ∧ x.val % 2 = 0

/-- The bytes `out` carry every bit that the compressor has written so far: `out` may be
the output of any later state of the compressor. -/
def Agree (c : Compressor) (out : List Byte) : Prop :=
  out.length = c.output.length ∧
  ∀ i, i < c.outputIndex → ∃ x y, c.output[i]? = some x ∧ out[i]? = some y ∧
    if c.bitMask ≠ 0 ∧ i = c.bitIndex then y.val / (2 * c.bitMask) = x.val / (2 * c.bitMask)
    else if c.backtrack = true ∧ i + 1 = c.outputIndex then y.val / 2 = x.val / 2
    else y = x

/-- The decoder reading `out` has read what the compressor has written. -/
structure Sync (c : Compressor) (d : Decompressor) (out : List Byte) : Prop where
  data : d.inputData = out
  index : d.inputIndex = c.outputIndex
  bt : d.backtrack = c.backtrack
  mask0 : c.bitMask = 0 → d.bitMask ≤ 1
  mask : c.bitMask ≠ 0 → d.bitMask = 2 * c.bitMask ∧
    ∃ y, out[c.bitIndex]? = some y ∧ d.bitValue = y.val

/-- The decoder fields that reading leaves alone. -/
def Same (d d' : Decompressor) : Prop :=
  d'.output = d.output ∧ d'.lastOffset = d.lastOffset ∧ d'.backwards = d.backwards ∧
    d'.inverted = d.inverted

/-- The bits written so far, the pending lowest bit of an offset byte not counted. -/
def Compressor.bits (c : Compressor) : Int := (c.used : Int) - btoi c.backtrack

/-- What writing leaves alone in the compressor. -/
structure Frame (c c' : Compressor) : Prop where
  len : c'.output.length = c.output.length
  inputIndex : c'.inputIndex = c.inputIndex
  delta : c'.delta = c.delta
  reads : c'.reads = c.reads
  diff : c'.diff + c'.outputIndex = c.diff + c.outputIndex
  oi : c.outputIndex ≤ c'.outputIndex

/-- The facts about one bit written and read back. -/
def BitStep (c c' : Compressor) (b : Bool) : Prop :=
  WInv c' ∧ Frame c c' ∧ c'.backtrack = false ∧ c'.bits = c.bits + 1 ∧
  ∀ out, Agree c' out → Agree c out ∧ ∀ d, Sync c d out →
    ∃ d', d.readBit = .ok (btoi b, d') ∧ Sync c' d' out ∧ Same d d'

/-- The facts about one byte written: `last` is whether it is a byte of low offset bits,
whose lowest bit is still to come. -/
def ByteStep (c c' : Compressor) (v : Nat) (last : Bool) : Prop :=
  WInv c' ∧ Frame c c' ∧ c'.backtrack = last ∧ c'.bits = c.bits + 8 - btoi last ∧
  ∀ out, Agree c' out → Agree c out ∧ ∀ d, Sync c d out →
    ∃ y d', d.readByte = .ok (y, d') ∧ (if last then y / 2 = v / 2 else y = v) ∧
      Sync { c' with backtrack := false } d' out ∧ Same d d'

/-- The facts about an Elias gamma code written and read back: `p` bit pairs and the
stop bit, for the value `n` of which the reader already has the bits above the lowest `p`. -/
def GammaStep (c c' : Compressor) (n p : Nat) (bw inv : Bool) : Prop :=
  WInv c' ∧ Frame c c' ∧ c'.backtrack = false ∧ c'.bits = c.bits + 2 * p + 1 ∧
  ∀ out, Agree c' out → Agree c out ∧ ∀ d msb, Sync c d out → d.backwards = bw →
    (msb && d.inverted) = inv → ∀ gfuel, p + 1 ≤ gfuel →
    ∃ d', Decompressor.gammaLoop msb gfuel (n >>> p) d = .ok (n, d') ∧ Sync c' d' out ∧ Same d d'

/-- The facts about a whole Elias gamma code written and read back. -/
def CodeStep (c c' : Compressor) (value : Int) (bw inv : Bool) : Prop :=
  WInv c' ∧ Frame c c' ∧ c'.backtrack = false ∧ c'.bits = c.bits + eliasGammaBits value ∧
  ∀ out, Agree c' out → Agree c out ∧ ∀ d msb, Sync c d out → d.backwards = bw →
    (msb && d.inverted) = inv →
    ∃ d', d.readInterlacedEliasGamma msb = .ok (value.toNat, d') ∧ Sync c' d' out ∧ Same d d'

/-- The largest value of `diff` at the reads recorded in `reads`, or `0` if none is
positive: `diff` is the output still free minus the input still unread. -/
def growth (outLen inputLen : Nat) (reads : List (Nat × Int)) : Int :=
  reads.foldl (fun m wr => max m (((outLen : Int) - wr.1) - ((inputLen : Int) - wr.2))) 0

/-- The invariant of the bookkeeping of `delta`. -/
structure DeltaInv (inputLen : Nat) (c : Compressor) : Prop where
  diff : c.diff = (c.output.length : Int) - inputLen + c.inputIndex - c.outputIndex
  delta : c.delta = growth c.output.length inputLen c.reads

/-- The facts about a literal run written and read back. -/
def LitStep (input : List Byte) (c c' : Compressor) (i n : Nat) : Prop :=
  WInv c' ∧ c'.backtrack = false ∧ DeltaInv input.length c' ∧ c'.bits = c.bits + 8 * n ∧
  c'.output.length = c.output.length ∧ c'.inputIndex = (i : Int) + n ∧
  ∀ out, Agree c' out → Agree c out ∧ ∀ d, Sync c d out →
    ∃ d', Decompressor.copyLiteralBytes n d = .ok d' ∧ Sync c' d' out ∧
      d'.output = d.output ++ (input.drop i).take n ∧ d'.lastOffset = d.lastOffset ∧
      d'.backwards = d.backwards ∧ d'.inverted = d.inverted

/-- The first bit that `emitBlock` writes for the block `optimal`. -/
def indicator (optimal : Block) (lastOffset : Nat) : Bool :=
  !(decide (optimal.Offset = 0) || decide (optimal.Offset = lastOffset))

/-- What `emitBlock` does after its first `writeBit`. -/
def emitBody (input : List Byte) (backwardsMode invertMode : Bool) (prev optimal : Block)
    (lastOffset : Nat) (c : Compressor) : Option (Compressor × Nat) := do
  let length : Int := optimal.Index - prev.Index
  if optimal.Offset = 0 then
    let c ← c.writeInterlacedEliasGamma length backwardsMode false
    let c ← Compressor.copyLiteralValues input length.toNat c
    pure (c, lastOffset)
  else if optimal.Offset = lastOffset then
    let c ← c.writeInterlacedEliasGamma length backwardsMode false
    pure (c.readBytes length, lastOffset)
  else
    let c ← c.writeInterlacedEliasGamma (((optimal.Offset - 1) / 128 + 1 : Nat) : Int)
      backwardsMode invertMode
    let c ← c.writeByte ((btoi backwardsMode * ((optimal.Offset - 1) % 128)) <<< 1
      + (btoi (!backwardsMode) * (127 - (optimal.Offset - 1) % 128)) <<< 1)
    let c := { c with backtrack := true }
    let c ← c.writeInterlacedEliasGamma (length - 1) backwardsMode false
    pure (c.readBytes length, optimal.Offset)

/-- The rest of `Compressor.run` from the top of the "generate output" loop on. -/
def emitRest (input : List Byte) (backwardsMode invertMode : Bool) (prev : Block)
    (rest : List Block) (lastOffset : Nat) (c : Compressor) : Option Compressor := do
  let c ← Compressor.emitLoop input backwardsMode invertMode prev rest lastOffset c
  let c ← c.writeBit 1
  c.writeInterlacedEliasGamma 256 backwardsMode invertMode

/-- The state in which the decoder decodes the block `optimal`. -/
def kindState (optimal : Block) (lastOffset : Nat) : State :=
  if optimal.Offset = 0 then .COPY_LITERALS
  else if optimal.Offset = lastOffset then .COPY_FROM_LAST_OFFSET
  else .COPY_FROM_NEW_OFFSET

/-- The first bit written after a block: that of the next block, or of the end marker. -/
def nextBit (rest : List Block) (lastOffset : Nat) : Bool :=
  match rest with
  | [] => true
  | b :: _ => indicator b lastOffset

/-- The compressor has written the blocks up to `b` and the first bit of what follows. -/
structure AtBlock (input : List Byte) (c : Compressor) (b : Block) : Prop where
  winv : WInv c
  bt : c.backtrack = false
  dinv : DeltaInv input.length c
  inputIndex : c.inputIndex = b.Index + 1
  bits : c.bits = b.Bits + 1

/-- The decoder has decoded the blocks up to `b`, after which `lo` is the offset in force. -/
structure DAt (input : List Byte) (bw inv : Bool) (d : Decompressor) (b : Block) (lo : Nat) :
    Prop where
  output : d.output = input.take (b.Index + 1).toNat
  lastOffset : d.lastOffset = (lo : Int)
  backwards : d.backwards = bw
  inverted : d.inverted = inv

/-- The facts about a block and the bit after it, written and read back: the decoder
in state `s` decodes the block and goes to state `s'`. -/
def BlockStep (input : List Byte) (bw inv : Bool) (c c3 : Compressor) (prev cur : Block)
    (lo lo' : Nat) (s s' : State) : Prop :=
  AtBlock input c3 cur ∧ c3.output.length = c.output.length ∧
  ∀ out, Agree c3 out → Agree c out ∧ ∀ d, Sync c d out → DAt input bw inv d prev lo →
    cur.Offset ≤ 32640 →
    ∃ d', s.Process d = .ok (s', d') ∧ Sync c3 d' out ∧ DAt input bw inv d' cur lo'

/-- The offset that the decoder computes from the two parts of an offset. -/
def newOffsetOf (backwards : Bool) (msb b : Nat) : Int :=
  if backwards then (msb : Int) * 128 + (b >>> 1 : Nat) - 127 else (msb : Int) * 128 - (b >>> 1 : Nat)

/-- The state of the decoder after the block `cur` and the bit `nb` that follows it. -/
def afterState (cur : Block) (nb : Bool) : State :=
  if nb then .COPY_FROM_NEW_OFFSET
  else if cur.Offset = 0 then .COPY_FROM_LAST_OFFSET else .COPY_LITERALS

/-- The last block of the chain `b :: rest`, read first to last. -/
def finalBlock : Block → List Block → Block
  | b, [] => b
  | _, b :: rest => finalBlock b rest

/-- The state in which the decoder decodes what follows: the first block of `rest`, or
the end marker. -/
def stateFor (rest : List Block) (lastOffset : Nat) : State :=
  match rest with
  | [] => .COPY_FROM_NEW_OFFSET
  | cur :: _ => kindState cur lastOffset

/-- What `Compressor.run` does after the first bit of what follows the block `prev`. -/
def emitAfter (input : List Byte) (backwardsMode invertMode : Bool) (prev : Block)
    (rest : List Block) (lastOffset : Nat) (c : Compressor) : Option Compressor :=
  match rest with
  | [] => c.writeInterlacedEliasGamma 256 backwardsMode invertMode
  | cur :: rest =>
    (emitBody input backwardsMode invertMode prev cur lastOffset c).bind
      (fun r => emitRest input backwardsMode invertMode cur rest r.2 r.1)

/-- The blocks of `rest`, first to last, continue the valid chain `done`. -/
def ValidFrom (input : List Byte) (skip limit : Nat) : BlockRef → List Block → Prop
  | _, [] => True
  | done, cur :: rest =>
    Valid input skip limit (cur :: done) ∧ ValidFrom input skip limit (cur :: done) rest

/-- The facts about the rest of the stream, written and read back, from the first bit
of what follows the block `prev` on. -/
def StreamOK (input : List Byte) (bw inv : Bool) (c cf : Compressor) (prev : Block)
    (rest : List Block) (lo : Nat) : Prop :=
  WInv cf ∧ DeltaInv input.length cf ∧ cf.bits = (finalBlock prev rest).Bits + 18 ∧
  cf.output.length = c.output.length ∧
  ∀ out, Agree cf out → Agree c out ∧ ∀ d fuel, Sync c d out → DAt input bw inv d prev lo →
    (∀ b ∈ rest, b.Offset ≤ 32640) → rest.length + 1 ≤ fuel →
    decompressLoop fuel (stateFor rest lo) d
      = .returned (input.take ((finalBlock prev rest).Index + 1).toNat)

/-- The state of the compressor at the start of the "generate output" loop. -/
def startState (outLen : Nat) (input : List Byte) (skip : Nat) : Compressor :=
  { output := List.replicate outLen 0
    outputIndex := 0
    inputIndex := skip
    bitIndex := 0
    bitMask := 0
    diff := ((List.replicate outLen (0 : Byte)).length : Int) - input.length + skip
    backtrack := true
    delta := 0
    reads := [] }

/-- A segment of a factorization of the input, as the stream format has them: a literal
run, a back-reference that reuses the previous offset, a back-reference with a new
offset. -/
inductive Seg where
  | literal (length : Nat)
  | reuse (length : Nat)
  | newOffset (offset length : Nat)
deriving DecidableEq, Repr

/-- The cost model: the bits that a segment adds. -/
def segCost : Seg → Int
  | .literal l => 1 + eliasGammaBits l + 8 * l
  | .reuse l => 1 + eliasGammaBits l
  | .newOffset o l => 8 + eliasGammaBits (((o - 1) / 128 + 1 : Nat) : Int) + eliasGammaBits ((l : Int) - 1)

/-- The cost model: the total cost of a factorization, the root costing `-1`. -/
def parseCost (segs : List Seg) : Int := -1 + (segs.map segCost).sum

/-- Every position `j` of the `length` positions from `pos` on has `j ≥ offset` and
`input[j] = input[j - offset]`. -/
def Copies (input : List Byte) (pos length offset : Nat) : Prop :=
  ∀ j, pos ≤ j → j < pos + length → offset ≤ j ∧ input[j]? = input[j - offset]?

/-- The segments cover the positions from `pos` to the end of the input; `previous` is
the previous offset and `afterLiteral` says that the segment before is a literal run. -/
def RepresentableFrom (input : List Byte) (offsetLimit : Nat) :
    Nat → Nat → Bool → List Seg → Prop
  | pos, _, _, [] => pos = input.length
  | pos, previous, afterLiteral, .literal l :: rest =>
    1 ≤ l ∧ afterLiteral = false ∧
      RepresentableFrom input offsetLimit (pos + l) previous true rest
  | pos, previous, afterLiteral, .reuse l :: rest =>
    1 ≤ l ∧ afterLiteral = true ∧ Copies input pos l previous ∧
      RepresentableFrom input offsetLimit (pos + l) previous false rest
  | pos, _, _, .newOffset o l :: rest =>
    2 ≤ l ∧ 1 ≤ o ∧ o ≤ offsetLimit ∧ Copies input pos l o ∧
      RepresentableFrom input offsetLimit (pos + l) o false rest

/-- A factorization of `input[skip:]` that the stream format can represent: it begins
with a literal run, has no two adjacent literal runs, its back-references have offsets in
`[1, offsetLimit]` and copy equal bytes, and it reuses the previous offset only directly
after a literal run. -/
def Representable (input : List Byte) (skip offsetLimit : Nat) (segs : List Seg) : Prop :=
  (∃ l rest, segs = .literal l :: rest) ∧
    RepresentableFrom input offsetLimit skip INITIAL_OFFSET false segs

/-- The segment that the block `optimal` stands for after the block `prev`, by the case
distinction of the "generate output" loop of `Compress`. -/
def segOf (prev optimal : Block) (lastOffset : Nat) : Seg :=
  if optimal.Offset = 0 then .literal (optimal.Index - prev.Index).toNat
  else if optimal.Offset = lastOffset then .reuse (optimal.Index - prev.Index).toNat
  else .newOffset optimal.Offset (optimal.Index - prev.Index).toNat

/-- The segments of the blocks after `prev`, first to last. -/
def segsFrom : Block → Nat → List Block → List Seg
  | _, _, [] => []
  | prev, lastOffset, optimal :: rest =>
    segOf prev optimal lastOffset ::
      segsFrom optimal (if optimal.Offset = 0 ∨ optimal.Offset = lastOffset then lastOffset
        else optimal.Offset) rest

/-- The factorization that a chain stands for. -/
def segsOf (h : BlockRef) : List Seg :=
  match h.reverse with
  | [] => []
  | root :: rest => segsFrom root INITIAL_OFFSET rest

/-- The segment of a chain in which the position `j` lies, as its place in the chain:
the block at place `i` and the block after it, its `Chain`. -/
def InSegment (chain : BlockRef) (j : Nat) (i : Nat) : Prop :=
  ∃ b p, chain[i]? = some b ∧ chain[i + 1]? = some p ∧ p.Index < j ∧ (j : Int) ≤ b.Index

/-- The bits of the input that the decoder can still read: eight for every byte not yet
read, those left in the byte that holds bits, and the lowest bit of an offset byte kept
for `readBit`. -/
def remaining (d : Decompressor) : Nat :=
  8 * (d.inputData.length - d.inputIndex) + Nat.log2 d.bitMask + btoi d.backtrack

/-- The invariant of the reading side of the decoder. -/
structure RInv (d : Decompressor) : Prop where
  idx : d.inputIndex ≤ d.inputData.length
  mask : d.bitMask ≤ 128
  used : d.bitMask ≠ 0 ∨ d.backtrack = true → 1 ≤ d.inputIndex

/-- What a step of the decoder with the result `r` does with the input: it fails only
with a panic, and when it succeeds it has read at least `k` bits. -/
def Reads {α : Type} (d : Decompressor) (k : Nat) (proj : α → Decompressor)
    (r : Except Stop α) : Prop :=
  match r with
  | .ok a => RInv (proj a) ∧ remaining (proj a) + k ≤ remaining d ∧
      (proj a).inputData = d.inputData
  | .error e => e = .panic

/-- `fromLastOffset` with a history variable that is not in the source: `log` lists the
blocks created so far by the call of `processTask`, in the order of their creation. -/
def fromLastOffsetLog (index offset : Nat) (s : TaskState) (log : List BlockRef) :
    Option (TaskState × List BlockRef) := do
  let ll ← s.o.lastLiteral[offset]?
  match ll with
  | [] => pure (s, log)
  | l :: _ =>
    let length : Int := (index : Int) - l.Index
    let bits := l.Bits + 1 + eliasGammaBits length
    let blk : BlockRef := ⟨bits, index, offset⟩ :: ll
    let lastMatch ← store s.o.lastMatch offset blk
    pure ({ s with
      o := { s.o with lastMatch := lastMatch }
      optimalBlock := if improves s.optimalBlock bits then blk else s.optimalBlock },
      log ++ [blk])

/-- `fromNewOffset` with the history variable `log`. -/
def fromNewOffsetLog (index offset : Nat) (s : TaskState) (log : List BlockRef) :
    Option (TaskState × List BlockRef) := do
  let m0 ← s.o.matchLength[offset]?
  let matchLength ← store s.o.matchLength offset (m0 + 1)
  let m := m0 + 1
  let s := { s with o := { s.o with matchLength := matchLength } }
  if m > 1 then
    let (bestLength, bestLengthSize) ←
      extendBestLength index s.o.optimal s.o.bestLength s.bestLengthSize m
    let length ← bestLength[m]?
    let p ← idx? s.o.optimal ((index : Int) - length)
    let b ← deref p
    let bits := b.Bits + 8 + eliasGammaBits (((offset - 1) / 128 + 1 : Nat) : Int)
      + eliasGammaBits ((length : Int) - 1)
    let s := { s with o := { s.o with bestLength := bestLength }, bestLengthSize := bestLengthSize }
    let lm ← s.o.lastMatch[offset]?
    let replace : Bool := match lm with
      | [] => true
      | x :: _ => decide (x.Index ≠ index) || decide (x.Bits > bits)
    if replace then
      let blk : BlockRef := ⟨bits, index, offset⟩ :: p
      let lastMatch ← store s.o.lastMatch offset blk
      pure ({ s with
        o := { s.o with lastMatch := lastMatch }
        optimalBlock := if improves s.optimalBlock bits then blk else s.optimalBlock },
        log ++ [blk])
    else pure (s, log)
  else pure (s, log)

/-- `copyLiterals` with the history variable `log`. -/
def copyLiteralsLog (index offset : Nat) (s : TaskState) (log : List BlockRef) :
    Option (TaskState × List BlockRef) := do
  let matchLength ← store s.o.matchLength offset 0
  let s := { s with o := { s.o with matchLength := matchLength } }
  let lm ← s.o.lastMatch[offset]?
  match lm with
  | [] => pure (s, log)
  | x :: _ =>
    let length : Int := (index : Int) - x.Index
    let bits := x.Bits + 1 + eliasGammaBits length + length * 8
    let blk : BlockRef := ⟨bits, index, 0⟩ :: lm
    let lastLiteral ← store s.o.lastLiteral offset blk
    pure ({ s with
      o := { s.o with lastLiteral := lastLiteral }
      optimalBlock := if improves s.optimalBlock bits then blk else s.optimalBlock },
      log ++ [blk])

/-- `processOffset` with the history variable `log`. -/
def processOffsetLog (input : List Byte) (index skip offset : Nat) (s : TaskState)
    (log : List BlockRef) : Option (TaskState × List BlockRef) := do
  if (← matchAt input index skip offset) then
    let (s, log) ← fromLastOffsetLog index offset s log
    fromNewOffsetLog index offset s log
  else copyLiteralsLog index offset s log

/-- `processLoop` with the history variable `log`. -/
def processLoopLog (input : List Byte) (index skip : Nat) :
    Nat → Nat → TaskState → List BlockRef → Option (TaskState × List BlockRef)
  | 0, _, s, log => some (s, log)
  | n + 1, offset, s, log => do
    let (s, log) ← processOffsetLog input index skip offset s log
    processLoopLog input index skip n (offset + 1) s log

/-- `processTask` with the history variable `log`: returns the optimizer, the block and
the blocks that the call has created, in the order of their creation. -/
def processTaskLog (o : Optimizer) (initialOffset finalOffset index skip : Nat)
    (input : List Byte) : Option (Optimizer × BlockRef × List BlockRef) := do
  let (s, log) ← processLoopLog input index skip (finalOffset + 1 - initialOffset)
    initialOffset ⟨o, 2, []⟩ []
  pure (s.o, s.optimalBlock, log)

/-- The run `rl` with the history variable does what the run `r` without it does, adds
the blocks it creates at the end of `log`, and its `optimalBlock` is the one of `s`
after each of these blocks has been put to the test of `processTask`. -/
def Logged (r : Option TaskState) (s : TaskState) (log : List BlockRef)
    (rl : Option (TaskState × List BlockRef)) : Prop :=
  match rl with
  | none => r = none
  | some (s', log') => r = some s' ∧ ∃ new, log' = log ++ new ∧ (∀ b ∈ new, b ≠ []) ∧
      s'.optimalBlock = new.foldl offer s.optimalBlock

/-- The optimizer when the main loop of `Optimize` (one thread) reaches position `index`:
the state set up by `Optimize`, after the turns of the loop for `skip..index-1`. -/
def stateAt (input : List Byte) (skip offsetLimit index : Nat) : Option Optimizer :=
  (initOptimizer input skip offsetLimit).bind fun o =>
    optimizeLoop input skip offsetLimit (index - skip) skip o

/-- The rest of `Optimize` (one thread) from position `index` on: the turns of the main
loop for `index..len(input)-1` and the return statement. -/
def optimizeFrom (input : List Byte) (skip offsetLimit index : Nat) (o : Optimizer) :
    Option BlockRef :=
  (optimizeLoop input skip offsetLimit (input.length - index) index o).bind fun o =>
    idx? o.optimal ((input.length : Int) - 1)

/-- Modelled from the spec: a parse node in memory, the record `Block` with its fourth
field: `Chain`, the backward link to the preceding node, is the address of that node
(`none` for nil). -/
structure Node where
  block : Block
  Chain : Option Nat
deriving DecidableEq, Repr

/-- The memory that holds the parse nodes: the node at address `a` is `heap[a]`. -/
abbrev Heap := List Node

/-- The loop "un-reverse optimal sequence" of `Compress`, on the memory: returns the
memory and `prev`. A read of an address outside the memory does not happen in the source
and counts as a panic; a chain of `n` nodes takes `n` turns, and the model stops with
`Stop.fuel` after `fuel` turns. -/
def unreverseLoop : Nat → Heap → Option Nat → Option Nat → Except Stop (Heap × Option Nat)
  | _, heap, prev, none => .ok (heap, prev)
  | 0, _, _, some _ => .error .fuel
  | fuel + 1, heap, prev, some optimal => do
    let node ← orPanic heap[optimal]?
    let next := node.Chain
    let heap := heap.set optimal { node with Chain := prev }
    unreverseLoop fuel heap (some optimal) next

/-- The "generate output" loop of `Compress` on the memory:
`for optimal = prev.Chain; optimal != nil; prev, optimal = optimal, optimal.Chain`. -/
def emitLoopHeap (input : List Byte) (backwardsMode invertMode : Bool) (heap : Heap) :
    Nat → Block → Option Nat → Nat → Compressor → Except Stop Compressor
  | _, _, none, _, c => .ok c
  | 0, _, some _, _, _ => .error .fuel
  | fuel + 1, prev, some optimal, lastOffset, c => do
    let node ← orPanic heap[optimal]?
    let (c, lastOffset) ← orPanic
      (Compressor.emitBlock input backwardsMode invertMode prev node.block lastOffset c)
    emitLoopHeap input backwardsMode invertMode heap fuel node.block node.Chain lastOffset c

/-- `Compress` on the memory, `optimal` being the address handed in (`none` for nil):
returns the memory as the call leaves it, the returned slice and the value left in
`delta[0]`. -/
def CompressHeap (heap : Heap) (optimal : Option Nat) (input : List Byte) (skip : Nat)
    (backwardsMode invertMode : Bool) : Except Stop (Heap × List Byte × Int) := do
  let a ← orPanic optimal
  let head ← orPanic heap[a]?
  let size : Int := (head.block.Bits + 25).tdiv 8
  if size < 0 then .error .panic else
  let output : List Byte := List.replicate size.toNat 0
  let (heap, prev) ← unreverseLoop heap.length heap none optimal
  let p ← orPanic prev
  let pnode ← orPanic heap[p]?
  let c : Compressor := {
    output := output
    outputIndex := 0
    inputIndex := skip
    bitIndex := 0
    bitMask := 0
    diff := (output.length : Int) - input.length + skip
    backtrack := true
    delta := 0
    reads := [] }
  let c ← emitLoopHeap input backwardsMode invertMode heap heap.length pnode.block pnode.Chain
    INITIAL_OFFSET c
  let c ← orPanic (c.writeBit 1)
  let c ← orPanic (c.writeInterlacedEliasGamma 256 backwardsMode invertMode)
  pure (heap, c.output, c.delta)

/-- Following `Chain` from the first address of `addrs` walks through `addrs` and ends
with nil. -/
def Linked (heap : Heap) : List Nat → Prop
  | [] => True
  | a :: rest => (∃ n, heap[a]? = some n ∧ n.Chain = rest.head?) ∧ Linked heap rest

/-- The blocks at the addresses `addrs`. -/
def blocksOf (heap : Heap) (addrs : List Nat) : BlockRef :=
  addrs.filterMap fun a => (heap[a]?).map Node.block

/-- The value that a Go `int` of 64 bits (two's complement) holds when the exact result
of an operation is `x`. -/
def wrap64 (x : Int) : Int := (x + 2 ^ 63) % 2 ^ 64 - 2 ^ 63

/-- The loop of `readInterlacedEliasGamma` with `value` an `int` of 64 bits: the decoder
of an arbitrary byte sequence can shift `value` beyond 63 bits, which the model with
unbounded integers (`gammaLoop`) does not follow. -/
def Decompressor.gammaLoop64 (msb : Bool) : Nat → Int → Decompressor → Except Stop (Int × Decompressor)
  | 0, _, _ => .error .fuel
  | fuel + 1, value, d => do
    let (bit, d) ← d.readBit
    if bit = btoi d.backwards then
      let (bit, d) ← d.readBit
      Decompressor.gammaLoop64 msb fuel
        (Int.xor (Int.lor (wrap64 (value <<< 1)) (bit : Int)) (btoi (msb && d.inverted) : Int)) d
    else pure (value, d)

/-- `readInterlacedEliasGamma` with an `int` of 64 bits. -/
def Decompressor.readInterlacedEliasGamma64 (d : Decompressor) (msb : Bool) :
    Except Stop (Int × Decompressor) :=
  Decompressor.gammaLoop64 msb (4 * d.inputData.length + 2) 1 d

/-- The loop of `copyBytes` with the index computed in an `int` of 64 bits. -/
def Decompressor.copyBytes64 (d : Decompressor) : Nat → Except Stop Decompressor
  | 0 => pure d
  | length + 1 => do
    let b ← orPanic (idx? d.output (wrap64 ((d.output.length : Int) - d.lastOffset)))
    Decompressor.copyBytes64 { d with output := d.output ++ [b] } length

/-- `Process` with `int`s of 64 bits. A loop `for i := 0; i < length; i++` or
`for ; length > 0; length--` runs `length` times for a positive `length` and not at all
otherwise, that is `length.toNat` times. -/
def State.Process64 (s : State) (d : Decompressor) : Except Stop (State × Decompressor) :=
  match s with
  | .COPY_LITERALS => do
    let (length, d) ← d.readInterlacedEliasGamma64 false
    let d ← Decompressor.copyLiteralBytes length.toNat d
    let (bit, d) ← d.readBit
    if bit = 0 then pure (.COPY_FROM_LAST_OFFSET, d) else pure (.COPY_FROM_NEW_OFFSET, d)
  | .COPY_FROM_LAST_OFFSET => do
    let (length, d) ← d.readInterlacedEliasGamma64 false
    let d ← d.copyBytes64 length.toNat
    let (bit, d) ← d.readBit
    if bit = 0 then pure (.COPY_LITERALS, d) else pure (.COPY_FROM_NEW_OFFSET, d)
  | .COPY_FROM_NEW_OFFSET => do
    let (msb, d) ← d.readInterlacedEliasGamma64 true
    if msb = 256 then pure (.COPY_END, d) else
    let (b, d) ← d.readByte
    let lsb : Int := ((b >>> 1 : Nat) : Int)
    let d := if d.backwards then
        { d with lastOffset := wrap64 (wrap64 (wrap64 (msb * 128) + lsb) - 127) }
      else { d with lastOffset := wrap64 (wrap64 (msb * 128) - lsb) }
    let d := { d with backtrack := true }
    let (length, d) ← d.readInterlacedEliasGamma64 false
    let d ← d.copyBytes64 (wrap64 (length + 1)).toNat
    let (bit, d) ← d.readBit
    if bit = 0 then pure (.COPY_LITERALS, d) else pure (.COPY_FROM_NEW_OFFSET, d)
  | _ => pure (.COPY_UNKNOWN, d)

/-- The loop `for state != COPY_END` of `Decompress`, with `Process64`. -/
def decompressLoop64 : Nat → State → Decompressor → Outcome
  | 0, state, d => if state = .COPY_END then .returned d.output else .outOfFuel
  | fuel + 1, state, d =>
    if state = .COPY_END then .returned d.output else
    match state.Process64 d with
    | .error .panic => .panic
    | .error .fuel => .outOfFuel
    | .ok (state, d) =>
      if state = .COPY_UNKNOWN then .invalidState else decompressLoop64 fuel state d

/-- `Decompress` with `int`s of 64 bits. -/
def Decompress64 (input : List Byte) (backwardsMode invertMode : Bool) : Outcome :=
  decompressLoop64 (8 * input.length + 1) .COPY_LITERALS {
    lastOffset := INITIAL_OFFSET
    inputData := input
    output := []
    inputIndex := 0
    bitMask := 0
    bitValue := 0
    backwards := backwardsMode
    inverted := invertMode
    backtrack := false
    lastByte := 0 }

/-- The calls `writeBit(b)` for the bits `b` of `bits`, in order. -/
def writeBits (c : Compressor) : List Nat → Option Compressor
  | [] => some c
  | b :: rest => (c.writeBit b).bind fun c => writeBits c rest

/-- The arguments of the calls of `writeBit` made by the loop
`for i >>= 1; i > 0; i >>= 1 { ... }` of `writeInterlacedEliasGamma`, from its first test
on (the loop `gammaPairs` with the bits collected instead of written). -/
def gammaPairBits (value : Nat) (backwardsMode invertMode : Bool) : Nat → Nat → List Nat
  | 0, _ => []
  | fuel + 1, i =>
    if i > 0 then
      btoi backwardsMode :: btoi (invertMode == ((value &&& i) == 0)) ::
        gammaPairBits value backwardsMode invertMode fuel (i >>> 1)
    else []

/-- The bits written by `writeInterlacedEliasGamma(value, backwardsMode, invertMode)`:
the arguments of its calls of `writeBit`, in order. -/
def gammaBits (value : Int) (backwardsMode invertMode : Bool) : List Nat :=
  let v := value.toNat
  let i := Compressor.gammaTop v 2 v
  let i := i >>> 1
  gammaPairBits v backwardsMode invertMode (i >>> 1) (i >>> 1) ++ [btoi (!backwardsMode)]

/-- The next bits of the stream read by the decoder `d` are `bits`: the state of the
decoder after as many calls of `readBit` as `bits` has bits, when these calls return
the bits of `bits` in order; `none` when a call faults or returns another bit. -/
def nextBits (d : Decompressor) : List Nat → Option Decompressor
  | [] => some d
  | b :: rest =>
    match d.readBit with
    | .ok (bit, d) => if bit = b then nextBits d rest else none
    | .error _ => none

/-- The loop `for i <= value { i <<= 1 }` of `writeInterlacedEliasGamma` with `i` an
`int` of 64 bits. For `value < 2^62` it ends with the least power of two above `value`,
as `gammaTop` does; for `value ≥ 2^62` the shift of `i = 2^62` gives `-2^63` and the next
one `0`, which stays below `value` for ever. The model stops with `Stop.fuel` after
`fuel` turns. -/
def Compressor.gammaTop64 : Nat → Int → Int → Except Stop Int
  | 0, i, value => if i ≤ value then .error .fuel else .ok i
  | fuel + 1, i, value =>
    if i ≤ value then Compressor.gammaTop64 fuel (wrap64 (i <<< 1)) value else .ok i

/-- `writeInterlacedEliasGamma` with `int`s of 64 bits. The first loop gets 64 turns:
after 64 shifts `i` is `0`, so a loop that has not ended by then never ends. When it
ends, `i` is positive; the second loop only halves it, which is `gammaPairs`. -/
def Compressor.writeInterlacedEliasGamma64 (c : Compressor) (value : Int)
    (backwardsMode invertMode : Bool) : Except Stop Compressor := do
  let i ← Compressor.gammaTop64 64 2 value
  let i := i >>> 1
  let c ← orPanic
    (Compressor.gammaPairs value.toNat backwardsMode invertMode (i >>> 1).toNat (i >>> 1).toNat c)
  orPanic (c.writeBit (btoi (!backwardsMode)))

/-- The bytes 0 to 15, the byte 15 once more, and the bytes 16 to 47. -/
def rampWithRepeat : List Byte :=
  [0, 1, 2, 3, 4, 5, 6, 7, 8, 9, 10, 11, 12, 13, 14, 15, 15,
   16, 17, 18, 19, 20, 21, 22, 23, 24, 25, 26, 27, 28, 29, 30, 31,
   32, 33, 34, 35, 36, 37, 38, 39, 40, 41, 42, 43, 44, 45, 46, 47]

/-! ## Theorems -/

variable {input : List Byte} {skip limit : Nat}

theorem store_eq_some {α : Type} {xs ys : List α} {i : Nat} {v : α}
    (h : store xs i v = some ys) : i < xs.length ∧ ys = xs.set i v := by
  unfold store at h
  split at h
  · exact ⟨by assumption, (Option.some.inj h).symm⟩
  · cases h

theorem store_of_lt {α : Type} (xs : List α) {i : Nat} (v : α) (h : i < xs.length) :
    store xs i v = some (xs.set i v) := by
  simp [store, h]

theorem idx?_natCast {α : Type} (xs : List α) (i : Nat) : idx? xs (i : Int) = xs[i]? := by
  simp [idx?]

theorem idx?_sub {α : Type} (xs : List α) (a b : Nat) (h : b ≤ a) :
    idx? xs ((a : Int) - b) = xs[a - b]? := by
  rw [← Int.ofNat_sub h]; exact idx?_natCast _ _

theorem getD_of_getElem? {α : Type} {xs : List α} {i : Nat} {v d : α}
    (h : xs[i]? = some v) : xs.getD i d = v := by
  simp [List.getD, h]

theorem getElem?_of_getD_ne {α : Type} {xs : List α} {i : Nat} {d : α}
    (h : i < xs.length) : xs[i]? = some (xs.getD i d) := by
  simp [List.getD, List.getElem?_eq_getElem h]

theorem eliasGammaBitsLoop_eq (fuel : Nat) : ∀ (value : Nat) (bits : Int), value ≤ fuel →
    eliasGammaBitsLoop fuel value bits = bits + 2 * (Nat.log2 value : Int) := by
  induction fuel with
  | zero =>
    intro value bits h
    have : value = 0 := by omega
    subst this
    simp [eliasGammaBitsLoop, Nat.log2_zero]
  | succ fuel ih =>
    intro value bits h
    unfold eliasGammaBitsLoop
    by_cases hv : value > 1
    · rw [if_pos hv, Nat.shiftRight_one, ih _ _ (by omega)]
      have h2 : Nat.log2 value = Nat.log2 (value / 2) + 1 := by
        rw [Nat.log2]; simp [show value ≥ 2 from hv]
      rw [h2]; push_cast; ring
    · rw [if_neg hv]
      have h2 : Nat.log2 value = 0 := by
        rw [Nat.log2]; simp; omega
      simp [h2]

theorem eliasGammaBits_eq (value : Int) :
    eliasGammaBits value = 1 + 2 * (Nat.log2 value.toNat : Int) :=
  eliasGammaBitsLoop_eq _ _ _ (Nat.le_refl _)

theorem eliasGammaBits_pos (value : Int) : 1 ≤ eliasGammaBits value := by
  rw [eliasGammaBits_eq]; omega

theorem lt_two_pow_log2 (n : Nat) : n < 2 ^ (Nat.log2 n + 1) := by
  by_cases h : n = 0
  · subst h; exact Nat.pow_pos (by decide)
  · exact (Nat.log2_lt h).1 (Nat.lt_succ_self _)

theorem log2_add_le (a c : Nat) (ha : 1 ≤ a) (hc : 1 ≤ c) :
    Nat.log2 (a + c + 1) ≤ Nat.log2 a + Nat.log2 c + 1 := by
  have h1 := lt_two_pow_log2 a
  have h2 := lt_two_pow_log2 c
  have h3 : Nat.log2 (a + c + 1) < Nat.log2 a + Nat.log2 c + 2 := by
    rw [Nat.log2_lt (by omega)]
    have e : 2 ^ (Nat.log2 a + Nat.log2 c + 2) = 2 ^ (Nat.log2 a + 1) * 2 ^ (Nat.log2 c + 1) := by
      rw [← Nat.pow_add]; congr 1; omega
    rw [e]
    have u2 : 2 ≤ 2 ^ (Nat.log2 a + 1) := by
      calc 2 = 2 ^ 1 := rfl
        _ ≤ 2 ^ (Nat.log2 a + 1) := Nat.pow_le_pow_right (by decide) (by omega)
    have v2 : 2 ≤ 2 ^ (Nat.log2 c + 1) := by
      calc 2 = 2 ^ 1 := rfl
        _ ≤ 2 ^ (Nat.log2 c + 1) := Nat.pow_le_pow_right (by decide) (by omega)
    nlinarith
  omega

/-- joining two lengths costs less than a new offset -/
theorem elias_join (a c : Int) (ha : 1 ≤ a) (hc : 1 ≤ c) :
    eliasGammaBits (a + c + 1) ≤ eliasGammaBits a + eliasGammaBits c + 1 := by
  rw [eliasGammaBits_eq, eliasGammaBits_eq, eliasGammaBits_eq]
  have h := log2_add_le a.toNat c.toNat (by omega) (by omega)
  have e : (a + c + 1).toNat = a.toNat + c.toNat + 1 := by omega
  rw [e]
  omega

theorem elias_succ (x : Int) (hx : 2 ≤ x) : eliasGammaBits x ≤ eliasGammaBits (x - 1) + 2 := by
  rw [eliasGammaBits_eq, eliasGammaBits_eq]
  have h1 := lt_two_pow_log2 (x - 1).toNat
  have h3 : Nat.log2 x.toNat < Nat.log2 (x - 1).toNat + 2 := by
    rw [Nat.log2_lt (by omega)]
    have e : 2 ^ (Nat.log2 (x - 1).toNat + 2) = 2 * 2 ^ (Nat.log2 (x - 1).toNat + 1) := by
      rw [Nat.pow_succ]; ring
    rw [e]
    have : x.toNat = (x - 1).toNat + 1 := by omega
    omega
  omega

theorem bestLen_le_two (optimal : List BlockRef) (n k : Nat) (h : k ≤ 2) :
    bestLen optimal n k = 2 := by
  cases k with
  | zero => rfl
  | succ k => unfold bestLen; rw [if_pos h]

theorem bestLen_succ (optimal : List BlockRef) (n k : Nat) (h : 2 ≤ k) :
    bestLen optimal n (k + 1) =
      if lengthCost optimal n (k + 1) ≤ lengthCost optimal n (bestLen optimal n k)
      then k + 1 else bestLen optimal n k := by
  conv => lhs; unfold bestLen
  rw [if_neg (by omega)]

theorem bestLen_range (optimal : List BlockRef) (n : Nat) :
    ∀ k, 2 ≤ bestLen optimal n k ∧ bestLen optimal n k ≤ max k 2 := by
  intro k
  induction k with
  | zero => simp [bestLen]
  | succ k ih =>
    by_cases h : k + 1 ≤ 2
    · rw [bestLen_le_two _ _ _ h]; omega
    · rw [bestLen_succ _ _ _ (by omega)]
      split <;> omega

theorem bestLen_min (optimal : List BlockRef) (n : Nat) :
    ∀ k l, 2 ≤ l → l ≤ k →
      lengthCost optimal n (bestLen optimal n k) ≤ lengthCost optimal n l := by
  intro k
  induction k with
  | zero => intro l h1 h2; omega
  | succ k ih =>
    intro l h1 h2
    by_cases h : k + 1 ≤ 2
    · rw [bestLen_le_two _ _ _ h]
      have : l = 2 := by omega
      subst this; exact le_refl _
    · rw [bestLen_succ _ _ _ (by omega)]
      by_cases hl : l = k + 1
      · subst hl
        split
        · exact le_refl _
        · next hc => exact le_of_lt (not_le.mp hc)
      · have := ih l h1 (by omega)
        split
        · next hc => exact le_trans hc this
        · exact this

theorem deref_of_ne_nil {c : BlockRef} (h : c ≠ []) :
    ∃ b, deref c = some b ∧ headBits c = b.Bits ∧ headIndex c = b.Index ∧
      headOffset c = b.Offset := by
  cases c with
  | nil => exact absurd rfl h
  | cons b q => exact ⟨b, rfl, rfl, rfl, rfl⟩

/-- The loop that extends `bestLength` computes `bestLen` and does not panic. -/
theorem bestLengthLoop_spec (optimal : List BlockRef) (n skip : Nat)
    (hopt : ∀ p, skip ≤ p → p < n → p < optimal.length ∧ optimal.getD p [] ≠ []) :
    ∀ (c : Nat) (bl : List Nat) (size : Nat) (bits : Int),
      2 ≤ size → size + c + skip ≤ n → n < bl.length →
      bits = lengthCost optimal n (bestLen optimal n size) →
      bl[size]? = some (bestLen optimal n size) →
      (∀ k, 3 ≤ k → k ≤ size → bl[k]? = some (bestLen optimal n k)) →
      ∃ bl', bestLengthLoop n optimal c bl size bits = some (bl', size + c) ∧
        bl'.length = bl.length ∧ (∀ k, k ≤ size → bl'[k]? = bl[k]?) ∧
        (∀ k, 3 ≤ k → k ≤ size + c → bl'[k]? = some (bestLen optimal n k)) := by
  intro c
  induction c with
  | zero =>
    intro bl size bits _ _ _ _ _ hk
    exact ⟨bl, rfl, rfl, fun _ _ => rfl, hk⟩
  | succ c ih =>
    intro bl size bits h2 hn hlen hbits hsz hk
    have hp := hopt (n - (size + 1)) (by omega) (by omega)
    obtain ⟨b, hb, hbb, -, -⟩ := deref_of_ne_nil hp.2
    have hidx : idx? optimal ((n : Int) - ((size + 1 : Nat) : Int))
        = some (optimal.getD (n - (size + 1)) []) := by
      rw [idx?_sub _ _ _ (by omega)]
      exact getElem?_of_getD_ne hp.1
    have hcost : b.Bits + eliasGammaBits (((size + 1 : Nat) : Int) - 1)
        = lengthCost optimal n (size + 1) := by
      simp only [lengthCost, hbb]
    have hsucc := bestLen_succ optimal n size h2
    unfold bestLengthLoop
    simp only [hidx, Option.bind_eq_bind, Option.some_bind, hb, hcost]
    by_cases hle : lengthCost optimal n (size + 1) ≤ bits
    · rw [if_pos hle, store_of_lt _ _ (by omega)]
      simp only [Option.some_bind]
      have hnew : bestLen optimal n (size + 1) = size + 1 := by
        rw [hsucc, if_pos (hbits ▸ hle)]
      obtain ⟨bl', h1, h3, h4, h5⟩ := ih (bl.set (size + 1) (size + 1)) (size + 1)
        (lengthCost optimal n (size + 1)) (by omega) (by omega) (by simpa using hlen)
        (by rw [hnew])
        (by rw [hnew]; simp [List.getElem?_set]; omega)
        (by
          intro k k3 kle
          by_cases hk1 : k = size + 1
          · subst hk1; rw [hnew]; simp [List.getElem?_set]; omega
          · rw [List.getElem?_set_ne (by omega)]; exact hk k k3 (by omega))
      refine ⟨bl', ?_, ?_, ?_, ?_⟩
      · rw [h1]; congr 2; omega
      · rw [h3]; simp
      · intro k kle; rw [h4 k (by omega), List.getElem?_set_ne (by omega)]
      · intro k k3 kle; exact h5 k k3 (by omega)
    · rw [if_neg hle]
      simp only [Nat.add_sub_cancel, hsz, Option.some_bind]
      rw [store_of_lt _ _ (by omega)]
      simp only [Option.some_bind]
      have hnew : bestLen optimal n (size + 1) = bestLen optimal n size := by
        rw [hsucc, if_neg (hbits ▸ hle)]
      obtain ⟨bl', h1, h3, h4, h5⟩ := ih (bl.set (size + 1) (bestLen optimal n size)) (size + 1)
        bits (by omega) (by omega) (by simpa using hlen)
        (by rw [hnew]; exact hbits)
        (by rw [hnew]; simp [List.getElem?_set]; omega)
        (by
          intro k k3 kle
          by_cases hk1 : k = size + 1
          · subst hk1; rw [hnew]; simp [List.getElem?_set]; omega
          · rw [List.getElem?_set_ne (by omega)]; exact hk k k3 (by omega))
      refine ⟨bl', ?_, ?_, ?_, ?_⟩
      · rw [h1]; congr 2; omega
      · rw [h3]; simp
      · intro k kle; rw [h4 k (by omega), List.getElem?_set_ne (by omega)]
      · intro k k3 kle; exact h5 k k3 (by omega)

theorem valid_cons2 {input : List Byte} {skip limit : Nat} {b h : Block} {q : BlockRef} :
    Valid input skip limit (b :: h :: q) ↔
    (Valid input skip limit (h :: q) ∧ h.Index < b.Index ∧ b.Index < input.length ∧
    if b.Offset = 0 then
      h.Offset ≠ 0 ∧
      b.Bits = h.Bits + 1 + eliasGammaBits (b.Index - h.Index) + (b.Index - h.Index) * 8
    else
      b.Offset ≤ limit ∧ Copyable input h.Index b.Index b.Offset ∧
      if lastOff (h :: q) = b.Offset then
        h.Offset = 0 ∧ b.Bits = h.Bits + 1 + eliasGammaBits (b.Index - h.Index)
      else
        q ≠ [] ∧ h.Index + 2 ≤ b.Index ∧
        b.Bits = h.Bits + 8 + eliasGammaBits (((b.Offset - 1) / 128 + 1 : Nat) : Int)
          + eliasGammaBits (b.Index - h.Index - 1)) := by
  rw [Valid]

theorem valid_ne_nil {input : List Byte} {skip limit : Nat} {c : BlockRef}
    (h : Valid input skip limit c) : c ≠ [] := by
  rintro rfl; exact h

theorem valid_tail {input : List Byte} {skip limit : Nat} {c : BlockRef}
    (h : Valid input skip limit c) (h2 : 2 ≤ c.length) : Valid input skip limit c.tail := by
  match c, h2 with
  | b :: x :: q, _ => exact (valid_cons2.1 h).1

theorem valid_index_ge {input : List Byte} {skip limit : Nat} :
    ∀ {c : BlockRef}, Valid input skip limit c → (skip : Int) - 1 ≤ headIndex c
  | [], h => absurd h (by simp [Valid])
  | [r], h => by
    have : r = ⟨-1, (skip : Int) - 1, INITIAL_OFFSET⟩ := h
    subst this; simp [headIndex]
  | b :: x :: q, h => by
    have h' := valid_cons2.1 h
    have := valid_index_ge h'.1
    simp only [headIndex] at this ⊢
    omega

theorem valid_index_range {input : List Byte} {skip limit : Nat} {c : BlockRef}
    (h : Valid input skip limit c) (h2 : 2 ≤ c.length) :
    (skip : Int) ≤ headIndex c ∧ headIndex c < input.length := by
  match c, h2 with
  | b :: x :: q, _ =>
    have h' := valid_cons2.1 h
    have := valid_index_ge h'.1
    simp only [headIndex] at this ⊢
    omega

theorem lastOff_of_headOffset {c : BlockRef} (h : headOffset c ≠ 0) :
    lastOff c = headOffset c := by
  cases c with
  | nil => exact absurd rfl h
  | cons b q => simp only [headOffset] at h; simp [lastOff, headOffset, h]

theorem lastOff_cons_lit {b : Block} {q : BlockRef} (h : b.Offset = 0) :
    lastOff (b :: q) = lastOff q := by
  simp [lastOff, h]

theorem lastOff_tail_of_lit {c : BlockRef} (h : headOffset c = 0) :
    lastOff c = lastOff c.tail := by
  cases c with
  | nil => rfl
  | cons b q => simp only [headOffset] at h; simp [lastOff, h]

theorem lastOff_pos {input : List Byte} {skip limit : Nat} :
    ∀ {c : BlockRef}, Valid input skip limit c → 1 ≤ lastOff c
  | [], h => absurd h (by simp [Valid])
  | [r], h => by
    have : r = ⟨-1, (skip : Int) - 1, INITIAL_OFFSET⟩ := h
    subst this; simp [lastOff, INITIAL_OFFSET]
  | b :: x :: q, h => by
    have h' := valid_cons2.1 h
    by_cases hb : b.Offset = 0
    · rw [lastOff_cons_lit hb]; exact lastOff_pos h'.1
    · simp only [lastOff, if_neg hb]; omega

theorem lastOff_le {input : List Byte} {skip limit : Nat} (hl : 1 ≤ limit) :
    ∀ {c : BlockRef}, Valid input skip limit c → lastOff c ≤ limit
  | [], h => absurd h (by simp [Valid])
  | [r], h => by
    have : r = ⟨-1, (skip : Int) - 1, INITIAL_OFFSET⟩ := h
    subst this; simpa [lastOff, INITIAL_OFFSET] using hl
  | b :: x :: q, h => by
    have h' := valid_cons2.1 h
    by_cases hb : b.Offset = 0
    · rw [lastOff_cons_lit hb]; exact lastOff_le hl h'.1
    · have h3 := h'.2.2.2
      rw [if_neg hb] at h3
      simp only [lastOff, if_neg hb]; exact h3.1

/-- a literal block of a valid chain follows a block with the offset in force -/
theorem valid_lit_prev {input : List Byte} {skip limit : Nat} {c : BlockRef}
    (h : Valid input skip limit c) (h2 : 2 ≤ c.length) (h0 : headOffset c = 0) :
    headOffset c.tail ≠ 0 ∧ lastOff c = headOffset c.tail := by
  match c, h2 with
  | b :: x :: q, _ =>
    have h' := (valid_cons2.1 h).2.2.2
    simp only [headOffset] at h0
    rw [if_pos h0] at h'
    refine ⟨h'.1, ?_⟩
    rw [lastOff_cons_lit h0]
    exact lastOff_of_headOffset h'.1

theorem matchAt_cond (skip j offset : Nat) :
    ((j != skip && decide (j ≥ offset)) = true) ↔ (j ≠ skip ∧ offset ≤ j) := by
  simp

theorem matches_iff {input : List Byte} {skip j offset : Nat} :
    Matches input skip j offset ↔
      j ≠ skip ∧ offset ≤ j ∧ ∃ a, input[j]? = some a ∧ input[j - offset]? = some a := by
  unfold Matches matchAt
  by_cases hc : (j != skip && decide (j ≥ offset)) = true
  · rw [if_pos hc]
    have hc' := (matchAt_cond skip j offset).1 hc
    cases hj : input[j]? with
    | none => simp
    | some a =>
      cases hk : input[j - offset]? with
      | none => simp
      | some b =>
        simp only [Option.bind_eq_bind, Option.some_bind, Option.pure_def, Option.some.injEq,
          beq_iff_eq]
        constructor
        · intro h; exact ⟨hc'.1, hc'.2, a, rfl, by rw [h]⟩
        · rintro ⟨-, -, a', h1, h2⟩
          rw [← h1] at h2; exact h2.symm
  · rw [if_neg hc]
    have hc' := fun h => hc ((matchAt_cond skip j offset).2 h)
    constructor
    · intro h; cases h
    · rintro ⟨h1, h2, -⟩; exact absurd ⟨h1, h2⟩ hc'

theorem matchAt_total (input : List Byte) (skip offset : Nat) {j : Nat} (hj : j < input.length) :
    matchAt input j skip offset = some (decide (Matches input skip j offset)) := by
  by_cases hm : Matches input skip j offset
  · simp only [hm, decide_True]; exact hm
  · simp only [hm, decide_False]
    unfold Matches at hm
    unfold matchAt at hm ⊢
    by_cases hc : (j != skip && decide (j ≥ offset)) = true
    · rw [if_pos hc] at hm ⊢
      have h1 : input[j]? = some input[j] := List.getElem?_eq_getElem hj
      have hlt : j - offset < input.length := by omega
      have h2 := List.getElem?_eq_getElem hlt
      rw [h1, h2] at hm ⊢
      simp only [Option.pure_def, Option.bind_eq_bind, Option.some_bind, Option.some.injEq,
        beq_iff_eq] at hm ⊢
      simpa using hm
    · rw [if_neg hc]

theorem matches_copy {input : List Byte} {skip j offset : Nat}
    (h : Matches input skip j offset) : offset ≤ j ∧ input[j]? = input[j - offset]? := by
  obtain ⟨-, h2, a, h3, h4⟩ := matches_iff.1 h
  exact ⟨h2, by rw [h3, h4]⟩

theorem improves_eq (ob : BlockRef) (bits : Int) :
    improves ob bits = (decide (ob = []) || decide (headBits ob > bits)) := by
  cases ob <;> simp [improves, headBits]

theorem offer_cases (ob blk : BlockRef) : offer ob blk = ob ∨ offer ob blk = blk := by
  unfold offer; split <;> simp

theorem offer_ne_nil {ob blk : BlockRef} (h : blk ≠ []) : offer ob blk ≠ [] := by
  unfold offer
  split
  · exact h
  · next hi =>
    intro h0
    rw [h0] at hi
    exact hi rfl

theorem copyLiterals_eq (index offset : Nat) (s : TaskState) (lm : BlockRef)
    (h1 : offset < s.o.matchLength.length) (h2 : s.o.lastMatch[offset]? = some lm)
    (h3 : offset < s.o.lastLiteral.length) :
    copyLiterals index offset s = some { s with
      o := { s.o with
        matchLength := s.o.matchLength.set offset 0
        lastLiteral := if lm = [] then s.o.lastLiteral
          else s.o.lastLiteral.set offset (litBlock lm index) }
      optimalBlock := if lm = [] then s.optimalBlock
        else offer s.optimalBlock (litBlock lm index) } := by
  unfold copyLiterals
  simp only [store_of_lt _ _ h1, Option.bind_eq_bind, Option.some_bind, h2]
  cases lm with
  | nil => simp
  | cons x rest =>
    simp only [store_of_lt _ _ h3, Option.some_bind, Option.pure_def, reduceCtorEq, if_false,
      litBlock, offer, headBits]

theorem fromLastOffset_eq (index offset : Nat) (s : TaskState) (ll : BlockRef)
    (h1 : s.o.lastLiteral[offset]? = some ll) (h2 : offset < s.o.lastMatch.length) :
    fromLastOffset index offset s = some { s with
      o := { s.o with
        lastMatch := if ll = [] then s.o.lastMatch
          else s.o.lastMatch.set offset (reuseBlock ll index offset) }
      optimalBlock := if ll = [] then s.optimalBlock
        else offer s.optimalBlock (reuseBlock ll index offset) } := by
  unfold fromLastOffset
  simp only [Option.bind_eq_bind, Option.some_bind, h1]
  cases ll with
  | nil => simp
  | cons x rest =>
    simp only [store_of_lt _ _ h2, Option.some_bind, Option.pure_def, reduceCtorEq, if_false,
      reuseBlock, offer, headBits]

theorem headBits_newBlock (p : BlockRef) (index offset length : Nat) :
    headBits (newBlock p index offset length) = headBits p + 8
      + eliasGammaBits (((offset - 1) / 128 + 1 : Nat) : Int)
      + eliasGammaBits ((length : Int) - 1) := rfl

theorem extendBestLength_spec (optimal : List BlockRef) (n skip : Nat)
    (hopt : ∀ p, skip ≤ p → p < n → p < optimal.length ∧ optimal.getD p [] ≠ [])
    (bl : List Nat) (size m : Nat) (h2 : 2 ≤ size) (hsz : size = 2 ∨ size + skip ≤ n)
    (hm : 2 ≤ m) (hmn : m + skip ≤ n) (hlen : n < bl.length) (hbl2 : bl[2]? = some 2)
    (hk : ∀ k, 3 ≤ k → k ≤ size → bl[k]? = some (bestLen optimal n k)) :
    ∃ bl', extendBestLength n optimal bl size m = some (bl', max size m) ∧
      bl'.length = bl.length ∧ bl'[2]? = some 2 ∧
      (∀ k, 3 ≤ k → k ≤ max size m → bl'[k]? = some (bestLen optimal n k)) ∧
      bl'[m]? = some (bestLen optimal n m) := by
  have hsize : bl[size]? = some (bestLen optimal n size) := by
    by_cases h : size = 2
    · subst h; rw [hbl2, bestLen_le_two _ _ _ (le_refl _)]
    · exact hk size (by omega) (le_refl _)
  unfold extendBestLength
  by_cases hlt : size < m
  · rw [if_pos hlt]
    have hr := bestLen_range optimal n size
    have hp := hopt (n - bestLen optimal n size) (by omega) (by omega)
    obtain ⟨b, hb, hbb, -, -⟩ := deref_of_ne_nil hp.2
    have hidx : idx? optimal ((n : Int) - ((bestLen optimal n size : Nat) : Int))
        = some (optimal.getD (n - bestLen optimal n size) []) := by
      rw [idx?_sub _ _ _ (by omega)]
      exact getElem?_of_getD_ne hp.1
    simp only [hsize, Option.bind_eq_bind, Option.some_bind, hidx, hb]
    obtain ⟨bl', h1, h3, h4, h5⟩ := bestLengthLoop_spec optimal n skip hopt (m - size) bl size
      (b.Bits + eliasGammaBits (((bestLen optimal n size : Nat) : Int) - 1)) h2 (by omega) hlen
      (by simp only [lengthCost, hbb]) hsize hk
    have e1 : size + (m - size) = m := by omega
    have e2 : max size m = m := by omega
    rw [e1] at h1 h5
    rw [e2]
    refine ⟨bl', h1, h3, ?_, h5, ?_⟩
    · rw [h4 2 h2, hbl2]
    · exact h5 m (by omega) (le_refl _)
  · rw [if_neg hlt]
    have e2 : max size m = size := by omega
    rw [e2]
    refine ⟨bl, rfl, rfl, hbl2, hk, ?_⟩
    by_cases h : m = 2
    · subst h; rw [hbl2, bestLen_le_two _ _ _ (le_refl _)]
    · exact hk m (by omega) (by omega)

/-- The "copy from new offset" part as a function of the state. -/
theorem fromNewOffset_spec (n skip offset : Nat) (s : TaskState) (m0 : Nat) (lm : BlockRef)
    (hml : s.o.matchLength[offset]? = some m0) (hlm : s.o.lastMatch[offset]? = some lm)
    (hopt : ∀ p, skip ≤ p → p < n → p < s.o.optimal.length ∧ s.o.optimal.getD p [] ≠ [])
    (h2 : 2 ≤ s.bestLengthSize) (hsz : s.bestLengthSize = 2 ∨ s.bestLengthSize + skip ≤ n)
    (hmn : 1 ≤ m0 → m0 + 1 + skip ≤ n) (hlen : n < s.o.bestLength.length)
    (hbl2 : 2 < s.o.bestLength.length → s.o.bestLength[2]? = some 2)
    (hk : ∀ k, 3 ≤ k → k ≤ s.bestLengthSize →
      s.o.bestLength[k]? = some (bestLen s.o.optimal n k)) :
    ∃ bl' size',
      fromNewOffset n offset s = some { s with
        o := { s.o with
          matchLength := s.o.matchLength.set offset (m0 + 1)
          bestLength := bl'
          lastMatch :=
            if 1 ≤ m0 ∧ replaces lm n (headBits (newBlock (s.o.optimal.getD
                (n - bestLen s.o.optimal n (m0 + 1)) []) n offset
                (bestLen s.o.optimal n (m0 + 1)))) = true
            then s.o.lastMatch.set offset (newBlock (s.o.optimal.getD
                (n - bestLen s.o.optimal n (m0 + 1)) []) n offset
                (bestLen s.o.optimal n (m0 + 1)))
            else s.o.lastMatch }
        bestLengthSize := size'
        optimalBlock :=
            if 1 ≤ m0 ∧ replaces lm n (headBits (newBlock (s.o.optimal.getD
                (n - bestLen s.o.optimal n (m0 + 1)) []) n offset
                (bestLen s.o.optimal n (m0 + 1)))) = true
            then offer s.optimalBlock (newBlock (s.o.optimal.getD
                (n - bestLen s.o.optimal n (m0 + 1)) []) n offset
                (bestLen s.o.optimal n (m0 + 1)))
            else s.optimalBlock } ∧
      bl'.length = s.o.bestLength.length ∧
      (2 < s.o.bestLength.length → bl'[2]? = some 2) ∧
      2 ≤ size' ∧ (size' = 2 ∨ size' + skip ≤ n) ∧
      (∀ k, 3 ≤ k → k ≤ size' → bl'[k]? = some (bestLen s.o.optimal n k)) := by
  have hO : offset < s.o.matchLength.length := by
    by_contra h
    rw [List.getElem?_eq_none (by omega)] at hml; cases hml
  have hO2 : offset < s.o.lastMatch.length := by
    by_contra h
    rw [List.getElem?_eq_none (by omega)] at hlm; cases hlm
  unfold fromNewOffset
  simp only [hml, Option.bind_eq_bind, Option.some_bind, store_of_lt _ _ hO]
  by_cases hm : m0 + 1 > 1
  · rw [if_pos hm]
    have hm0 : 1 ≤ m0 := by omega
    have hmn' := hmn hm0
    obtain ⟨bl', h1, h3, h4, h5, h6⟩ := extendBestLength_spec s.o.optimal n skip hopt
      s.o.bestLength s.bestLengthSize (m0 + 1) h2 hsz (by omega) hmn' hlen (hbl2 (by omega)) hk
    have hr := bestLen_range s.o.optimal n (m0 + 1)
    have hp := hopt (n - bestLen s.o.optimal n (m0 + 1)) (by omega) (by omega)
    obtain ⟨b, hb, hbb, -, -⟩ := deref_of_ne_nil hp.2
    have hidx : idx? s.o.optimal ((n : Int) - ((bestLen s.o.optimal n (m0 + 1) : Nat) : Int))
        = some (s.o.optimal.getD (n - bestLen s.o.optimal n (m0 + 1)) []) := by
      rw [idx?_sub _ _ _ (by omega)]
      exact getElem?_of_getD_ne hp.1
    refine ⟨bl', max s.bestLengthSize (m0 + 1), ?_, h3, fun _ => h4, by omega, by omega, h5⟩
    have hnb : headBits (newBlock (s.o.optimal.getD
                (n - bestLen s.o.optimal n (m0 + 1)) []) n offset
                (bestLen s.o.optimal n (m0 + 1))) = b.Bits + 8 +
          eliasGammaBits (((offset - 1) / 128 + 1 : Nat) : Int) +
              eliasGammaBits (((bestLen s.o.optimal n (m0 + 1) : Nat) : Int) - 1) := by
      rw [← hbb]; rfl
    simp only [h1, Option.some_bind, h6, hidx, hb, hlm, hm0, true_and, hnb]
    cases lm with
    | nil =>
      simp only [replaces, if_true, store_of_lt _ _ hO2, Option.some_bind, Option.pure_def,
        offer, hnb]
      simp only [newBlock, hbb]
    | cons x rest =>
      simp only [replaces]
      split
      · simp only [store_of_lt _ _ hO2, Option.some_bind, Option.pure_def, offer, hnb]
        simp only [newBlock, hbb]
      · rfl
  · rw [if_neg hm]
    have hm0 : ¬ (1 ≤ m0) := by omega
    refine ⟨s.o.bestLength, s.bestLengthSize, ?_, rfl, hbl2, h2, hsz, hk⟩
    simp only [hm0, false_and, if_false]
    rfl

theorem valid_lit_two {c : BlockRef} (h : Valid input skip limit c) (h0 : headOffset c = 0) :
    2 ≤ c.length := by
  match c, h with
  | [r], h =>
    have : r = ⟨-1, (skip : Int) - 1, INITIAL_OFFSET⟩ := h
    subst this; simp [headOffset, INITIAL_OFFSET] at h0
  | b :: x :: q, _ => simp

theorem headOffset_reuseBlock {ll : BlockRef} (h : ll ≠ []) (n offset : Nat) :
    headOffset (reuseBlock ll n offset) = offset ∧ headIndex (reuseBlock ll n offset) = n ∧
    (reuseBlock ll n offset).tail = ll ∧ reuseBlock ll n offset ≠ [] ∧
    headBits (reuseBlock ll n offset) = headBits ll + 1 + eliasGammaBits ((n : Int) - headIndex ll) := by
  cases ll with
  | nil => exact absurd rfl h
  | cons l q => simp [reuseBlock, headOffset, headIndex, headBits]

theorem headOffset_litBlock {lm : BlockRef} (h : lm ≠ []) (n : Nat) :
    headOffset (litBlock lm n) = 0 ∧ headIndex (litBlock lm n) = n ∧
    (litBlock lm n).tail = lm ∧ litBlock lm n ≠ [] ∧ lastOff (litBlock lm n) = lastOff lm := by
  cases lm with
  | nil => exact absurd rfl h
  | cons l q => simp [litBlock, headOffset, headIndex, lastOff]

theorem headOffset_newBlock (p : BlockRef) (n offset length : Nat) :
    headOffset (newBlock p n offset length) = offset ∧ headIndex (newBlock p n offset length) = n ∧
    (newBlock p n offset length).tail = p ∧ newBlock p n offset length ≠ [] := by
  simp [newBlock, headOffset, headIndex]

theorem SlotInv.frame {opt opt' : Nat → BlockRef} {τ offset : Nat} {ll lm : BlockRef} {m : Nat}
    (h : SlotInv input skip limit opt τ offset ll lm m) (hO : 1 ≤ offset)
    (hopt : ∀ p, p < τ → opt' p = opt p ∨ lastOff (opt' p) ≠ offset) :
    SlotInv input skip limit opt' τ offset ll lm m where
  run_lo := h.run_lo
  run := h.run
  run_max := h.run_max
  lm_ok := h.lm_ok
  ll_ok := h.ll_ok
  ll_lm := h.ll_lm
  link_lit := by
    intro p h1 h2 h3 h4 h5
    rcases hopt p h3 with e | e
    · rw [e] at h4 h5 ⊢; exact h.link_lit p h1 h2 h3 h4 h5
    · exact absurd h5 e
  link_match := by
    intro p h1 h2 h3 h4 h5 h6
    rcases hopt p h3 with e | e
    · rw [e] at h4 h5 h6 ⊢; exact h.link_match p h1 h2 h3 h4 h5 h6
    · exact absurd (by rw [lastOff_of_headOffset (by omega), h4]) e
  fresh := h.fresh

/-- An offset that is larger than the position is left alone by `processTask`. -/
theorem SlotInv.skip_pos {opt opt' : Nat → BlockRef} {n offset : Nat} {ll lm : BlockRef} {m : Nat}
    (h : SlotInv input skip limit opt n offset ll lm m) (hn : n < offset) (hO : 2 ≤ offset)
    (hne : lastOff (opt' n) ≠ offset) :
    SlotInv input skip limit opt' (n + 1) offset ll lm m := by
  obtain ⟨rfl, rfl, rfl⟩ := h.fresh (by omega) hO
  exact {
    run_lo := Or.inl rfl
    run := by intro j h1 h2; omega
    run_max := by
      intro _ hm
      have := (matches_iff.1 hm).2.1
      omega
    lm_ok := Or.inl rfl
    ll_ok := Or.inl rfl
    ll_lm := fun _ => rfl
    link_lit := by
      intro p h1 h2 h3 h4 h5
      have : p = n := by omega
      subst this; exact absurd h5 hne
    link_match := by
      intro p h1 h2 h3 h4 h5 h6
      have : p = n := by omega
      subst this
      exact absurd (by rw [lastOff_of_headOffset (by omega), h4]) hne
    fresh := fun _ _ => ⟨rfl, rfl, rfl⟩ }

theorem valid_litBlock {lm : BlockRef} {n offset : Nat} (hlm : lm ≠ [])
    (hv : Valid input skip limit lm) (ho : headOffset lm = offset) (hO : 1 ≤ offset)
    (hi : headIndex lm < n) (hlen : n < input.length) :
    Valid input skip limit (litBlock lm n) := by
  match lm, hlm with
  | x :: rest, _ =>
    simp only [headOffset, headIndex] at ho hi
    simp only [litBlock]
    rw [valid_cons2]
    refine ⟨hv, hi, Int.ofNat_lt.2 hlen, ?_⟩
    rw [if_pos rfl]
    exact ⟨by omega, rfl⟩

/-- The slots of an offset that does not match at position `n`. -/
theorem SlotInv.nomatch {opt opt' : Nat → BlockRef} {n offset : Nat} {ll lm : BlockRef} {m : Nat}
    (h : SlotInv input skip limit opt n offset ll lm m) (hO : 1 ≤ offset)
    (hlen : n < input.length) (hnm : ¬ Matches input skip n offset)
    (hnew : lastOff (opt' n) = offset → lm ≠ [] ∧ opt' n = litBlock lm n) :
    SlotInv input skip limit opt' (n + 1) offset
      (if lm = [] then ll else litBlock lm n) lm 0 where
  run_lo := Or.inl rfl
  run := by intro j h1 h2; omega
  run_max := by intro _; simpa using hnm
  lm_ok := by
    rcases h.lm_ok with e | ⟨h1, h2, h3⟩
    · exact Or.inl e
    · exact Or.inr ⟨h1, h2, by omega⟩
  ll_ok := by
    by_cases e : lm = []
    · rw [if_pos e]; exact Or.inl (h.ll_lm e)
    · rw [if_neg e]
      rcases h.lm_ok with e' | ⟨h1, h2, h3⟩
      · exact absurd e' e
      · obtain ⟨a1, a2, a3, a4, a5⟩ := headOffset_litBlock e n
        refine Or.inr ⟨valid_litBlock e h1 h2 hO h3 hlen, a1, by rw [a2]; push_cast; ring, ?_⟩
        rw [a5, lastOff_of_headOffset (by omega), h2]
  ll_lm := by
    intro e; rw [if_pos e]; exact h.ll_lm e
  link_lit := by
    intro p h1 h2 h3 h4 h5
    have : p = n := by omega
    subst this
    obtain ⟨e1, e2⟩ := hnew h5
    rw [if_neg e1, e2]
  link_match := by
    intro p h1 h2 h3 h4 h5 h6
    have : p = n := by omega
    subst this
    obtain ⟨e1, e2⟩ := hnew (by rw [lastOff_of_headOffset (by omega), h4])
    rw [e2, (headOffset_litBlock e1 p).1] at h4
    omega
  fresh := by
    intro h1 h2
    obtain ⟨rfl, rfl, rfl⟩ := h.fresh (by omega) h2
    simp

theorem matches_of_copy {j offset : Nat} (h1 : j ≠ skip) (h2 : j < input.length)
    (h3 : offset ≤ j ∧ input[j]? = input[j - offset]?) : Matches input skip j offset := by
  rw [matches_iff]
  refine ⟨h1, h3.1, input[j], List.getElem?_eq_getElem h2, ?_⟩
  rw [← h3.2]; exact List.getElem?_eq_getElem h2

/-- The positions of a back-reference of a valid chain match at its offset. -/
theorem valid_match_run {b h : Block} {q : BlockRef}
    (hv : Valid input skip limit (b :: h :: q)) (hb : b.Offset ≠ 0) :
    (skip : Int) ≤ h.Index ∧
      ∀ j : Nat, h.Index < j → (j : Int) ≤ b.Index → Matches input skip j b.Offset := by
  have h' := valid_cons2.1 hv
  have h4 := h'.2.2.2
  rw [if_neg hb] at h4
  have htwo : 2 ≤ (h :: q).length := by
    by_cases e : lastOff (h :: q) = b.Offset
    · rw [if_pos e] at h4
      exact valid_lit_two h'.1 h4.2.2.1
    · rw [if_neg e] at h4
      have := h4.2.2.1
      cases q with
      | nil => exact absurd rfl this
      | cons y q => simp
  have hr := valid_index_range h'.1 htwo
  simp only [headIndex] at hr
  refine ⟨hr.1, ?_⟩
  intro j j1 j2
  exact matches_of_copy (by omega) (by have := h'.2.2.1; omega) (h4.2.1 j j1 j2)

theorem valid_reuseBlock {opt : Nat → BlockRef} {n offset : Nat} {ll lm : BlockRef} {m : Nat}
    (h : SlotInv input skip limit opt n offset ll lm m) (hll : ll ≠ []) (hO : 1 ≤ offset)
    (hOl : offset ≤ limit) (hlen : n < input.length) (hm : Matches input skip n offset) :
    Valid input skip limit (reuseBlock ll n offset) := by
  rcases h.ll_ok with e | ⟨h1, h2, h3, h4⟩
  · exact absurd e hll
  · match ll, hll with
    | l :: rest, _ =>
      simp only [headOffset, headIndex] at h2 h3
      simp only [reuseBlock]
      have htwo := valid_lit_two h1 h2
      match rest, htwo with
      | x :: q, _ =>
        rw [valid_cons2]
        refine ⟨h1, by show l.Index < (n : Int); omega, Int.ofNat_lt.2 hlen, ?_⟩
        rw [if_neg (show offset ≠ 0 by omega), if_pos h4]
        refine ⟨hOl, ?_, h2, rfl⟩
        intro j j1 j2
        have j2' : (j : Int) ≤ (n : Int) := j2
        by_cases e : j = n
        · subst e; exact matches_copy hm
        · exact matches_copy (h.run j (by omega) (by omega))

/-- The new-offset block is never made after a segment that leaves its offset in
force: the block made from `lastLiteral[offset]`, or a longer new-offset block, is
cheaper. -/
theorem newBlock_lastOff_ne {opt : Nat → BlockRef} {optimal : List BlockRef}
    {n offset : Nat} {ll lm : BlockRef} {m : Nat}
    (h : SlotInv input skip limit opt n offset ll lm m) (hO : 1 ≤ offset)
    (hlen : n < input.length) (hm : Matches input skip n offset) (hm1 : 1 ≤ m)
    (hopt : ∀ p, skip ≤ p → p < n → OptOK input skip limit optimal (optimal.getD p []) p)
    (hoptEq : ∀ p, p < n → opt p = optimal.getD p [])
    (hrep : replaces (if ll = [] then lm else reuseBlock ll n offset) n
      (headBits (newBlock (optimal.getD (n - bestLen optimal n (m + 1)) []) n offset
        (bestLen optimal n (m + 1)))) = true) :
    lastOff (optimal.getD (n - bestLen optimal n (m + 1)) []) ≠ offset := by
  have hr := bestLen_range optimal n (m + 1)
  have hrl : m + skip < n := by rcases h.run_lo with e | e <;> omega
  generalize hL : bestLen optimal n (m + 1) = L at hr hrep ⊢
  have hpo := hopt (n - L) (by omega) (by omega)
  have hpe := hoptEq (n - L) (by omega)
  generalize hP : optimal.getD (n - L) [] = P at hpo hpe hrep ⊢
  intro hlast
  have hmsb := eliasGammaBits_pos (((offset - 1) / 128 + 1 : Nat) : Int)
  -- the test of replacement when `ll` is known
  have key : ∀ (hll : ll ≠ []), headBits ll + 1 + eliasGammaBits ((n : Int) - headIndex ll)
      > headBits P + 8 + eliasGammaBits (((offset - 1) / 128 + 1 : Nat) : Int)
        + eliasGammaBits ((L : Int) - 1) := by
    intro hll
    rw [if_neg hll, headBits_newBlock] at hrep
    obtain ⟨a1, a2, a3, a4, a5⟩ := headOffset_reuseBlock hll n offset
    match hrb : reuseBlock ll n offset, a4 with
    | x :: rest, _ =>
      rw [hrb] at a2 a5 hrep
      simp only [headIndex, headBits] at a2 a5
      simp only [replaces, a2, ne_eq, not_true_eq_false, decide_False, Bool.false_or,
        decide_eq_true_eq, a5] at hrep
      exact hrep
  by_cases h0 : headOffset P = 0
  · -- a literal run that follows the same offset is `lastLiteral[offset]`
    have e := h.link_lit (n - L) (by omega) (by omega) (by omega) (by rw [hpe]; exact h0)
      (by rw [hpe]; exact hlast)
    rw [hpe] at e
    subst e
    rcases h.ll_ok with e | ⟨h1, h2, h3, h4⟩
    · exact valid_ne_nil hpo.valid e
    · have hk := key (valid_ne_nil hpo.valid)
      have hi := hpo.index
      have hLm : (L : Int) = m + 1 := by omega
      have hs := elias_succ ((m : Int) + 1) (by omega)
      rw [hi, hLm] at hk
      have e1 : (n : Int) - ((n - L : Nat) : Int) = m + 1 := by omega
      rw [e1] at hk
      simp only [add_sub_cancel_right] at hk hs
      omega
  · have hlo := lastOff_of_headOffset h0
    rw [hlast] at hlo
    match P, hpo.two with
    | b :: x :: q, _ =>
      simp only [headOffset] at h0 hlo
      have hi := hpo.index
      simp only [headIndex] at hi
      have hv := valid_cons2.1 hpo.valid
      have h4 := hv.2.2.2
      rw [if_neg h0] at h4
      obtain ⟨hx, hrun⟩ := valid_match_run hpo.valid h0
      rw [← hlo] at hrun
      -- the position of the block matches, so it lies in the run
      have hLm : L ≤ m := by
        by_contra hc
        have e : n - L = n - m - 1 := by omega
        have := hrun (n - L) (by omega) (by omega)
        rw [e] at this
        exact h.run_max (by omega) this
      by_cases e : lastOff (x :: q) = b.Offset
      · rw [if_pos e] at h4
        have e2 := h.link_match (n - L) (by omega) (by omega) (by omega)
          (by rw [hpe]; exact hlo.symm) (by rw [hpe]; exact h4.2.2.1)
          (by rw [hpe]; show lastOff (x :: q) = offset; rw [e, ← hlo])
        rw [hpe] at e2
        simp only [List.tail_cons] at e2
        subst e2
        have hk := key (by simp)
        simp only [headBits, headIndex] at hk
        have hj := elias_join (b.Index - x.Index) ((L : Int) - 1) (by omega) (by omega)
        have e3 : (n : Int) - x.Index = b.Index - x.Index + ((L : Int) - 1) + 1 := by omega
        rw [e3] at hk
        rw [h4.2.2.2] at hk
        omega
      · rw [if_neg e] at h4
        obtain ⟨p', q1, q2, q3, q4⟩ := hpo.anchor (by simpa [headOffset] using h0)
          (by simpa [headOffset] using e)
        simp only [List.tail_cons, headIndex] at q3 q4
        have hp'm : n ≤ p' + m + 1 := by
          by_contra hc
          have := hrun (n - m - 1) (by omega) (by omega)
          exact h.run_max (by omega) this
        have hmin := bestLen_min optimal n (m + 1) (n - p') (by omega) (by omega)
        rw [hL] at hmin
        have c1 : lengthCost optimal n L = b.Bits + eliasGammaBits ((L : Int) - 1) := by
          simp only [lengthCost, hP, headBits]
        have c2 : lengthCost optimal n (n - p') = x.Bits
            + eliasGammaBits (((n - p' : Nat) : Int) - 1) := by
          have : n - (n - p') = p' := by omega
          simp only [lengthCost, this, ← q4, headBits]
        rw [c1, c2, h4.2.2.2.2] at hmin
        have hj := elias_join (b.Index - x.Index - 1) ((L : Int) - 1) (by omega) (by omega)
        have e3 : ((n - p' : Nat) : Int) - 1 = b.Index - x.Index - 1 + ((L : Int) - 1) + 1 := by
          omega
        rw [e3] at hmin
        have hmsb' := eliasGammaBits_pos (((b.Offset - 1) / 128 + 1 : Nat) : Int)
        omega

theorem valid_newBlock {opt : Nat → BlockRef} {optimal : List BlockRef}
    {n offset : Nat} {ll lm : BlockRef} {m : Nat}
    (h : SlotInv input skip limit opt n offset ll lm m) (hO : 1 ≤ offset)
    (hOl : offset ≤ limit)
    (hlen : n < input.length) (hm : Matches input skip n offset) (hm1 : 1 ≤ m)
    (hopt : ∀ p, skip ≤ p → p < n → OptOK input skip limit optimal (optimal.getD p []) p)
    (hne : lastOff (optimal.getD (n - bestLen optimal n (m + 1)) []) ≠ offset) :
    Valid input skip limit (newBlock (optimal.getD (n - bestLen optimal n (m + 1)) []) n offset
      (bestLen optimal n (m + 1))) := by
  have hr := bestLen_range optimal n (m + 1)
  have hrl : m + skip < n := by rcases h.run_lo with e | e <;> omega
  generalize bestLen optimal n (m + 1) = L at hr hne ⊢
  have hpo := hopt (n - L) (by omega) (by omega)
  generalize optimal.getD (n - L) [] = P at hpo hne ⊢
  match P, hpo.two with
  | b :: x :: q, _ =>
    have hi := hpo.index
    simp only [headIndex] at hi
    simp only [newBlock, headBits]
    rw [valid_cons2]
    refine ⟨hpo.valid, by show b.Index < (n : Int); omega, Int.ofNat_lt.2 hlen, ?_⟩
    rw [if_neg (show offset ≠ 0 by omega), if_neg hne]
    refine ⟨hOl, ?_, by simp, by show b.Index + 2 ≤ (n : Int); omega, ?_⟩
    · intro j j1 j2
      have j2' : (j : Int) ≤ (n : Int) := j2
      by_cases e : j = n
      · subst e; exact matches_copy hm
      · exact matches_copy (h.run j (by omega) (by omega))
    · show _ = b.Bits + 8 + _ + eliasGammaBits ((n : Int) - b.Index - 1)
      have : (n : Int) - b.Index - 1 = (L : Int) - 1 := by omega
      rw [this]

/-- The slots of an offset that matches at position `n`. -/
theorem SlotInv.matched {opt : Nat → BlockRef} (opt' : Nat → BlockRef)
    {optimal : List BlockRef}
    {n offset : Nat} {ll lm lm1 : BlockRef} (lm2 : BlockRef) {blk2 : BlockRef} {m : Nat}
    (h : SlotInv input skip limit opt n offset ll lm m) (hO : 1 ≤ offset)
    (hOl : offset ≤ limit) (hn : skip ≤ n)
    (hlen : n < input.length) (hm : Matches input skip n offset)
    (hopt : ∀ p, skip ≤ p → p < n → OptOK input skip limit optimal (optimal.getD p []) p)
    (hoptEq : ∀ p, p < n → opt p = optimal.getD p [])
    (hsame : ∀ p, p < n → opt' p = opt p)
    (hlm1 : lm1 = if ll = [] then lm else reuseBlock ll n offset)
    (hblk2 : blk2 = newBlock (optimal.getD (n - bestLen optimal n (m + 1)) []) n offset
          (bestLen optimal n (m + 1)))
    (hlm2 : lm2 = if 1 ≤ m ∧ replaces lm1 n (headBits blk2) = true then blk2 else lm1)
    (hnew : lastOff (opt' n) = offset → (ll ≠ [] ∧ opt' n = reuseBlock ll n offset) ∨
      ((1 ≤ m ∧ replaces lm1 n (headBits blk2) = true) ∧ opt' n = blk2)) :
    SlotInv input skip limit opt' (n + 1) offset ll lm2 (m + 1) ∧
    ((1 ≤ m ∧ replaces lm1 n (headBits blk2) = true) →
      Valid input skip limit blk2 ∧ lastOff blk2.tail ≠ offset) := by
  have hmn := (matches_iff.1 hm)
  have hskip : skip < n := by omega
  have hb2 := headOffset_newBlock
          (optimal.getD (n - bestLen optimal n (m + 1)) []) n offset (bestLen optimal n (m + 1))
  rw [← hblk2] at hb2
  obtain ⟨a1, a2, a3, a4⟩ := hb2
  have hex : (1 ≤ m ∧ replaces lm1 n (headBits blk2) = true) →
      Valid input skip limit blk2 ∧ lastOff blk2.tail ≠ offset := by
    intro hc
    have hne := newBlock_lastOff_ne h hO hlen hm hc.1 hopt hoptEq
      (by rw [← hlm1, ← hblk2]; exact hc.2)
    refine ⟨?_, ?_⟩
    · rw [hblk2]; exact valid_newBlock h hO hOl hlen hm hc.1 hopt hne
    · rw [a3]; exact hne
  refine ⟨?_, hex⟩
  exact {
    run_lo := by rcases h.run_lo with e | e <;> omega
    run := by
      intro j j1 j2
      by_cases e : j = n
      · subst e; exact hm
      · exact h.run j (by omega) (by omega)
    run_max := by
      intro h1
      have e : n + 1 - (m + 1) - 1 = n - m - 1 := by omega
      rw [e]
      exact h.run_max (by omega)
    lm_ok := by
      rw [hlm2]
      by_cases hc : 1 ≤ m ∧ replaces lm1 n (headBits blk2) = true
      · rw [if_pos hc]
        exact Or.inr ⟨(hex hc).1, a1, by rw [a2]; omega⟩
      · rw [if_neg hc, hlm1]
        by_cases hll : ll = []
        · rw [if_pos hll]
          rcases h.lm_ok with e | ⟨h1, h2, h3⟩
          · exact Or.inl e
          · exact Or.inr ⟨h1, h2, by omega⟩
        · rw [if_neg hll]
          obtain ⟨b1, b2, b3, b4, b5⟩ := headOffset_reuseBlock hll n offset
          exact Or.inr ⟨valid_reuseBlock h hll hO hOl hlen hm, b1, by rw [b2]; omega⟩
    ll_ok := by
      rcases h.ll_ok with e | ⟨h1, h2, h3, h4⟩
      · exact Or.inl e
      · exact Or.inr ⟨h1, h2, by push_cast; omega, h4⟩
    ll_lm := by
      intro e
      by_contra hll
      rw [hlm2] at e
      by_cases hc : 1 ≤ m ∧ replaces lm1 n (headBits blk2) = true
      · rw [if_pos hc] at e; exact a4 e
      · rw [if_neg hc, hlm1, if_neg hll] at e
        exact (headOffset_reuseBlock hll n offset).2.2.2.1 e
    link_lit := by
      intro p h1 h2 h3 h4 h5
      by_cases e : p = n
      · subst e
        rcases hnew h5 with ⟨a, b⟩ | ⟨a, b⟩
        · rw [b, (headOffset_reuseBlock a p offset).1] at h4; omega
        · rw [b, a1] at h4; omega
      · have hp : p < n := by omega
        rw [hsame p hp] at h4 h5 ⊢
        exact h.link_lit p h1 (by omega) hp h4 h5
    link_match := by
      intro p h1 h2 h3 h4 h5 h6
      by_cases e : p = n
      · subst e
        rcases hnew (by rw [lastOff_of_headOffset (by omega), h4]) with ⟨a, b⟩ | ⟨a, b⟩
        · rw [b, (headOffset_reuseBlock a p offset).2.2.1]
        · rw [b] at h6
          exact absurd h6 (hex a).2
      · have hp : p < n := by omega
        rw [hsame p hp] at h4 h5 h6 ⊢
        exact h.link_match p h1 (by omega) hp h4 h5 h6
    fresh := by
      intro h1 _
      omega }

theorem set_self_of_getElem? {α : Type} {xs : List α} {i : Nat} {v : α}
    (h : xs[i]? = some v) : xs.set i v = xs := by
  apply List.ext_getElem?
  intro j
  by_cases e : i = j
  · subst e
    have hi : i < xs.length := by
      by_contra hc
      rw [List.getElem?_eq_none (by omega)] at h; cases h
    rw [List.getElem?_set_self hi, h]
  · rw [List.getElem?_set_ne e]

theorem lt_length_of_getElem? {α : Type} {xs : List α} {i : Nat} {v : α}
    (h : xs[i]? = some v) : i < xs.length := by
  by_contra hc
  rw [List.getElem?_eq_none (by omega)] at h; cases h

theorem le_limit_of_lt_arraySize {offset : Nat} (h : offset < arraySize input limit) :
    offset ≤ limit := by
  unfold arraySize offsetCeiling at h
  omega

/-- The state after one turn of the offset loop, from what the turn did to the slots of
its offset. -/
theorem TaskInv.update {s s' : TaskState} {n offset : Nat} (ll' lm' : BlockRef) (m' : Nat)
    (h : TaskInv input skip limit s n offset) (hO : 1 ≤ offset)
    (hOA : offset < arraySize input limit)
    (e_opt : s'.o.optimal = s.o.optimal)
    (e_ll : s'.o.lastLiteral = s.o.lastLiteral.set offset ll')
    (e_lm : s'.o.lastMatch = s.o.lastMatch.set offset lm')
    (e_ml : s'.o.matchLength = s.o.matchLength.set offset m')
    (e_len : s'.o.bestLength.length = s.o.bestLength.length)
    (e_bl2 : 2 < input.length → s'.o.bestLength[2]? = some 2)
    (e_sz : 2 ≤ s'.bestLengthSize ∧ (s'.bestLengthSize = 2 ∨ s'.bestLengthSize + skip ≤ n))
    (e_bl : ∀ k, 3 ≤ k → k ≤ s'.bestLengthSize →
      s'.o.bestLength[k]? = some (bestLen s.o.optimal n k))
    (e_ob : s'.optimalBlock = s.optimalBlock ∨
      (OptOK input skip limit s.o.optimal s'.optimalBlock n ∧ lastOff s'.optimalBlock = offset))
    (e_some : s'.optimalBlock ≠ [])
    (e_slot : SlotInv input skip limit (optAt s' n) (n + 1) offset ll' lm' m')
    (e_one : offset = 1 → lm' ≠ [] ∧ ll' ≠ []) :
    TaskInv input skip limit s' n (offset + 1) where
  len_ll := by rw [e_ll, List.length_set]; exact h.len_ll
  len_lm := by rw [e_lm, List.length_set]; exact h.len_lm
  len_ml := by rw [e_ml, List.length_set]; exact h.len_ml
  len_opt := by rw [e_opt]; exact h.len_opt
  len_bl := by rw [e_len]; exact h.len_bl
  opt_ok := by rw [e_opt]; exact h.opt_ok
  slots := by
    intro o2 h1 h2
    by_cases e : o2 = offset
    · subst e
      refine ⟨ll', lm', m', ?_, ?_, ?_, ?_⟩
      · rw [e_ll, List.getElem?_set_self (by rw [h.len_ll]; exact h2)]
      · rw [e_lm, List.getElem?_set_self (by rw [h.len_lm]; exact h2)]
      · rw [e_ml, List.getElem?_set_self (by rw [h.len_ml]; exact h2)]
      · rw [if_pos (Nat.lt_succ_self _)]; exact e_slot
    · obtain ⟨ll, lm, m, a1, a2, a3, a4⟩ := h.slots o2 h1 h2
      refine ⟨ll, lm, m, ?_, ?_, ?_, ?_⟩
      · rw [e_ll, List.getElem?_set_ne (Ne.symm e)]; exact a1
      · rw [e_lm, List.getElem?_set_ne (Ne.symm e)]; exact a2
      · rw [e_ml, List.getElem?_set_ne (Ne.symm e)]; exact a3
      · have eτ : (if o2 < offset + 1 then n + 1 else n) = (if o2 < offset then n + 1 else n) := by
          by_cases c : o2 < offset
          · rw [if_pos c, if_pos (by omega)]
          · rw [if_neg c, if_neg (by omega)]
        rw [eτ]
        apply a4.frame h1
        intro p hp
        by_cases c : p = n
        · subst c
          simp only [optAt, if_true]
          rcases e_ob with e1 | e1
          · exact Or.inl e1
          · right; rw [e1.2]; exact Ne.symm e
        · left
          simp only [optAt, if_neg c, e_opt]
  one_lm := by
    by_cases e : offset = 1
    · subst e
      exact ⟨lm', by rw [e_lm, List.getElem?_set_self (by rw [h.len_lm]; exact hOA)], (e_one rfl).1⟩
    · obtain ⟨lm, a1, a2⟩ := h.one_lm
      exact ⟨lm, by rw [e_lm, List.getElem?_set_ne e]; exact a1, a2⟩
  one_ll := by
    intro _
    by_cases e : offset = 1
    · subst e
      exact ⟨ll', by rw [e_ll, List.getElem?_set_self (by rw [h.len_ll]; exact hOA)], (e_one rfl).2⟩
    · obtain ⟨ll, a1, a2⟩ := h.one_ll (Or.inr (by omega))
      exact ⟨ll, by rw [e_ll, List.getElem?_set_ne e]; exact a1, a2⟩
  bl_size := e_sz
  bl_two := e_bl2
  bl_ok := by rw [e_opt]; exact e_bl
  cur_some := fun _ => e_some
  cur_ok := by
    rcases e_ob with e1 | e1
    · rcases h.cur_ok with e2 | e2
      · exact absurd (e1.trans e2) e_some
      · right; rw [e1, e_opt]; exact ⟨e2.1, by omega⟩
    · right; rw [e_opt]; exact ⟨e1.1, by omega⟩

theorem optOK_litBlock {optimal : List BlockRef} {lm : BlockRef} {n offset : Nat}
    (hlm : lm ≠ [])
    (hv : Valid input skip limit lm) (ho : headOffset lm = offset) (hO : 1 ≤ offset)
    (hi : headIndex lm < n) (hlen : n < input.length) :
    OptOK input skip limit optimal (litBlock lm n) n ∧ lastOff (litBlock lm n) = offset := by
  obtain ⟨a1, a2, a3, a4, a5⟩ := headOffset_litBlock hlm n
  refine ⟨⟨valid_litBlock hlm hv ho hO hi hlen, ?_, a2, ?_⟩, ?_⟩
  · match lm, hlm with
    | x :: rest, _ => simp [litBlock]
  · intro hc; exact absurd a1 hc
  · rw [a5, lastOff_of_headOffset (by omega), ho]

theorem optOK_reuseBlock {optimal : List BlockRef} {opt : Nat → BlockRef} {n offset : Nat}
    {ll lm : BlockRef} {m : Nat}
    (h : SlotInv input skip limit opt n offset ll lm m) (hll : ll ≠ []) (hO : 1 ≤ offset)
    (hOl : offset ≤ limit) (hlen : n < input.length) (hm : Matches input skip n offset) :
    OptOK input skip limit optimal (reuseBlock ll n offset) n ∧
      lastOff (reuseBlock ll n offset) = offset := by
  obtain ⟨a1, a2, a3, a4, a5⟩ := headOffset_reuseBlock hll n offset
  refine ⟨⟨valid_reuseBlock h hll hO hOl hlen hm, ?_, a2, ?_⟩, ?_⟩
  · match ll, hll with
    | x :: rest, _ => simp [reuseBlock]
  · intro _ hc
    rw [a3, a1] at hc
    rcases h.ll_ok with e | ⟨_, _, _, e⟩
    · exact absurd e hll
    · exact absurd e hc
  · rw [lastOff_of_headOffset (by omega), a1]

/-- One turn of the offset loop keeps the invariant and does not panic. -/
theorem processOffset_inv {s : TaskState} {n offset : Nat}
    (h : TaskInv input skip limit s n offset) (hn : skip ≤ n) (hlen : n < input.length)
    (hO : 1 ≤ offset) (hOA : offset < arraySize input limit) :
    ∃ s', processOffset input n skip offset s = some s' ∧
      TaskInv input skip limit s' n (offset + 1) ∧ s'.o.optimal = s.o.optimal := by
  obtain ⟨ll, lm, m, a1, a2, a3, a4⟩ := h.slots offset hO hOA
  rw [if_neg (lt_irrefl _)] at a4
  have hOl : offset ≤ limit := le_limit_of_lt_arraySize hOA
  have l1 := lt_length_of_getElem? a1
  have l2 := lt_length_of_getElem? a2
  have l3 := lt_length_of_getElem? a3
  have hopt' : ∀ p, skip ≤ p → p < n →
      p < s.o.optimal.length ∧ s.o.optimal.getD p [] ≠ [] := by
    intro p p1 p2
    exact ⟨by rw [h.len_opt]; omega, valid_ne_nil (h.opt_ok p p1 p2).valid⟩
  have hoptEq : ∀ p, p < n → optAt s n p = s.o.optimal.getD p [] := by
    intro p hp
    simp only [optAt, if_neg (show p ≠ n by omega)]
  have hcur : lastOff s.optimalBlock ≠ offset := by
    rcases h.cur_ok with e | e
    · rw [e]; simp only [lastOff]; omega
    · omega
  unfold processOffset
  rw [matchAt_total input skip offset hlen]
  simp only [Option.bind_eq_bind, Option.some_bind]
  by_cases hm : Matches input skip n offset
  · simp only [hm, decide_True, if_true]
    have hskip : skip < n := by have := (matches_iff.1 hm).1; omega
    rw [fromLastOffset_eq n offset s ll a1 l2]
    simp only [Option.some_bind]
    generalize hs1 : ({ s with
      o := { s.o with
        lastMatch := if ll = [] then s.o.lastMatch
          else s.o.lastMatch.set offset (reuseBlock ll n offset) }
      optimalBlock := if ll = [] then s.optimalBlock
        else offer s.optimalBlock (reuseBlock ll n offset) } : TaskState) = s1
    have e1 : s1.o.optimal = s.o.optimal := by rw [← hs1]
    have e2 : s1.o.matchLength = s.o.matchLength := by rw [← hs1]
    have e3 : s1.o.bestLength = s.o.bestLength := by rw [← hs1]
    have e4 : s1.bestLengthSize = s.bestLengthSize := by rw [← hs1]
    have e5 : s1.o.lastLiteral = s.o.lastLiteral := by rw [← hs1]
    have e6 : s1.o.lastMatch = if ll = [] then s.o.lastMatch
          else s.o.lastMatch.set offset (reuseBlock ll n offset) := by rw [← hs1]
    have e7 : s1.optimalBlock = if ll = [] then s.optimalBlock
        else offer s.optimalBlock (reuseBlock ll n offset) := by rw [← hs1]
    have hlm1 : s1.o.lastMatch[offset]? =
        some (if ll = [] then lm else reuseBlock ll n offset) := by
      rw [e6]
      by_cases c : ll = []
      · rw [if_pos c, if_pos c]; exact a2
      · rw [if_neg c, if_neg c, List.getElem?_set_self l2]
    obtain ⟨bl', size', b1, b2, b3, b4, b5, b6⟩ := fromNewOffset_spec n skip offset s1 m
      (if ll = [] then lm else reuseBlock ll n offset) (by rw [e2]; exact a3) hlm1
      (by rw [e1]; exact hopt') (by rw [e4]; exact h.bl_size.1) (by rw [e4]; exact h.bl_size.2)
      (by intro hm1; rcases a4.run_lo with e | e <;> omega)
      (by rw [e3, h.len_bl]; exact hlen)
      (by rw [e3, h.len_bl]; exact h.bl_two)
      (by rw [e1, e3, e4]; exact h.bl_ok)
    rw [b1]
    refine ⟨_, rfl, ?_, e1⟩
    rw [e3, h.len_bl] at b2 b3
    rw [e1] at b6
    generalize hblk2 : newBlock (s1.o.optimal.getD (n - bestLen s1.o.optimal n (m + 1)) []) n
      offset (bestLen s1.o.optimal n (m + 1)) = blk2
    have hblk2' : blk2 = newBlock (s.o.optimal.getD (n - bestLen s.o.optimal n (m + 1)) []) n
      offset (bestLen s.o.optimal n (m + 1)) := by rw [← hblk2, e1]
    generalize hlm1' : (if ll = [] then lm else reuseBlock ll n offset) = lm1
    -- the new value of `optimalBlock`
    have hob : ∀ ob : BlockRef,
        ob = (if 1 ≤ m ∧ replaces lm1 n (headBits blk2) = true then offer s1.optimalBlock blk2
          else s1.optimalBlock) →
        ob = s.optimalBlock ∨ (ll ≠ [] ∧ ob = reuseBlock ll n offset) ∨
          ((1 ≤ m ∧ replaces lm1 n (headBits blk2) = true) ∧ ob = blk2) := by
      intro ob hob
      have h1 : s1.optimalBlock = s.optimalBlock ∨
          (ll ≠ [] ∧ s1.optimalBlock = reuseBlock ll n offset) := by
        rw [e7]
        by_cases c : ll = []
        · rw [if_pos c]; exact Or.inl rfl
        · rw [if_neg c]
          rcases offer_cases s.optimalBlock (reuseBlock ll n offset) with e | e
          · exact Or.inl e
          · exact Or.inr ⟨c, e⟩
      by_cases c : 1 ≤ m ∧ replaces lm1 n (headBits blk2) = true
      · rw [if_pos c] at hob
        rcases offer_cases s1.optimalBlock blk2 with e | e
        · rw [e] at hob; rw [hob]
          rcases h1 with e' | e'
          · exact Or.inl e'
          · exact Or.inr (Or.inl e')
        · rw [e] at hob; exact Or.inr (Or.inr ⟨c, hob⟩)
      · rw [if_neg c] at hob; rw [hob]
        rcases h1 with e' | e'
        · exact Or.inl e'
        · exact Or.inr (Or.inl e')
    have hsl := SlotInv.matched (optAt
        { s1 with
          o := { s1.o with
            matchLength := s1.o.matchLength.set offset (m + 1)
            bestLength := bl'
            lastMatch := if 1 ≤ m ∧ replaces lm1 n (headBits blk2) = true
              then s1.o.lastMatch.set offset blk2 else s1.o.lastMatch }
          bestLengthSize := size'
          optimalBlock := if 1 ≤ m ∧ replaces lm1 n (headBits blk2) = true
            then offer s1.optimalBlock blk2 else s1.optimalBlock } n)
      (if 1 ≤ m ∧ replaces lm1 n (headBits blk2) = true then blk2 else lm1)
      a4 hO hOl hn hlen hm h.opt_ok hoptEq
      (by
        intro p hp
        simp only [optAt, if_neg (show p ≠ n by omega), e1])
      hlm1'.symm hblk2' rfl
      (by
        intro hl
        simp only [optAt, if_true] at hl ⊢
        rcases hob _ rfl with e | e | e
        · rw [e] at hl; exact absurd hl hcur
        · exact Or.inl e
        · exact Or.inr e)
    have hsome1 : ll ≠ [] ∨ s.optimalBlock ≠ [] := by
      by_cases c : offset = 1
      · subst c
        obtain ⟨ll1, c1, c2⟩ := h.one_ll (Or.inl hskip)
        rw [a1] at c1; cases c1; exact Or.inl c2
      · exact Or.inr (h.cur_some (by omega))
    apply TaskInv.update ll
      (if 1 ≤ m ∧ replaces lm1 n (headBits blk2) = true then blk2 else lm1)
      (m + 1) h hO hOA
    · exact e1
    · show s1.o.lastLiteral = _
      rw [e5, set_self_of_getElem? a1]
    · show (if 1 ≤ m ∧ replaces lm1 n (headBits blk2) = true
          then s1.o.lastMatch.set offset blk2 else s1.o.lastMatch) = _
      by_cases c : 1 ≤ m ∧ replaces lm1 n (headBits blk2) = true
      · rw [if_pos c, if_pos c, e6]
        by_cases c2 : ll = []
        · rw [if_pos c2]
        · rw [if_neg c2, List.set_set]
      · rw [if_neg c, if_neg c, e6, ← hlm1']
        by_cases c2 : ll = []
        · rw [if_pos c2, if_pos c2, set_self_of_getElem? a2]
        · rw [if_neg c2, if_neg c2]
    · show s1.o.matchLength.set offset (m + 1) = _
      rw [e2]
    · exact b2.trans h.len_bl.symm
    · exact b3
    · exact ⟨b4, b5⟩
    · exact b6
    · rcases hob _ rfl with e | e | e
      · exact Or.inl e
      · right
        show OptOK _ _ _ _ (if 1 ≤ m ∧ replaces lm1 n (headBits blk2) = true
          then offer s1.optimalBlock blk2 else s1.optimalBlock) _ ∧ lastOff (if 1 ≤ m ∧ replaces lm1 n (headBits blk2) = true
          then offer s1.optimalBlock blk2 else s1.optimalBlock) = _
        rw [e.2]
        exact optOK_reuseBlock a4 e.1 hO hOl hlen hm
      · right
        show OptOK _ _ _ _ (if 1 ≤ m ∧ replaces lm1 n (headBits blk2) = true
          then offer s1.optimalBlock blk2 else s1.optimalBlock) _ ∧ lastOff (if 1 ≤ m ∧ replaces lm1 n (headBits blk2) = true
          then offer s1.optimalBlock blk2 else s1.optimalBlock) = _
        rw [e.2]
        have hv := hsl.2 e.1
        obtain ⟨d1, d2, d3, d4⟩ := headOffset_newBlock
          (s.o.optimal.getD (n - bestLen s.o.optimal n (m + 1)) []) n offset
          (bestLen s.o.optimal n (m + 1))
        rw [← hblk2'] at d1 d2 d3 d4
        have hr := bestLen_range s.o.optimal n (m + 1)
        have hrl : m + skip < n := by rcases a4.run_lo with e' | e' <;> omega
        have hpo := h.opt_ok (n - bestLen s.o.optimal n (m + 1)) (by omega) (by omega)
        refine ⟨⟨hv.1, ?_, d2, ?_⟩, ?_⟩
        · have := hpo.two
          rw [hblk2']; simp only [newBlock, List.length_cons]; omega
        · intro _ _
          refine ⟨n - bestLen s.o.optimal n (m + 1), by omega, by omega, ?_, d3⟩
          rw [d3]; exact hpo.index
        · rw [lastOff_of_headOffset (by omega), d1]
    · show (if 1 ≤ m ∧ replaces lm1 n (headBits blk2) = true
          then offer s1.optimalBlock blk2 else s1.optimalBlock) ≠ []
      have hs1ne : s1.optimalBlock ≠ [] := by
        rw [e7]
        by_cases c : ll = []
        · rw [if_pos c]; rcases hsome1 with e | e
          · exact absurd c e
          · exact e
        · rw [if_neg c]
          exact offer_ne_nil (headOffset_reuseBlock c n offset).2.2.2.1
      by_cases c : 1 ≤ m ∧ replaces lm1 n (headBits blk2) = true
      · rw [if_pos c]
        rcases offer_cases s1.optimalBlock blk2 with e | e
        · rw [e]; exact hs1ne
        · rw [e, hblk2']; exact (headOffset_newBlock _ _ _ _).2.2.2
      · rw [if_neg c]; exact hs1ne
    · exact hsl.1
    · intro c
      subst c
      obtain ⟨ll1, c1, c2⟩ := h.one_ll (Or.inl hskip)
      rw [a1] at c1; cases c1
      refine ⟨?_, c2⟩
      by_cases c : 1 ≤ m ∧ replaces lm1 n (headBits blk2) = true
      · rw [if_pos c, hblk2']; exact (headOffset_newBlock _ _ _ _).2.2.2
      · rw [if_neg c, ← hlm1', if_neg c2]
        exact (headOffset_reuseBlock c2 n 1).2.2.2.1
  · simp only [hm, decide_False, Bool.false_eq_true, if_false]
    rw [copyLiterals_eq n offset s lm l3 a2 l1]
    refine ⟨_, rfl, ?_, rfl⟩
    have hlmne : offset = 1 → lm ≠ [] := by
      intro c; subst c
      obtain ⟨lm1, c1, c2⟩ := h.one_lm
      rw [a2] at c1; cases c1; exact c2
    have hlit : lm ≠ [] → OptOK input skip limit s.o.optimal (litBlock lm n) n ∧
        lastOff (litBlock lm n) = offset := by
      intro c
      rcases a4.lm_ok with e | ⟨d1, d2, d3⟩
      · exact absurd e c
      · exact optOK_litBlock c d1 d2 hO d3 hlen
    have hob : (if lm = [] then s.optimalBlock else offer s.optimalBlock (litBlock lm n))
        = s.optimalBlock ∨ (lm ≠ [] ∧
        (if lm = [] then s.optimalBlock else offer s.optimalBlock (litBlock lm n))
          = litBlock lm n) := by
      by_cases c : lm = []
      · rw [if_pos c]; exact Or.inl rfl
      · rw [if_neg c]
        rcases offer_cases s.optimalBlock (litBlock lm n) with e | e
        · exact Or.inl e
        · exact Or.inr ⟨c, e⟩
    apply TaskInv.update (if lm = [] then ll else litBlock lm n) lm 0 h hO hOA
    · rfl
    · show (if lm = [] then s.o.lastLiteral else s.o.lastLiteral.set offset (litBlock lm n)) = _
      by_cases c : lm = []
      · rw [if_pos c, if_pos c, set_self_of_getElem? a1]
      · rw [if_neg c, if_neg c]
    · show s.o.lastMatch = _
      rw [set_self_of_getElem? a2]
    · rfl
    · rfl
    · exact h.bl_two
    · exact h.bl_size
    · exact h.bl_ok
    · show (if lm = [] then s.optimalBlock else offer s.optimalBlock (litBlock lm n)) = _ ∨ _
      rcases hob with e | e
      · exact Or.inl e
      · right
        show OptOK _ _ _ _ (if lm = [] then s.optimalBlock
          else offer s.optimalBlock (litBlock lm n)) _ ∧ lastOff (if lm = [] then s.optimalBlock
          else offer s.optimalBlock (litBlock lm n)) = _
        rw [e.2]; exact hlit e.1
    · show (if lm = [] then s.optimalBlock else offer s.optimalBlock (litBlock lm n)) ≠ []
      by_cases c : lm = []
      · rw [if_pos c]
        exact h.cur_some (by
          by_contra hc
          exact hlmne (by omega) c)
      · rw [if_neg c]
        exact offer_ne_nil (headOffset_litBlock c n).2.2.2.1
    · apply a4.nomatch hO hlen hm
      intro hl
      simp only [optAt, if_true] at hl ⊢
      rcases hob with e | e
      · rw [e] at hl; exact absurd hl hcur
      · exact e
    · intro c
      have := hlmne c
      refine ⟨this, ?_⟩
      rw [if_neg this]
      exact (headOffset_litBlock this n).2.2.2.1

theorem processLoop_inv : ∀ (k : Nat) {s : TaskState} {n c : Nat},
    TaskInv input skip limit s n c → skip ≤ n → n < input.length → 1 ≤ c →
    c + k ≤ arraySize input limit →
    ∃ s', processLoop input n skip k c s = some s' ∧
      TaskInv input skip limit s' n (c + k) ∧ s'.o.optimal = s.o.optimal := by
  intro k
  induction k with
  | zero =>
    intro s n c h _ _ _ _
    exact ⟨s, rfl, h, rfl⟩
  | succ k ih =>
    intro s n c h hn hlen hc hk
    obtain ⟨s1, e1, h1, o1⟩ := processOffset_inv h hn hlen hc (by omega)
    obtain ⟨s2, e2, h2, o2⟩ := ih h1 hn hlen (by omega) (by omega)
    refine ⟨s2, ?_, ?_, o2.trans o1⟩
    · unfold processLoop
      simp only [e1, Option.bind_eq_bind, Option.some_bind]
      exact e2
    · have : c + (k + 1) = c + 1 + k := by omega
      rw [this]; exact h2

theorem OptOK.mono {optimal optimal' : List BlockRef} {c : BlockRef} {p : Nat}
    (h : OptOK input skip limit optimal c p)
    (he : ∀ p', p' < p → optimal'.getD p' [] = optimal.getD p' []) :
    OptOK input skip limit optimal' c p where
  valid := h.valid
  two := h.two
  index := h.index
  anchor := by
    intro h1 h2
    obtain ⟨p', a1, a2, a3, a4⟩ := h.anchor h1 h2
    exact ⟨p', a1, a2, a3, by rw [he p' a2]; exact a4⟩

theorem getD_set_ne {α : Type} (xs : List α) {i j : Nat} (v d : α) (h : i ≠ j) :
    (xs.set i v).getD j d = xs.getD j d := by
  simp [List.getD, List.getElem?_set_ne h]

theorem getD_set_self {α : Type} (xs : List α) {i : Nat} (v d : α) (h : i < xs.length) :
    (xs.set i v).getD i d = v := by
  simp [List.getD, List.getElem?_set_self h]

theorem offsetCeiling_lt_arraySize (limit : Nat) {n : Nat} (hlen : n < input.length) :
    offsetCeiling n limit + 1 ≤ arraySize input limit := by
  unfold arraySize offsetCeiling
  omega

/-- Storing the block of a position gives the invariant of the next position. -/
theorem TaskInv.next {s : TaskState} {n : Nat}
    (h : TaskInv input skip limit s n (offsetCeiling n limit + 1)) (hl : 1 ≤ limit)
    (hlen : n < input.length) :
    PosInv input skip limit { s.o with optimal := s.o.optimal.set n s.optimalBlock } (n + 1) := by
  have hmax : 1 ≤ offsetCeiling n limit := by
    unfold offsetCeiling INITIAL_OFFSET; omega
  have hnl : n < s.o.optimal.length := by rw [h.len_opt]; exact hlen
  have hsome := h.cur_some (by omega)
  have hcur : OptOK input skip limit s.o.optimal s.optimalBlock n ∧
      lastOff s.optimalBlock < offsetCeiling n limit + 1 := by
    rcases h.cur_ok with e | e
    · exact absurd e hsome
    · exact e
  have hopt : ∀ p, p < n + 1 →
      (s.o.optimal.set n s.optimalBlock).getD p [] = optAt s n p := by
    intro p hp
    by_cases e : p = n
    · subst e; simp only [optAt, if_true]; exact getD_set_self _ _ _ hnl
    · simp only [optAt, if_neg e]; exact getD_set_ne _ _ _ (Ne.symm e)
  exact {
    len_ll := h.len_ll
    len_lm := h.len_lm
    len_ml := h.len_ml
    len_opt := by show (s.o.optimal.set n s.optimalBlock).length = _; rw [List.length_set]; exact h.len_opt
    len_bl := h.len_bl
    opt_ok := by
      intro p p1 p2
      show OptOK input skip limit (s.o.optimal.set n s.optimalBlock)
        ((s.o.optimal.set n s.optimalBlock).getD p []) p
      rw [hopt p p2]
      have he : ∀ p', p' < p → (s.o.optimal.set n s.optimalBlock).getD p' [] =
          s.o.optimal.getD p' [] := by
        intro p' hp'
        exact getD_set_ne _ _ _ (by omega)
      by_cases e : p = n
      · subst e; simp only [optAt, if_true]
        exact hcur.1.mono he
      · simp only [optAt, if_neg e]
        exact (h.opt_ok p p1 (by omega)).mono he
    slots := by
      intro offset h1 h2
      obtain ⟨ll, lm, m, a1, a2, a3, a4⟩ := h.slots offset h1 h2
      refine ⟨ll, lm, m, a1, a2, a3, ?_⟩
      rw [if_neg (by omega)]
      by_cases c : offset < offsetCeiling n limit + 1
      · rw [if_pos c] at a4
        apply a4.frame h1
        intro p hp
        left
        simp only [optAt, if_neg (show p ≠ n + 1 by omega)]
        have := hopt p hp
        simp only [optAt] at this
        exact this
      · rw [if_neg c] at a4
        have hol := le_limit_of_lt_arraySize h2
        have hn : n < offset ∧ 2 ≤ offset := by
          unfold offsetCeiling INITIAL_OFFSET at c; omega
        apply a4.skip_pos hn.1 hn.2
        simp only [optAt, if_neg (show n ≠ n + 1 by omega)]
        show lastOff ((s.o.optimal.set n s.optimalBlock).getD n []) ≠ offset
        rw [getD_set_self _ _ _ hnl]
        omega
    one_lm := h.one_lm
    one_ll := fun _ => h.one_ll (Or.inr (by omega))
    bl_size := ⟨le_refl _, Or.inl rfl⟩
    bl_two := h.bl_two
    bl_ok := by intro k k1 k2; simp only at k2; omega
    cur_some := by intro hc; omega
    cur_ok := Or.inl rfl }

theorem processTask_inv {o : Optimizer} {n : Nat} (h : PosInv input skip limit o n)
    (hl : 1 ≤ limit) (hn : skip ≤ n) (hlen : n < input.length) :
    ∃ o' blk, processTask o 1 (offsetCeiling n limit) n skip input = some (o', blk) ∧
      o'.optimal = o.optimal ∧
      PosInv input skip limit { o' with optimal := o'.optimal.set n blk } (n + 1) := by
  obtain ⟨s', e1, h1, o1⟩ := processLoop_inv (offsetCeiling n limit) h hn hlen (le_refl _)
    (by have := offsetCeiling_lt_arraySize limit hlen; omega)
  refine ⟨s'.o, s'.optimalBlock, ?_, o1, ?_⟩
  · unfold processTask
    simp only [Nat.add_sub_cancel, e1, Option.bind_eq_bind, Option.some_bind, Option.pure_def]
  · rw [Nat.add_comm] at h1
    exact h1.next hl hlen

theorem optimizeLoop_inv : ∀ (k : Nat) {o : Optimizer} {n : Nat},
    PosInv input skip limit o n → 1 ≤ limit → skip ≤ n → n + k = input.length →
    ∃ o', optimizeLoop input skip limit k n o = some o' ∧
      PosInv input skip limit o' input.length := by
  intro k
  induction k with
  | zero =>
    intro o n h _ _ hk
    have : n = input.length := by omega
    subst this
    exact ⟨o, rfl, h⟩
  | succ k ih =>
    intro o n h hl hn hk
    obtain ⟨o', blk, e1, e2, h1⟩ := processTask_inv h hl hn (by omega)
    obtain ⟨o2, e3, h2⟩ := ih h1 hl (by omega) (by omega)
    refine ⟨o2, ?_, h2⟩
    unfold optimizeLoop
    simp only [e1, Option.bind_eq_bind, Option.some_bind]
    have hlt : n < o'.optimal.length := by
      rw [e2, h.len_opt]; omega
    rw [store_of_lt _ _ hlt]
    exact e3

theorem getElem?_replicate_of_lt {α : Type} {n i : Nat} (v : α) (h : i < n) :
    (List.replicate n v)[i]? = some v := by
  rw [List.getElem?_eq_getElem (by simpa using h)]
  simp

theorem arraySize_ge_two (input : List Byte) {limit : Nat} (hl : 1 ≤ limit) :
    2 ≤ arraySize input limit := by
  unfold arraySize offsetCeiling INITIAL_OFFSET; omega

theorem initOptimizer_eq (input : List Byte) (skip : Nat) {limit : Nat} (hl : 1 ≤ limit) :
    initOptimizer input skip limit = some (initState input skip limit) := by
  have hA := arraySize_ge_two input hl
  have hst : store (List.replicate (arraySize input limit) ([] : BlockRef)) INITIAL_OFFSET
      [rootBlock skip] = some ((List.replicate (arraySize input limit) []).set 1 [rootBlock skip]) :=
    store_of_lt _ _ (by simp [INITIAL_OFFSET]; omega)
  unfold initOptimizer
  simp only [Option.bind_eq_bind, Option.pure_def]
  show (store (List.replicate (arraySize input limit) ([] : BlockRef)) INITIAL_OFFSET
    [rootBlock skip]).bind _ = _
  rw [hst]
  rfl

theorem initState_inv (input : List Byte) (skip : Nat) {limit : Nat} (hl : 1 ≤ limit) :
    PosInv input skip limit (initState input skip limit) skip := by
  have hA := arraySize_ge_two input hl
  exact {
    len_ll := by simp [initState]
    len_lm := by simp [initState]
    len_ml := by simp [initState]
    len_opt := by simp [initState]
    len_bl := by
      show (if (List.replicate input.length 0).length > 2
        then (List.replicate input.length 0).set 2 2
        else List.replicate input.length 0).length = _
      split <;> simp
    opt_ok := by intro p p1 p2; omega
    slots := by
      intro offset h1 h2
      by_cases e : offset = 1
      · subst e
        refine ⟨[], [rootBlock skip], 0, getElem?_replicate_of_lt _ h2, ?_,
          getElem?_replicate_of_lt _ h2, ?_⟩
        · show ((List.replicate (arraySize input limit) ([] : BlockRef)).set 1 _)[1]? = _
          rw [List.getElem?_set_self (by simpa using h2)]
        · rw [if_neg (lt_irrefl _)]
          exact {
            run_lo := Or.inl rfl
            run := by intro j j1 j2; omega
            run_max := by intro hc; omega
            lm_ok := Or.inr ⟨rfl, rfl, by simp [headIndex, rootBlock]⟩
            ll_ok := Or.inl rfl
            ll_lm := by intro hc; cases hc
            link_lit := by intro p p1 p2 p3; omega
            link_match := by intro p p1 p2 p3; omega
            fresh := by intro _ hc; omega }
      · refine ⟨[], [], 0, getElem?_replicate_of_lt _ h2, ?_,
          getElem?_replicate_of_lt _ h2, ?_⟩
        · show ((List.replicate (arraySize input limit) ([] : BlockRef)).set 1 _)[offset]? = _
          rw [List.getElem?_set_ne (Ne.symm e)]
          exact getElem?_replicate_of_lt _ h2
        · rw [if_neg (by omega)]
          exact {
            run_lo := Or.inl rfl
            run := by intro j j1 j2; omega
            run_max := by intro hc; omega
            lm_ok := Or.inl rfl
            ll_ok := Or.inl rfl
            ll_lm := fun _ => rfl
            link_lit := by intro p p1 p2 p3; omega
            link_match := by intro p p1 p2 p3; omega
            fresh := fun _ _ => ⟨rfl, rfl, rfl⟩ }
    one_lm := by
      refine ⟨[rootBlock skip], ?_, by simp⟩
      show ((List.replicate (arraySize input limit) ([] : BlockRef)).set 1 _)[1]? = _
      rw [List.getElem?_set_self (by simp; omega)]
    one_ll := by intro hc; omega
    bl_size := ⟨le_refl _, Or.inl rfl⟩
    bl_two := by
      intro h2
      show (if (List.replicate input.length 0).length > 2
        then (List.replicate input.length 0).set 2 2
        else List.replicate input.length 0)[2]? = _
      rw [if_pos (by simpa using h2), List.getElem?_set_self (by simpa using h2)]
    bl_ok := by intro k k1 k2; simp only at k2; omega
    cur_some := by intro hc; omega
    cur_ok := Or.inl rfl }

theorem initOptimizer_inv (input : List Byte) (skip : Nat) {limit : Nat} (hl : 1 ≤ limit) :
    ∃ o, initOptimizer input skip limit = some o ∧ PosInv input skip limit o skip :=
  ⟨_, initOptimizer_eq input skip hl, initState_inv input skip hl⟩

theorem optimize_eq (input : List Byte) (skip offsetLimit : Nat) :
    Optimize input skip offsetLimit 1 =
      (optimizeState input skip offsetLimit).bind fun o =>
        idx? o.optimal ((input.length : Int) - 1) := by
  unfold Optimize optimizeState
  simp only [if_true, Option.bind_eq_bind]
  cases initOptimizer input skip offsetLimit with
  | none => rfl
  | some o =>
    simp only [Option.some_bind]

/-- `Optimize` with one thread does not panic, and leaves a valid chain in every entry
of `optimal` from `skip` on. -/
theorem optimizeState_inv (input : List Byte) (skip limit : Nat) (hs : skip < input.length)
    (hl : 1 ≤ limit) :
    ∃ o, optimizeState input skip limit = some o ∧ PosInv input skip limit o input.length := by
  obtain ⟨o, e1, h1⟩ := initOptimizer_inv input skip hl
  obtain ⟨o', e2, h2⟩ := optimizeLoop_inv (input.length - skip) h1 hl (le_refl _) (by omega)
  exact ⟨o', by simp only [optimizeState, e1, Option.some_bind, e2], h2⟩

theorem optimize_valid (input : List Byte) (skip limit : Nat) (hs : skip < input.length)
    (hl : 1 ≤ limit) :
    ∃ h, Optimize input skip limit 1 = some h ∧ Valid input skip limit h ∧ 2 ≤ h.length ∧
      headIndex h = (input.length : Int) - 1 := by
  obtain ⟨o, e1, h1⟩ := optimizeState_inv input skip limit hs hl
  have hok := h1.opt_ok (input.length - 1) (by omega) (by omega)
  refine ⟨o.optimal.getD (input.length - 1) [], ?_, hok.valid, hok.two, ?_⟩
  · rw [optimize_eq, e1, Option.some_bind]
    have : ((input.length : Int) - 1) = ((input.length - 1 : Nat) : Int) := by omega
    rw [this, idx?_natCast]
    exact getElem?_of_getD_ne (by rw [h1.len_opt]; omega)
  · rw [hok.index]; omega

theorem valid_offsets (hl : 1 ≤ limit) :
    ∀ {c : BlockRef}, Valid input skip limit c → ∀ b ∈ c, b.Offset ≤ limit
  | [], h => absurd h (by simp [Valid])
  | [r], h => by
    have : r = ⟨-1, (skip : Int) - 1, INITIAL_OFFSET⟩ := h
    subst this
    intro b hb
    simp only [List.mem_singleton] at hb
    subst hb
    exact hl
  | b :: x :: q, h => by
    have h' := valid_cons2.1 h
    intro b' hb'
    rcases List.mem_cons.1 hb' with e | e
    · subst e
      by_cases hb : b'.Offset = 0
      · omega
      · have h3 := h'.2.2.2
        rw [if_neg hb] at h3
        exact h3.1
    · exact valid_offsets hl h'.1 b' e

/-- The entries of `optimal` before `skip` are never written. -/
theorem optimizeLoop_frame : ∀ (k : Nat) {o o' : Optimizer} {n : Nat},
    PosInv input skip limit o n → 1 ≤ limit → skip ≤ n → n + k = input.length →
    optimizeLoop input skip limit k n o = some o' →
    ∀ i, i < n → o'.optimal.getD i [] = o.optimal.getD i [] := by
  intro k
  induction k with
  | zero =>
    intro o o' n _ _ _ _ h i _
    cases h; rfl
  | succ k ih =>
    intro o o' n h hl hn hk he i hi
    obtain ⟨o1, blk, e1, e2, h1⟩ := processTask_inv h hl hn (by omega)
    unfold optimizeLoop at he
    simp only [e1, Option.bind_eq_bind, Option.some_bind] at he
    have hlt : n < o1.optimal.length := by
      rw [e2, h.len_opt]; omega
    rw [store_of_lt _ _ hlt] at he
    simp only [Option.some_bind] at he
    rw [ih h1 hl (by omega) (by omega) he i (by omega)]
    show (o1.optimal.set n blk).getD i [] = _
    rw [getD_set_ne _ _ _ (by omega), e2]

theorem offer_nil_left (blk : BlockRef) : offer [] blk = blk := by
  simp [offer, improves]

theorem offer_eq (x blk : BlockRef) :
    offer x blk = if x = [] ∨ headBits x > headBits blk then blk else x := by
  unfold offer
  rw [improves_eq]
  by_cases h1 : x = []
  · simp [h1]
  · by_cases h2 : headBits x > headBits blk
    · simp [h1, h2]
    · simp [h1, h2]

theorem merge_offer (a y blk : BlockRef) (hb : blk ≠ []) :
    merge a (offer y blk) = offer (merge a y) blk := by
  have h1 : offer y blk ≠ [] := offer_ne_nil hb
  unfold merge
  rw [if_neg h1]
  by_cases hy : y = []
  · subst hy
    rw [if_pos rfl, offer_nil_left]
  · rw [if_neg hy]
    by_cases ha : a = []
    · subst ha
      rw [offer_nil_left, offer_nil_left]
    · rw [offer_eq y blk, offer_eq a y]
      by_cases c1 : headBits y > headBits blk
      · rw [if_pos (Or.inr c1)]
        by_cases c2 : headBits a > headBits y
        · rw [if_pos (Or.inr c2), offer_eq a blk, offer_eq y blk, if_pos (Or.inr c1),
            if_pos (Or.inr (by omega))]
        · rw [if_neg (by rintro (h | h); exact ha h; exact c2 h)]
      · rw [if_neg (by rintro (h | h); exact hy h; exact c1 h)]
        by_cases c2 : headBits a > headBits y
        · rw [if_pos (Or.inr c2), offer_eq a y, if_pos (Or.inr c2), offer_eq y blk,
            if_neg (by rintro (h | h); exact hy h; exact c1 h)]
        · rw [if_neg (by rintro (h | h); exact ha h; exact c2 h), offer_eq a y,
            if_neg (by rintro (h | h); exact ha h; exact c2 h), offer_eq a blk,
            if_neg (by rintro (h | h); exact ha h; omega)]

theorem slotOB_merge (optimal : List BlockRef) (n offset : Nat) (ll lm : BlockRef) (m : Nat)
    (a y : BlockRef) :
    slotOB input skip optimal n offset ll lm m (merge a y) =
      merge a (slotOB input skip optimal n offset ll lm m y) := by
  unfold slotOB
  by_cases hm : Matches input skip n offset
  · simp only [if_pos hm]
    have hb2 := (headOffset_newBlock (optimal.getD (n - bestLen optimal n (m + 1)) []) n offset
          (bestLen optimal n (m + 1))).2.2.2
    generalize newBlock (optimal.getD (n - bestLen optimal n (m + 1)) []) n offset
          (bestLen optimal n (m + 1)) = blk2 at hb2 ⊢
    generalize (if ll = [] then lm else reuseBlock ll n offset) = lm1
    have h1 : (if ll = [] then merge a y else offer (merge a y) (reuseBlock ll n offset)) =
        merge a (if ll = [] then y else offer y (reuseBlock ll n offset)) := by
      by_cases c : ll = []
      · rw [if_pos c, if_pos c]
      · rw [if_neg c, if_neg c, merge_offer _ _ _ (headOffset_reuseBlock c n offset).2.2.2.1]
    rw [h1]
    by_cases c : 1 ≤ m ∧ replaces lm1 n (headBits blk2) = true
    · rw [if_pos c, if_pos c, merge_offer _ _ _ hb2]
    · rw [if_neg c, if_neg c]
  · simp only [if_neg hm]
    by_cases c : lm = []
    · rw [if_pos c, if_pos c]
    · rw [if_neg c, if_neg c, merge_offer _ _ _ (headOffset_litBlock c n).2.2.2.1]

/-- One turn of the offset loop as a function of the slots of its offset; `bestLength`
and `bestLengthSize` only have to be in order. -/
theorem processOffset_fun (input : List Byte) (skip : Nat) (s : TaskState) (n offset : Nat) (ll lm : BlockRef) (m : Nat)
    (a1 : s.o.lastLiteral[offset]? = some ll) (a2 : s.o.lastMatch[offset]? = some lm)
    (a3 : s.o.matchLength[offset]? = some m) (hlen : n < input.length)
    (hopt : ∀ p, skip ≤ p → p < n → p < s.o.optimal.length ∧ s.o.optimal.getD p [] ≠ [])
    (h2 : 2 ≤ s.bestLengthSize) (hsz : s.bestLengthSize = 2 ∨ s.bestLengthSize + skip ≤ n)
    (hmn : 1 ≤ m → m + 1 + skip ≤ n) (hbl : n < s.o.bestLength.length)
    (hbl2 : 2 < s.o.bestLength.length → s.o.bestLength[2]? = some 2)
    (hk : ∀ k, 3 ≤ k → k ≤ s.bestLengthSize →
      s.o.bestLength[k]? = some (bestLen s.o.optimal n k)) :
    ∃ bl' size', processOffset input n skip offset s = some ⟨{
        lastLiteral := s.o.lastLiteral.set offset (slotLL input skip n offset ll lm)
        lastMatch := s.o.lastMatch.set offset (slotLM input skip s.o.optimal n offset ll lm m)
        optimal := s.o.optimal
        matchLength := s.o.matchLength.set offset (slotML input skip n offset m)
        bestLength := bl' }, size',
        slotOB input skip s.o.optimal n offset ll lm m s.optimalBlock⟩ ∧
      bl'.length = s.o.bestLength.length ∧
      (2 < s.o.bestLength.length → bl'[2]? = some 2) ∧
      2 ≤ size' ∧ (size' = 2 ∨ size' + skip ≤ n) ∧
      (∀ k, 3 ≤ k → k ≤ size' → bl'[k]? = some (bestLen s.o.optimal n k)) := by
  have l1 := lt_length_of_getElem? a1
  have l2 := lt_length_of_getElem? a2
  have l3 := lt_length_of_getElem? a3
  unfold processOffset
  rw [matchAt_total input skip offset hlen]
  simp only [Option.bind_eq_bind, Option.some_bind]
  by_cases hm : Matches input skip n offset
  · simp only [hm, decide_True, if_true]
    rw [fromLastOffset_eq n offset s ll a1 l2]
    simp only [Option.some_bind]
    generalize hs1 : ({ s with
      o := { s.o with
        lastMatch := if ll = [] then s.o.lastMatch
          else s.o.lastMatch.set offset (reuseBlock ll n offset) }
      optimalBlock := if ll = [] then s.optimalBlock
        else offer s.optimalBlock (reuseBlock ll n offset) } : TaskState) = s1
    have e1 : s1.o.optimal = s.o.optimal := by rw [← hs1]
    have e2 : s1.o.matchLength = s.o.matchLength := by rw [← hs1]
    have e3 : s1.o.bestLength = s.o.bestLength := by rw [← hs1]
    have e4 : s1.bestLengthSize = s.bestLengthSize := by rw [← hs1]
    have e5 : s1.o.lastLiteral = s.o.lastLiteral := by rw [← hs1]
    have e6 : s1.o.lastMatch = if ll = [] then s.o.lastMatch
          else s.o.lastMatch.set offset (reuseBlock ll n offset) := by rw [← hs1]
    have e7 : s1.optimalBlock = if ll = [] then s.optimalBlock
        else offer s.optimalBlock (reuseBlock ll n offset) := by rw [← hs1]
    have hlm1 : s1.o.lastMatch[offset]? =
        some (if ll = [] then lm else reuseBlock ll n offset) := by
      rw [e6]
      by_cases c : ll = []
      · rw [if_pos c, if_pos c]; exact a2
      · rw [if_neg c, if_neg c, List.getElem?_set_self l2]
    obtain ⟨bl', size', b1, b2, b3, b4, b5, b6⟩ := fromNewOffset_spec n skip offset s1 m
      (if ll = [] then lm else reuseBlock ll n offset) (by rw [e2]; exact a3) hlm1
      (by rw [e1]; exact hopt) (by rw [e4]; exact h2) (by rw [e4]; exact hsz)
      hmn (by rw [e3]; exact hbl) (by rw [e3]; exact hbl2)
      (by rw [e1, e3, e4]; exact hk)
    rw [b1]
    rw [e3] at b2 b3
    rw [e1] at b6
    refine ⟨bl', size', ?_, b2, b3, b4, b5, b6⟩
    simp only [slotLL, slotLM, slotML, slotOB, if_pos hm, e1, e2, e5, e6, e7]
    congr 3
    · rw [set_self_of_getElem? a1]
    · by_cases c : 1 ≤ m ∧ replaces (if ll = [] then lm else reuseBlock ll n offset) n
          (headBits (newBlock (s.o.optimal.getD (n - bestLen s.o.optimal n (m + 1)) []) n
            offset (bestLen s.o.optimal n (m + 1)))) = true
      · rw [if_pos c, if_pos c]
        by_cases c2 : ll = []
        · rw [if_pos c2]
        · rw [if_neg c2, List.set_set]
      · rw [if_neg c, if_neg c]
        by_cases c2 : ll = []
        · rw [if_pos c2, if_pos c2, set_self_of_getElem? a2]
        · rw [if_neg c2, if_neg c2]
  · simp only [hm, decide_False, Bool.false_eq_true, if_false]
    rw [copyLiterals_eq n offset s lm l3 a2 l1]
    refine ⟨s.o.bestLength, s.bestLengthSize, ?_, rfl, hbl2, h2, hsz, hk⟩
    simp only [slotLL, slotLM, slotML, slotOB, if_neg hm]
    congr 3
    · by_cases c : lm = []
      · rw [if_pos c, if_pos c, set_self_of_getElem? a1]
      · rw [if_neg c, if_neg c]
    · rw [set_self_of_getElem? a2]

theorem processOffset_rel {s t : TaskState} {n offset : Nat} {a : BlockRef}
    (h : TaskInv input skip limit s n offset) (hr : Rel input skip n a s t)
    (hn : skip ≤ n) (hlen : n < input.length)
    (hO : 1 ≤ offset) (hOA : offset < arraySize input limit) :
    ∃ s' t', processOffset input n skip offset s = some s' ∧
      processOffset input n skip offset t = some t' ∧
      TaskInv input skip limit s' n (offset + 1) ∧ Rel input skip n a s' t' := by
  obtain ⟨ll, lm, m, a1, a2, a3, a4⟩ := h.slots offset hO hOA
  rw [if_neg (lt_irrefl _)] at a4
  have hopt' : ∀ p, skip ≤ p → p < n →
      p < s.o.optimal.length ∧ s.o.optimal.getD p [] ≠ [] := by
    intro p p1 p2
    exact ⟨by rw [h.len_opt]; omega, valid_ne_nil (h.opt_ok p p1 p2).valid⟩
  have hmn : 1 ≤ m → m + 1 + skip ≤ n := by
    intro hm1; rcases a4.run_lo with e | e <;> omega
  obtain ⟨bl1, sz1, e1, -, -, -, -, -⟩ := processOffset_fun input skip
    s n offset ll lm m a1 a2 a3 hlen
    hopt' h.bl_size.1 h.bl_size.2 hmn (by rw [h.len_bl]; exact hlen)
    (by rw [h.len_bl]; exact h.bl_two) h.bl_ok
  obtain ⟨bl2, sz2, e2, b2, b3, b4, b5, b6⟩ := processOffset_fun input skip
    t n offset ll lm m
    (by rw [hr.o.ll]; exact a1) (by rw [hr.o.lm]; exact a2) (by rw [hr.o.ml]; exact a3) hlen
    (by rw [hr.o.opt]; exact hopt') hr.size.1 hr.size.2 hmn (by rw [hr.o.bl_len]; exact hlen)
    (by rw [hr.o.bl_len]; exact hr.o.bl_two) hr.bl_ok
  obtain ⟨s', e3, h3, -⟩ := processOffset_inv h hn hlen hO hOA
  rw [e1] at e3
  refine ⟨_, _, e1, e2, ?_, ?_⟩
  · rw [Option.some.inj e3]; exact h3
  · exact {
      o := {
        ll := by show t.o.lastLiteral.set _ _ = s.o.lastLiteral.set _ _; rw [hr.o.ll]
        lm := by
          show t.o.lastMatch.set _ _ = s.o.lastMatch.set _ _
          rw [hr.o.lm, hr.o.opt]
        ml := by show t.o.matchLength.set _ _ = s.o.matchLength.set _ _; rw [hr.o.ml]
        opt := hr.o.opt
        bl_len := b2.trans hr.o.bl_len
        bl_two := by intro h2; exact b3 (by rw [hr.o.bl_len]; exact h2) }
      size := ⟨b4, b5⟩
      bl_ok := b6
      ob := by
        show slotOB input skip s.o.optimal n offset ll lm m s.optimalBlock =
          merge a (slotOB input skip t.o.optimal n offset ll lm m t.optimalBlock)
        rw [hr.ob, hr.o.opt, slotOB_merge] }

theorem processLoop_rel : ∀ (k : Nat) {s t : TaskState} {n c : Nat} {a : BlockRef},
    TaskInv input skip limit s n c → Rel input skip n a s t → skip ≤ n → n < input.length →
    1 ≤ c → c + k ≤ arraySize input limit →
    ∃ s' t', processLoop input n skip k c s = some s' ∧
      processLoop input n skip k c t = some t' ∧
      TaskInv input skip limit s' n (c + k) ∧ Rel input skip n a s' t' := by
  intro k
  induction k with
  | zero =>
    intro s t n c a h hr _ _ _ _
    exact ⟨s, t, rfl, rfl, h, hr⟩
  | succ k ih =>
    intro s t n c a h hr hn hlen hc hk
    obtain ⟨s1, t1, e1, e2, h1, r1⟩ := processOffset_rel h hr hn hlen hc (by omega)
    obtain ⟨s2, t2, e3, e4, h2, r2⟩ := ih h1 r1 hn hlen (by omega) (by omega)
    refine ⟨s2, t2, ?_, ?_, ?_, r2⟩
    · unfold processLoop
      simp only [e1, Option.bind_eq_bind, Option.some_bind]
      exact e3
    · unfold processLoop
      simp only [e2, Option.bind_eq_bind, Option.some_bind]
      exact e4
    · have : c + (k + 1) = c + 1 + k := by omega
      rw [this]; exact h2

theorem processLoop_succ (n k c : Nat) (s : TaskState) :
    processLoop input n skip (k + 1) c s =
      (processOffset input n skip c s).bind fun s' => processLoop input n skip k (c + 1) s' := rfl

theorem processLoop_add (n : Nat) : ∀ (k1 k2 c : Nat) (s : TaskState),
    processLoop input n skip (k1 + k2) c s =
      (processLoop input n skip k1 c s).bind fun s' => processLoop input n skip k2 (c + k1) s' := by
  intro k1
  induction k1 with
  | zero => intro k2 c s; simp [processLoop]
  | succ k1 ih =>
    intro k2 c s
    have : k1 + 1 + k2 = (k1 + k2) + 1 := by omega
    rw [this, processLoop_succ, processLoop_succ]
    cases processOffset input n skip c s with
    | none => rfl
    | some s1 =>
      simp only [Option.some_bind]
      rw [ih]
      have : c + 1 + k1 = c + (k1 + 1) := by omega
      rw [this]

theorem reduceResults_eq : ∀ (rs : List JobResult) (cur : BlockRef),
    (∀ r ∈ rs, r.Block ≠ []) →
    reduceResults cur rs = some (rs.foldl (fun acc r => offer acc r.Block) cur) := by
  intro rs
  induction rs with
  | nil => intro cur _; rfl
  | cons r rest ih =>
    intro cur h
    have hr := h r (List.mem_cons_self _ _)
    obtain ⟨b, hb, hbb, -, -⟩ := deref_of_ne_nil hr
    unfold reduceResults
    simp only [hb, Option.bind_eq_bind, Option.some_bind, List.foldl_cons]
    rw [ih _ (fun r' hr' => h r' (List.mem_cons_of_mem _ hr'))]
    simp only [offer, hbb]

theorem merge_nil_right (a : BlockRef) : merge a [] = a := by simp [merge]

theorem dispatchLoop_rel (n maxOffset taskSize : Nat) (hn : skip ≤ n) (hlen : n < input.length)
    (hT : 1 ≤ taskSize) (hmax : maxOffset + 1 ≤ arraySize input limit) :
    ∀ (fuel init : Nat) (s : TaskState) (ot : Optimizer) (results : List JobResult)
      (sfin : TaskState),
    TaskInv input skip limit s n (min init (maxOffset + 1)) → RelO input s.o ot →
    1 ≤ init → maxOffset + 1 ≤ init + fuel →
    s.optimalBlock = results.foldl (fun acc r => offer acc r.Block) [] →
    (∀ r ∈ results, r.Block ≠ [] ∧ r.initialOffset < init) →
    results.Sorted (fun a b => a.initialOffset ≤ b.initialOffset) →
    processLoop input n skip (maxOffset + 1 - min init (maxOffset + 1))
      (min init (maxOffset + 1)) s = some sfin →
    ∃ ot' results', dispatchLoop input n skip maxOffset taskSize fuel init ot results
        = some (ot', results') ∧
      RelO input sfin.o ot' ∧
      sfin.optimalBlock = results'.foldl (fun acc r => offer acc r.Block) [] ∧
      (∀ r ∈ results', r.Block ≠ []) ∧
      results'.Sorted (fun a b => a.initialOffset ≤ b.initialOffset) := by
  intro fuel
  induction fuel with
  | zero =>
    intro init s ot results sfin h hr h1 h2 hob hres hsort hfin
    have e : min init (maxOffset + 1) = maxOffset + 1 := by omega
    rw [e, Nat.sub_self] at hfin
    cases hfin
    exact ⟨ot, results, rfl, hr, hob, fun r hr' => (hres r hr').1, hsort⟩
  | succ fuel ih =>
    intro init s ot results sfin h hr h1 h2 hob hres hsort hfin
    unfold dispatchLoop
    by_cases hi : init ≤ maxOffset
    · rw [if_pos hi]
      have e : min init (maxOffset + 1) = init := by omega
      rw [e] at h hfin
      generalize hf : min (init + taskSize - 1) maxOffset = f
      have hk : maxOffset + 1 - init = (f + 1 - init) + (maxOffset + 1 - (f + 1)) := by omega
      have hrel : Rel input skip n s.optimalBlock s ⟨ot, 2, []⟩ := {
        o := hr
        size := ⟨le_refl _, Or.inl rfl⟩
        bl_ok := by intro k k1 k2; simp only at k2; omega
        ob := (merge_nil_right _).symm }
      obtain ⟨s', t', e1, e2, h', r'⟩ := processLoop_rel (f + 1 - init) h hrel hn hlen h1
        (by omega)
      rw [hk, processLoop_add, e1, Option.some_bind] at hfin
      have e3 : init + (f + 1 - init) = min (init + taskSize) (maxOffset + 1) := by omega
      rw [e3] at hfin h'
      have hpt : processTask ot init f n skip input = some (t'.o, t'.optimalBlock) := by
        unfold processTask
        simp only [e2, Option.bind_eq_bind, Option.some_bind, Option.pure_def]
      simp only [hpt, Option.bind_eq_bind, Option.some_bind]
      have e4 : maxOffset + 1 - (f + 1) = maxOffset + 1 - min (init + taskSize) (maxOffset + 1) := by
        omega
      rw [e4] at hfin
      apply ih (init + taskSize) s' t'.o _ sfin h' r'.o (by omega) (by omega) _ _ _ hfin
      · rw [r'.ob, hob]
        by_cases c : t'.optimalBlock = []
        · rw [if_pos c, c, merge_nil_right]
        · rw [if_neg c, List.foldl_append]
          simp only [List.foldl_cons, List.foldl_nil, merge, if_neg c]
      · intro r hr'
        by_cases c : t'.optimalBlock = []
        · rw [if_pos c] at hr'
          have := hres r hr'
          exact ⟨this.1, by omega⟩
        · rw [if_neg c] at hr'
          rcases List.mem_append.1 hr' with e | e
          · have := hres r e
            exact ⟨this.1, by omega⟩
          · simp only [List.mem_singleton] at e
            subst e
            exact ⟨c, by show init < init + taskSize; omega⟩
      · by_cases c : t'.optimalBlock = []
        · rw [if_pos c]; exact hsort
        · rw [if_neg c]
          unfold List.Sorted
          rw [List.pairwise_append]
          refine ⟨hsort, List.pairwise_singleton _ _, ?_⟩
          intro r1 hr1 r2 hr2
          simp only [List.mem_singleton] at hr2
          subst hr2
          have := (hres r1 hr1).2
          show r1.initialOffset ≤ init
          omega
    · rw [if_neg hi]
      have e : min init (maxOffset + 1) = maxOffset + 1 := by omega
      rw [e, Nat.sub_self] at hfin
      cases hfin
      exact ⟨ot, results, rfl, hr, hob, fun r hr' => (hres r hr').1, hsort⟩

theorem optimizeLoopThreads_rel (threads : Nat) (ht : 2 ≤ threads) :
    ∀ (k : Nat) (o1 o2 : Optimizer) (n : Nat),
    PosInv input skip limit o1 n → RelO input o1 o2 → Fresh o1 n → 1 ≤ limit → skip ≤ n →
    n + k = input.length →
    ∃ o1' o2', optimizeLoop input skip limit k n o1 = some o1' ∧
      optimizeLoopThreads input skip limit threads k n o2 = some o2' ∧
      o2'.optimal = o1'.optimal := by
  intro k
  induction k with
  | zero =>
    intro o1 o2 n _ hr _ _ _ _
    exact ⟨o1, o2, rfl, rfl, hr.opt⟩
  | succ k ih =>
    intro o1 o2 n h hr hf hl hn hk
    have hlen : n < input.length := by omega
    have hmax := offsetCeiling_lt_arraySize limit hlen
    obtain ⟨sfin, e1, h1, o1e⟩ := processLoop_inv (offsetCeiling n limit) h hn hlen (le_refl _)
      (by omega)
    have hpt : processTask o1 1 (offsetCeiling n limit) n skip input
        = some (sfin.o, sfin.optimalBlock) := by
      unfold processTask
      simp only [Nat.add_sub_cancel, e1, Option.bind_eq_bind, Option.some_bind, Option.pure_def]
    have hmin : min 1 (offsetCeiling n limit + 1) = 1 := by omega
    obtain ⟨ot', results', d1, d2, d3, d4, d5⟩ := dispatchLoop_rel n (offsetCeiling n limit)
      (offsetCeiling n limit / threads + 1) hn hlen (Nat.le_add_left 1 _) hmax
      (offsetCeiling n limit) 1 ⟨o1, 2, []⟩ o2 [] sfin
      (by rw [hmin]; exact h) hr (le_refl _) (by omega) rfl (by intro r hr'; cases hr')
      List.sorted_nil (by rw [hmin, Nat.add_sub_cancel]; exact e1)
    have hnl : n < sfin.o.optimal.length := by rw [h1.len_opt]; exact hlen
    have hcur : ot'.optimal[n]? = some [] := by
      rw [d2.opt, o1e, getElem?_of_getD_ne (d := []) (by rw [← o1e]; exact hnl), hf n (le_refl _)]
    rw [Nat.add_comm] at h1
    have hnext := h1.next hl hlen
    obtain ⟨o1', o2', f1, f2, f3⟩ := ih { sfin.o with
        optimal := sfin.o.optimal.set n sfin.optimalBlock }
      { ot' with optimal := ot'.optimal.set n sfin.optimalBlock } (n + 1) hnext
      { ll := d2.ll, lm := d2.lm, ml := d2.ml
        opt := by show ot'.optimal.set _ _ = sfin.o.optimal.set _ _; rw [d2.opt]
        bl_len := d2.bl_len, bl_two := d2.bl_two }
      (by
        intro p hp
        show (sfin.o.optimal.set n sfin.optimalBlock).getD p [] = []
        rw [getD_set_ne _ _ _ (by omega), o1e]
        exact hf p (by omega))
      hl (by omega) (by omega)
    refine ⟨o1', o2', ?_, ?_, f3⟩
    · unfold optimizeLoop
      simp only [hpt, Option.bind_eq_bind, Option.some_bind, store_of_lt _ _ hnl]
      exact f1
    · unfold optimizeLoopThreads
      simp only [if_neg (show ¬ threads = 0 by omega), d1, Option.bind_eq_bind,
        Option.some_bind, List.Sorted.insertionSort_eq d5, hcur,
        reduceResults_eq results' [] d4, ← d3,
        store_of_lt _ _ (show n < ot'.optimal.length by rw [d2.opt]; exact hnl)]
      exact f2

theorem initOptimizer_zero (input : List Byte) (skip : Nat) :
    initOptimizer input skip 0 = none := by
  simp [initOptimizer, offsetCeiling, store, INITIAL_OFFSET]

/-- The thread count does not change what `Optimize` returns. -/
theorem optimize_threads (input : List Byte) (skip limit threads : Nat) (ht : 1 ≤ threads) :
    Optimize input skip limit threads = Optimize input skip limit 1 := by
  by_cases h1 : threads = 1
  · rw [h1]
  · unfold Optimize
    simp only [h1, if_false, if_true, Option.bind_eq_bind]
    by_cases hl : limit = 0
    · subst hl
      rw [initOptimizer_zero]; rfl
    · have hl' : 1 ≤ limit := by omega
      rw [initOptimizer_eq input skip hl']
      simp only [Option.some_bind]
      by_cases hs : skip < input.length
      · have hinv := initState_inv input skip hl'
        obtain ⟨o1', o2', f1, f2, f3⟩ := optimizeLoopThreads_rel threads (by omega)
          (input.length - skip) _ _ skip hinv
          { ll := rfl, lm := rfl, ml := rfl, opt := rfl, bl_len := hinv.len_bl,
            bl_two := hinv.bl_two }
          (by
            intro p _
            show (List.replicate input.length ([] : BlockRef)).getD p [] = []
            simp only [List.getD_eq_getElem?_getD, List.getElem?_replicate]
            split <;> rfl)
          hl' (le_refl _) (by omega)
        rw [f1, f2, Option.some_bind, Option.some_bind, f3]
      · have : input.length - skip = 0 := by omega
        rw [this]
        rfl

/-- With no match in the input, a valid chain of two or more blocks is the root followed
by one literal run. -/
theorem valid_nomatch {c : BlockRef} (hv : Valid input skip limit c) (h2 : 2 ≤ c.length)
    (hno : ∀ i, i < input.length → ∀ O, O ≤ i → skip < i → 1 ≤ O → O ≤ limit →
      input[i]? ≠ input[i - O]?) :
    c = [⟨eliasGammaBits (headIndex c - ((skip : Int) - 1)) + 8 * (headIndex c - ((skip : Int) - 1)),
      headIndex c, 0⟩, ⟨-1, (skip : Int) - 1, INITIAL_OFFSET⟩] := by
  have key : ∀ {b x : Block} {q : BlockRef}, Valid input skip limit (b :: x :: q) →
      b.Offset = 0 := by
    intro b x q hv'
    by_contra hb
    obtain ⟨hx, hrun⟩ := valid_match_run hv' hb
    have h' := valid_cons2.1 hv'
    have h3 := h'.2.2.2
    rw [if_neg hb] at h3
    have hm := hrun b.Index.toNat (by omega) (by omega)
    obtain ⟨m1, m2, a, m3, m4⟩ := matches_iff.1 hm
    exact hno b.Index.toNat (by omega) b.Offset m2 (by omega) (by omega) h3.1 (by rw [m3, m4])
  match c, h2 with
  | b :: x :: q, _ =>
    have hb := key hv
    have h' := valid_cons2.1 hv
    have h3 := h'.2.2.2
    rw [if_pos hb] at h3
    cases q with
    | cons y q' =>
      exact absurd (key h'.1) h3.1
    | nil =>
      have hx : x = ⟨-1, (skip : Int) - 1, INITIAL_OFFSET⟩ := h'.1
      subst hx
      simp only [headIndex]
      congr 1
      cases b with
      | mk bits index offset =>
        simp only at hb h3 ⊢
        subst hb
        congr 1
        rw [h3.2]; ring

theorem byte_or_mask : ∀ (k : Fin 8) (x : Byte), x.val % (2 * 2 ^ k.val) = 0 →
    (toByte (x.val ||| (toByte (2 ^ k.val)).val)).val = x.val + 2 ^ k.val := by
  decide!

theorem byte_and_mask : ∀ (k : Fin 8) (y : Byte),
    (y.val &&& 2 ^ k.val ≠ 0) = (y.val / 2 ^ k.val % 2 = 1) := by
  decide!

theorem toByte_val_of_lt {v : Nat} (h : v < 256) : (toByte (v &&& 0xff)).val = v := by
  have : v &&& 0xff = v % 256 := Nat.and_pow_two_sub_one_eq_mod v 8
  simp [toByte, this, Nat.mod_eq_of_lt h]

theorem toByte_val (x : Byte) : toByte (x.val &&& 0xff) = x := by
  apply Fin.ext
  exact toByte_val_of_lt x.isLt

theorem same_refl (d : Decompressor) : Same d d := ⟨rfl, rfl, rfl, rfl⟩

theorem same_trans {d1 d2 d3 : Decompressor} (h1 : Same d1 d2) (h2 : Same d2 d3) : Same d1 d3 :=
  ⟨h2.1.trans h1.1, h2.2.1.trans h1.2.1, h2.2.2.1.trans h1.2.2.1, h2.2.2.2.trans h1.2.2.2⟩

theorem frame_trans {c1 c2 c3 : Compressor} (h1 : Frame c1 c2) (h2 : Frame c2 c3) : Frame c1 c3 :=
  ⟨h2.len.trans h1.len, h2.inputIndex.trans h1.inputIndex, h2.delta.trans h1.delta,
    h2.reads.trans h1.reads, h2.diff.trans h1.diff, Nat.le_trans h1.oi h2.oi⟩

theorem writeBit_bt_eq (c : Compressor) (b : Bool) (h : WInv c) (hbt : c.backtrack = true) :
    ∃ x x' : Byte, c.output[c.outputIndex - 1]? = some x ∧ x.val % 2 = 0 ∧
      x'.val = x.val + btoi b ∧
      c.writeBit (btoi b) = some { c with output := c.output.set (c.outputIndex - 1) x',
                                          backtrack := false } := by
  obtain ⟨h1, _, x, hx, hx2⟩ := h.bt hbt
  have hlt := lt_length_of_getElem? hx
  have hidx : idx? c.output ((c.outputIndex : Int) - 1) = some x := by
    have : ((c.outputIndex : Int) - 1) = ((c.outputIndex - 1 : Nat) : Int) := by omega
    rw [this, idx?_natCast, hx]
  cases b
  · refine ⟨x, x, hx, hx2, by simp [btoi], ?_⟩
    simp [Compressor.writeBit, hbt, btoi, set_self_of_getElem? hx]
  · have hor := byte_or_mask 0 x (by simpa using hx2)
    refine ⟨x, toByte (x.val ||| (toByte 1).val), hx, hx2, by simpa [btoi] using hor, ?_⟩
    have h2 : ((c.outputIndex : Int) - 1).toNat = c.outputIndex - 1 := by omega
    simp [Compressor.writeBit, hbt, btoi, Compressor.orByte, hidx, store, h2, hlt]

theorem btoi_le_one (b : Bool) : btoi b ≤ 1 := by cases b <;> simp [btoi]

theorem writeBit_bt_spec (c : Compressor) (b : Bool) (h : WInv c) (hbt : c.backtrack = true) :
    ∃ c', c.writeBit (btoi b) = some c' ∧ BitStep c c' b := by
  obtain ⟨x, x', hx, hx2, hx', heq⟩ := writeBit_bt_eq c b h hbt
  obtain ⟨h1, hbi, _⟩ := h.bt hbt
  have hb := btoi_le_one b
  refine ⟨_, heq, ?_, ?_, rfl, ?_, ?_⟩
  · refine ⟨by simpa using h.oi_le, h.mask, ?_, by simp⟩
    intro hm
    obtain ⟨a1, z, hz, hz2⟩ := h.bi hm
    have := hbi hm
    refine ⟨a1, z, ?_, hz2⟩
    show (c.output.set _ _)[c.bitIndex]? = _
    rw [List.getElem?_set_ne (by omega)]; exact hz
  · exact ⟨by simp, rfl, rfl, rfl, rfl, Nat.le_refl _⟩
  · simp [Compressor.bits, Compressor.used, hbt, btoi]
  · intro out ⟨hlen, hag⟩
    have hlen' : out.length = c.output.length := by simpa using hlen
    have key : out[c.outputIndex - 1]? = some x' := by
      obtain ⟨x1, y, e1, e2, e3⟩ := hag (c.outputIndex - 1) (show _ < c.outputIndex by omega)
      have e1' : (c.output.set (c.outputIndex - 1) x')[c.outputIndex - 1]? = some x1 := e1
      rw [List.getElem?_set_self (lt_length_of_getElem? hx)] at e1'
      have : ¬ (c.bitMask ≠ 0 ∧ c.outputIndex - 1 = c.bitIndex) := by
        rintro ⟨hm, e⟩; have := hbi hm; omega
      simp only [this, if_false] at e3
      simp at e3
      rw [e2, e3]; exact e1'.symm
    refine ⟨⟨hlen', ?_⟩, ?_⟩
    · intro i hi
      by_cases e : i = c.outputIndex - 1
      · subst e
        refine ⟨x, x', hx, key, ?_⟩
        have : ¬ (c.bitMask ≠ 0 ∧ c.outputIndex - 1 = c.bitIndex) := by
          rintro ⟨hm, e⟩; have := hbi hm; omega
        rw [if_neg this, if_pos ⟨hbt, by omega⟩]
        omega
      · obtain ⟨x1, y, e1, e2, e3⟩ := hag i hi
        have e1' : (c.output.set (c.outputIndex - 1) x')[i]? = some x1 := e1
        rw [List.getElem?_set_ne (by omega)] at e1'
        refine ⟨x1, y, e1', e2, ?_⟩
        have : ¬ (c.backtrack = true ∧ i + 1 = c.outputIndex) := by
          rintro ⟨_, e'⟩; omega
        rw [if_neg this]
        simpa using e3
    · intro d hs
      have hdb : d.backtrack = true := by rw [hs.bt, hbt]
      have hidx : idx? d.inputData ((d.inputIndex : Int) - 1) = some x' := by
        rw [hs.data, hs.index]
        have : ((c.outputIndex : Int) - 1) = ((c.outputIndex - 1 : Nat) : Int) := by omega
        rw [this, idx?_natCast, key]
      refine ⟨{ d with backtrack := false }, ?_, ?_, same_refl _⟩
      · simp [Decompressor.readBit, hdb, hidx, orPanic]
        omega
      · exact ⟨hs.data, hs.index, rfl, hs.mask0, hs.mask⟩

theorem mask_pow {m : Nat} (h : m = 1 ∨ m = 2 ∨ m = 4 ∨ m = 8 ∨ m = 16 ∨ m = 32 ∨ m = 64 ∨ m = 128) :
    ∃ k : Fin 8, m = 2 ^ k.val := by
  rcases h with h | h | h | h | h | h | h | h <;> subst h
  exacts [⟨0, rfl⟩, ⟨1, rfl⟩, ⟨2, rfl⟩, ⟨3, rfl⟩, ⟨4, rfl⟩, ⟨5, rfl⟩, ⟨6, rfl⟩, ⟨7, rfl⟩]

theorem orByte_mask {output : List Byte} {i m : Nat} {x : Byte} (b : Bool)
    (hm : m = 1 ∨ m = 2 ∨ m = 4 ∨ m = 8 ∨ m = 16 ∨ m = 32 ∨ m = 64 ∨ m = 128)
    (hx : output[i]? = some x) (hx2 : x.val % (2 * m) = 0) :
    ∃ x' : Byte, x'.val = x.val + btoi b * m ∧
      (if btoi b > 0 then Compressor.orByte output (i : Int) m else pure output)
        = some (output.set i x') := by
  obtain ⟨k, rfl⟩ := mask_pow hm
  cases b
  · exact ⟨x, by simp [btoi], by simp [btoi, set_self_of_getElem? hx]⟩
  · refine ⟨toByte (x.val ||| (toByte (2 ^ k.val)).val), ?_, ?_⟩
    · rw [byte_or_mask k x hx2]; simp [btoi]
    · simp [btoi, Compressor.orByte, idx?_natCast, hx, store, lt_length_of_getElem? hx]

theorem writeBit_mask_eq (c : Compressor) (b : Bool) (h : WInv c) (hbt : c.backtrack = false)
    (hm : c.bitMask ≠ 0) :
    ∃ x x' : Byte, c.output[c.bitIndex]? = some x ∧ x.val % (2 * c.bitMask) = 0 ∧
      x'.val = x.val + btoi b * c.bitMask ∧
      c.writeBit (btoi b) = some { c with output := c.output.set c.bitIndex x',
                                          bitMask := c.bitMask >>> 1 } := by
  obtain ⟨_, x, hx, hx2⟩ := h.bi hm
  have hmask : c.bitMask = 1 ∨ c.bitMask = 2 ∨ c.bitMask = 4 ∨ c.bitMask = 8 ∨ c.bitMask = 16 ∨
      c.bitMask = 32 ∨ c.bitMask = 64 ∨ c.bitMask = 128 := by
    have := h.mask; omega
  obtain ⟨x', hx', heq⟩ := orByte_mask b hmask hx hx2
  refine ⟨x, x', hx, hx2, hx', ?_⟩
  unfold Compressor.writeBit
  rw [if_neg (by simp [hbt]), if_neg hm]
  simp only [Option.pure_def, Option.bind_eq_bind, Option.some_bind]
  by_cases hb : btoi b > 0
  · simp only [hb, if_true] at heq ⊢
    rw [heq]; simp [hbt]
  · simp only [hb, if_false] at heq ⊢
    rw [← Option.some.inj heq]

theorem writeBit_new_eq (c : Compressor) (b : Bool) (hbt : c.backtrack = false)
    (hm : c.bitMask = 0) (hoi : c.outputIndex < c.output.length) :
    ∃ x' : Byte, x'.val = btoi b * 128 ∧
      c.writeBit (btoi b) = some { c with output := c.output.set c.outputIndex x',
                                          outputIndex := c.outputIndex + 1,
                                          diff := c.diff - 1,
                                          bitIndex := c.outputIndex,
                                          bitMask := 64 } := by
  have hx : (c.output.set c.outputIndex (toByte (0 &&& 0xff)))[c.outputIndex]? = some 0 := by
    rw [List.getElem?_set_self hoi]; rfl
  obtain ⟨x', hx', heq⟩ := orByte_mask (m := 128) b (by simp) hx (by simp)
  refine ⟨x', by simpa using hx', ?_⟩
  unfold Compressor.writeBit
  rw [if_neg (by simp [hbt]), if_pos hm]
  simp only [Compressor.writeByte, store, hoi, if_true, Option.pure_def, Option.bind_eq_bind,
    Option.some_bind]
  by_cases hb : btoi b > 0
  · simp only [hb, if_true] at heq ⊢
    rw [heq]; simp [hbt]
  · simp only [hb, if_false] at heq ⊢
    have := Option.some.inj heq
    simp at this
    simp [← this]

theorem writeBit_mask_spec (c : Compressor) (b : Bool) (h : WInv c) (hbt : c.backtrack = false)
    (hm : c.bitMask ≠ 0) :
    ∃ c', c.writeBit (btoi b) = some c' ∧ BitStep c c' b := by
  obtain ⟨x, x', hx, hx2, hx', heq⟩ := writeBit_mask_eq c b h hbt hm
  obtain ⟨hbi, _⟩ := h.bi hm
  have hb := btoi_le_one b
  have hlt := lt_length_of_getElem? hx
  have hmask : c.bitMask = 1 ∨ c.bitMask = 2 ∨ c.bitMask = 4 ∨ c.bitMask = 8 ∨ c.bitMask = 16 ∨
      c.bitMask = 32 ∨ c.bitMask = 64 := by
    have := h.mask; omega
  have hoil := h.oi_le
  refine ⟨_, heq, ?_⟩
  clear heq h
  obtain ⟨output, oi, ii, bi, m, diff, bt, delta, reads⟩ := c
  dsimp only at *
  subst hbt
  refine ⟨?_, ?_, rfl, ?_, ?_⟩
  · refine ⟨by simpa using hoil, ?_, ?_, by simp⟩
    · dsimp only
      rcases hmask with e | e | e | e | e | e | e <;> subst e <;> decide
    · intro e0
      dsimp only at e0 ⊢
      refine ⟨hbi, x', ?_, ?_⟩
      · rw [List.getElem?_set_self hlt]
      · rw [hx']
        rcases hmask with e | e | e | e | e | e | e <;> subst e <;>
          simp only [Nat.shiftRight_eq_div_pow] at e0 ⊢ <;> omega
  · exact ⟨by simp, rfl, rfl, rfl, rfl, Nat.le_refl _⟩
  · simp only [Compressor.bits, Compressor.used]
    rcases hmask with e | e | e | e | e | e | e <;> subst e <;>
      simp only [Nat.shiftRight_eq_div_pow, freeBits] <;> omega
  · intro out ⟨hlen, hag⟩
    dsimp only at hlen hag
    have hlen' : out.length = output.length := by simpa using hlen
    have key : ∃ y : Byte, out[bi]? = some y ∧ y.val / m = x'.val / m := by
      obtain ⟨x1, y, e1, e2, e3⟩ := hag bi hbi
      rw [List.getElem?_set_self hlt] at e1
      cases Option.some.inj e1
      refine ⟨y, e2, ?_⟩
      rcases hmask with e | e | e | e | e | e | e <;> subst e <;>
        simp at e3 <;> first | exact e3 | rw [e3]
    obtain ⟨y, hy, hyx⟩ := key
    refine ⟨⟨hlen', ?_⟩, ?_⟩
    · intro i hi
      dsimp only at hi ⊢
      by_cases e : i = bi
      · subst e
        refine ⟨x, y, hx, hy, ?_⟩
        rw [if_pos ⟨hm, rfl⟩]
        rw [hx'] at hyx
        rcases hmask with e | e | e | e | e | e | e <;> subst e <;> omega
      · obtain ⟨x1, y1, e1, e2, e3⟩ := hag i hi
        rw [List.getElem?_set_ne (by omega)] at e1
        refine ⟨x1, y1, e1, e2, ?_⟩
        simpa [e] using e3
    · intro d hs
      have hdb : d.backtrack = false := hs.bt
      obtain ⟨hdm, y0, hy0, hdv⟩ := hs.mask hm
      dsimp only at hdm hy0
      rw [hy] at hy0; cases Option.some.inj hy0
      obtain ⟨k, hk⟩ := mask_pow (m := m) (by omega)
      have hand := byte_and_mask k y
      rw [← hk] at hand
      have hsh : d.bitMask >>> 1 = m := by
        rw [hdm, Nat.shiftRight_eq_div_pow]; omega
      have hbit : (y.val / m % 2 = 1) = (b = true) := by
        rw [hyx, hx']
        apply propext
        cases b <;> simp only [btoi] <;>
          rcases hmask with e | e | e | e | e | e | e <;> subst e <;>
          simp <;> omega
      refine ⟨{ d with bitMask := m }, ?_, ?_, same_refl _⟩
      · rw [hbit] at hand
        unfold Decompressor.readBit
        rw [if_neg (by simp [hdb])]
        simp only [hsh, if_neg hm, hdv]
        cases b
        · have hz : y.val &&& m = 0 := by
            by_contra hc; exact absurd (hand.mp hc) (by simp)
          simp [hz, btoi]; rfl
        · have hz : y.val &&& m ≠ 0 := hand.mpr rfl
          simp [hz, btoi]; rfl
      · refine ⟨hs.data, hs.index, hs.bt, ?_, ?_⟩
        · intro e0
          dsimp only at e0 ⊢
          rw [Nat.shiftRight_eq_div_pow] at e0; omega
        · intro e0
          dsimp only at e0 ⊢
          refine ⟨?_, y, hy, hdv⟩
          rw [Nat.shiftRight_eq_div_pow] at e0 ⊢
          rcases hmask with e | e | e | e | e | e | e <;> subst e <;> omega

theorem writeBit_new_spec (c : Compressor) (b : Bool) (hbt : c.backtrack = false)
    (hm : c.bitMask = 0) (hoi : c.outputIndex < c.output.length) :
    ∃ c', c.writeBit (btoi b) = some c' ∧ BitStep c c' b := by
  obtain ⟨x', hx', heq⟩ := writeBit_new_eq c b hbt hm hoi
  have hb := btoi_le_one b
  refine ⟨_, heq, ?_⟩
  clear heq
  obtain ⟨output, oi, ii, bi, m, diff, bt, delta, reads⟩ := c
  dsimp only at *
  subst hbt hm
  refine ⟨?_, ?_, rfl, ?_, ?_⟩
  · refine ⟨by simpa using hoi, by simp, ?_, by simp⟩
    intro _
    dsimp only
    refine ⟨by omega, x', ?_, by omega⟩
    rw [List.getElem?_set_self hoi]
  · exact ⟨by simp, rfl, rfl, rfl, by dsimp only; omega, by dsimp only; omega⟩
  · simp only [Compressor.bits, Compressor.used, freeBits]
    omega
  · intro out ⟨hlen, hag⟩
    dsimp only at hlen hag
    have hlen' : out.length = output.length := by simpa using hlen
    have key : ∃ y : Byte, out[oi]? = some y ∧ y.val / 128 = btoi b := by
      obtain ⟨x1, y, e1, e2, e3⟩ := hag oi (by omega)
      rw [List.getElem?_set_self hoi] at e1
      cases Option.some.inj e1
      refine ⟨y, e2, ?_⟩
      simp at e3
      omega
    obtain ⟨y, hy, hyx⟩ := key
    refine ⟨⟨hlen', ?_⟩, ?_⟩
    · intro i hi
      dsimp only at hi ⊢
      obtain ⟨x1, y1, e1, e2, e3⟩ := hag i (by omega)
      rw [List.getElem?_set_ne (by omega)] at e1
      refine ⟨x1, y1, e1, e2, ?_⟩
      have : i ≠ oi := by omega
      simpa [this] using e3
    · intro d hs
      have hdb : d.backtrack = false := hs.bt
      have hdm : d.bitMask ≤ 1 := hs.mask0 rfl
      have hsh : d.bitMask >>> 1 = 0 := by
        rw [Nat.shiftRight_eq_div_pow]; omega
      have hrd : d.inputData[d.inputIndex]? = some y := by
        rw [hs.data, hs.index]; exact hy
      have hand : (y.val &&& 128 ≠ 0) = (y.val / 128 % 2 = 1) := byte_and_mask 7 y
      have hylt := y.isLt
      refine ⟨{ d with bitMask := 128, lastByte := y.val, inputIndex := d.inputIndex + 1,
                       bitValue := y.val }, ?_, ?_, same_refl _⟩
      · unfold Decompressor.readBit
        rw [if_neg (by simp [hdb])]
        simp only [hsh, if_true, Decompressor.readByte, hrd, orPanic, bind, Except.bind, pure,
          Except.pure]
        cases b
        · have hz : y.val &&& 128 = 0 := by
            by_contra hc
            have := hand.mp hc
            simp [btoi] at hyx; omega
          simp [hz, btoi]
        · have hz : y.val &&& 128 ≠ 0 := by
            apply hand.mpr
            simp [btoi] at hyx; omega
          simp [hz, btoi]
      · refine ⟨hs.data, by dsimp only; rw [hs.index], hs.bt, by simp, ?_⟩
        intro _
        exact ⟨rfl, y, hy, rfl⟩

theorem writeBit_spec (c : Compressor) (b : Bool) (h : WInv c)
    (cap : c.bits + 1 ≤ 8 * (c.output.length : Int)) :
    ∃ c', c.writeBit (btoi b) = some c' ∧ BitStep c c' b := by
  by_cases hbt : c.backtrack = true
  · exact writeBit_bt_spec c b h hbt
  · have hbt' : c.backtrack = false := by simpa using hbt
    by_cases hm : c.bitMask = 0
    · refine writeBit_new_spec c b hbt' hm ?_
      simp only [Compressor.bits, Compressor.used, hm, freeBits, hbt', btoi] at cap
      simp at cap
      omega
    · exact writeBit_mask_spec c b h hbt' hm

theorem freeBits_le {c : Compressor} (h : WInv c) : freeBits c.bitMask ≤ 7 ∧ freeBits c.bitMask ≤ 8 * c.outputIndex := by
  rcases h.mask with e | e | e | e | e | e | e | e
  · simp [e, freeBits]
  all_goals
    have := (h.bi (by omega)).1
    rw [e]; simp only [freeBits]; omega

theorem room_of_cap {c : Compressor} (h : WInv c) (hbt : c.backtrack = false)
    (cap : c.bits + 8 ≤ 8 * (c.output.length : Int)) : c.outputIndex < c.output.length := by
  have := freeBits_le h
  simp only [Compressor.bits, Compressor.used, hbt, btoi] at cap
  simp at cap
  omega

theorem writeByte_spec (c : Compressor) (v : Nat) (last : Bool) (h : WInv c)
    (hbt : c.backtrack = false) (hv : v < 256) (hev : last = true → v % 2 = 0)
    (cap : c.bits + 8 ≤ 8 * (c.output.length : Int)) :
    ∃ c', c.writeByte v = some c' ∧ ByteStep c { c' with backtrack := last } v last := by
  have hoi := room_of_cap h hbt cap
  have hfree := freeBits_le h
  have hbi := h.bi
  have hval := toByte_val_of_lt hv
  refine ⟨{ c with output := c.output.set c.outputIndex (toByte (v &&& 0xff)),
                   outputIndex := c.outputIndex + 1, diff := c.diff - 1 }, ?_, ?_⟩
  · simp [Compressor.writeByte, store, hoi]
  have hmask := h.mask
  clear h cap
  obtain ⟨output, oi, ii, bi, m, diff, bt, delta, reads⟩ := c
  dsimp only at *
  subst hbt
  refine ⟨?_, ?_, rfl, ?_, ?_⟩
  · refine ⟨by simpa using hoi, hmask, ?_, ?_⟩
    · intro e0
      obtain ⟨h1, x, hx, hx2⟩ := hbi e0
      dsimp only
      refine ⟨by omega, x, ?_, hx2⟩
      rw [List.getElem?_set_ne (by omega)]; exact hx
    · intro e0
      dsimp only at e0 ⊢
      refine ⟨by omega, fun e1 => by have := (hbi e1).1; omega, toByte (v &&& 0xff), ?_, ?_⟩
      · simp [List.getElem?_set_self hoi]
      · rw [hval]; exact hev e0
  · exact ⟨by simp, rfl, rfl, rfl, by dsimp only; omega, by dsimp only; omega⟩
  · simp only [Compressor.bits, Compressor.used, btoi]
    simp
    omega
  · intro out ⟨hlen, hag⟩
    dsimp only at hlen hag
    have hlen' : out.length = output.length := by simpa using hlen
    have key : ∃ y : Byte, out[oi]? = some y ∧ if last then y.val / 2 = v / 2 else y.val = v := by
      obtain ⟨x1, y, e1, e2, e3⟩ := hag oi (by omega)
      rw [List.getElem?_set_self hoi] at e1
      cases Option.some.inj e1
      refine ⟨y, e2, ?_⟩
      have hne : ¬ (m ≠ 0 ∧ oi = bi) := by
        rintro ⟨e1, e2⟩; have := (hbi e1).1; omega
      rw [if_neg hne] at e3
      cases last
      · simp at e3; simp [e3, hval]
      · simp at e3; simp [e3, hval]
    obtain ⟨y, hy, hyx⟩ := key
    refine ⟨⟨hlen', ?_⟩, ?_⟩
    · intro i hi
      dsimp only at hi ⊢
      obtain ⟨x1, y1, e1, e2, e3⟩ := hag i (by omega)
      rw [List.getElem?_set_ne (by omega)] at e1
      refine ⟨x1, y1, e1, e2, ?_⟩
      have : i ≠ oi := by omega
      simpa [this] using e3
    · intro d hs
      have hrd : d.inputData[d.inputIndex]? = some y := by
        rw [hs.data, hs.index]; exact hy
      refine ⟨y.val, { d with lastByte := y.val, inputIndex := d.inputIndex + 1 }, ?_, hyx, ?_,
        same_refl _⟩
      · simp [Decompressor.readByte, hrd, orPanic]
      · exact ⟨hs.data, by dsimp only; rw [hs.index], hs.bt, hs.mask0, hs.mask⟩

theorem and_pow_eq_zero (n p : Nat) : ((n &&& 2 ^ p) == 0) = !n.testBit p := by
  rw [Nat.and_two_pow]
  cases h : n.testBit p <;> simp [Nat.pos_iff_ne_zero.mp (Nat.two_pow_pos p)]

theorem btoi_eq (b : Bool) : btoi b = b.toNat := by cases b <;> rfl

theorem gamma_bit (n p : Nat) (inv : Bool) :
    ((n >>> (p + 1)) <<< 1 ||| btoi (inv == ((n &&& 2 ^ p) == 0))) ^^^ btoi inv = n >>> p := by
  rw [and_pow_eq_zero, btoi_eq, btoi_eq]
  apply Nat.eq_of_testBit_eq
  intro i
  simp only [Nat.testBit_xor, Nat.testBit_or, Nat.testBit_shiftLeft, Nat.testBit_shiftRight,
    Nat.testBit_bool_to_nat]
  cases i with
  | zero => cases inv <;> cases h : n.testBit p <;> simp [h]
  | succ i =>
    have e : p + 1 + i = p + (i + 1) := by omega
    simp [e]

theorem btoi_not_ne (b : Bool) : btoi (!b) ≠ btoi b := by cases b <;> simp [btoi]

theorem gammaPairs_spec (n : Nat) (bw inv : Bool) : ∀ (p fuel : Nat) (c : Compressor), WInv c →
    p ≤ fuel → c.bits + 2 * p + 1 ≤ 8 * (c.output.length : Int) →
    ∃ c', (Compressor.gammaPairs n bw inv fuel (2 ^ p >>> 1) c).bind
        (fun c => c.writeBit (btoi (!bw))) = some c' ∧ GammaStep c c' n p bw inv := by
  intro p
  induction p with
  | zero =>
    intro fuel c h _ cap
    obtain ⟨c', hw, h1, h2, h3, h4, h5⟩ := writeBit_spec c (!bw) h (by omega)
    refine ⟨c', ?_, h1, h2, h3, by omega, ?_⟩
    · have : Compressor.gammaPairs n bw inv fuel (2 ^ 0 >>> 1) c = some c := by
        cases fuel <;> simp [Compressor.gammaPairs]
      rw [this]; exact hw
    · intro out hag
      obtain ⟨ha, hr⟩ := h5 out hag
      refine ⟨ha, ?_⟩
      intro d msb hs hbw _ gfuel hg
      obtain ⟨d', hrd, hs', hsame⟩ := hr d hs
      refine ⟨d', ?_, hs', hsame⟩
      obtain ⟨g, rfl⟩ : ∃ g, gfuel = g + 1 := ⟨gfuel - 1, by omega⟩
      have hne : btoi (!bw) ≠ btoi d'.backwards := by
        rw [hsame.2.2.1, hbw]; exact btoi_not_ne bw
      simp [Decompressor.gammaLoop, hrd, bind, Except.bind, hne, pure, Except.pure]
  | succ p ih =>
    intro fuel c h hf cap
    obtain ⟨f, rfl⟩ : ∃ f, fuel = f + 1 := ⟨fuel - 1, by omega⟩
    obtain ⟨c1, hw1, h11, h12, h13, h14, h15⟩ := writeBit_spec c bw h (by omega)
    obtain ⟨c2, hw2, h21, h22, h23, h24, h25⟩ :=
      writeBit_spec c1 (inv == ((n &&& 2 ^ p) == 0)) h11 (by rw [h12.len]; omega)
    obtain ⟨c', hw3, h31, h32, h33, h34, h35⟩ :=
      ih f c2 h21 (by omega) (by rw [h22.len, h12.len]; omega)
    have hi : 2 ^ (p + 1) >>> 1 = 2 ^ p := by
      rw [Nat.shiftRight_eq_div_pow, pow_succ]; simp
    refine ⟨c', ?_, h31, frame_trans h12 (frame_trans h22 h32), h33, by omega, ?_⟩
    · rw [hi]
      have : 0 < 2 ^ p := Nat.two_pow_pos p
      simp only [Compressor.gammaPairs, this, gt_iff_lt, if_true, hw1, hw2, Option.bind_eq_bind,
        Option.some_bind]
      exact hw3
    · intro out hag
      obtain ⟨ha2, hr3⟩ := h35 out hag
      obtain ⟨ha1, hr2⟩ := h25 out ha2
      obtain ⟨ha, hr1⟩ := h15 out ha1
      refine ⟨ha, ?_⟩
      intro d msb hs hbw hinv gfuel hg
      obtain ⟨g, rfl⟩ : ∃ g, gfuel = g + 1 := ⟨gfuel - 1, by omega⟩
      obtain ⟨d1, hrd1, hs1, hsame1⟩ := hr1 d hs
      obtain ⟨d2, hrd2, hs2, hsame2⟩ := hr2 d1 hs1
      have hsame := same_trans hsame1 hsame2
      obtain ⟨d', hrd3, hs3, hsame3⟩ := hr3 d2 msb hs2 (by rw [hsame.2.2.1, hbw])
        (by rw [hsame.2.2.2, hinv]) g (by omega)
      refine ⟨d', ?_, hs3, same_trans hsame hsame3⟩
      have hb1 : btoi bw = btoi d1.backwards := by rw [hsame1.2.2.1, hbw]
      have hacc : ((n >>> (p + 1)) <<< 1 ||| btoi (inv == ((n &&& 2 ^ p) == 0))) ^^^
          btoi (msb && d2.inverted) = n >>> p := by
        rw [hsame.2.2.2, hinv]; exact gamma_bit n p inv
      simp only [Decompressor.gammaLoop, hrd1, bind, Except.bind, hb1, if_true, hrd2, hacc]
      exact hrd3

theorem log2_zero : Nat.log2 0 = 0 := by
  unfold Nat.log2; simp

theorem gammaTop_eq (n : Nat) : ∀ (fuel j : Nat), 1 ≤ j → j ≤ Nat.log2 n + 1 →
    Nat.log2 n + 1 ≤ fuel + j →
    Compressor.gammaTop fuel (2 ^ j) n = 2 ^ (Nat.log2 n + 1) := by
  intro fuel
  induction fuel with
  | zero =>
    intro j _ h1 h2
    have : j = Nat.log2 n + 1 := by omega
    subst this; rfl
  | succ fuel ih =>
    intro j h0 h1 h2
    unfold Compressor.gammaTop
    by_cases hle : 2 ^ j ≤ n
    · rw [if_pos hle]
      have hn : n ≠ 0 := by
        have := Nat.two_pow_pos j; omega
      have hj : j ≤ Nat.log2 n := (Nat.le_log2 hn).2 hle
      have e : 2 ^ j <<< 1 = 2 ^ (j + 1) := by
        simp [Nat.shiftLeft_eq, pow_succ]
      rw [e]
      exact ih (j + 1) (by omega) (by omega) (by omega)
    · rw [if_neg hle]
      have : j = Nat.log2 n + 1 := by
        by_contra hc
        have hj : j ≤ Nat.log2 n := by omega
        by_cases hn : n = 0
        · subst hn
          have := log2_zero
          omega
        · exact hle ((Nat.le_log2 hn).1 hj)
      rw [this]

theorem log2_le_self (n : Nat) : Nat.log2 n ≤ n := by
  by_cases hn : n = 0
  · subst hn; rw [log2_zero]
  · have := Nat.log2_self_le hn
    have := @Nat.lt_two_pow (Nat.log2 n)
    omega

theorem shiftRight_log2 {n : Nat} (hn : 1 ≤ n) : n >>> Nat.log2 n = 1 := by
  rw [Nat.shiftRight_eq_div_pow]
  have h1 := Nat.log2_self_le (n := n) (by omega)
  have h2 := lt_two_pow_log2 n
  rw [pow_succ] at h2
  exact Nat.div_eq_of_lt_le (by omega) (by omega)

theorem bits_ge (c : Compressor) : -1 ≤ c.bits := by
  have := btoi_le_one c.backtrack
  simp only [Compressor.bits]; omega

theorem gamma_spec (c : Compressor) (value : Int) (bw inv : Bool) (hv : 1 ≤ value) (h : WInv c)
    (cap : c.bits + eliasGammaBits value ≤ 8 * (c.output.length : Int)) :
    ∃ c', c.writeInterlacedEliasGamma value bw inv = some c' ∧ CodeStep c c' value bw inv := by
  rw [eliasGammaBits_eq] at cap
  have htop : Compressor.gammaTop value.toNat 2 value.toNat = 2 ^ (Nat.log2 value.toNat + 1) :=
    gammaTop_eq value.toNat value.toNat 1 (by omega) (by omega) (by have := log2_le_self value.toNat; omega)
  have hi : 2 ^ (Nat.log2 value.toNat + 1) >>> 1 = 2 ^ Nat.log2 value.toNat := by
    rw [Nat.shiftRight_eq_div_pow, pow_succ]; simp
  have hfuel : Nat.log2 value.toNat ≤ 2 ^ Nat.log2 value.toNat >>> 1 := by
    rw [Nat.shiftRight_eq_div_pow]
    cases Nat.log2 value.toNat with
    | zero => simp
    | succ k =>
      rw [pow_succ]; simp
      exact @Nat.lt_two_pow k
  obtain ⟨c', hw, h1, h2, h3, h4, h5⟩ := gammaPairs_spec value.toNat bw inv
    (Nat.log2 value.toNat) (2 ^ Nat.log2 value.toNat >>> 1) c h hfuel (by omega)
  refine ⟨c', ?_, h1, h2, h3, by rw [eliasGammaBits_eq]; omega, ?_⟩
  · unfold Compressor.writeInterlacedEliasGamma
    simp only [htop, hi]
    exact hw
  · intro out hag
    obtain ⟨ha, hr⟩ := h5 out hag
    refine ⟨ha, ?_⟩
    intro d msb hs hbw hinv
    have hb := bits_ge c
    have hlen : d.inputData.length = c.output.length := by
      rw [hs.data, ha.1]
    obtain ⟨d', hrd, hs', hsame⟩ := hr d msb hs hbw hinv (4 * d.inputData.length + 2)
      (by rw [hlen]; omega)
    refine ⟨d', ?_, hs', hsame⟩
    unfold Decompressor.readInterlacedEliasGamma
    rw [shiftRight_log2 (by omega)] at hrd
    exact hrd

theorem core_eq {c c' : Compressor} (e : c'.core = c.core) :
    c'.output = c.output ∧ c'.outputIndex = c.outputIndex ∧ c'.bitIndex = c.bitIndex ∧
      c'.bitMask = c.bitMask ∧ c'.backtrack = c.backtrack := by
  simp only [Compressor.core, Prod.mk.injEq] at e
  exact e

theorem winv_of_core {c c' : Compressor} (h : WInv c) (e : c'.core = c.core) : WInv c' := by
  obtain ⟨e1, e2, e3, e4, e5⟩ := core_eq e
  obtain ⟨h1, h2, h3, h4⟩ := h
  refine ⟨?_, ?_, ?_, ?_⟩
  · rw [e1, e2]; exact h1
  · rw [e4]; exact h2
  · rw [e1, e2, e3, e4]; exact h3
  · rw [e1, e2, e3, e4, e5]; exact h4

theorem agree_of_core {c c' : Compressor} {out : List Byte} (h : Agree c out)
    (e : c'.core = c.core) : Agree c' out := by
  obtain ⟨e1, e2, e3, e4, e5⟩ := core_eq e
  unfold Agree at h ⊢
  rw [e1, e2, e3, e4, e5]; exact h

theorem sync_of_core {c c' : Compressor} {d : Decompressor} {out : List Byte} (h : Sync c d out)
    (e : c'.core = c.core) : Sync c' d out := by
  obtain ⟨e1, e2, e3, e4, e5⟩ := core_eq e
  obtain ⟨h1, h2, h3, h4, h5⟩ := h
  refine ⟨h1, ?_, ?_, ?_, ?_⟩
  · rw [e2]; exact h2
  · rw [e5]; exact h3
  · rw [e4]; exact h4
  · rw [e3, e4]; exact h5

theorem bits_of_core {c c' : Compressor} (e : c'.core = c.core) : c'.bits = c.bits := by
  obtain ⟨e1, e2, e3, e4, e5⟩ := core_eq e
  simp only [Compressor.bits, Compressor.used, e2, e4, e5]

theorem readBytes_core (c : Compressor) (n : Int) : (c.readBytes n).core = c.core := by
  unfold Compressor.readBytes
  dsimp only
  split <;> rfl

theorem readBytes_inputIndex (c : Compressor) (n : Int) :
    (c.readBytes n).inputIndex = c.inputIndex + n := by
  unfold Compressor.readBytes
  dsimp only
  split <;> rfl

theorem growth_append (outLen inputLen : Nat) (reads : List (Nat × Int)) (w : Nat) (r : Int) :
    growth outLen inputLen (reads ++ [(w, r)]) =
      max (growth outLen inputLen reads) (((outLen : Int) - w) - ((inputLen : Int) - r)) := by
  simp [growth, List.foldl_append]

theorem DeltaInv.readBytes {inputLen : Nat} {c : Compressor} (h : DeltaInv inputLen c) (n : Int) :
    DeltaInv inputLen (c.readBytes n) := by
  obtain ⟨h1, h2⟩ := h
  unfold Compressor.readBytes
  dsimp only
  split
  · rename_i hlt
    refine ⟨by dsimp only; omega, ?_⟩
    dsimp only
    rw [growth_append, ← h2]
    omega
  · rename_i hlt
    refine ⟨by dsimp only; omega, ?_⟩
    dsimp only
    rw [growth_append, ← h2]
    omega

theorem deltaInv_frame {inputLen : Nat} {c c' : Compressor} (h : DeltaInv inputLen c)
    (f : Frame c c') : DeltaInv inputLen c' := by
  obtain ⟨h1, h2⟩ := h
  obtain ⟨f1, f2, f3, f4, f5, f6⟩ := f
  refine ⟨?_, ?_⟩
  · rw [f1, f2]; omega
  · rw [f1, f3, f4]; exact h2

theorem Sync.of_reader {c : Compressor} {d d2 : Decompressor} {out : List Byte} (h : Sync c d out)
    (e1 : d2.inputData = d.inputData) (e2 : d2.inputIndex = d.inputIndex)
    (e3 : d2.bitMask = d.bitMask) (e4 : d2.bitValue = d.bitValue)
    (e5 : d2.backtrack = d.backtrack) : Sync c d2 out := by
  obtain ⟨h1, h2, h3, h4, h5⟩ := h
  refine ⟨?_, ?_, ?_, ?_, ?_⟩
  · rw [e1]; exact h1
  · rw [e2]; exact h2
  · rw [e5]; exact h3
  · rw [e3]; exact h4
  · rw [e3, e4]; exact h5

theorem writeByte_plain (c : Compressor) (v : Nat) (h : WInv c)
    (hbt : c.backtrack = false) (hv : v < 256)
    (cap : c.bits + 8 ≤ 8 * (c.output.length : Int)) :
    ∃ c', c.writeByte v = some c' ∧ ByteStep c c' v false := by
  obtain ⟨c', hw, hs⟩ := writeByte_spec c v false h hbt hv (by simp) cap
  refine ⟨c', hw, ?_⟩
  have hb : c'.backtrack = false := by
    unfold Compressor.writeByte at hw
    cases hst : store c.output c.outputIndex (toByte (v &&& 0xff)) with
    | none => simp [hst] at hw
    | some o =>
      simp [hst] at hw
      rw [← hw]; exact hbt
  have e : { c' with backtrack := false } = c' := by
    cases c'; simp at hb; simp [hb]
  rw [e] at hs
  obtain ⟨h1, h2, h3, h4, h5⟩ := hs
  refine ⟨h1, h2, h3, h4, ?_⟩
  intro out hag
  obtain ⟨ha, hr⟩ := h5 out hag
  refine ⟨ha, ?_⟩
  intro d hsy
  exact hr d hsy

theorem copyLiteral_spec (input : List Byte) : ∀ (n : Nat) (c : Compressor) (i : Nat), WInv c →
    c.backtrack = false → DeltaInv input.length c → c.inputIndex = (i : Int) →
    i + n ≤ input.length → c.bits + 8 * n ≤ 8 * (c.output.length : Int) →
    ∃ c', Compressor.copyLiteralValues input n c = some c' ∧ LitStep input c c' i n := by
  intro n
  induction n with
  | zero =>
    intro c i h hbt hd hi _ _
    refine ⟨c, rfl, h, hbt, hd, by simp, rfl, by simpa using hi, ?_⟩
    intro out hag
    refine ⟨hag, ?_⟩
    intro d hs
    exact ⟨d, rfl, hs, by simp, rfl, rfl, rfl⟩
  | succ n ih =>
    intro c i h hbt hd hi hlen cap
    have hlt : i < input.length := by omega
    have hb : idx? input c.inputIndex = some input[i] := by
      rw [hi, idx?_natCast, List.getElem?_eq_getElem hlt]
    obtain ⟨c1, hw, h1, h2, h3, h4, h5⟩ :=
      writeByte_plain c input[i].val h hbt input[i].isLt (by omega)
    have hcore := readBytes_core c1 1
    have hbits : (c1.readBytes 1).bits = c.bits + 8 := by
      rw [bits_of_core hcore, h4]; simp [btoi]
    have hlen1 : (c1.readBytes 1).output.length = c.output.length := by
      rw [(core_eq hcore).1, h2.len]
    obtain ⟨c', hw', g1, g2, g3, g4, g5, g6, g7⟩ := ih (c1.readBytes 1) (i + 1)
      (winv_of_core h1 hcore) (by rw [(core_eq hcore).2.2.2.2]; exact h3)
      ((deltaInv_frame hd h2).readBytes 1)
      (by rw [readBytes_inputIndex, h2.inputIndex, hi]; push_cast; ring)
      (by omega) (by rw [hbits, hlen1]; omega)
    refine ⟨c', ?_, g1, g2, g3, ?_, g5.trans hlen1, ?_, ?_⟩
    · simp only [Compressor.copyLiteralValues, hb, hw, Option.bind_eq_bind, Option.some_bind]
      exact hw'
    · rw [g4, hbits]; push_cast; ring
    · rw [g6]; push_cast; ring
    · intro out hag
      obtain ⟨ha1, hr2⟩ := g7 out hag
      obtain ⟨ha, hr1⟩ := h5 out (agree_of_core ha1 hcore.symm)
      refine ⟨ha, ?_⟩
      intro d hs
      obtain ⟨y, d1, hrd, hy, hs1, hsame⟩ := hr1 d hs
      simp only [Bool.false_eq_true, if_false] at hy
      have hs2 : Sync (c1.readBytes 1) (d1.writeByte y) out :=
        (sync_of_core hs1 (hcore.trans (by simp [Compressor.core, h3]))).of_reader rfl rfl rfl rfl rfl
      obtain ⟨d', hrd', hs', ho, hl, hbw, hiv⟩ := hr2 (d1.writeByte y) hs2
      refine ⟨d', ?_, hs', ?_, ?_, ?_, ?_⟩
      · simp only [Decompressor.copyLiteralBytes, hrd, bind, Except.bind]
        exact hrd'
      · rw [ho]
        show (d1.output ++ [toByte (y &&& 0xff)]) ++ _ = _
        rw [hsame.1, hy, toByte_val, List.append_assoc]
        congr 1
        rw [List.drop_eq_getElem_cons hlt, List.take_succ_cons]
        rfl
      · rw [hl]; exact hsame.2.1
      · rw [hbw]; exact hsame.2.2.1
      · rw [hiv]; exact hsame.2.2.2

theorem emitBlock_eq (input : List Byte) (bw inv : Bool) (prev cur : Block) (lo : Nat)
    (c : Compressor) :
    Compressor.emitBlock input bw inv prev cur lo c =
      (c.writeBit (btoi (indicator cur lo))).bind (emitBody input bw inv prev cur lo) := by
  unfold Compressor.emitBlock emitBody indicator
  by_cases h1 : cur.Offset = 0
  · simp [h1, btoi]
  · by_cases h2 : cur.Offset = lo
    · subst h2
      simp [h1, btoi]
    · simp [h1, h2, btoi]

theorem emitRest_nil (input : List Byte) (bw inv : Bool) (prev : Block) (lo : Nat)
    (c : Compressor) :
    emitRest input bw inv prev [] lo c =
      (c.writeBit (btoi (nextBit [] lo))).bind
        (fun c => c.writeInterlacedEliasGamma 256 bw inv) := by
  simp [emitRest, Compressor.emitLoop, nextBit, btoi]

theorem emitRest_cons (input : List Byte) (bw inv : Bool) (prev cur : Block) (rest : List Block)
    (lo : Nat) (c : Compressor) :
    emitRest input bw inv prev (cur :: rest) lo c =
      (c.writeBit (btoi (nextBit (cur :: rest) lo))).bind (fun c =>
        (emitBody input bw inv prev cur lo c).bind
          (fun r => emitRest input bw inv cur rest r.2 r.1)) := by
  simp only [emitRest, Compressor.emitLoop, nextBit, emitBlock_eq, Option.bind_eq_bind]
  cases c.writeBit (btoi (indicator cur lo)) with
  | none => rfl
  | some c1 =>
    simp only [Option.some_bind]
    cases emitBody input bw inv prev cur lo c1 with
    | none => rfl
    | some r => rfl

theorem btoi_eq_zero (b : Bool) : (btoi b = 0) = (b = false) := by
  cases b <;> simp [btoi]

theorem literal_step (input : List Byte) (bw inv : Bool) (prev cur : Block) (lo : Nat) (nb : Bool)
    (c : Compressor) (h : AtBlock input c prev) (h0 : cur.Offset = 0) (hidx : -1 ≤ prev.Index)
    (hlt : prev.Index < cur.Index) (hlen : cur.Index < input.length)
    (hbits : cur.Bits = prev.Bits + 1 + eliasGammaBits (cur.Index - prev.Index)
      + (cur.Index - prev.Index) * 8)
    (cap : cur.Bits + 1 ≤ 8 * (c.output.length : Int)) :
    ∃ c2 c3, emitBody input bw inv prev cur lo c = some (c2, lo) ∧
      c2.writeBit (btoi nb) = some c3 ∧
      BlockStep input bw inv c c3 prev cur lo lo .COPY_LITERALS
        (if nb then .COPY_FROM_NEW_OFFSET else .COPY_FROM_LAST_OFFSET) := by
  have hpos := eliasGammaBits_pos (cur.Index - prev.Index)
  obtain ⟨c1, hw1, a1, a2, a3, a4, a5⟩ := gamma_spec c (cur.Index - prev.Index) bw false
    (by omega) h.winv (by rw [h.bits]; omega)
  obtain ⟨c2, hw2, b1, b2, b3, b4, b5, b6, b7⟩ := copyLiteral_spec input
    (cur.Index - prev.Index).toNat c1 (prev.Index + 1).toNat a1 a3 (deltaInv_frame h.dinv a2)
    (by rw [a2.inputIndex, h.inputIndex]; omega) (by omega)
    (by rw [a4, h.bits, a2.len]; omega)
  obtain ⟨c3, hw3, e1, e2, e3, e4, e5⟩ := writeBit_spec c2 nb b1
    (by rw [b4, a4, h.bits, b5, a2.len]; omega)
  refine ⟨c2, c3, ?_, hw3, ⟨e1, e3, deltaInv_frame b3 e2, ?_, ?_⟩, ?_, ?_⟩
  · simp only [emitBody, h0, if_true, hw1, hw2, Option.bind_eq_bind, Option.some_bind,
      Option.pure_def]
  · rw [e2.inputIndex, b6]; omega
  · rw [e4, b4, a4, h.bits]; omega
  · rw [e2.len, b5, a2.len]
  · intro out hag
    obtain ⟨ag2, r3⟩ := e5 out hag
    obtain ⟨ag1, r2⟩ := b7 out ag2
    obtain ⟨ag, r1⟩ := a5 out ag1
    refine ⟨ag, ?_⟩
    intro d hs hd _
    obtain ⟨d1, rd1, s1, m1⟩ := r1 d false hs hd.backwards (by simp)
    obtain ⟨d2, rd2, s2, o2, l2, bw2, iv2⟩ := r2 d1 s1
    obtain ⟨d3, rd3, s3, m3⟩ := r3 d2 s2
    refine ⟨d3, ?_, s3, ?_, ?_, ?_, ?_⟩
    · simp only [State.Process, rd1, rd2, rd3, bind, Except.bind, btoi_eq_zero]
      cases nb <;> simp [pure, Except.pure]
    · rw [m3.1, o2, m1.1, hd.output, ← List.take_add]
      congr 1; omega
    · rw [m3.2.1, l2, m1.2.1, hd.lastOffset]
    · rw [m3.2.2.1, bw2, m1.2.2.1, hd.backwards]
    · rw [m3.2.2.2, iv2, m1.2.2.2, hd.inverted]

theorem copyBytes_spec (input : List Byte) (O : Nat) (hO : 1 ≤ O) : ∀ (n : Nat) (d : Decompressor)
    (p : Nat), d.output = input.take p → d.lastOffset = (O : Int) → p + n ≤ input.length →
    (∀ j, p ≤ j → j < p + n → O ≤ j ∧ input[j]? = input[j - O]?) →
    d.copyBytes n = .ok { d with output := input.take (p + n) } := by
  intro n
  induction n with
  | zero =>
    intro d p ho _ _ _
    simp only [Decompressor.copyBytes, Nat.add_zero, ← ho]
    rfl
  | succ n ih =>
    intro d p ho hl hlen hc
    obtain ⟨h1, h2⟩ := hc p (Nat.le_refl _) (by omega)
    have hp : p < input.length := by omega
    have hlen' : d.output.length = p := by
      rw [ho, List.length_take]; omega
    have hrd : idx? d.output ((d.output.length : Int) - d.lastOffset) = some input[p] := by
      rw [hlen', hl, idx?_sub _ _ _ h1, ho, List.getElem?_take_of_lt (by omega), ← h2,
        List.getElem?_eq_getElem hp]
    have hnext := ih { d with output := d.output ++ [input[p]] } (p + 1)
      (by
        show d.output ++ [input[p]] = _
        rw [ho, List.take_succ, List.getElem?_eq_getElem hp]; rfl)
      hl (by omega) (fun j hj1 hj2 => hc j (by omega) (by omega))
    simp only [Decompressor.copyBytes, hrd, orPanic, bind, Except.bind]
    rw [hnext]
    have : p + 1 + n = p + (n + 1) := by omega
    rw [this]

theorem reuse_step (input : List Byte) (bw inv : Bool) (prev cur : Block) (lo : Nat) (nb : Bool)
    (c : Compressor) (h : AtBlock input c prev) (h0 : cur.Offset ≠ 0) (h1 : cur.Offset = lo)
    (hidx : -1 ≤ prev.Index)
    (hlt : prev.Index < cur.Index) (hlen : cur.Index < input.length)
    (hcopy : Copyable input prev.Index cur.Index cur.Offset)
    (hbits : cur.Bits = prev.Bits + 1 + eliasGammaBits (cur.Index - prev.Index))
    (cap : cur.Bits + 1 ≤ 8 * (c.output.length : Int)) :
    ∃ c2 c3, emitBody input bw inv prev cur lo c = some (c2, lo) ∧
      c2.writeBit (btoi nb) = some c3 ∧
      BlockStep input bw inv c c3 prev cur lo lo .COPY_FROM_LAST_OFFSET
        (if nb then .COPY_FROM_NEW_OFFSET else .COPY_LITERALS) := by
  subst h1
  obtain ⟨c1, hw1, a1, a2, a3, a4, a5⟩ := gamma_spec c (cur.Index - prev.Index) bw false
    (by omega) h.winv (by rw [h.bits]; omega)
  have hcore := readBytes_core c1 (cur.Index - prev.Index)
  have hbits2 : (c1.readBytes (cur.Index - prev.Index)).bits = cur.Bits := by
    rw [bits_of_core hcore, a4, h.bits]; omega
  have hlen2 : (c1.readBytes (cur.Index - prev.Index)).output.length = c.output.length := by
    rw [(core_eq hcore).1, a2.len]
  obtain ⟨c3, hw3, e1, e2, e3, e4, e5⟩ := writeBit_spec (c1.readBytes (cur.Index - prev.Index)) nb
    (winv_of_core a1 hcore) (by rw [hbits2, hlen2]; omega)
  refine ⟨_, c3, ?_, hw3, ⟨e1, e3, deltaInv_frame ((deltaInv_frame h.dinv a2).readBytes _) e2, ?_, ?_⟩, ?_, ?_⟩
  · simp only [emitBody, h0, if_true, if_false, hw1, Option.bind_eq_bind, Option.some_bind,
      Option.pure_def]
  · rw [e2.inputIndex, readBytes_inputIndex, a2.inputIndex, h.inputIndex]; omega
  · rw [e4, hbits2]
  · rw [e2.len, hlen2]
  · intro out hag
    obtain ⟨ag2, r3⟩ := e5 out hag
    obtain ⟨ag, r1⟩ := a5 out (agree_of_core ag2 hcore.symm)
    refine ⟨ag, ?_⟩
    intro d hs hd _
    obtain ⟨d1, rd1, s1, m1⟩ := r1 d false hs hd.backwards (by simp)
    have hp : (prev.Index + 1).toNat + (cur.Index - prev.Index).toNat = (cur.Index + 1).toNat := by
      omega
    have rd2 := copyBytes_spec input cur.Offset (by omega) (cur.Index - prev.Index).toNat d1
      (prev.Index + 1).toNat (by rw [m1.1, hd.output]) (by rw [m1.2.1, hd.lastOffset])
      (by omega) (fun j hj1 hj2 => by
        exact hcopy j (by omega) (by omega))
    rw [hp] at rd2
    obtain ⟨d3, rd3, s3, m3⟩ := r3 { d1 with output := input.take (cur.Index + 1).toNat }
      ((sync_of_core s1 hcore).of_reader rfl rfl rfl rfl rfl)
    refine ⟨d3, ?_, s3, ?_, ?_, ?_, ?_⟩
    · simp only [State.Process, rd1, rd2, rd3, bind, Except.bind, btoi_eq_zero]
      cases nb <;> simp [pure, Except.pure]
    · rw [m3.1]
    · rw [m3.2.1]; show d1.lastOffset = _; rw [m1.2.1, hd.lastOffset]
    · rw [m3.2.2.1]; show d1.backwards = _; rw [m1.2.2.1, hd.backwards]
    · rw [m3.2.2.2]; show d1.inverted = _; rw [m1.2.2.2, hd.inverted]

theorem Sync.transfer {c c2 : Compressor} {d d2 : Decompressor} {out : List Byte}
    (h : Sync c d out) (e2 : c2.outputIndex = c.outputIndex) (e3 : c2.bitIndex = c.bitIndex)
    (e4 : c2.bitMask = c.bitMask) (f1 : d2.inputData = d.inputData)
    (f2 : d2.inputIndex = d.inputIndex) (f3 : d2.bitMask = d.bitMask)
    (f4 : d2.bitValue = d.bitValue) (f5 : d2.backtrack = c2.backtrack) : Sync c2 d2 out := by
  obtain ⟨h1, h2, h3, h4, h5⟩ := h
  refine ⟨?_, ?_, f5, ?_, ?_⟩
  · rw [f1]; exact h1
  · rw [f2, e2]; exact h2
  · rw [f3, e4]; exact h4
  · rw [f3, f4, e3, e4]; exact h5

theorem lsb_facts (bw : Bool) (O : Nat) :
    let v := (btoi bw * ((O - 1) % 128)) <<< 1 + (btoi (!bw) * (127 - (O - 1) % 128)) <<< 1
    v < 256 ∧ v % 2 = 0 ∧
      v / 2 = if bw then (O - 1) % 128 else 127 - (O - 1) % 128 := by
  have := Nat.mod_lt (O - 1) (show 128 > 0 by decide)
  cases bw <;> simp [btoi, Nat.shiftLeft_eq] <;> omega

theorem process_new_eq (d : Decompressor) :
    State.Process .COPY_FROM_NEW_OFFSET d = (do
      let (msb, d) ← d.readInterlacedEliasGamma true
      if msb = 256 then pure (.COPY_END, d) else
      let (b, d) ← d.readByte
      let d := { d with lastOffset := newOffsetOf d.backwards msb b, backtrack := true }
      let (length, d) ← d.readInterlacedEliasGamma false
      let d ← d.copyBytes (length + 1)
      let (bit, d) ← d.readBit
      if bit = 0 then pure (.COPY_LITERALS, d) else pure (.COPY_FROM_NEW_OFFSET, d)) := by
  simp only [State.Process, bind, Except.bind, pure, Except.pure]
  cases d.readInterlacedEliasGamma true with
  | error e => rfl
  | ok v =>
    obtain ⟨msb, d1⟩ := v
    dsimp only
    by_cases hm : msb = 256
    · simp only [hm, if_true]
    · simp only [hm, if_false]
      cases d1.readByte with
      | error e => rfl
      | ok w =>
        obtain ⟨b, d2⟩ := w
        dsimp only
        cases hb : d2.backwards <;>
          simp only [newOffsetOf, Bool.false_eq_true, if_false, if_true, Nat.cast_ofNat]

theorem newoff_step (input : List Byte) (bw inv : Bool) (prev cur : Block) (lo : Nat) (nb : Bool)
    (c : Compressor) (h : AtBlock input c prev) (h0 : cur.Offset ≠ 0) (h1 : cur.Offset ≠ lo)
    (hidx : -1 ≤ prev.Index)
    (hlt : prev.Index + 2 ≤ cur.Index) (hlen : cur.Index < input.length)
    (hcopy : Copyable input prev.Index cur.Index cur.Offset)
    (hbits : cur.Bits = prev.Bits + 8 + eliasGammaBits (((cur.Offset - 1) / 128 + 1 : Nat) : Int)
      + eliasGammaBits (cur.Index - prev.Index - 1))
    (cap : cur.Bits + 1 ≤ 8 * (c.output.length : Int)) :
    ∃ c2 c3, emitBody input bw inv prev cur lo c = some (c2, cur.Offset) ∧
      c2.writeBit (btoi nb) = some c3 ∧
      BlockStep input bw inv c c3 prev cur lo cur.Offset .COPY_FROM_NEW_OFFSET
        (if nb then .COPY_FROM_NEW_OFFSET else .COPY_LITERALS) := by
  have hp1 := eliasGammaBits_pos (((cur.Offset - 1) / 128 + 1 : Nat) : Int)
  have hp2 := eliasGammaBits_pos (cur.Index - prev.Index - 1)
  obtain ⟨hv, hev, hhalf⟩ := lsb_facts bw cur.Offset
  obtain ⟨c1, hw1, a1, a2, a3, a4, a5⟩ := gamma_spec c (((cur.Offset - 1) / 128 + 1 : Nat) : Int)
    bw inv (by omega) h.winv (by rw [h.bits]; omega)
  obtain ⟨cb, hwb, b1, b2, b3, b4, b5⟩ := writeByte_spec c1 _ true a1 a3 hv (fun _ => hev)
    (by rw [a4, h.bits, a2.len]; omega)
  have b4' : Compressor.bits { cb with backtrack := true } = c1.bits + 7 := by
    rw [b4]; simp [btoi]; omega
  obtain ⟨cg, hw2, g1, g2, g3, g4, g5⟩ := gamma_spec { cb with backtrack := true }
    (cur.Index - prev.Index - 1) bw false (by omega) b1
    (by rw [b4', a4, h.bits, b2.len, a2.len]; omega)
  have hcore := readBytes_core cg (cur.Index - prev.Index)
  have hbits2 : (cg.readBytes (cur.Index - prev.Index)).bits = cur.Bits := by
    rw [bits_of_core hcore, g4, b4', a4, h.bits]; omega
  have hlen2 : (cg.readBytes (cur.Index - prev.Index)).output.length = c.output.length := by
    rw [(core_eq hcore).1, g2.len, b2.len, a2.len]
  obtain ⟨c3, hw3, e1, e2, e3, e4, e5⟩ := writeBit_spec (cg.readBytes (cur.Index - prev.Index)) nb
    (winv_of_core g1 hcore) (by rw [hbits2, hlen2]; omega)
  refine ⟨_, c3, ?_, hw3,
    ⟨e1, e3, deltaInv_frame ((deltaInv_frame (deltaInv_frame (deltaInv_frame h.dinv a2) b2) g2).readBytes _) e2, ?_, ?_⟩, ?_, ?_⟩
  · simp only [emitBody, h0, h1, if_false, hw1, hwb, hw2, Option.bind_eq_bind, Option.some_bind,
      Option.pure_def]
  · rw [e2.inputIndex, readBytes_inputIndex, g2.inputIndex, b2.inputIndex, a2.inputIndex,
      h.inputIndex]; omega
  · rw [e4, hbits2]
  · rw [e2.len, hlen2]
  · intro out hag
    obtain ⟨ag3, r4⟩ := e5 out hag
    obtain ⟨ag2, r3⟩ := g5 out (agree_of_core ag3 hcore.symm)
    obtain ⟨ag1, r2⟩ := b5 out ag2
    obtain ⟨ag, r1⟩ := a5 out ag1
    refine ⟨ag, ?_⟩
    intro d hs hd hlim
    obtain ⟨d1, rd1, s1, m1⟩ := r1 d true hs hd.backwards (by simp [hd.inverted])
    obtain ⟨y, d2, rd2, hy, s2, m2⟩ := r2 d1 s1
    simp only [if_true] at hy
    have m12 := same_trans m1 m2
    have hbw2 : d2.backwards = bw := by rw [m12.2.2.1, hd.backwards]
    rw [Int.toNat_ofNat] at rd1
    have hX : newOffsetOf d2.backwards ((cur.Offset - 1) / 128 + 1) y = (cur.Offset : Int) := by
      unfold newOffsetOf
      rw [Nat.shiftRight_eq_div_pow, pow_one, hy, hhalf, hbw2]
      have := Nat.mod_lt (cur.Offset - 1) (show 128 > 0 by decide)
      have := Nat.div_add_mod (cur.Offset - 1) 128
      cases bw
      · simp only [Bool.false_eq_true, if_false]; omega
      · simp only [if_true]; omega
    obtain ⟨d3, rd3, s3, m3⟩ := r3 { d2 with lastOffset := (cur.Offset : Int), backtrack := true }
      false (s2.transfer rfl rfl rfl rfl rfl rfl rfl rfl) hbw2 (by simp)
    have hp : (prev.Index + 1).toNat + ((cur.Index - prev.Index - 1).toNat + 1)
        = (cur.Index + 1).toNat := by omega
    have rd4 := copyBytes_spec input cur.Offset (by omega) ((cur.Index - prev.Index - 1).toNat + 1)
      d3 (prev.Index + 1).toNat
      (by rw [m3.1]; show d2.output = _; rw [m12.1, hd.output]) m3.2.1
      (by omega) (fun j hj1 hj2 => hcopy j (by omega) (by omega))
    rw [hp] at rd4
    obtain ⟨d5, rd5, s5, m5⟩ := r4 { d3 with output := input.take (cur.Index + 1).toNat }
      ((sync_of_core s3 hcore).of_reader rfl rfl rfl rfl rfl)
    have hne : ¬ ((cur.Offset - 1) / 128 + 1 = 256) := by omega
    refine ⟨d5, ?_, s5, ?_, ?_, ?_, ?_⟩
    · rw [process_new_eq]
      simp only [rd1, rd2, bind, Except.bind, hne, if_false, hX, rd3, rd4, rd5, btoi_eq_zero]
      cases nb <;> simp [pure, Except.pure]
    · rw [m5.1]
    · rw [m5.2.1]; show d3.lastOffset = _; rw [m3.2.1]
    · rw [m5.2.2.1]; show d3.backwards = _; rw [m3.2.2.1]; exact hbw2
    · rw [m5.2.2.2]; show d3.inverted = _; rw [m3.2.2.2]; show d2.inverted = _
      rw [m12.2.2.2, hd.inverted]

theorem block_step (input : List Byte) (skip limit : Nat) (bw inv : Bool)
    (prev cur : Block) (q : BlockRef) (nb : Bool) (c : Compressor)
    (hv : Valid input skip limit (cur :: prev :: q)) (h : AtBlock input c prev)
    (cap : cur.Bits + 1 ≤ 8 * (c.output.length : Int)) :
    ∃ c2 c3, emitBody input bw inv prev cur (lastOff (prev :: q)) c
        = some (c2, lastOff (cur :: prev :: q)) ∧
      c2.writeBit (btoi nb) = some c3 ∧
      BlockStep input bw inv c c3 prev cur (lastOff (prev :: q)) (lastOff (cur :: prev :: q))
        (kindState cur (lastOff (prev :: q))) (afterState cur nb) := by
  obtain ⟨hv', hlt, hlen, hk⟩ := valid_cons2.1 hv
  have hidx : -1 ≤ prev.Index := by
    have := valid_index_ge hv'
    simp only [headIndex] at this; omega
  by_cases h0 : cur.Offset = 0
  · rw [if_pos h0] at hk
    have e1 : lastOff (cur :: prev :: q) = lastOff (prev :: q) := lastOff_cons_lit h0
    have e2 : kindState cur (lastOff (prev :: q)) = .COPY_LITERALS := by simp [kindState, h0]
    have e3 : afterState cur nb = if nb then .COPY_FROM_NEW_OFFSET else .COPY_FROM_LAST_OFFSET := by
      simp [afterState, h0]
    rw [e1, e2, e3]
    exact literal_step input bw inv prev cur _ nb c h h0 hidx hlt hlen hk.2 cap
  · rw [if_neg h0] at hk
    obtain ⟨hle, hcopy, hk⟩ := hk
    have e1 : lastOff (cur :: prev :: q) = cur.Offset := by simp [lastOff, h0]
    have e3 : afterState cur nb = if nb then .COPY_FROM_NEW_OFFSET else .COPY_LITERALS := by
      simp [afterState, h0]
    by_cases h1 : lastOff (prev :: q) = cur.Offset
    · rw [if_pos h1] at hk
      have e2 : kindState cur (lastOff (prev :: q)) = .COPY_FROM_LAST_OFFSET := by
        simp [kindState, h0, h1]
      rw [e2, e3, e1]
      have := reuse_step input bw inv prev cur (lastOff (prev :: q)) nb c h h0 h1.symm hidx hlt hlen
        hcopy hk.2 cap
      rw [h1] at this ⊢
      exact this
    · rw [if_neg h1] at hk
      have e2 : kindState cur (lastOff (prev :: q)) = .COPY_FROM_NEW_OFFSET := by
        simp [kindState, h0, Ne.symm h1]
      rw [e2, e3, e1]
      exact newoff_step input bw inv prev cur _ nb c h h0 (Ne.symm h1) hidx hk.2.1 hlen
        hcopy hk.2.2 cap

theorem emitRest_eq (input : List Byte) (bw inv : Bool) (prev : Block) (rest : List Block)
    (lo : Nat) (c : Compressor) :
    emitRest input bw inv prev rest lo c =
      (c.writeBit (btoi (nextBit rest lo))).bind (emitAfter input bw inv prev rest lo) := by
  cases rest with
  | nil => rw [emitRest_nil]; rfl
  | cons cur rest => rw [emitRest_cons]; rfl

theorem elias_256 : eliasGammaBits 256 = 17 := by decide

theorem valid_bits_lt {input : List Byte} {skip limit : Nat} {b h : Block} {q : BlockRef}
    (hv : Valid input skip limit (b :: h :: q)) : h.Bits < b.Bits := by
  obtain ⟨_, hlt, _, hk⟩ := valid_cons2.1 hv
  have p1 := eliasGammaBits_pos (b.Index - h.Index)
  have p2 := eliasGammaBits_pos (((b.Offset - 1) / 128 + 1 : Nat) : Int)
  have p3 := eliasGammaBits_pos (b.Index - h.Index - 1)
  split at hk
  · omega
  · obtain ⟨_, _, hk⟩ := hk
    split at hk <;> omega

theorem bits_mono {input : List Byte} {skip limit : Nat} : ∀ (rest : List Block) (cur : Block)
    (done : BlockRef), done ≠ [] → ValidFrom input skip limit (cur :: done) rest →
    cur.Bits ≤ (finalBlock cur rest).Bits
  | [], _, _, _, _ => Int.le_refl _
  | nxt :: rest, cur, done, _, hv => by
    have h1 := valid_bits_lt hv.1
    have h2 := bits_mono rest nxt (cur :: done) (by simp) hv.2
    simp only [finalBlock]
    omega

theorem after_eq {input : List Byte} {skip limit : Nat} (rest : List Block) (cur : Block)
    (done : BlockRef) (hv : ValidFrom input skip limit (cur :: done) rest) :
    afterState cur (nextBit rest (lastOff (cur :: done))) = stateFor rest (lastOff (cur :: done)) := by
  cases rest with
  | nil => rfl
  | cons nxt rest =>
    obtain ⟨_, _, _, hk⟩ := valid_cons2.1 hv.1
    simp only [nextBit, stateFor, afterState, kindState, indicator]
    by_cases h0 : nxt.Offset = 0
    · rw [if_pos h0] at hk
      simp [h0, hk.1]
    · rw [if_neg h0] at hk
      obtain ⟨_, _, hk⟩ := hk
      by_cases h1 : lastOff (cur :: done) = nxt.Offset
      · rw [if_pos h1] at hk
        simp [h0, h1, hk.1]
      · have h1' : ¬ nxt.Offset = lastOff (cur :: done) := fun e => h1 e.symm
        simp [h0, h1']

theorem decompressLoop_end (fuel : Nat) (d : Decompressor) :
    decompressLoop fuel .COPY_END d = .returned d.output := by
  cases fuel <;> simp [decompressLoop]

theorem end_step (input : List Byte) (bw inv : Bool) (last : Block) (lo : Nat) (c : Compressor)
    (h : AtBlock input c last) (cap : last.Bits + 18 ≤ 8 * (c.output.length : Int)) :
    ∃ cf, emitAfter input bw inv last [] lo c = some cf ∧ StreamOK input bw inv c cf last [] lo := by
  obtain ⟨cf, hw, a1, a2, a3, a4, a5⟩ := gamma_spec c 256 bw inv (by decide) h.winv
    (by rw [h.bits, elias_256]; omega)
  refine ⟨cf, hw, a1, deltaInv_frame h.dinv a2, ?_, a2.len, ?_⟩
  · rw [a4, h.bits, elias_256]; simp only [finalBlock]; omega
  · intro out hag
    obtain ⟨ag, r1⟩ := a5 out hag
    refine ⟨ag, ?_⟩
    intro d fuel hs hd _ hf
    obtain ⟨d1, rd1, s1, m1⟩ := r1 d true hs hd.backwards (by simp [hd.inverted])
    obtain ⟨f, rfl⟩ : ∃ f, fuel = f + 1 := ⟨fuel - 1, by omega⟩
    have hp : State.Process .COPY_FROM_NEW_OFFSET d = .ok (.COPY_END, d1) := by
      rw [process_new_eq]
      simp only [rd1, bind, Except.bind]
      rfl
    simp only [stateFor, decompressLoop, hp, finalBlock]
    simp only [decompressLoop_end, m1.1, hd.output]
    simp

theorem stream_spec (input : List Byte) (skip limit : Nat) (bw inv : Bool) :
    ∀ (rest : List Block) (prev : Block) (q : BlockRef) (c : Compressor),
    Valid input skip limit (prev :: q) → ValidFrom input skip limit (prev :: q) rest →
    AtBlock input c prev →
    (finalBlock prev rest).Bits + 18 ≤ 8 * (c.output.length : Int) →
    ∃ cf, emitAfter input bw inv prev rest (lastOff (prev :: q)) c = some cf ∧
      StreamOK input bw inv c cf prev rest (lastOff (prev :: q)) := by
  intro rest
  induction rest with
  | nil =>
    intro prev q c _ _ h cap
    exact end_step input bw inv prev _ c h cap
  | cons cur rest ih =>
    intro prev q c hv hvf h cap
    have hmono := bits_mono rest cur (prev :: q) (by simp) hvf.2
    simp only [finalBlock] at cap
    obtain ⟨c2, c3, hw1, hw2, hat, hlen, hrd⟩ := block_step input skip limit bw inv prev cur q
      (nextBit rest (lastOff (cur :: prev :: q))) c hvf.1 h (by omega)
    obtain ⟨cf, hw3, b1, b2, b3, b4, b5⟩ := ih cur (prev :: q) c3 hvf.1 hvf.2 hat
      (by rw [hlen]; exact cap)
    refine ⟨cf, ?_, b1, b2, ?_, b4.trans hlen, ?_⟩
    · have e : emitAfter input bw inv prev (cur :: rest) (lastOff (prev :: q)) c =
          (emitBody input bw inv prev cur (lastOff (prev :: q)) c).bind
            (fun r => emitRest input bw inv cur rest r.2 r.1) := rfl
      rw [e, hw1, Option.some_bind, emitRest_eq, hw2]
      exact hw3
    · rw [b3]; rfl
    · intro out hag
      obtain ⟨ag3, r2⟩ := b5 out hag
      obtain ⟨ag, r1⟩ := hrd out ag3
      refine ⟨ag, ?_⟩
      intro d fuel hs hd hoff hf
      obtain ⟨f, rfl⟩ : ∃ f, fuel = f + 1 := ⟨fuel - 1, by omega⟩
      obtain ⟨d', hp, s', hd'⟩ := r1 d hs hd (hoff cur (List.mem_cons_self _ _))
      rw [after_eq rest cur (prev :: q) hvf.2] at hp
      have hk : kindState cur (lastOff (prev :: q)) ≠ .COPY_END := by
        unfold kindState; split
        · simp
        · split <;> simp
      have hu : stateFor rest (lastOff (cur :: prev :: q)) ≠ .COPY_UNKNOWN := by
        unfold stateFor; split
        · simp
        · unfold kindState; split
          · simp
          · split <;> simp
      have := r2 d' f s' hd' (fun b hb => hoff b (List.mem_cons_of_mem _ hb))
        (by simp only [List.length_cons] at hf; omega)
      show decompressLoop (f + 1) (kindState cur (lastOff (prev :: q))) d = _
      simp only [decompressLoop, hk, if_false, hp, hu, finalBlock]
      exact this

theorem agree_self {c : Compressor} (h : WInv c) : Agree c c.output := by
  refine ⟨rfl, ?_⟩
  intro i hi
  have hlt : i < c.output.length := Nat.lt_of_lt_of_le hi h.oi_le
  refine ⟨c.output[i], c.output[i], List.getElem?_eq_getElem hlt, List.getElem?_eq_getElem hlt, ?_⟩
  split
  · rfl
  · split <;> rfl

theorem validFrom_of_valid {input : List Byte} {skip limit : Nat} : ∀ (rest : List Block)
    (done : BlockRef), done ≠ [] → Valid input skip limit (rest.reverse ++ done) →
    Valid input skip limit done ∧ ValidFrom input skip limit done rest
  | [], _, _, hv => ⟨by simpa using hv, trivial⟩
  | cur :: rest, done, hd, hv => by
    have e : (cur :: rest).reverse ++ done = rest.reverse ++ (cur :: done) := by simp
    rw [e] at hv
    obtain ⟨h1, h2⟩ := validFrom_of_valid rest (cur :: done) (by simp) hv
    refine ⟨?_, h1, h2⟩
    have := valid_tail h1 (by
      cases done with
      | nil => exact absurd rfl hd
      | cons x y => simp)
    exact this

theorem deref_reverse : ∀ (rest : List Block) (b : Block) (tail : BlockRef),
    deref (rest.reverse ++ b :: tail) = some (finalBlock b rest)
  | [], _, _ => rfl
  | x :: rest, b, tail => by
    have e : (x :: rest).reverse ++ b :: tail = rest.reverse ++ x :: b :: tail := by simp
    rw [e, deref_reverse rest x (b :: tail)]
    rfl

theorem bits_length {input : List Byte} {skip limit : Nat} : ∀ (rest : List Block) (cur : Block)
    (done : BlockRef), ValidFrom input skip limit (cur :: done) rest →
    cur.Bits + rest.length ≤ (finalBlock cur rest).Bits
  | [], _, _, _ => by simp [finalBlock]
  | nxt :: rest, cur, done, hv => by
    have h1 := valid_bits_lt hv.1
    have h2 := bits_length rest nxt (cur :: done) hv.2
    simp only [finalBlock, List.length_cons]
    push_cast
    omega

theorem first_literal {input : List Byte} {skip limit : Nat} {b r : Block}
    (hv : Valid input skip limit [b, r]) : b.Offset = 0 := by
  obtain ⟨hr, _, _, hk⟩ := valid_cons2.1 hv
  have hr' : r = ⟨-1, (skip : Int) - 1, INITIAL_OFFSET⟩ := hr
  by_contra h0
  rw [if_neg h0] at hk
  obtain ⟨_, _, hk⟩ := hk
  split at hk
  · have := hk.1
    rw [hr'] at this
    simp [INITIAL_OFFSET] at this
  · exact hk.1 rfl

theorem run_eq (h : BlockRef) (input : List Byte) (skip : Nat) (bw inv : Bool) (prev : Block)
    (rest : List Block) (hrev : h = rest.reverse ++ [prev])
    (hb : -1 ≤ (finalBlock prev rest).Bits) :
    Compressor.run h input skip bw inv =
      emitRest input bw inv prev rest INITIAL_OFFSET
        (startState (((finalBlock prev rest).Bits + 25) / 8).toNat input skip) := by
  have hd : deref h = some (finalBlock prev rest) := by rw [hrev]; exact deref_reverse rest prev []
  have hr : h.reverse = prev :: rest := by rw [hrev]; simp
  have hdiv : ((finalBlock prev rest).Bits + 25).tdiv 8 = ((finalBlock prev rest).Bits + 25) / 8 :=
    Int.tdiv_eq_ediv (by omega) (by decide)
  have hneg : ¬ (((finalBlock prev rest).Bits + 25) / 8 < 0) := by omega
  unfold Compressor.run
  simp only [hd, Option.bind_eq_bind, Option.some_bind, hdiv, hneg, if_false, hr]
  rfl

theorem startState_step (outLen : Nat) (input : List Byte) (skip : Nat) (r : Block)
    (hr : r = ⟨-1, (skip : Int) - 1, INITIAL_OFFSET⟩) :
    ∃ c, (startState outLen input skip).writeBit (btoi false) = some c ∧ AtBlock input c r ∧
      c.output = List.replicate outLen 0 ∧ c.outputIndex = 0 ∧ c.bitMask = 0 := by
  refine ⟨{ startState outLen input skip with backtrack := false }, ?_, ⟨?_, rfl, ?_, ?_, ?_⟩,
    rfl, rfl, rfl⟩
  · simp [Compressor.writeBit, startState, btoi]
  · refine ⟨Nat.zero_le _, Or.inl rfl, fun h => absurd rfl h, ?_⟩
    intro h; cases h
  · refine ⟨?_, rfl⟩
    simp [startState]
  · rw [hr]; simp [startState]
  · rw [hr]; simp [Compressor.bits, Compressor.used, startState, freeBits, btoi]

theorem head_of_deref {h : BlockRef} {b : Block} (e : deref h = some b) :
    headBits h = b.Bits ∧ headIndex h = b.Index := by
  cases h with
  | nil => cases e
  | cons x q => cases e; exact ⟨rfl, rfl⟩

theorem codec (input : List Byte) (skip limit : Nat) (bw inv : Bool)
    (h : BlockRef) (hv : Valid input skip limit h) (h2 : 2 ≤ h.length) :
    ∃ cf, Compressor.run h input skip bw inv = some cf ∧ WInv cf ∧ DeltaInv input.length cf ∧
      cf.bits = headBits h + 18 ∧ cf.output.length = ((headBits h + 25) / 8).toNat ∧
      (skip = 0 → (∀ b ∈ h, b.Offset ≤ 32640) → headIndex h = (input.length : Int) - 1 →
        Decompress cf.output bw inv = .returned input) := by
  obtain ⟨prev, rest, hr⟩ : ∃ prev rest, h.reverse = prev :: rest := by
    cases e : h.reverse with
    | nil =>
      have : h = [] := by simpa using e
      subst this; simp at h2
    | cons a b => exact ⟨a, b, rfl⟩
  have hrev : h = rest.reverse ++ [prev] := List.reverse_eq_cons_iff.1 hr
  obtain ⟨b1, rest', rfl⟩ : ∃ b1 rest', rest = b1 :: rest' := by
    cases rest with
    | nil => subst hrev; simp at h2
    | cons a b => exact ⟨a, b, rfl⟩
  rw [hrev] at hv
  obtain ⟨hroot, hvf⟩ := validFrom_of_valid (b1 :: rest') [prev] (by simp) hv
  have hroot' : prev = ⟨-1, (skip : Int) - 1, INITIAL_OFFSET⟩ := hroot
  have hb0 : b1.Offset = 0 := first_literal hvf.1
  have hd : deref h = some (finalBlock prev (b1 :: rest')) := by
    rw [hrev]; exact deref_reverse _ prev []
  obtain ⟨hB, hI⟩ := head_of_deref hd
  have hlenb := bits_length (b1 :: rest') prev [] hvf
  have hpb : prev.Bits = -1 := by rw [hroot']
  have hge : -1 ≤ (finalBlock prev (b1 :: rest')).Bits := by omega
  have hlo : lastOff [prev] = INITIAL_OFFSET := by
    rw [hroot']; simp [lastOff, INITIAL_OFFSET]
  obtain ⟨c0, hw0, hat, ho, hoi, hmk⟩ :=
    startState_step (((finalBlock prev (b1 :: rest')).Bits + 25) / 8).toNat input skip prev hroot'
  have hN : c0.output.length = (((finalBlock prev (b1 :: rest')).Bits + 25) / 8).toNat := by
    rw [ho]; simp
  obtain ⟨cf, hw, a1, a2, a3, a4, a5⟩ := stream_spec input skip limit bw inv (b1 :: rest') prev
    [] c0 hroot hvf hat (by rw [hN]; omega)
  rw [hlo] at hw a5
  refine ⟨cf, ?_, a1, a2, by rw [a3, hB], by rw [a4, hN, hB], ?_⟩
  · rw [run_eq h input skip bw inv prev (b1 :: rest') hrev hge, emitRest_eq]
    have : nextBit (b1 :: rest') INITIAL_OFFSET = false := by simp [nextBit, indicator, hb0]
    rw [this, hw0]
    exact hw
  · intro hs0 hoff hidx
    obtain ⟨_, rd⟩ := a5 cf.output (agree_self a1)
    have hst : stateFor (b1 :: rest') INITIAL_OFFSET = .COPY_LITERALS := by
      simp [stateFor, kindState, hb0]
    have hfin : ((finalBlock prev (b1 :: rest')).Index + 1).toNat = input.length := by
      rw [← hI, hidx]; omega
    rw [hst, hfin, List.take_length] at rd
    unfold Decompress
    apply rd
    · refine ⟨rfl, hoi.symm, hat.bt.symm, fun _ => Nat.zero_le _, fun hne => absurd hmk hne⟩
    · refine ⟨?_, rfl, rfl, rfl⟩
      rw [hroot', hs0]; rfl
    · intro b hb
      apply hoff b
      rw [hrev]; simp only [List.mem_append, List.mem_reverse]
      exact Or.inl hb
    · rw [a4, hN]
      have : (rest'.length : Int) + 1 = ((b1 :: rest').length : Nat) := by simp
      omega

theorem compress_of_run {h : BlockRef} {input : List Byte} {skip : Nat} {bw inv : Bool}
    {c : Compressor} (e : Compressor.run h input skip bw inv = some c) :
    Compress h input skip bw inv = some (c.output, c.delta) := by
  simp [Compress, e]

theorem valid_bits_ge {input : List Byte} {skip limit : Nat} :
    ∀ {c : BlockRef}, Valid input skip limit c → -1 ≤ headBits c
  | [], h => absurd h (by simp [Valid])
  | [r], h => by
    have : r = ⟨-1, (skip : Int) - 1, INITIAL_OFFSET⟩ := h
    subst this; simp [headBits]
  | b :: x :: q, h => by
    have h1 := valid_bits_lt h
    have h2 := valid_bits_ge (valid_cons2.1 h).1
    simp only [headBits] at h2 ⊢
    omega

theorem optimize_chain (input : List Byte) (skip limit threads : Nat) (hs : skip < input.length)
    (hl : 1 ≤ limit) (ht : 1 ≤ threads) :
    ∃ h, Optimize input skip limit threads = some h ∧ Valid input skip limit h ∧ 2 ≤ h.length ∧
      headIndex h = (input.length : Int) - 1 := by
  rw [optimize_threads input skip limit threads ht]
  exact optimize_valid input skip limit hs hl

/-- The whole pipeline: `Optimize`, then `Compress`, then `Decompress`. -/
theorem pipeline (input : List Byte) (skip limit threads : Nat) (bw inv : Bool)
    (hs : skip < input.length) (hl : 1 ≤ limit) (ht : 1 ≤ threads) :
    ∃ h c, Optimize input skip limit threads = some h ∧ Valid input skip limit h ∧
      2 ≤ h.length ∧ headIndex h = (input.length : Int) - 1 ∧
      Compressor.run h input skip bw inv = some c ∧
      Compress h input skip bw inv = some (c.output, c.delta) ∧
      DeltaInv input.length c ∧ c.output.length = ((headBits h + 25) / 8).toNat ∧
      (skip = 0 → limit ≤ 32640 → Decompress c.output bw inv = .returned input) := by
  obtain ⟨h, e, hv, h2, hi⟩ := optimize_chain input skip limit threads hs hl ht
  obtain ⟨c, hr, _, hd, _, hlen, hdec⟩ := codec input skip limit bw inv h hv h2
  refine ⟨h, c, e, hv, h2, hi, hr, compress_of_run hr, hd, hlen, ?_⟩
  intro h0 hlim
  exact hdec h0 (fun b hb => Nat.le_trans (valid_offsets hl hv b hb) hlim) hi

theorem single_chain {b : Byte} {limit : Nat} {h : BlockRef} (hv : Valid [b] 0 limit h)
    (h2 : 2 ≤ h.length) (hi : headIndex h = 0) :
    h = [⟨9, 0, 0⟩, ⟨-1, -1, INITIAL_OFFSET⟩] := by
  match h, h2 with
  | cur :: prev :: q, _ =>
    obtain ⟨hv', hlt, _, hk⟩ := valid_cons2.1 hv
    simp only [headIndex] at hi
    have hge := valid_index_ge hv'
    simp only [headIndex] at hge
    have hq : q = [] := by
      cases q with
      | nil => rfl
      | cons x y =>
        have := (valid_index_range hv' (by simp)).1
        simp only [headIndex] at this
        omega
    subst hq
    have hp : prev = ⟨-1, ((0 : Nat) : Int) - 1, INITIAL_OFFSET⟩ := hv'
    have h0 : cur.Offset = 0 := first_literal hv
    rw [if_pos h0] at hk
    have hb := hk.2
    rw [hp, hi] at hb
    have he : eliasGammaBits (0 - (((0 : Nat) : Int) - 1)) = 1 := by decide
    rw [he] at hb
    rw [hp]
    obtain ⟨bits, idx, off⟩ := cur
    simp only at hi h0 hb
    subst hi h0
    simp at hb ⊢
    omega

theorem process_known {s s' : State} {d d' : Decompressor}
    (hs : s = .COPY_LITERALS ∨ s = .COPY_FROM_LAST_OFFSET ∨ s = .COPY_FROM_NEW_OFFSET)
    (e : s.Process d = .ok (s', d')) : s' ≠ .COPY_UNKNOWN := by
  rcases hs with rfl | rfl | rfl
  · simp only [State.Process, bind, Except.bind, pure, Except.pure] at e
    split at e
    · cases e
    · split at e
      · cases e
      · split at e
        · cases e
        · split at e <;> cases e <;> simp
  · simp only [State.Process, bind, Except.bind, pure, Except.pure] at e
    split at e
    · cases e
    · split at e
      · cases e
      · split at e
        · cases e
        · split at e <;> cases e <;> simp
  · rw [process_new_eq] at e
    simp only [bind, Except.bind, pure, Except.pure] at e
    split at e
    · cases e
    · split at e
      · cases e; simp
      · split at e
        · cases e
        · split at e
          · cases e
          · split at e
            · cases e
            · split at e
              · cases e
              · split at e <;> cases e <;> simp

theorem process_next {s s' : State} {d d' : Decompressor}
    (hs : s = .COPY_LITERALS ∨ s = .COPY_FROM_LAST_OFFSET ∨ s = .COPY_FROM_NEW_OFFSET)
    (e : s.Process d = .ok (s', d')) :
    s' = .COPY_END ∨ s' = .COPY_LITERALS ∨ s' = .COPY_FROM_LAST_OFFSET ∨
      s' = .COPY_FROM_NEW_OFFSET := by
  rcases hs with rfl | rfl | rfl
  · simp only [State.Process, bind, Except.bind, pure, Except.pure] at e
    split at e
    · cases e
    · split at e
      · cases e
      · split at e
        · cases e
        · split at e <;> cases e <;> simp
  · simp only [State.Process, bind, Except.bind, pure, Except.pure] at e
    split at e
    · cases e
    · split at e
      · cases e
      · split at e
        · cases e
        · split at e <;> cases e <;> simp
  · rw [process_new_eq] at e
    simp only [bind, Except.bind, pure, Except.pure] at e
    split at e
    · cases e
    · split at e
      · cases e; simp
      · split at e
        · cases e
        · split at e
          · cases e
          · split at e
            · cases e
            · split at e
              · cases e
              · split at e <;> cases e <;> simp

theorem decompressLoop_known : ∀ (fuel : Nat) (s : State) (d : Decompressor),
    (s = .COPY_END ∨ s = .COPY_LITERALS ∨ s = .COPY_FROM_LAST_OFFSET ∨
      s = .COPY_FROM_NEW_OFFSET) → decompressLoop fuel s d ≠ .invalidState := by
  intro fuel
  induction fuel with
  | zero =>
    intro s d _
    simp only [decompressLoop]
    split <;> simp
  | succ fuel ih =>
    intro s d hs
    simp only [decompressLoop]
    by_cases he : s = .COPY_END
    · simp [he]
    · rw [if_neg he]
      have hs' : s = .COPY_LITERALS ∨ s = .COPY_FROM_LAST_OFFSET ∨ s = .COPY_FROM_NEW_OFFSET := by
        rcases hs with h | h | h | h
        · exact absurd h he
        · exact Or.inl h
        · exact Or.inr (Or.inl h)
        · exact Or.inr (Or.inr h)
      cases hp : s.Process d with
      | error e => cases e <;> simp
      | ok r =>
        obtain ⟨s', d'⟩ := r
        have h1 := process_known hs' hp
        have h2 := process_next hs' hp
        simp only [h1, if_false]
        exact ih s' d' h2

theorem lastOff_step (cur : Block) (done : BlockRef) :
    (if cur.Offset = 0 ∨ cur.Offset = lastOff done then lastOff done else cur.Offset)
      = lastOff (cur :: done) := by
  by_cases h0 : cur.Offset = 0
  · simp [lastOff, h0]
  · by_cases h1 : cur.Offset = lastOff done
    · simp [lastOff, h0, ← h1]
    · simp [lastOff, h0, h1]

theorem rep_from {input : List Byte} {skip limit : Nat} : ∀ (rest : List Block) (prev : Block)
    (q : BlockRef), Valid input skip limit (prev :: q) →
    ValidFrom input skip limit (prev :: q) rest →
    (finalBlock prev rest).Index = (input.length : Int) - 1 →
    RepresentableFrom input limit (prev.Index + 1).toNat (lastOff (prev :: q))
        (decide (prev.Offset = 0)) (segsFrom prev (lastOff (prev :: q)) rest) ∧
      (finalBlock prev rest).Bits
        = prev.Bits + ((segsFrom prev (lastOff (prev :: q)) rest).map segCost).sum
  | [], prev, q, _, _, hfin => by
    simp only [finalBlock] at hfin
    refine ⟨?_, by simp [segsFrom, finalBlock]⟩
    show (prev.Index + 1).toNat = input.length
    omega
  | cur :: rest, prev, q, hv, hvf, hfin => by
    obtain ⟨ih1, ih2⟩ := rep_from rest cur (prev :: q) hvf.1 hvf.2 hfin
    obtain ⟨_, hlt, hlen, hk⟩ := valid_cons2.1 hvf.1
    have hge := valid_index_ge hv
    simp only [headIndex] at hge
    have hpos : (prev.Index + 1).toNat + (cur.Index - prev.Index).toNat = (cur.Index + 1).toNat := by
      omega
    have hL : (((cur.Index - prev.Index).toNat : Nat) : Int) = cur.Index - prev.Index := by omega
    simp only [segsFrom, finalBlock, List.map_cons, List.sum_cons, lastOff_step]
    rw [ih2]
    by_cases h0 : cur.Offset = 0
    · rw [if_pos h0] at hk
      have hs : segOf prev cur (lastOff (prev :: q)) = .literal (cur.Index - prev.Index).toNat := by
        simp [segOf, h0]
      have e : lastOff (cur :: prev :: q) = lastOff (prev :: q) := lastOff_cons_lit h0
      have hd : decide (cur.Offset = 0) = true := by simp [h0]
      rw [hd] at ih1
      rw [e] at ih1 ⊢
      rw [hs]
      simp only [RepresentableFrom, segCost, hpos, hL]
      exact ⟨⟨by omega, by simpa using hk.1, ih1⟩, by rw [hk.2]; ring⟩
    · rw [if_neg h0] at hk
      obtain ⟨hle, hcopy, hk⟩ := hk
      have hd : decide (cur.Offset = 0) = false := by simp [h0]
      rw [hd] at ih1
      have hcp : Copies input (prev.Index + 1).toNat (cur.Index - prev.Index).toNat cur.Offset := by
        intro j hj1 hj2
        exact hcopy j (by omega) (by omega)
      by_cases h1 : lastOff (prev :: q) = cur.Offset
      · rw [if_pos h1] at hk
        have hs : segOf prev cur (lastOff (prev :: q)) = .reuse (cur.Index - prev.Index).toNat := by
          simp [segOf, h0, h1]
        have e : lastOff (cur :: prev :: q) = lastOff (prev :: q) := by
          rw [h1]; simp [lastOff, h0]
        rw [e] at ih1 ⊢
        rw [hs]
        rw [← h1] at hcp
        simp only [RepresentableFrom, segCost, hpos, hL]
        exact ⟨⟨by omega, by simpa using hk.1, hcp, ih1⟩, by rw [hk.2]; ring⟩
      · rw [if_neg h1] at hk
        have h1' : ¬ cur.Offset = lastOff (prev :: q) := fun e => h1 e.symm
        have hs : segOf prev cur (lastOff (prev :: q))
            = .newOffset cur.Offset (cur.Index - prev.Index).toNat := by
          simp [segOf, h0, h1']
        have e : lastOff (cur :: prev :: q) = cur.Offset := by simp [lastOff, h0]
        rw [e] at ih1 ⊢
        rw [hs]
        simp only [RepresentableFrom, segCost, hpos, hL]
        exact ⟨⟨by omega, by omega, hle, hcp, ih1⟩, by rw [hk.2.2]; ring⟩

theorem representable_of_valid {input : List Byte} {skip limit : Nat} {h : BlockRef}
    (hv : Valid input skip limit h) (h2 : 2 ≤ h.length)
    (hi : headIndex h = (input.length : Int) - 1) :
    Representable input skip limit (segsOf h) ∧ headBits h = parseCost (segsOf h) := by
  obtain ⟨prev, rest, hr⟩ : ∃ prev rest, h.reverse = prev :: rest := by
    cases e : h.reverse with
    | nil =>
      have : h = [] := by simpa using e
      subst this; simp at h2
    | cons a b => exact ⟨a, b, rfl⟩
  have hrev : h = rest.reverse ++ [prev] := List.reverse_eq_cons_iff.1 hr
  obtain ⟨b1, rest', rfl⟩ : ∃ b1 rest', rest = b1 :: rest' := by
    cases rest with
    | nil => subst hrev; simp at h2
    | cons a b => exact ⟨a, b, rfl⟩
  have hv' := hv
  rw [hrev] at hv'
  obtain ⟨hroot, hvf⟩ := validFrom_of_valid (b1 :: rest') [prev] (by simp) hv'
  have hroot' : prev = ⟨-1, (skip : Int) - 1, INITIAL_OFFSET⟩ := hroot
  have hb0 : b1.Offset = 0 := first_literal hvf.1
  have hd : deref h = some (finalBlock prev (b1 :: rest')) := by
    rw [hrev]; exact deref_reverse _ prev []
  obtain ⟨hB, hI⟩ := head_of_deref hd
  have hlo : lastOff [prev] = INITIAL_OFFSET := by
    rw [hroot']; simp [lastOff, INITIAL_OFFSET]
  obtain ⟨r1, r2⟩ := rep_from (b1 :: rest') prev [] hroot hvf (by rw [← hI]; exact hi)
  rw [hlo] at r1 r2
  have hs : segsOf h = segsFrom prev INITIAL_OFFSET (b1 :: rest') := by
    simp only [segsOf, hr]
  have hp : (prev.Index + 1).toNat = skip := by rw [hroot']; simp
  have hpo : decide (prev.Offset = 0) = false := by rw [hroot']; simp [INITIAL_OFFSET]
  rw [hp, hpo] at r1
  rw [hs]
  refine ⟨⟨⟨_, _, by simp only [segsFrom, segOf, hb0, if_true]; rfl⟩, r1⟩, ?_⟩
  rw [hB, r2, parseCost, hroot']

theorem valid_suffix {input : List Byte} {skip limit : Nat} : ∀ (pre c : BlockRef),
    c ≠ [] → Valid input skip limit (pre ++ c) → Valid input skip limit c
  | [], _, _, h => h
  | x :: pre, c, hc, h => by
    have h2 : 2 ≤ (x :: pre ++ c).length := by
      cases c with
      | nil => exact absurd rfl hc
      | cons y q => simp only [List.length_cons, List.length_append]; omega
    exact valid_suffix pre c hc (valid_tail h h2)

theorem valid_index_le_head {input : List Byte} {skip limit : Nat} :
    ∀ {c : BlockRef}, Valid input skip limit c → ∀ x ∈ c, x.Index ≤ headIndex c
  | [], h, _, _ => absurd h (by simp [Valid])
  | [r], _, x, hx => by
    simp only [List.mem_singleton] at hx
    subst hx; exact Int.le_refl _
  | b :: p :: q, h, x, hx => by
    obtain ⟨hv, hlt, _, _⟩ := valid_cons2.1 h
    simp only [headIndex]
    rcases List.mem_cons.1 hx with e | e
    · subst e; exact Int.le_refl _
    · have := valid_index_le_head hv x e
      simp only [headIndex] at this
      omega

theorem valid_root {input : List Byte} {skip limit : Nat} :
    ∀ {c : BlockRef}, Valid input skip limit c →
      ∃ body, c = body ++ [⟨-1, (skip : Int) - 1, INITIAL_OFFSET⟩] ∧
        ∀ b ∈ body, (skip : Int) ≤ b.Index
  | [], h => absurd h (by simp [Valid])
  | [r], h => by
    have : r = ⟨-1, (skip : Int) - 1, INITIAL_OFFSET⟩ := h
    subst this
    exact ⟨[], rfl, by simp⟩
  | b :: p :: q, h => by
    obtain ⟨hv, hlt, _, _⟩ := valid_cons2.1 h
    obtain ⟨body, e, hb⟩ := valid_root hv
    refine ⟨b :: body, by rw [e]; rfl, ?_⟩
    intro x hx
    rcases List.mem_cons.1 hx with e' | e'
    · subst e'
      have := valid_index_ge hv
      simp only [headIndex] at this
      omega
    · exact hb x e'

theorem valid_cover {input : List Byte} {skip limit : Nat} :
    ∀ {c : BlockRef}, Valid input skip limit c → ∀ j : Nat, skip ≤ j → (j : Int) ≤ headIndex c →
      ∃ i, InSegment c j i ∧ ∀ i', InSegment c j i' → i' = i
  | [], h, _, _, _ => absurd h (by simp [Valid])
  | [r], h, j, h1, h2 => by
    have : r = ⟨-1, (skip : Int) - 1, INITIAL_OFFSET⟩ := h
    subst this
    simp only [headIndex] at h2
    omega
  | b :: p :: q, h, j, h1, h2 => by
    obtain ⟨hv, hlt, _, _⟩ := valid_cons2.1 h
    simp only [headIndex] at h2
    by_cases hj : p.Index < j
    · refine ⟨0, ⟨b, p, rfl, by simp, hj, h2⟩, ?_⟩
      intro i' hi'
      cases i' with
      | zero => rfl
      | succ k =>
        obtain ⟨x, y, e1, _, _, e4⟩ := hi'
        have hx : x ∈ p :: q := List.mem_iff_getElem?.2 ⟨k, by simpa using e1⟩
        have := valid_index_le_head hv x hx
        simp only [headIndex] at this
        omega
    · obtain ⟨i, hi, hu⟩ := valid_cover hv j h1 (by simp only [headIndex]; omega)
      refine ⟨i + 1, ?_, ?_⟩
      · obtain ⟨x, y, e1, e2, e3, e4⟩ := hi
        exact ⟨x, y, by simpa using e1, by simpa using e2, e3, e4⟩
      · intro i' hi'
        cases i' with
        | zero =>
          obtain ⟨x, y, e1, e2, e3, _⟩ := hi'
          simp at e1 e2
          subst e2; omega
        | succ k =>
          obtain ⟨x, y, e1, e2, e3, e4⟩ := hi'
          have := hu k ⟨x, y, by simpa using e1, by simpa using e2, e3, e4⟩
          omega

theorem valid_pair {input : List Byte} {skip limit : Nat} {h pre rest : BlockRef} {b p : Block}
    (hv : Valid input skip limit h) (e : h = pre ++ b :: p :: rest) :
    Valid input skip limit (b :: p :: rest) := by
  rw [e] at hv
  exact valid_suffix pre _ (by simp) hv

theorem copyBytes_overlap (O : Nat) (hO : 1 ≤ O) : ∀ (L : Nat) (d : Decompressor),
    d.lastOffset = (O : Int) → O ≤ d.output.length →
    ∃ ext : List Byte, ext.length = L ∧
      d.copyBytes L = .ok { d with output := d.output ++ ext } ∧
      ∀ i, i < L → (d.output ++ ext)[d.output.length + i]?
        = (d.output ++ ext)[d.output.length + i - O]? := by
  intro L
  induction L with
  | zero =>
    intro d _ _
    exact ⟨[], rfl, by simp [Decompressor.copyBytes]; rfl, by intro i hi; omega⟩
  | succ L ih =>
    intro d hl hlen
    have hlt : d.output.length - O < d.output.length := by omega
    have hrd : idx? d.output ((d.output.length : Int) - d.lastOffset)
        = some (d.output[d.output.length - O]) := by
      rw [hl, idx?_sub _ _ _ hlen, List.getElem?_eq_getElem hlt]
    obtain ⟨ext, e1, e2, e3⟩ := ih { d with output := d.output ++ [d.output[d.output.length - O]] }
      hl (by simp only [List.length_append, List.length_singleton]; omega)
    refine ⟨d.output[d.output.length - O] :: ext, by simp [e1], ?_, ?_⟩
    · simp only [Decompressor.copyBytes, hrd, orPanic, bind, Except.bind]
      rw [e2]
      simp
    · intro i hi
      have happ : d.output ++ d.output[d.output.length - O] :: ext
          = (d.output ++ [d.output[d.output.length - O]]) ++ ext := by simp
      cases i with
      | zero =>
        rw [Nat.add_zero, List.getElem?_append_right (Nat.le_refl _), Nat.sub_self,
          List.getElem?_append_left hlt, List.getElem?_eq_getElem hlt]
        simp
      | succ k =>
        have := e3 k (by omega)
        simp only [List.length_append, List.length_singleton] at this
        rw [happ]
        have a1 : d.output.length + (k + 1) = d.output.length + 1 + k := by omega
        rw [a1]
        exact this

theorem writeBit_backtrack {c c' : Compressor} {v : Nat} (e : c.writeBit v = some c') :
    c'.backtrack = false := by
  obtain ⟨output, oi, ii, bi, m, diff, bt, delta, reads⟩ := c
  have tail : ∀ y : Compressor, (if v > 0 then
        (Compressor.orByte y.output (y.bitIndex : Int) y.bitMask).bind fun o =>
          some { y with output := o, bitMask := y.bitMask >>> 1 }
      else (some y.output).bind fun o => some { y with output := o, bitMask := y.bitMask >>> 1 })
      = some c' → c'.backtrack = y.backtrack := by
    intro y h
    split at h
    · simp only [Option.bind_eq_some, Option.some.injEq] at h
      obtain ⟨_, _, rfl⟩ := h
      rfl
    · simp only [Option.some_bind, Option.some.injEq] at h
      subst h
      rfl
  cases bt
  · simp only [Compressor.writeBit, Bool.false_eq_true, if_false, Option.bind_eq_bind,
      Option.pure_def] at e
    split at e
    · simp only [Option.bind_eq_some] at e
      obtain ⟨y, hy, h⟩ := e
      have hyb : y.backtrack = false := by
        simp only [Compressor.writeByte, Option.bind_eq_bind, Option.bind_eq_some, Option.pure_def,
          Option.some.injEq] at hy
        obtain ⟨_, _, rfl⟩ := hy
        rfl
      rw [tail y h, hyb]
    · simp only [Option.some_bind] at e
      exact tail ⟨output, oi, ii, bi, m, diff, false, delta, reads⟩ e
  · simp only [Compressor.writeBit, if_true, Option.bind_eq_bind, Option.pure_def] at e
    split at e
    · simp only [Option.bind_eq_some, Option.some.injEq] at e
      obtain ⟨_, _, rfl⟩ := e
      rfl
    · simp only [Option.some_bind, Option.some.injEq] at e
      subst e
      rfl

theorem gamma_backtrack {c c' : Compressor} {v : Int} {bw inv : Bool}
    (e : c.writeInterlacedEliasGamma v bw inv = some c') : c'.backtrack = false := by
  unfold Compressor.writeInterlacedEliasGamma at e
  simp only [Option.bind_eq_bind, Option.bind_eq_some] at e
  obtain ⟨_, _, h⟩ := e
  exact writeBit_backtrack h

theorem emitRest_backtrack {input : List Byte} {bw inv : Bool} {prev : Block}
    {rest : List Block} {lo : Nat} {c c' : Compressor}
    (e : emitRest input bw inv prev rest lo c = some c') : c'.backtrack = false := by
  unfold emitRest at e
  simp only [Option.bind_eq_bind, Option.bind_eq_some] at e
  obtain ⟨_, _, _, _, h⟩ := e
  exact gamma_backtrack h

theorem run_backtrack {input : List Byte} {skip limit : Nat} {bw inv : Bool} {h : BlockRef}
    {c : Compressor} (hv : Valid input skip limit h)
    (e : Compressor.run h input skip bw inv = some c) : c.backtrack = false := by
  obtain ⟨prev, rest, hr⟩ : ∃ prev rest, h.reverse = prev :: rest := by
    cases e' : h.reverse with
    | nil =>
      have : h = [] := by simpa using e'
      subst this; exact absurd hv (by simp [Valid])
    | cons a b => exact ⟨a, b, rfl⟩
  have hrev : h = rest.reverse ++ [prev] := List.reverse_eq_cons_iff.1 hr
  have hd : deref h = some (finalBlock prev rest) := by
    rw [hrev]; exact deref_reverse rest prev []
  have hb := valid_bits_ge hv
  rw [(head_of_deref hd).1] at hb
  rw [run_eq h input skip bw inv prev rest hrev hb] at e
  exact emitRest_backtrack e

theorem buffer_full {c : Compressor} {bits : Int} (h : WInv c) (hb : c.backtrack = false)
    (e1 : c.bits = bits + 18) (e2 : c.output.length = ((bits + 25) / 8).toNat)
    (hge : -1 ≤ bits) :
    c.outputIndex = c.output.length ∧ ((c.output.length : Nat) : Int) = (bits + 25) / 8 ∧
      (8 * (c.outputIndex : Int) - freeBits c.bitMask) = bits + 18 := by
  have hf := freeBits_le h
  have hoi := h.oi_le
  simp only [Compressor.bits, Compressor.used, hb, btoi, Bool.false_eq_true, if_false] at e1
  have hN : ((c.output.length : Nat) : Int) = (bits + 25) / 8 := by
    rw [e2, Int.toNat_of_nonneg (by omega)]
  refine ⟨by omega, hN, by omega⟩

theorem log2_eq {n k : Nat} (h1 : 2 ^ k ≤ n) (h2 : n < 2 ^ (k + 1)) : Nat.log2 n = k := by
  have hn : n ≠ 0 := by
    have := Nat.two_pow_pos k; omega
  have a1 : k ≤ Nat.log2 n := (Nat.le_log2 hn).2 h1
  have a2 : Nat.log2 n < k + 1 := (Nat.log2_lt hn).2 h2
  omega

theorem log2_le_one {m : Nat} (h : m ≤ 1) : Nat.log2 m = 0 := by
  have : m = 0 ∨ m = 1 := by omega
  rcases this with rfl | rfl
  · exact log2_zero
  · exact log2_eq (by decide) (by decide)

theorem log2_half {m : Nat} (h : 2 ≤ m) : Nat.log2 (m / 2) + 1 = Nat.log2 m := by
  have hn : m ≠ 0 := by omega
  have h1 := Nat.log2_self_le hn
  have h2 := lt_two_pow_log2 m
  have hk : 1 ≤ Nat.log2 m := (Nat.le_log2 hn).2 (by simpa using h)
  obtain ⟨k, hk'⟩ : ∃ k, Nat.log2 m = k + 1 := ⟨Nat.log2 m - 1, by omega⟩
  rw [hk'] at h1 h2 ⊢
  rw [pow_succ] at h1 h2
  rw [log2_eq (k := k) (by omega) (by rw [pow_succ]; omega)]

theorem log2_le_seven {m : Nat} (h : m ≤ 128) : Nat.log2 m ≤ 7 := by
  by_cases h0 : m = 0
  · subst h0; rw [log2_zero]; omega
  · have := (Nat.log2_lt (k := 8) h0).2 (by omega)
    omega

theorem remaining_le {d : Decompressor} (h : RInv d) : remaining d ≤ 8 * d.inputData.length := by
  have h1 := h.idx
  have h2 := log2_le_seven h.mask
  have h3 := btoi_le_one d.backtrack
  unfold remaining
  by_cases h0 : d.bitMask ≠ 0 ∨ d.backtrack = true
  · have := h.used h0
    omega
  · have hm : d.bitMask = 0 := by
      by_contra hc; exact h0 (Or.inl hc)
    have hb : d.backtrack = false := by
      cases hbk : d.backtrack
      · rfl
      · exact absurd (Or.inr hbk) h0
    rw [hm, hb, log2_zero]
    simp [btoi]

theorem readByte_reads {d : Decompressor} (h : RInv d) : Reads d 8 (fun r => r.2) d.readByte := by
  unfold Decompressor.readByte
  cases hb : d.inputData[d.inputIndex]? with
  | none => simp [orPanic, Reads, bind, Except.bind]
  | some b =>
    have hlt := lt_length_of_getElem? hb
    simp only [orPanic, bind, Except.bind, pure, Except.pure]
    refine ⟨⟨Nat.succ_le_of_lt hlt, h.mask, fun _ => Nat.le_add_left 1 _⟩, ?_, rfl⟩
    show 8 * (d.inputData.length - (d.inputIndex + 1)) + Nat.log2 d.bitMask + btoi d.backtrack + 8 ≤ _
    unfold remaining
    omega

theorem readBit_reads {d : Decompressor} (h : RInv d) : Reads d 1 (fun r => r.2) d.readBit := by
  unfold Decompressor.readBit
  by_cases hb : d.backtrack = true
  · rw [if_pos hb]
    cases hr : idx? d.inputData ((d.inputIndex : Int) - 1) with
    | none => simp [orPanic, Reads, bind, Except.bind]
    | some b =>
      simp only [orPanic, bind, Except.bind, pure, Except.pure]
      refine ⟨⟨h.idx, h.mask, ?_⟩, ?_, rfl⟩
      · intro h0
        rcases h0 with h0 | h0
        · exact h.used (Or.inl h0)
        · cases h0
      · show 8 * (d.inputData.length - d.inputIndex) + Nat.log2 d.bitMask + btoi false + 1 ≤ _
        unfold remaining
        rw [hb]
        simp [btoi]
  · rw [if_neg hb]
    have hb' : d.backtrack = false := by simpa using hb
    by_cases hm : d.bitMask >>> 1 = 0
    · simp only [hm, if_true]
      have hm1 : d.bitMask ≤ 1 := by
        rw [Nat.shiftRight_eq_div_pow] at hm; omega
      have hl0 := log2_le_one hm1
      have hl7 : Nat.log2 128 = 7 := log2_eq (by decide) (by decide)
      cases hrb : d.inputData[d.inputIndex]? with
      | none => simp [Decompressor.readByte, hrb, orPanic, Reads, bind, Except.bind]
      | some b =>
        have hlt := lt_length_of_getElem? hrb
        have key : ∀ bit : Nat, Reads d 1 (fun r : Nat × Decompressor => r.2)
            (.ok (bit, { d with bitMask := 128, lastByte := b.val, inputIndex := d.inputIndex + 1,
                                bitValue := b.val })) := by
          intro bit
          refine ⟨⟨Nat.succ_le_of_lt hlt, Nat.le_refl _, fun _ => Nat.le_add_left 1 _⟩, ?_, rfl⟩
          show 8 * (d.inputData.length - (d.inputIndex + 1)) + Nat.log2 128 + btoi d.backtrack + 1 ≤ _
          unfold remaining
          rw [hl7, hl0, hb']
          simp only [btoi, Bool.false_eq_true, if_false]
          omega
        simp only [Decompressor.readByte, hrb, orPanic, bind, Except.bind, pure, Except.pure]
        split
        · exact key 1
        · exact key 0
    · simp only [hm, if_false]
      have hm2 : 2 ≤ d.bitMask := by
        rw [Nat.shiftRight_eq_div_pow] at hm; omega
      have hl := log2_half hm2
      have hidx := h.used (Or.inl (by omega))
      have key : Reads d 1 (fun r : Nat × Decompressor => r.2)
          (.ok (0, { d with bitMask := d.bitMask >>> 1 })) ∧
          Reads d 1 (fun r : Nat × Decompressor => r.2)
          (.ok (1, { d with bitMask := d.bitMask >>> 1 })) := by
        have hR : RInv { d with bitMask := d.bitMask >>> 1 } :=
          ⟨h.idx, by
            show d.bitMask >>> 1 ≤ 128
            have := h.mask
            rw [Nat.shiftRight_eq_div_pow]; omega, fun _ => hidx⟩
        have hrem : remaining { d with bitMask := d.bitMask >>> 1 } + 1 ≤ remaining d := by
          show 8 * (d.inputData.length - d.inputIndex) + Nat.log2 (d.bitMask >>> 1)
            + btoi d.backtrack + 1 ≤ _
          unfold remaining
          rw [Nat.shiftRight_eq_div_pow, pow_one]
          omega
        exact ⟨⟨hR, hrem, rfl⟩, ⟨hR, hrem, rfl⟩⟩
      simp only [bind, Except.bind, pure, Except.pure]
      split
      · exact key.2
      · exact key.1

theorem gammaLoop_reads (msb : Bool) : ∀ (fuel value : Nat) (d : Decompressor), RInv d →
    remaining d < 2 * fuel →
    Reads d 1 (fun r : Nat × Decompressor => r.2) (Decompressor.gammaLoop msb fuel value d) := by
  intro fuel
  induction fuel with
  | zero => intro value d _ h; omega
  | succ fuel ih =>
    intro value d hR hrem
    unfold Decompressor.gammaLoop
    have h1 := readBit_reads hR
    cases e1 : d.readBit with
    | error e =>
      rw [e1] at h1
      simpa [Reads, bind, Except.bind] using h1
    | ok r1 =>
      obtain ⟨bit1, d1⟩ := r1
      rw [e1] at h1
      obtain ⟨hR1, hr1, hi1⟩ := h1
      simp only [bind, Except.bind]
      by_cases hc : bit1 = btoi d1.backwards
      · rw [if_pos hc]
        have h2 := readBit_reads hR1
        cases e2 : d1.readBit with
        | error e =>
          rw [e2] at h2
          simpa [Reads, bind, Except.bind] using h2
        | ok r2 =>
          obtain ⟨bit2, d2⟩ := r2
          rw [e2] at h2
          obtain ⟨hR2, hr2, hi2⟩ := h2
          simp only [bind, Except.bind]
          have h3 := ih (((value <<< 1) ||| bit2) ^^^ btoi (msb && d2.inverted)) d2 hR2
            (by simp only at hr1 hr2; omega)
          cases e3 : Decompressor.gammaLoop msb fuel
              (((value <<< 1) ||| bit2) ^^^ btoi (msb && d2.inverted)) d2 with
          | error e =>
            rw [e3] at h3
            exact h3
          | ok r3 =>
            rw [e3] at h3
            obtain ⟨hR3, hr3, hi3⟩ := h3
            refine ⟨hR3, ?_, ?_⟩
            · simp only at hr1 hr2 hr3 ⊢; omega
            · simp only at hi1 hi2 hi3 ⊢; rw [hi3, hi2, hi1]
      · rw [if_neg hc]
        exact ⟨hR1, hr1, hi1⟩

theorem gamma_reads (msb : Bool) {d : Decompressor} (h : RInv d) :
    Reads d 1 (fun r : Nat × Decompressor => r.2) (d.readInterlacedEliasGamma msb) := by
  unfold Decompressor.readInterlacedEliasGamma
  have := remaining_le h
  exact gammaLoop_reads msb _ 1 d h (by omega)

theorem copyLiteralBytes_reads : ∀ (n : Nat) (d : Decompressor), RInv d →
    Reads d 0 (fun r : Decompressor => r) (Decompressor.copyLiteralBytes n d) := by
  intro n
  induction n with
  | zero =>
    intro d h
    exact ⟨h, Nat.le_refl _, rfl⟩
  | succ n ih =>
    intro d h
    unfold Decompressor.copyLiteralBytes
    have h1 := readByte_reads h
    cases e1 : d.readByte with
    | error e =>
      rw [e1] at h1
      simpa [Reads, bind, Except.bind] using h1
    | ok r1 =>
      obtain ⟨v, d1⟩ := r1
      rw [e1] at h1
      obtain ⟨hR1, hr1, hi1⟩ := h1
      simp only [bind, Except.bind]
      have hR1w : RInv (d1.writeByte v) := ⟨hR1.idx, hR1.mask, hR1.used⟩
      have h2 := ih (d1.writeByte v) hR1w
      cases e2 : Decompressor.copyLiteralBytes n (d1.writeByte v) with
      | error e =>
        rw [e2] at h2
        exact h2
      | ok d2 =>
        rw [e2] at h2
        obtain ⟨hR2, hr2, hi2⟩ := h2
        refine ⟨hR2, ?_, ?_⟩
        · have e : remaining (d1.writeByte v) = remaining d1 := rfl
          simp only at hr1 hr2 ⊢
          rw [e] at hr2
          omega
        · simp only at hi1 hi2 ⊢
          rw [hi2]
          exact hi1

theorem copyBytes_reads : ∀ (n : Nat) (d : Decompressor), RInv d →
    Reads d 0 (fun r : Decompressor => r) (d.copyBytes n) := by
  intro n
  induction n with
  | zero =>
    intro d h
    exact ⟨h, Nat.le_refl _, rfl⟩
  | succ n ih =>
    intro d h
    unfold Decompressor.copyBytes
    cases e1 : idx? d.output ((d.output.length : Int) - d.lastOffset) with
    | none => simp [orPanic, Reads, bind, Except.bind]
    | some b =>
      simp only [orPanic, bind, Except.bind]
      have hR1 : RInv { d with output := d.output ++ [b] } := ⟨h.idx, h.mask, h.used⟩
      have h2 := ih { d with output := d.output ++ [b] } hR1
      cases e2 : Decompressor.copyBytes { d with output := d.output ++ [b] } n with
      | error e =>
        rw [e2] at h2
        exact h2
      | ok d2 =>
        rw [e2] at h2
        exact h2

theorem reads_bind {α β : Type} {d : Decompressor} {k j : Nat} {proj : α → Decompressor}
    {proj2 : β → Decompressor} {r : Except Stop α} {f : α → Except Stop β}
    (h : Reads d k proj r) (hf : ∀ a, r = .ok a → Reads (proj a) j proj2 (f a)) :
    Reads d (k + j) proj2 (r >>= f) := by
  cases r with
  | error e => exact h
  | ok a =>
    obtain ⟨hR, hr, hi⟩ := h
    have h2 := hf a rfl
    show Reads d (k + j) proj2 (f a)
    cases e : f a with
    | error e' => rw [e] at h2; exact h2
    | ok b =>
      rw [e] at h2
      obtain ⟨hR2, hr2, hi2⟩ := h2
      exact ⟨hR2, by omega, hi2.trans hi⟩

theorem reads_mono {α : Type} {d : Decompressor} {k k2 : Nat} {proj : α → Decompressor}
    {r : Except Stop α} (h : Reads d k proj r) (hk : k2 ≤ k) : Reads d k2 proj r := by
  cases r with
  | error e => exact h
  | ok a =>
    obtain ⟨hR, hr, hi⟩ := h
    exact ⟨hR, by omega, hi⟩

theorem reads_shift {α : Type} {d x : Decompressor} {k : Nat} {proj : α → Decompressor}
    {r : Except Stop α} (h : Reads x (k + 1) proj r) (hr0 : remaining x ≤ remaining d + 1)
    (hi0 : x.inputData = d.inputData) : Reads d k proj r := by
  cases r with
  | error e => exact h
  | ok a =>
    obtain ⟨hR, hr, hi⟩ := h
    exact ⟨hR, by omega, hi.trans hi0⟩

theorem reads_next {d : Decompressor} (h : RInv d) (a b : State) :
    Reads d 1 (fun r : State × Decompressor => r.2)
      (d.readBit >>= fun r => if r.1 = 0 then pure (a, r.2) else pure (b, r.2)) := by
  refine reads_bind (j := 0) (readBit_reads h) ?_
  rintro ⟨bit, d1⟩ e
  have h1 := readBit_reads h
  rw [e] at h1
  by_cases hb : bit = 0
  · simp only [hb, if_true]
    exact ⟨h1.1, Nat.le_refl _, rfl⟩
  · simp only [hb, if_false]
    exact ⟨h1.1, Nat.le_refl _, rfl⟩

theorem index_pos {d d1 : Decompressor} (h : RInv d) (h1 : RInv d1)
    (hr : remaining d1 + 1 ≤ remaining d) (hi : d1.inputData = d.inputData) :
    1 ≤ d1.inputIndex := by
  have a := remaining_le h
  have b := h1.idx
  rw [hi] at b
  unfold remaining at hr a
  rw [hi] at hr
  omega

theorem process_reads {s : State} {d : Decompressor}
    (hs : s = .COPY_LITERALS ∨ s = .COPY_FROM_LAST_OFFSET ∨ s = .COPY_FROM_NEW_OFFSET)
    (h : RInv d) : Reads d 1 (fun r : State × Decompressor => r.2) (s.Process d) := by
  rcases hs with rfl | rfl | rfl
  · refine reads_mono (k := 1 + (0 + 1)) (reads_bind (gamma_reads false h) ?_) (by omega)
    rintro ⟨len, d1⟩ e1
    have h1 := gamma_reads false h
    rw [e1] at h1
    refine reads_bind (copyLiteralBytes_reads len d1 h1.1) ?_
    intro d2 e2
    have h2 := copyLiteralBytes_reads len d1 h1.1
    rw [e2] at h2
    exact reads_next h2.1 _ _
  · refine reads_mono (k := 1 + (0 + 1)) (reads_bind (gamma_reads false h) ?_) (by omega)
    rintro ⟨len, d1⟩ e1
    have h1 := gamma_reads false h
    rw [e1] at h1
    refine reads_bind (copyBytes_reads len d1 h1.1) ?_
    intro d2 e2
    have h2 := copyBytes_reads len d1 h1.1
    rw [e2] at h2
    exact reads_next h2.1 _ _
  · refine reads_mono (k := 1 + 0) (reads_bind (gamma_reads true h) ?_) (by omega)
    rintro ⟨msb, d1⟩ e1
    have h1 := gamma_reads true h
    rw [e1] at h1
    obtain ⟨hR1, hr1, hi1⟩ := h1
    by_cases hm : msb = 256
    · simp only [hm, if_true]
      exact ⟨hR1, Nat.le_refl _, rfl⟩
    · simp only [hm, if_false]
      refine reads_mono (k := 8 + 0) (reads_bind (readByte_reads hR1) ?_) (by omega)
      rintro ⟨b, d2⟩ e2
      have h2 := readByte_reads hR1
      rw [e2] at h2
      obtain ⟨hR2, hr2, hi2⟩ := h2
      have hpos : 1 ≤ d2.inputIndex := index_pos hR1 hR2 (by simp only at hr2 ⊢; omega) hi2
      have key : ∀ d3 : Decompressor, RInv d3 → remaining d3 ≤ remaining d2 + 1 →
          d3.inputData = d2.inputData → Reads d2 0 (fun r : State × Decompressor => r.2)
          (d3.readInterlacedEliasGamma false >>= fun r =>
            r.2.copyBytes (r.1 + 1) >>= fun d =>
            d.readBit >>= fun r => if r.1 = 0 then pure (State.COPY_LITERALS, r.2)
              else pure (State.COPY_FROM_NEW_OFFSET, r.2)) := by
        intro d3 hR3 hr3 hi3
        refine reads_shift (x := d3) ?_ hr3 hi3
        refine reads_mono (k := 1 + (0 + 1)) (reads_bind (gamma_reads false hR3) ?_) (by omega)
        rintro ⟨len, d4⟩ e4
        have h4 := gamma_reads false hR3
        rw [e4] at h4
        refine reads_bind (copyBytes_reads (len + 1) d4 h4.1) ?_
        intro d5 e5
        have h5 := copyBytes_reads (len + 1) d4 h4.1
        rw [e5] at h5
        exact reads_next h5.1 _ _
      have hrem : ∀ d3 : Decompressor, d3.inputData = d2.inputData →
          d3.inputIndex = d2.inputIndex → d3.bitMask = d2.bitMask →
          remaining d3 ≤ remaining d2 + 1 := by
        intro d3 a1 a2 a3
        unfold remaining
        rw [a1, a2, a3]
        have := btoi_le_one d3.backtrack
        omega
      cases hbw : d2.backwards
      · simp only [hbw, Bool.false_eq_true, if_false]
        refine key _ ⟨hR2.idx, hR2.mask, fun _ => hpos⟩ ?_ rfl
        exact hrem _ rfl rfl rfl
      · simp only [hbw, if_true]
        refine key _ ⟨hR2.idx, hR2.mask, fun _ => hpos⟩ ?_ rfl
        exact hrem _ rfl rfl rfl

theorem decompress_total : ∀ (fuel : Nat) (s : State) (d : Decompressor),
    (s = .COPY_END ∨ s = .COPY_LITERALS ∨ s = .COPY_FROM_LAST_OFFSET ∨
      s = .COPY_FROM_NEW_OFFSET) → RInv d → remaining d < fuel →
    decompressLoop fuel s d = .panic ∨ ∃ out, decompressLoop fuel s d = .returned out := by
  intro fuel
  induction fuel with
  | zero => intro s d _ _ h; omega
  | succ fuel ih =>
    intro s d hs hR hrem
    simp only [decompressLoop]
    by_cases he : s = .COPY_END
    · rw [if_pos he]
      exact Or.inr ⟨_, rfl⟩
    · rw [if_neg he]
      have hs3 : s = .COPY_LITERALS ∨ s = .COPY_FROM_LAST_OFFSET ∨ s = .COPY_FROM_NEW_OFFSET := by
        rcases hs with h | h
        · exact absurd h he
        · exact h
      have hp := process_reads hs3 hR
      cases e : s.Process d with
      | error x =>
        rw [e] at hp
        have hx : x = .panic := hp
        subst hx
        exact Or.inl rfl
      | ok r =>
        obtain ⟨s1, d1⟩ := r
        rw [e] at hp
        obtain ⟨hR1, hr1, _⟩ := hp
        have hk := process_known hs3 e
        have hn := process_next hs3 e
        simp only [hk, if_false]
        exact ih s1 d1 hn hR1 (by simp only at hr1; omega)

theorem decompress_returns_or_faults (input : List Byte) (backwards invert : Bool) :
    Decompress input backwards invert = .panic ∨
      ∃ out, Decompress input backwards invert = .returned out := by
  unfold Decompress
  refine decompress_total _ _ _ (Or.inr (Or.inl rfl)) ⟨Nat.zero_le _, Nat.zero_le _, ?_⟩ ?_
  · intro h
    rcases h with h | h
    · exact absurd rfl h
    · cases h
  · show 8 * (input.length - 0) + Nat.log2 0 + btoi false < _
    rw [log2_zero]
    simp [btoi]

theorem logged_same (s : TaskState) (log : List BlockRef) :
    Logged (some s) s log (some (s, log)) :=
  ⟨rfl, [], by simp, by simp, rfl⟩

theorem logged_frame {s s' : TaskState} {log : List BlockRef}
    (h : s'.optimalBlock = s.optimalBlock) : Logged (some s') s log (some (s', log)) :=
  ⟨rfl, [], by simp, by simp, h⟩

theorem logged_new {s s' : TaskState} {log : List BlockRef} {blk : BlockRef} (hb : blk ≠ [])
    (h : s'.optimalBlock = offer s.optimalBlock blk) :
    Logged (some s') s log (some (s', log ++ [blk])) :=
  ⟨rfl, [blk], rfl, by simpa using hb, by simpa using h⟩

theorem logged_bind {r1 : Option TaskState} {s : TaskState} {log : List BlockRef}
    {rl1 : Option (TaskState × List BlockRef)} {g : TaskState → Option TaskState}
    {gl : TaskState × List BlockRef → Option (TaskState × List BlockRef)}
    (h1 : Logged r1 s log rl1)
    (h2 : ∀ s1 log1, Logged (g s1) s1 log1 (gl (s1, log1))) :
    Logged (r1.bind g) s log (rl1.bind gl) := by
  cases rl1 with
  | none =>
    have : r1 = none := h1
    subst this
    exact rfl
  | some p =>
    obtain ⟨s1, log1⟩ := p
    obtain ⟨e1, new1, hl1, hn1, ho1⟩ := h1
    subst e1
    have h := h2 s1 log1
    simp only [Option.some_bind]
    cases e : gl (s1, log1) with
    | none =>
      rw [e] at h
      exact h
    | some q =>
      obtain ⟨s2, log2⟩ := q
      rw [e] at h
      obtain ⟨e2, new2, hl2, hn2, ho2⟩ := h
      refine ⟨e2, new1 ++ new2, by rw [hl2, hl1, List.append_assoc], ?_, ?_⟩
      · intro b hb
        rcases List.mem_append.1 hb with hb | hb
        · exact hn1 b hb
        · exact hn2 b hb
      · rw [ho2, ho1, List.foldl_append]

theorem fromLastOffset_logged (index offset : Nat) (s : TaskState) (log : List BlockRef) :
    Logged (fromLastOffset index offset s) s log (fromLastOffsetLog index offset s log) := by
  unfold fromLastOffset fromLastOffsetLog
  cases h1 : s.o.lastLiteral[offset]? with
  | none => exact rfl
  | some ll =>
    simp only [Option.bind_eq_bind, Option.some_bind]
    cases ll with
    | nil => exact logged_same s log
    | cons l rest =>
      simp only
      cases h2 : store s.o.lastMatch offset
          (⟨l.Bits + 1 + eliasGammaBits ((index : Int) - l.Index), index, offset⟩ :: l :: rest) with
      | none => exact rfl
      | some lastMatch => exact logged_new (by simp) rfl

theorem copyLiterals_logged (index offset : Nat) (s : TaskState) (log : List BlockRef) :
    Logged (copyLiterals index offset s) s log (copyLiteralsLog index offset s log) := by
  unfold copyLiterals copyLiteralsLog
  cases h0 : store s.o.matchLength offset 0 with
  | none => exact rfl
  | some ml =>
    simp only [Option.bind_eq_bind, Option.some_bind]
    cases h1 : s.o.lastMatch[offset]? with
    | none => exact rfl
    | some lm =>
      simp only [Option.some_bind]
      cases lm with
      | nil => exact logged_frame rfl
      | cons x rest =>
        simp only
        cases h2 : store s.o.lastLiteral offset
            (⟨x.Bits + 1 + eliasGammaBits ((index : Int) - x.Index) + ((index : Int) - x.Index) * 8,
              index, 0⟩ :: x :: rest) with
        | none => exact rfl
        | some lastLiteral => exact logged_new (by simp) rfl

theorem logged_opt {α : Type} {s : TaskState} {log : List BlockRef} (x : Option α)
    {f : α → Option TaskState} {fl : α → Option (TaskState × List BlockRef)}
    (h : ∀ a, Logged (f a) s log (fl a)) : Logged (x.bind f) s log (x.bind fl) := by
  cases x with
  | none => exact rfl
  | some a => exact h a

theorem logged_ite {s : TaskState} {log : List BlockRef} {c c' : Prop} [Decidable c]
    [Decidable c'] {A B : Option TaskState} {A' B' : Option (TaskState × List BlockRef)}
    (hc : c ↔ c') (h1 : Logged A s log A') (h2 : Logged B s log B') :
    Logged (if c then A else B) s log (if c' then A' else B') := by
  by_cases h : c
  · rw [if_pos h, if_pos (hc.1 h)]; exact h1
  · rw [if_neg h, if_neg (fun h' => h (hc.2 h'))]; exact h2

theorem fromNewOffset_logged (index offset : Nat) (s : TaskState) (log : List BlockRef) :
    Logged (fromNewOffset index offset s) s log (fromNewOffsetLog index offset s log) := by
  unfold fromNewOffset fromNewOffsetLog
  simp only [Option.bind_eq_bind]
  refine logged_opt _ (fun m0 => ?_)
  refine logged_opt _ (fun ml => ?_)
  refine logged_ite Iff.rfl ?_ (logged_frame rfl)
  refine logged_opt _ (fun r => ?_)
  obtain ⟨bl, size⟩ := r
  refine logged_opt _ (fun length => ?_)
  refine logged_opt _ (fun p => ?_)
  refine logged_opt _ (fun b => ?_)
  refine logged_opt _ (fun lm => ?_)
  refine logged_ite ?_ ?_ (logged_frame rfl)
  · cases lm <;> exact Iff.rfl
  · refine logged_opt _ (fun lastMatch => ?_)
    exact logged_new (by simp) rfl

theorem processOffset_logged (input : List Byte) (index skip offset : Nat) (s : TaskState)
    (log : List BlockRef) :
    Logged (processOffset input index skip offset s) s log
      (processOffsetLog input index skip offset s log) := by
  unfold processOffset processOffsetLog
  cases h : matchAt input index skip offset with
  | none => exact rfl
  | some b =>
    simp only [Option.bind_eq_bind, Option.some_bind]
    cases b with
    | true =>
      simp only [if_true]
      exact logged_bind (fromLastOffset_logged index offset s log)
        (fun s1 log1 => fromNewOffset_logged index offset s1 log1)
    | false =>
      simp only [Bool.false_eq_true, if_false]
      exact copyLiterals_logged index offset s log

theorem processLoop_logged (input : List Byte) (index skip : Nat) :
    ∀ (n offset : Nat) (s : TaskState) (log : List BlockRef),
      Logged (processLoop input index skip n offset s) s log
        (processLoopLog input index skip n offset s log) := by
  intro n
  induction n with
  | zero => intro offset s log; exact logged_same s log
  | succ n ih =>
    intro offset s log
    unfold processLoop processLoopLog
    exact logged_bind (processOffset_logged input index skip offset s log)
      (fun s1 log1 => ih (offset + 1) s1 log1)

/-- What `processTask` does to the blocks it creates: without the history variable it
runs in the same way; it returns nil when it has created no block, and otherwise the
first among the created blocks of least `Bits`. -/
theorem foldl_offer : ∀ (log : List BlockRef) (ob : BlockRef), (∀ b ∈ log, b ≠ []) →
    (log.foldl offer ob = ob ∧ (ob = [] → log = []) ∧
      (ob ≠ [] → ∀ b ∈ log, headBits ob ≤ headBits b)) ∨
    (∃ i, log[i]? = some (log.foldl offer ob) ∧
      (ob ≠ [] → headBits (log.foldl offer ob) < headBits ob) ∧
      (∀ (j : Nat) (b : BlockRef), log[j]? = some b → headBits (log.foldl offer ob) ≤ headBits b) ∧
      ∀ (j : Nat) (b : BlockRef), j < i → log[j]? = some b → headBits (log.foldl offer ob) < headBits b) := by
  intro log
  induction log with
  | nil =>
    intro ob _
    exact Or.inl ⟨rfl, fun _ => rfl, fun _ b hb => by cases hb⟩
  | cons x xs ih =>
    intro ob hne
    have hx : x ≠ [] := hne x (List.mem_cons_self _ _)
    have hxs : ∀ b ∈ xs, b ≠ [] := fun b hb => hne b (List.mem_cons_of_mem _ hb)
    simp only [List.foldl_cons]
    by_cases hi : improves ob (headBits x) = true
    · have ho : offer ob x = x := by simp [offer, hi]
      rw [ho]
      have hlt : ob ≠ [] → headBits x < headBits ob := by
        intro h0
        rw [improves_eq] at hi
        simpa [h0] using hi
      right
      rcases ih x hxs with ⟨e, _, hge⟩ | ⟨i, e, hlt2, hge, hfirst⟩
      · refine ⟨0, by simp [e], ?_, ?_, ?_⟩
        · rw [e]; exact hlt
        · intro j b hj
          rw [e]
          cases j with
          | zero =>
            simp only [List.getElem?_cons_zero, Option.some.injEq] at hj
            subst hj; exact le_refl _
          | succ j =>
            simp only [List.getElem?_cons_succ] at hj
            exact hge hx b (List.mem_iff_getElem?.2 ⟨_, hj⟩)
        · intro j b hj; omega
      · have h1 := hlt2 hx
        refine ⟨i + 1, by simpa using e, ?_, ?_, ?_⟩
        · intro h0
          have := hlt h0
          omega
        · intro j b hj
          cases j with
          | zero =>
            simp only [List.getElem?_cons_zero, Option.some.injEq] at hj
            subst hj; omega
          | succ j =>
            simp only [List.getElem?_cons_succ] at hj
            exact hge j b hj
        · intro j b hji hj
          cases j with
          | zero =>
            simp only [List.getElem?_cons_zero, Option.some.injEq] at hj
            subst hj; exact h1
          | succ j =>
            simp only [List.getElem?_cons_succ] at hj
            exact hfirst j b (by omega) hj
    · have ho : offer ob x = ob := by simp [offer, hi]
      rw [ho]
      have hob : ob ≠ [] ∧ headBits ob ≤ headBits x := by
        rw [improves_eq] at hi
        simpa using hi
      rcases ih ob hxs with ⟨e, _, hge⟩ | ⟨i, e, hlt2, hge, hfirst⟩
      · left
        refine ⟨e, fun h0 => absurd h0 hob.1, ?_⟩
        intro _ b hb
        rcases List.mem_cons.1 hb with rfl | hb
        · exact hob.2
        · exact hge hob.1 b hb
      · right
        have h1 := hlt2 hob.1
        refine ⟨i + 1, by simpa using e, fun _ => h1, ?_, ?_⟩
        · intro j b hj
          cases j with
          | zero =>
            simp only [List.getElem?_cons_zero, Option.some.injEq] at hj
            subst hj; omega
          | succ j =>
            simp only [List.getElem?_cons_succ] at hj
            exact hge j b hj
        · intro j b hji hj
          cases j with
          | zero =>
            simp only [List.getElem?_cons_zero, Option.some.injEq] at hj
            subst hj; omega
          | succ j =>
            simp only [List.getElem?_cons_succ] at hj
            exact hfirst j b (by omega) hj

/-- The call of `processTask` with the history variable, from the call without it. -/
theorem processTask_logged (o : Optimizer) (initialOffset finalOffset index skip : Nat)
    (input : List Byte) :
    match processTaskLog o initialOffset finalOffset index skip input with
    | none => processTask o initialOffset finalOffset index skip input = none
    | some (o', blk, log) =>
      processTask o initialOffset finalOffset index skip input = some (o', blk) ∧
      (blk = [] ↔ log = []) ∧
      (blk ≠ [] → ∃ i, log[i]? = some blk ∧
        (∀ (j : Nat) (b : BlockRef), log[j]? = some b → headBits blk ≤ headBits b) ∧
        ∀ (j : Nat) (b : BlockRef), j < i → log[j]? = some b → headBits blk < headBits b) := by
  have h := processLoop_logged input index skip (finalOffset + 1 - initialOffset) initialOffset
    ⟨o, 2, []⟩ []
  unfold processTaskLog processTask
  cases e : processLoopLog input index skip (finalOffset + 1 - initialOffset) initialOffset
      ⟨o, 2, []⟩ [] with
  | none =>
    rw [e] at h
    have h' : processLoop input index skip (finalOffset + 1 - initialOffset) initialOffset
      ⟨o, 2, []⟩ = none := h
    simp [h']
  | some r =>
    obtain ⟨s', log'⟩ := r
    rw [e] at h
    obtain ⟨e1, new, hl, hn, ho⟩ := h
    simp only [List.nil_append] at hl
    subst hl
    simp only [e1, Option.bind_eq_bind, Option.some_bind, Option.pure_def, Option.some.injEq,
      true_and]
    rcases foldl_offer log' [] hn with ⟨a1, a2, _⟩ | ⟨i, a1, _, a3, a4⟩
    · have hb : s'.optimalBlock = [] := by rw [ho]; exact a1
      have hlog := a2 rfl
      refine ⟨⟨fun _ => hlog, fun _ => hb⟩, fun h0 => absurd hb h0⟩
    · rw [← ho] at a1 a3 a4
      have hmem : s'.optimalBlock ∈ log' := List.mem_iff_getElem?.2 ⟨_, a1⟩
      have hb : s'.optimalBlock ≠ [] := hn _ hmem
      refine ⟨⟨fun h0 => absurd h0 hb, ?_⟩, fun _ => ⟨i, a1, a3, a4⟩⟩
      intro h0
      rw [h0] at hmem
      cases hmem

theorem optimizeLoop_succ (k n : Nat) (o : Optimizer) :
    optimizeLoop input skip limit (k + 1) n o =
      (processTask o 1 (offsetCeiling n limit) n skip input).bind fun r =>
        (store r.1.optimal n r.2).bind fun optimal =>
          optimizeLoop input skip limit k (n + 1) { r.1 with optimal := optimal } := rfl

theorem optimizeLoop_add : ∀ (k1 k2 n : Nat) (o : Optimizer),
    optimizeLoop input skip limit (k1 + k2) n o =
      (optimizeLoop input skip limit k1 n o).bind fun o' =>
        optimizeLoop input skip limit k2 (n + k1) o' := by
  intro k1
  induction k1 with
  | zero => intro k2 n o; simp [optimizeLoop]
  | succ k1 ih =>
    intro k2 n o
    have e : k1 + 1 + k2 = (k1 + k2) + 1 := by omega
    rw [e, optimizeLoop_succ, optimizeLoop_succ]
    cases processTask o 1 (offsetCeiling n limit) n skip input with
    | none => rfl
    | some r =>
      simp only [Option.some_bind]
      cases store r.1.optimal n r.2 with
      | none => rfl
      | some optimal =>
        simp only [Option.some_bind]
        rw [ih]
        have e2 : n + 1 + k1 = n + (k1 + 1) := by omega
        rw [e2]

/-- The main loop of `Optimize`, cut at any position. -/
theorem optimize_cut (input : List Byte) (skip limit index : Nat) (h1 : skip ≤ index)
    (h2 : index ≤ input.length) :
    Optimize input skip limit 1 =
      (stateAt input skip limit index).bind (optimizeFrom input skip limit index) := by
  rw [optimize_eq]
  unfold optimizeState stateAt optimizeFrom
  cases initOptimizer input skip limit with
  | none => rfl
  | some o =>
    simp only [Option.some_bind]
    have e : input.length - skip = (index - skip) + (input.length - index) := by omega
    rw [e, optimizeLoop_add]
    have e2 : skip + (index - skip) = index := by omega
    rw [e2]
    cases optimizeLoop input skip limit (index - skip) skip o with
    | none => rfl
    | some o1 => rfl

theorem optimizeLoop_prefix : ∀ (k : Nat) {o : Optimizer} {n : Nat},
    PosInv input skip limit o n → 1 ≤ limit → skip ≤ n → n + k ≤ input.length →
    ∃ o', optimizeLoop input skip limit k n o = some o' ∧
      PosInv input skip limit o' (n + k) := by
  intro k
  induction k with
  | zero =>
    intro o n h _ _ _
    exact ⟨o, rfl, h⟩
  | succ k ih =>
    intro o n h hl hn hk
    obtain ⟨o', blk, e1, e2, h1⟩ := processTask_inv h hl hn (by omega)
    obtain ⟨o2, e3, h2⟩ := ih h1 hl (by omega) (by omega)
    refine ⟨o2, ?_, by rw [show n + (k + 1) = n + 1 + k by omega]; exact h2⟩
    unfold optimizeLoop
    simp only [e1, Option.bind_eq_bind, Option.some_bind]
    have hlt : n < o'.optimal.length := by
      rw [e2, h.len_opt]; omega
    rw [store_of_lt _ _ hlt]
    exact e3

/-- The run of `Optimize` reaches every position without a fault, with the invariant. -/
theorem stateAt_inv (input : List Byte) (skip limit index : Nat) (hl : 1 ≤ limit)
    (h1 : skip ≤ index) (h2 : index ≤ input.length) :
    ∃ o, stateAt input skip limit index = some o ∧ PosInv input skip limit o index := by
  obtain ⟨o, e1, hinv⟩ := initOptimizer_inv input skip hl
  obtain ⟨o', e2, h'⟩ := optimizeLoop_prefix (index - skip) hinv hl (le_refl _) (by omega)
  refine ⟨o', by simp only [stateAt, e1, Option.some_bind, e2], ?_⟩
  rw [show skip + (index - skip) = index by omega] at h'
  exact h'

/-- On ties the search from scratch keeps the largest length. -/
theorem bestLen_tie (optimal : List BlockRef) (n : Nat) :
    ∀ k l, bestLen optimal n k < l → l ≤ k →
      lengthCost optimal n (bestLen optimal n k) < lengthCost optimal n l := by
  intro k
  induction k with
  | zero => intro l h1 h2; omega
  | succ k ih =>
    intro l h1 h2
    by_cases h : k + 1 ≤ 2
    · rw [bestLen_le_two _ _ _ h] at h1; omega
    · rw [bestLen_succ _ _ _ (by omega)] at h1 ⊢
      by_cases hc : lengthCost optimal n (k + 1) ≤ lengthCost optimal n (bestLen optimal n k)
      · rw [if_pos hc] at h1; omega
      · rw [if_neg hc] at h1 ⊢
        by_cases hl : l = k + 1
        · subst hl; exact not_le.mp hc
        · exact ih l h1 (by omega)

theorem linked_set {heap : Heap} {a : Nat} (v : Node) : ∀ {addrs : List Nat},
    a ∉ addrs → Linked heap addrs → Linked (heap.set a v) addrs := by
  intro addrs
  induction addrs with
  | nil => intro _ _; trivial
  | cons b rest ih =>
    intro hn hl
    obtain ⟨⟨n, h1, h2⟩, h3⟩ := hl
    have hab : a ≠ b := fun h => hn (h ▸ List.mem_cons_self _ _)
    refine ⟨⟨n, ?_, h2⟩, ih (fun h => hn (List.mem_cons_of_mem _ h)) h3⟩
    rw [List.getElem?_set_ne hab]
    exact h1

theorem blocksOf_congr {heap heap' : Heap}
    (h : ∀ a : Nat, (heap'[a]?).map Node.block = (heap[a]?).map Node.block) (addrs : List Nat) :
    blocksOf heap' addrs = blocksOf heap addrs := by
  unfold blocksOf
  congr 1
  funext a
  exact h a

theorem blocksOf_linked {heap : Heap} : ∀ {addrs : List Nat}, Linked heap addrs →
    (blocksOf heap addrs).length = addrs.length := by
  intro addrs
  induction addrs with
  | nil => intro _; rfl
  | cons a rest ih =>
    intro hl
    obtain ⟨⟨n, h1, _⟩, h3⟩ := hl
    have := ih h3
    simp only [blocksOf, List.filterMap_cons, h1, Option.map_some', List.length_cons] at this ⊢
    omega

theorem blocksOf_cons {heap : Heap} {a : Nat} {n : Node} (h : heap[a]? = some n)
    (rest : List Nat) : blocksOf heap (a :: rest) = n.block :: blocksOf heap rest := by
  simp only [blocksOf, List.filterMap_cons, h, Option.map_some']

theorem blocksOf_append (heap : Heap) (xs ys : List Nat) :
    blocksOf heap (xs ++ ys) = blocksOf heap xs ++ blocksOf heap ys := by
  simp only [blocksOf, List.filterMap_append]

theorem blocksOf_reverse (heap : Heap) (xs : List Nat) :
    blocksOf heap xs.reverse = (blocksOf heap xs).reverse := by
  simp only [blocksOf, List.filterMap_reverse]

theorem unreverseLoop_succ (fuel : Nat) (heap : Heap) (prev : Option Nat) (a : Nat) :
    unreverseLoop (fuel + 1) heap prev (some a) =
      (orPanic heap[a]?).bind fun node =>
        unreverseLoop fuel (heap.set a { node with Chain := prev }) (some a) node.Chain := rfl

theorem emitLoopHeap_succ (input : List Byte) (bw inv : Bool) (heap : Heap) (fuel : Nat)
    (prev : Block) (a lo : Nat) (c : Compressor) :
    emitLoopHeap input bw inv heap (fuel + 1) prev (some a) lo c =
      (orPanic heap[a]?).bind fun node =>
        (orPanic (Compressor.emitBlock input bw inv prev node.block lo c)).bind fun r =>
          emitLoopHeap input bw inv heap fuel node.block node.Chain r.2 r.1 := rfl

theorem emitLoop_cons (input : List Byte) (bw inv : Bool) (prev cur : Block)
    (rest : List Block) (lo : Nat) (c : Compressor) :
    Compressor.emitLoop input bw inv prev (cur :: rest) lo c =
      (Compressor.emitBlock input bw inv prev cur lo c).bind fun r =>
        Compressor.emitLoop input bw inv cur rest r.2 r.1 := rfl

theorem unreverseLoop_nil (fuel : Nat) (heap : Heap) (prev : Option Nat) :
    unreverseLoop fuel heap prev none = .ok (heap, prev) := by
  cases fuel <;> rfl

/-- The un-reversal loop on a chain in memory: it turns every link round and changes
nothing else. -/
theorem unreverse_spec : ∀ (rest done : List Nat) (heap : Heap) (fuel : Nat),
    (rest.reverse ++ done).Nodup → Linked heap rest → Linked heap done → rest.length ≤ fuel →
    ∃ heap', unreverseLoop fuel heap done.head? rest.head?
        = .ok (heap', (rest.reverse ++ done).head?) ∧
      Linked heap' (rest.reverse ++ done) ∧ heap'.length = heap.length ∧
      (∀ a : Nat, (heap'[a]?).map Node.block = (heap[a]?).map Node.block) ∧
      (∀ a : Nat, a ∉ rest → heap'[a]? = heap[a]?) := by
  intro rest
  induction rest with
  | nil =>
    intro done heap fuel _ _ hd _
    exact ⟨heap, unreverseLoop_nil _ _ _, hd, rfl, fun _ => rfl, fun _ _ => rfl⟩
  | cons a rest ih =>
    intro done heap fuel hnd hl hd hf
    obtain ⟨⟨n, h1, h2⟩, h3⟩ := hl
    obtain ⟨f, rfl⟩ : ∃ f, fuel = f + 1 := ⟨fuel - 1, by simp only [List.length_cons] at hf; omega⟩
    have hlt := lt_length_of_getElem? h1
    have hnd' : (rest.reverse ++ a :: done).Nodup := by
      simpa [List.reverse_cons, List.append_assoc] using hnd
    have ha1 : a ∉ rest := by
      intro h
      have := (List.nodup_append.1 hnd').2.2
      exact this (List.mem_reverse.2 h) (List.mem_cons_self _ _) 
    have ha2 : a ∉ done := by
      have := (List.nodup_cons.1 (List.nodup_append.1 hnd').2.1).1
      exact this
    obtain ⟨heap', e, b1, b2, b3, b4⟩ := ih (a :: done)
      (heap.set a { n with Chain := done.head? }) f hnd'
      (linked_set _ ha1 h3)
      ⟨⟨{ n with Chain := done.head? }, by rw [List.getElem?_set_self hlt], rfl⟩,
        linked_set _ ha2 hd⟩
      (by simp only [List.length_cons] at hf; omega)
    have er : (a :: rest).reverse ++ done = rest.reverse ++ a :: done := by
      simp [List.reverse_cons, List.append_assoc]
    refine ⟨heap', ?_, ?_, ?_, ?_, ?_⟩
    · rw [er, ← e]
      show unreverseLoop (f + 1) heap done.head? (some a) = _
      rw [unreverseLoop_succ, h1]
      simp only [orPanic, Except.bind, h2, List.head?_cons]
    · rw [er]; exact b1
    · rw [b2, List.length_set]
    · intro x
      rw [b3 x]
      by_cases hx : a = x
      · subst hx
        rw [List.getElem?_set_self hlt, h1]
        rfl
      · rw [List.getElem?_set_ne hx]
    · intro x hx
      rw [b4 x (fun h => hx (List.mem_cons_of_mem _ h)),
        List.getElem?_set_ne (by rintro rfl; exact hx (List.mem_cons_self _ _))]

theorem emitLoopHeap_nil (input : List Byte) (bw inv : Bool) (heap : Heap) (fuel : Nat)
    (prev : Block) (lo : Nat) (c : Compressor) :
    emitLoopHeap input bw inv heap fuel prev none lo c = .ok c := by
  cases fuel <;> rfl

/-- The "generate output" loop on a chain in memory is the loop on the list of its
blocks. -/
theorem emitLoopHeap_spec (input : List Byte) (bw inv : Bool) (heap : Heap) :
    ∀ (addrs : List Nat) (fuel : Nat) (prev : Block) (lo : Nat) (c : Compressor),
      Linked heap addrs → addrs.length ≤ fuel →
      emitLoopHeap input bw inv heap fuel prev addrs.head? lo c =
        orPanic (Compressor.emitLoop input bw inv prev (blocksOf heap addrs) lo c) := by
  intro addrs
  induction addrs with
  | nil =>
    intro fuel prev lo c _ _
    exact emitLoopHeap_nil _ _ _ _ _ _ _ _
  | cons a rest ih =>
    intro fuel prev lo c hl hf
    obtain ⟨⟨n, h1, h2⟩, h3⟩ := hl
    obtain ⟨f, rfl⟩ : ∃ f, fuel = f + 1 := ⟨fuel - 1, by simp only [List.length_cons] at hf; omega⟩
    rw [blocksOf_cons h1]
    show emitLoopHeap input bw inv heap (f + 1) prev (some a) lo c = _
    rw [emitLoopHeap_succ, emitLoop_cons, h1]
    simp only [orPanic, Except.bind]
    cases e : Compressor.emitBlock input bw inv prev n.block lo c with
    | none => rfl
    | some r =>
      obtain ⟨c', lo'⟩ := r
      simp only [Option.some_bind, Except.bind, h2]
      exact ih f n.block lo' c' h3 (by simp only [List.length_cons] at hf; omega)

theorem linked_lt {heap : Heap} : ∀ {addrs : List Nat}, Linked heap addrs →
    ∀ a ∈ addrs, a < heap.length := by
  intro addrs
  induction addrs with
  | nil => intro _ a ha; cases ha
  | cons b rest ih =>
    intro hl a ha
    obtain ⟨⟨n, h1, _⟩, h3⟩ := hl
    rcases List.mem_cons.1 ha with rfl | ha
    · exact lt_length_of_getElem? h1
    · exact ih h3 a ha

theorem nodup_length_le {l : List Nat} {N : Nat} (hnd : l.Nodup) (h : ∀ a ∈ l, a < N) :
    l.length ≤ N := by
  have hs : l ⊆ List.range N := fun a ha => List.mem_range.2 (h a ha)
  have := (List.subperm_of_subset hnd hs).length_le
  simpa using this

/-- A chain of one block makes `Compress` fault: the end marker is written with no byte
in the output to take its first bit. -/
theorem compress_single (b : Block) (input : List Byte) (skip : Nat) (bw inv : Bool) :
    Compress [b] input skip bw inv = none := by
  unfold Compress Compressor.run
  simp only [deref, Option.bind_eq_bind, Option.some_bind, List.reverse_singleton]
  split
  · rfl
  · simp [Compressor.emitLoop, Compressor.writeBit, Compressor.orByte, idx?]

/-- `Compress` on a chain in memory: it returns what `Compress` returns on the list of
the blocks of the chain, and leaves the chain reversed in memory. -/
theorem compressHeap_eq (heap : Heap) (path : List Nat) (input : List Byte) (skip : Nat)
    (bw inv : Bool) (hne : path ≠ []) (hnd : path.Nodup) (hl : Linked heap path) :
    ∃ heap', Linked heap' path.reverse ∧ heap'.length = heap.length ∧
      (∀ a : Nat, (heap'[a]?).map Node.block = (heap[a]?).map Node.block) ∧
      (∀ a : Nat, a ∉ path → heap'[a]? = heap[a]?) ∧
      CompressHeap heap path.head? input skip bw inv =
        match Compress (blocksOf heap path) input skip bw inv with
        | some r => .ok (heap', r.1, r.2)
        | none => .error .panic := by
  have hlen := nodup_length_le hnd (linked_lt hl)
  obtain ⟨heap', e, b1, b2, b3, b4⟩ := unreverse_spec path [] heap heap.length
    (by simpa using hnd) hl trivial hlen
  simp only [List.append_nil] at e b1
  refine ⟨heap', b1, b2, b3, b4, ?_⟩
  obtain ⟨a, rest, rfl⟩ : ∃ a rest, path = a :: rest := by
    cases path with
    | nil => exact absurd rfl hne
    | cons a rest => exact ⟨a, rest, rfl⟩
  obtain ⟨⟨n, h1, _⟩, _⟩ := hl
  obtain ⟨p, rest', hr⟩ : ∃ p rest', (a :: rest).reverse = p :: rest' := by
    cases hq : (a :: rest).reverse with
    | nil => simp at hq
    | cons p rest' => exact ⟨p, rest', rfl⟩
  rw [hr] at e b1
  obtain ⟨⟨pn, g1, g2⟩, g3⟩ := b1
  have hrl : rest'.length ≤ heap'.length := by
    have : (a :: rest).reverse.length = (p :: rest').length := by rw [hr]
    simp only [List.length_reverse, List.length_cons] at this hlen
    omega
  have hemit := fun c => emitLoopHeap_spec input bw inv heap' rest' heap'.length pn.block
    INITIAL_OFFSET c g3 hrl
  have hrev : (blocksOf heap (a :: rest)).reverse = pn.block :: blocksOf heap' rest' := by
    rw [← blocksOf_reverse, hr, ← blocksOf_congr b3, blocksOf_cons g1]
  simp only [List.head?_nil, List.head?_cons] at e
  unfold CompressHeap Compress Compressor.run
  rw [hrev, blocksOf_cons h1]
  simp only [List.head?_cons, orPanic, bind, Except.bind, h1, deref, Option.bind]
  split
  · rfl
  · simp only [e, g1, g2, hemit]
    cases he : Compressor.emitLoop input bw inv pn.block (blocksOf heap' rest') INITIAL_OFFSET _ with
    | none => simp only [orPanic]
    | some c1 =>
      simp only [orPanic]
      cases hw : Compressor.writeBit c1 1 with
      | none => simp only [orPanic]
      | some c2 =>
        simp only [orPanic]
        cases hg : Compressor.writeInterlacedEliasGamma c2 256 bw inv with
        | none => simp only [orPanic]
        | some c3 => simp only [orPanic, pure, Except.pure]

theorem gammaLoop64_reads (msb : Bool) : ∀ (fuel : Nat) (value : Int) (d : Decompressor),
    RInv d → remaining d < 2 * fuel →
    Reads d 1 (fun r : Int × Decompressor => r.2) (Decompressor.gammaLoop64 msb fuel value d) := by
  intro fuel
  induction fuel with
  | zero => intro value d _ h; omega
  | succ fuel ih =>
    intro value d hR hrem
    unfold Decompressor.gammaLoop64
    have h1 := readBit_reads hR
    cases e1 : d.readBit with
    | error e =>
      rw [e1] at h1
      simpa [Reads, bind, Except.bind] using h1
    | ok r1 =>
      obtain ⟨bit1, d1⟩ := r1
      rw [e1] at h1
      obtain ⟨hR1, hr1, hi1⟩ := h1
      simp only [bind, Except.bind]
      by_cases hc : bit1 = btoi d1.backwards
      · rw [if_pos hc]
        have h2 := readBit_reads hR1
        cases e2 : d1.readBit with
        | error e =>
          rw [e2] at h2
          simpa [Reads, bind, Except.bind] using h2
        | ok r2 =>
          obtain ⟨bit2, d2⟩ := r2
          rw [e2] at h2
          obtain ⟨hR2, hr2, hi2⟩ := h2
          simp only [bind, Except.bind]
          have h3 := ih (Int.xor (Int.lor (wrap64 (value <<< 1)) (bit2 : Int))
            (btoi (msb && d2.inverted) : Int)) d2 hR2 (by simp only at hr1 hr2; omega)
          cases e3 : Decompressor.gammaLoop64 msb fuel
              (Int.xor (Int.lor (wrap64 (value <<< 1)) (bit2 : Int))
                (btoi (msb && d2.inverted) : Int)) d2 with
          | error e =>
            rw [e3] at h3
            exact h3
          | ok r3 =>
            rw [e3] at h3
            obtain ⟨hR3, hr3, hi3⟩ := h3
            refine ⟨hR3, ?_, ?_⟩
            · simp only at hr1 hr2 hr3 ⊢; omega
            · simp only at hi1 hi2 hi3 ⊢; rw [hi3, hi2, hi1]
      · rw [if_neg hc]
        exact ⟨hR1, hr1, hi1⟩

theorem gamma64_reads (msb : Bool) {d : Decompressor} (h : RInv d) :
    Reads d 1 (fun r : Int × Decompressor => r.2) (d.readInterlacedEliasGamma64 msb) := by
  unfold Decompressor.readInterlacedEliasGamma64
  have := remaining_le h
  exact gammaLoop64_reads msb _ 1 d h (by omega)

theorem copyBytes64_reads : ∀ (n : Nat) (d : Decompressor), RInv d →
    Reads d 0 (fun r : Decompressor => r) (d.copyBytes64 n) := by
  intro n
  induction n with
  | zero =>
    intro d h
    exact ⟨h, Nat.le_refl _, rfl⟩
  | succ n ih =>
    intro d h
    unfold Decompressor.copyBytes64
    cases e1 : idx? d.output (wrap64 ((d.output.length : Int) - d.lastOffset)) with
    | none => simp [orPanic, Reads, bind, Except.bind]
    | some b =>
      simp only [orPanic, bind, Except.bind]
      have hR1 : RInv { d with output := d.output ++ [b] } := ⟨h.idx, h.mask, h.used⟩
      have h2 := ih { d with output := d.output ++ [b] } hR1
      cases e2 : Decompressor.copyBytes64 { d with output := d.output ++ [b] } n with
      | error e =>
        rw [e2] at h2
        exact h2
      | ok d2 =>
        rw [e2] at h2
        exact h2

theorem process64_reads {s : State} {d : Decompressor}
    (hs : s = .COPY_LITERALS ∨ s = .COPY_FROM_LAST_OFFSET ∨ s = .COPY_FROM_NEW_OFFSET)
    (h : RInv d) : Reads d 1 (fun r : State × Decompressor => r.2) (s.Process64 d) := by
  rcases hs with rfl | rfl | rfl
  · refine reads_mono (k := 1 + (0 + 1)) (reads_bind (gamma64_reads false h) ?_) (by omega)
    rintro ⟨len, d1⟩ e1
    have h1 := gamma64_reads false h
    rw [e1] at h1
    refine reads_bind (copyLiteralBytes_reads len.toNat d1 h1.1) ?_
    intro d2 e2
    have h2 := copyLiteralBytes_reads len.toNat d1 h1.1
    rw [e2] at h2
    exact reads_next h2.1 _ _
  · refine reads_mono (k := 1 + (0 + 1)) (reads_bind (gamma64_reads false h) ?_) (by omega)
    rintro ⟨len, d1⟩ e1
    have h1 := gamma64_reads false h
    rw [e1] at h1
    refine reads_bind (copyBytes64_reads len.toNat d1 h1.1) ?_
    intro d2 e2
    have h2 := copyBytes64_reads len.toNat d1 h1.1
    rw [e2] at h2
    exact reads_next h2.1 _ _
  · refine reads_mono (k := 1 + 0) (reads_bind (gamma64_reads true h) ?_) (by omega)
    rintro ⟨msb, d1⟩ e1
    have h1 := gamma64_reads true h
    rw [e1] at h1
    obtain ⟨hR1, hr1, hi1⟩ := h1
    by_cases hm : msb = 256
    · simp only [hm, if_true]
      exact ⟨hR1, Nat.le_refl _, rfl⟩
    · simp only [hm, if_false]
      refine reads_mono (k := 8 + 0) (reads_bind (readByte_reads hR1) ?_) (by omega)
      rintro ⟨b, d2⟩ e2
      have h2 := readByte_reads hR1
      rw [e2] at h2
      obtain ⟨hR2, hr2, hi2⟩ := h2
      have hpos : 1 ≤ d2.inputIndex := index_pos hR1 hR2 (by simp only at hr2 ⊢; omega) hi2
      have key : ∀ d3 : Decompressor, RInv d3 → remaining d3 ≤ remaining d2 + 1 →
          d3.inputData = d2.inputData → Reads d2 0 (fun r : State × Decompressor => r.2)
          (d3.readInterlacedEliasGamma64 false >>= fun r =>
            r.2.copyBytes64 (wrap64 (r.1 + 1)).toNat >>= fun d =>
            d.readBit >>= fun r => if r.1 = 0 then pure (State.COPY_LITERALS, r.2)
              else pure (State.COPY_FROM_NEW_OFFSET, r.2)) := by
        intro d3 hR3 hr3 hi3
        refine reads_shift (x := d3) ?_ hr3 hi3
        refine reads_mono (k := 1 + (0 + 1)) (reads_bind (gamma64_reads false hR3) ?_) (by omega)
        rintro ⟨len, d4⟩ e4
        have h4 := gamma64_reads false hR3
        rw [e4] at h4
        refine reads_bind (copyBytes64_reads (wrap64 (len + 1)).toNat d4 h4.1) ?_
        intro d5 e5
        have h5 := copyBytes64_reads (wrap64 (len + 1)).toNat d4 h4.1
        rw [e5] at h5
        exact reads_next h5.1 _ _
      have hrem : ∀ d3 : Decompressor, d3.inputData = d2.inputData →
          d3.inputIndex = d2.inputIndex → d3.bitMask = d2.bitMask →
          remaining d3 ≤ remaining d2 + 1 := by
        intro d3 a1 a2 a3
        unfold remaining
        rw [a1, a2, a3]
        have := btoi_le_one d3.backtrack
        omega
      cases hbw : d2.backwards
      · simp only [hbw, Bool.false_eq_true, if_false]
        refine key _ ⟨hR2.idx, hR2.mask, fun _ => hpos⟩ ?_ rfl
        exact hrem _ rfl rfl rfl
      · simp only [hbw, if_true]
        refine key _ ⟨hR2.idx, hR2.mask, fun _ => hpos⟩ ?_ rfl
        exact hrem _ rfl rfl rfl

theorem process64_next {s s' : State} {d d' : Decompressor}
    (hs : s = .COPY_LITERALS ∨ s = .COPY_FROM_LAST_OFFSET ∨ s = .COPY_FROM_NEW_OFFSET)
    (e : s.Process64 d = .ok (s', d')) :
    s' = .COPY_END ∨ s' = .COPY_LITERALS ∨ s' = .COPY_FROM_LAST_OFFSET ∨
      s' = .COPY_FROM_NEW_OFFSET := by
  rcases hs with rfl | rfl | rfl
  · simp only [State.Process64, bind, Except.bind, pure, Except.pure] at e
    split at e
    · cases e
    · split at e
      · cases e
      · split at e
        · cases e
        · split at e <;> cases e <;> simp
  · simp only [State.Process64, bind, Except.bind, pure, Except.pure] at e
    split at e
    · cases e
    · split at e
      · cases e
      · split at e
        · cases e
        · split at e <;> cases e <;> simp
  · simp only [State.Process64, bind, Except.bind, pure, Except.pure] at e
    split at e
    · cases e
    · split at e
      · cases e; simp
      · split at e
        · cases e
        · split at e
          · cases e
          · split at e
            · cases e
            · split at e
              · cases e
              · split at e <;> cases e <;> simp

theorem decompress64_total : ∀ (fuel : Nat) (s : State) (d : Decompressor),
    (s = .COPY_END ∨ s = .COPY_LITERALS ∨ s = .COPY_FROM_LAST_OFFSET ∨
      s = .COPY_FROM_NEW_OFFSET) → RInv d → remaining d < fuel →
    decompressLoop64 fuel s d = .panic ∨ ∃ out, decompressLoop64 fuel s d = .returned out := by
  intro fuel
  induction fuel with
  | zero => intro s d _ _ h; omega
  | succ fuel ih =>
    intro s d hs hR hrem
    simp only [decompressLoop64]
    by_cases he : s = .COPY_END
    · rw [if_pos he]
      exact Or.inr ⟨_, rfl⟩
    · rw [if_neg he]
      have hs3 : s = .COPY_LITERALS ∨ s = .COPY_FROM_LAST_OFFSET ∨ s = .COPY_FROM_NEW_OFFSET := by
        rcases hs with h | h
        · exact absurd h he
        · exact h
      have hp := process64_reads hs3 hR
      cases e : s.Process64 d with
      | error x =>
        rw [e] at hp
        have hx : x = .panic := hp
        subst hx
        exact Or.inl rfl
      | ok r =>
        obtain ⟨s1, d1⟩ := r
        rw [e] at hp
        obtain ⟨hR1, hr1, _⟩ := hp
        have hn := process64_next hs3 e
        have hk : s1 ≠ .COPY_UNKNOWN := by
          rcases hn with h | h | h | h <;> rw [h] <;> simp
        simp only [hk, if_false]
        exact ih s1 d1 hn hR1 (by simp only at hr1; omega)

theorem decompress64_returns_or_faults (input : List Byte) (backwards invert : Bool) :
    Decompress64 input backwards invert = .panic ∨
      ∃ out, Decompress64 input backwards invert = .returned out := by
  unfold Decompress64
  refine decompress64_total _ _ _ (Or.inr (Or.inl rfl)) ⟨Nat.zero_le _, Nat.zero_le _, ?_⟩ ?_
  · intro h
    rcases h with h | h
    · exact absurd rfl h
    · cases h
  · show 8 * (input.length - 0) + Nat.log2 0 + btoi false < _
    rw [log2_zero]
    simp [btoi]

/-- On the stream of the one-byte input `[7]` and on its prefixes the decoder with `int`s
of 64 bits does what the decoder with unbounded integers does. -/
theorem decompress64_example :
    Decompress64 [213, 7, 85, 96] false true = .returned [7] ∧
    Decompress [213, 7, 85, 96] false true = .returned [7] ∧
    Decompress64 [213, 7, 85] false true = .panic ∧
    Decompress [213, 7, 85] false true = .panic := by
  decide!

theorem writeBits_append (c : Compressor) (xs ys : List Nat) :
    writeBits c (xs ++ ys) = (writeBits c xs).bind fun c => writeBits c ys := by
  induction xs generalizing c with
  | nil => rfl
  | cons x xs ih =>
    simp only [List.cons_append, writeBits]
    cases c.writeBit x with
    | none => rfl
    | some c1 => simp only [Option.some_bind]; exact ih c1

theorem gammaPairs_bits (value : Nat) (bw inv : Bool) : ∀ (fuel i : Nat) (c : Compressor),
    Compressor.gammaPairs value bw inv fuel i c
      = writeBits c (gammaPairBits value bw inv fuel i) := by
  intro fuel
  induction fuel with
  | zero => intro i c; rfl
  | succ fuel ih =>
    intro i c
    unfold Compressor.gammaPairs gammaPairBits
    by_cases h : i > 0
    · simp only [h, if_true, writeBits, Option.bind_eq_bind]
      cases c.writeBit (btoi bw) with
      | none => rfl
      | some c1 =>
        simp only [Option.some_bind]
        cases c1.writeBit (btoi (inv == ((value &&& i) == 0))) with
        | none => rfl
        | some c2 => simp only [Option.some_bind]; exact ih _ c2
    · simp only [h, if_false, writeBits]

/-- Writing the code of a value is writing the bits of `gammaBits`, one after the other. -/
theorem gamma_writes_bits (c : Compressor) (value : Int) (bw inv : Bool) :
    c.writeInterlacedEliasGamma value bw inv = writeBits c (gammaBits value bw inv) := by
  unfold Compressor.writeInterlacedEliasGamma gammaBits
  simp only [Option.bind_eq_bind]
  rw [writeBits_append, gammaPairs_bits]
  cases writeBits c (gammaPairBits value.toNat bw inv
      (Compressor.gammaTop value.toNat 2 value.toNat >>> 1 >>> 1)
      (Compressor.gammaTop value.toNat 2 value.toNat >>> 1 >>> 1)) with
  | none => rfl
  | some c1 =>
    simp only [Option.some_bind, writeBits]
    cases c1.writeBit (btoi (!bw)) <;> rfl

theorem readBit_flags {d d' : Decompressor} {b : Nat} (e : d.readBit = .ok (b, d')) :
    d'.backwards = d.backwards ∧ d'.inverted = d.inverted := by
  have h := e
  unfold Decompressor.readBit at h
  by_cases hb : d.backtrack = true
  · rw [if_pos hb] at h
    cases hr : idx? d.inputData ((d.inputIndex : Int) - 1) with
    | none => simp [hr, orPanic, bind, Except.bind] at h
    | some x =>
      simp only [hr, orPanic, bind, Except.bind, pure, Except.pure, Except.ok.injEq,
        Prod.mk.injEq] at h
      rw [← h.2]
      exact ⟨rfl, rfl⟩
  · rw [if_neg hb] at h
    by_cases hm : d.bitMask >>> 1 = 0
    · simp only [hm, if_true] at h
      cases hrb : d.inputData[d.inputIndex]? with
      | none => simp [Decompressor.readByte, hrb, orPanic, bind, Except.bind] at h
      | some x =>
        simp only [Decompressor.readByte, hrb, orPanic, bind, Except.bind, pure,
          Except.pure] at h
        split at h <;>
        · simp only [Except.ok.injEq, Prod.mk.injEq] at h
          rw [← h.2]
          exact ⟨rfl, rfl⟩
    · simp only [hm, if_false, bind, Except.bind, pure, Except.pure] at h
      split at h <;>
      · simp only [Except.ok.injEq, Prod.mk.injEq] at h
        rw [← h.2]
        exact ⟨rfl, rfl⟩

theorem nextBits_cons {d d' : Decompressor} {b : Nat} {rest : List Nat}
    (h : nextBits d (b :: rest) = some d') :
    ∃ d1, d.readBit = .ok (b, d1) ∧ nextBits d1 rest = some d' := by
  unfold nextBits at h
  cases e : d.readBit with
  | error x => rw [e] at h; cases h
  | ok r =>
    obtain ⟨bit, d1⟩ := r
    rw [e] at h
    simp only at h
    by_cases hb : bit = b
    · rw [if_pos hb] at h
      exact ⟨d1, by rw [hb], h⟩
    · rw [if_neg hb] at h; cases h

theorem gammaPairBits_zero (n : Nat) (bw inv : Bool) (fuel : Nat) :
    gammaPairBits n bw inv fuel (2 ^ 0 >>> 1) = [] := by
  cases fuel <;> simp [gammaPairBits]

theorem gammaPairBits_succ (n : Nat) (bw inv : Bool) (fuel p : Nat) :
    gammaPairBits n bw inv (fuel + 1) (2 ^ (p + 1) >>> 1) =
      btoi bw :: btoi (inv == ((n &&& 2 ^ p) == 0)) ::
        gammaPairBits n bw inv fuel (2 ^ p >>> 1) := by
  have hi : 2 ^ (p + 1) >>> 1 = 2 ^ p := by
    rw [Nat.shiftRight_eq_div_pow, pow_succ]; simp
  have : 0 < 2 ^ p := Nat.two_pow_pos p
  rw [hi]
  simp only [gammaPairBits, this, gt_iff_lt, if_true]

theorem gammaPairBits_length (n : Nat) (bw inv : Bool) : ∀ (p fuel : Nat), p ≤ fuel →
    (gammaPairBits n bw inv fuel (2 ^ p >>> 1)).length = 2 * p := by
  intro p
  induction p with
  | zero => intro fuel _; rw [gammaPairBits_zero]; rfl
  | succ p ih =>
    intro fuel hf
    obtain ⟨f, rfl⟩ : ∃ f, fuel = f + 1 := ⟨fuel - 1, by omega⟩
    rw [gammaPairBits_succ]
    simp only [List.length_cons, ih f (by omega)]
    omega

/-- The reader on the bits of a code: `p` bit pairs and the stop bit, for the value `n`
of which the reader already has the bits above the lowest `p`. -/
theorem gammaLoop_of_bits (n : Nat) (bw inv msb : Bool) : ∀ (p fuel gfuel : Nat)
    (d d' : Decompressor), p ≤ fuel → p + 1 ≤ gfuel → d.backwards = bw →
    (msb && d.inverted) = inv →
    nextBits d (gammaPairBits n bw inv fuel (2 ^ p >>> 1) ++ [btoi (!bw)]) = some d' →
    Decompressor.gammaLoop msb gfuel (n >>> p) d = .ok (n, d') ∧
    (n < 2 ^ 63 →
      Decompressor.gammaLoop64 msb gfuel ((n >>> p : Nat) : Int) d = .ok ((n : Int), d')) := by
  intro p
  induction p with
  | zero =>
    intro fuel gfuel d d' _ hg hbw _ hbits
    rw [gammaPairBits_zero, List.nil_append] at hbits
    obtain ⟨d1, hrd, hn⟩ := nextBits_cons hbits
    have e : d1 = d' := by
      simp only [nextBits, Option.some.injEq] at hn; exact hn
    subst e
    obtain ⟨g, rfl⟩ : ∃ g, gfuel = g + 1 := ⟨gfuel - 1, by omega⟩
    have hne : btoi (!bw) ≠ btoi d1.backwards := by
      rw [(readBit_flags hrd).1, hbw]; exact btoi_not_ne bw
    constructor
    · simp [Decompressor.gammaLoop, hrd, bind, Except.bind, hne, pure, Except.pure]
    · intro _
      simp [Decompressor.gammaLoop64, hrd, bind, Except.bind, hne, pure, Except.pure]
  | succ p ih =>
    intro fuel gfuel d d' hf hg hbw hinv hbits
    obtain ⟨f, rfl⟩ : ∃ f, fuel = f + 1 := ⟨fuel - 1, by omega⟩
    obtain ⟨g, rfl⟩ : ∃ g, gfuel = g + 1 := ⟨gfuel - 1, by omega⟩
    rw [gammaPairBits_succ] at hbits
    simp only [List.cons_append] at hbits
    obtain ⟨d1, hrd1, hn1⟩ := nextBits_cons hbits
    obtain ⟨d2, hrd2, hn2⟩ := nextBits_cons hn1
    have f1 := readBit_flags hrd1
    have f2 := readBit_flags hrd2
    obtain ⟨a1, a2⟩ := ih f g d2 d' (by omega) (by omega) (by rw [f2.1, f1.1, hbw])
      (by rw [f2.2, f1.2, hinv]) hn2
    have hb1 : btoi bw = btoi d1.backwards := by rw [f1.1, hbw]
    have hacc : ((n >>> (p + 1)) <<< 1 ||| btoi (inv == ((n &&& 2 ^ p) == 0))) ^^^
        btoi (msb && d2.inverted) = n >>> p := by
      rw [f2.2, f1.2, hinv]; exact gamma_bit n p inv
    constructor
    · simp only [Decompressor.gammaLoop, hrd1, bind, Except.bind, hb1, if_true, hrd2, hacc]
      exact a1
    · intro hn
      have hle : (n >>> (p + 1)) <<< 1 ≤ n := by
        rw [Nat.shiftRight_eq_div_pow, Nat.shiftLeft_eq, pow_succ]
        have h1 : n / (2 ^ p * 2) * 2 ^ 1 ≤ n / 2 ^ p := by
          rw [pow_one, ← Nat.div_div_eq_div_mul]
          exact Nat.div_mul_le_self _ _
        exact le_trans h1 (Nat.div_le_self _ _)
      have hw : wrap64 (((n >>> (p + 1) : Nat) : Int) <<< 1)
          = (((n >>> (p + 1)) <<< 1 : Nat) : Int) := by
        have e : ((n >>> (p + 1) : Nat) : Int) <<< 1 = (((n >>> (p + 1)) <<< 1 : Nat) : Int) :=
          rfl
        rw [e]
        have h0 : (0 : Int) ≤ (((n >>> (p + 1)) <<< 1 : Nat) : Int) := Int.natCast_nonneg _
        have h1 : (((n >>> (p + 1)) <<< 1 : Nat) : Int) < 2 ^ 63 := by
          have : (n >>> (p + 1)) <<< 1 < 2 ^ 63 := by omega
          exact_mod_cast this
        unfold wrap64; omega
      have hacc64 : Int.xor (Int.lor (wrap64 (((n >>> (p + 1) : Nat) : Int) <<< 1))
          ((btoi (inv == ((n &&& 2 ^ p) == 0)) : Nat) : Int))
          ((btoi (msb && d2.inverted) : Nat) : Int) = ((n >>> p : Nat) : Int) := by
        rw [hw, ← hacc]
        rfl
      simp only [Decompressor.gammaLoop64, hrd1, bind, Except.bind, hb1, if_true, hrd2, hacc64]
      exact a2 hn

theorem nextBits_remaining : ∀ (bits : List Nat) (d d' : Decompressor), RInv d →
    nextBits d bits = some d' → RInv d' ∧ remaining d' + bits.length ≤ remaining d ∧
      d'.inputData = d.inputData := by
  intro bits
  induction bits with
  | nil =>
    intro d d' h e
    simp only [nextBits, Option.some.injEq] at e
    subst e
    exact ⟨h, by simp, rfl⟩
  | cons b rest ih =>
    intro d d' h e
    obtain ⟨d1, hrd, hn⟩ := nextBits_cons e
    have h1 := readBit_reads h
    rw [hrd] at h1
    obtain ⟨hR1, hr1, hi1⟩ := h1
    obtain ⟨b1, b2, b3⟩ := ih d1 d' hR1 hn
    refine ⟨b1, ?_, b3.trans hi1⟩
    simp only [List.length_cons] at hr1 ⊢
    omega

/-- The code read back: when the next bits of the stream are those of the code of
`value`, the reader returns `value` and stands after these bits. -/
theorem gamma_reads_back (value : Int) (bw inv msb : Bool) (d d' : Decompressor)
    (hv : 1 ≤ value) (hd : RInv d) (hbw : d.backwards = bw) (hinv : (msb && d.inverted) = inv)
    (hbits : nextBits d (gammaBits value bw inv) = some d') :
    ((gammaBits value bw inv).length : Int) = eliasGammaBits value ∧
    d.readInterlacedEliasGamma msb = .ok (value.toNat, d') ∧
    (value < 2 ^ 63 → d.readInterlacedEliasGamma64 msb = .ok (value, d')) := by
  have htop : Compressor.gammaTop value.toNat 2 value.toNat = 2 ^ (Nat.log2 value.toNat + 1) :=
    gammaTop_eq value.toNat value.toNat 1 (by omega) (by omega)
      (by have := log2_le_self value.toNat; omega)
  have hi : 2 ^ (Nat.log2 value.toNat + 1) >>> 1 = 2 ^ Nat.log2 value.toNat := by
    rw [Nat.shiftRight_eq_div_pow, pow_succ]; simp
  have hfuel : Nat.log2 value.toNat ≤ 2 ^ Nat.log2 value.toNat >>> 1 := by
    rw [Nat.shiftRight_eq_div_pow]
    cases Nat.log2 value.toNat with
    | zero => simp
    | succ k =>
      rw [pow_succ]; simp
      exact @Nat.lt_two_pow k
  have hg : gammaBits value bw inv = gammaPairBits value.toNat bw inv
      (2 ^ Nat.log2 value.toNat >>> 1) (2 ^ Nat.log2 value.toNat >>> 1) ++ [btoi (!bw)] := by
    unfold gammaBits
    simp only [htop, hi]
  have hlen : (gammaBits value bw inv).length = 2 * Nat.log2 value.toNat + 1 := by
    rw [hg, List.length_append, gammaPairBits_length _ _ _ _ _ hfuel]
    rfl
  have hrem := nextBits_remaining _ d d' hd hbits
  rw [hlen] at hrem
  rw [hg] at hbits
  have hmax := remaining_le hd
  obtain ⟨a1, a2⟩ := gammaLoop_of_bits value.toNat bw inv msb (Nat.log2 value.toNat)
    (2 ^ Nat.log2 value.toNat >>> 1) (4 * d.inputData.length + 2) d d' hfuel (by omega)
    hbw hinv hbits
  rw [shiftRight_log2 (by omega)] at a1 a2
  refine ⟨by rw [hlen, eliasGammaBits_eq]; push_cast; omega, a1, ?_⟩
  intro hlt
  have hcast : ((value.toNat : Nat) : Int) = value := Int.toNat_of_nonneg (by omega)
  have hn : value.toNat < 2 ^ 63 := by
    have : ((value.toNat : Nat) : Int) < ((2 ^ 63 : Nat) : Int) := by
      rw [hcast]; push_cast; exact hlt
    exact_mod_cast this
  have := a2 hn
  rw [hcast] at this
  exact this

theorem gammaPairBits_le_one (n : Nat) (bw inv : Bool) : ∀ (fuel i : Nat),
    ∀ b ∈ gammaPairBits n bw inv fuel i, b ≤ 1 := by
  intro fuel
  induction fuel with
  | zero => intro i b hb; simp [gammaPairBits] at hb
  | succ fuel ih =>
    intro i b hb
    unfold gammaPairBits at hb
    by_cases h : i > 0
    · rw [if_pos h] at hb
      rcases List.mem_cons.1 hb with rfl | hb
      · exact btoi_le_one _
      · rcases List.mem_cons.1 hb with rfl | hb
        · exact btoi_le_one _
        · exact ih _ b hb
    · rw [if_neg h] at hb; cases hb

theorem gammaBits_le_one (value : Int) (bw inv : Bool) :
    ∀ b ∈ gammaBits value bw inv, b ≤ 1 := by
  intro b hb
  unfold gammaBits at hb
  rcases List.mem_append.1 hb with hb | hb
  · exact gammaPairBits_le_one _ _ _ _ _ b hb
  · rw [List.mem_singleton] at hb
    subst hb
    exact btoi_le_one _

/-- Bits written one after the other are the next bits of the stream for a reader that
stands where the writer stood: for every output `out` that carries what the writer has
written, a decoder in step with the writer before the bits reads exactly these bits and
is in step with the writer after them. -/
theorem writeBits_read : ∀ (bits : List Nat) (c : Compressor), (∀ b ∈ bits, b ≤ 1) → WInv c →
    c.bits + bits.length ≤ 8 * (c.output.length : Int) →
    ∃ c', writeBits c bits = some c' ∧ WInv c' ∧ c'.output.length = c.output.length ∧
      c'.bits = c.bits + bits.length ∧
      ∀ out, Agree c' out → Agree c out ∧ ∀ d, Sync c d out →
        ∃ d', nextBits d bits = some d' ∧ Sync c' d' out := by
  intro bits
  induction bits with
  | nil =>
    intro c _ h _
    exact ⟨c, rfl, h, rfl, by simp, fun out ha => ⟨ha, fun d hs => ⟨d, rfl, hs⟩⟩⟩
  | cons b rest ih =>
    intro c hb h cap
    have hb1 := hb b (List.mem_cons_self _ _)
    obtain ⟨x, rfl⟩ : ∃ x : Bool, b = btoi x := by
      have : b = 0 ∨ b = 1 := by omega
      rcases this with rfl | rfl
      · exact ⟨false, rfl⟩
      · exact ⟨true, rfl⟩
    simp only [List.length_cons, Nat.cast_add, Nat.cast_one] at cap
    obtain ⟨c1, hw, h1, h2, _, h4, h5⟩ := writeBit_spec c x h
      (by have : (0 : Int) ≤ (rest.length : Int) := Int.natCast_nonneg _
          omega)
    obtain ⟨c', hw', g1, g2, g3, g4⟩ := ih c1 (fun y hy => hb y (List.mem_cons_of_mem _ hy)) h1
      (by rw [h2.len, h4]; omega)
    refine ⟨c', ?_, g1, g2.trans h2.len, ?_, ?_⟩
    · simp only [writeBits, hw, Option.some_bind]
      exact hw'
    · rw [g3, h4]
      simp only [List.length_cons, Nat.cast_add, Nat.cast_one]
      omega
    · intro out ha
      obtain ⟨ha1, hr1⟩ := g4 out ha
      obtain ⟨ha0, hr0⟩ := h5 out ha1
      refine ⟨ha0, ?_⟩
      intro d hs
      obtain ⟨d1, e1, hs1, _⟩ := hr0 d hs
      obtain ⟨d', e2, hs2⟩ := hr1 d1 hs1
      refine ⟨d', ?_, hs2⟩
      simp only [nextBits, e1, if_true]
      exact e2

/-- The code of a value in the stream: what `writeInterlacedEliasGamma` writes is, for a
decoder in step with the writer, the next bits `gammaBits` of the stream. -/
theorem gamma_bits_in_stream (c : Compressor) (value : Int) (bw inv : Bool)
    (h : WInv c) (cap : c.bits + eliasGammaBits value ≤ 8 * (c.output.length : Int)) :
    ∃ c', c.writeInterlacedEliasGamma value bw inv = some c' ∧ WInv c' ∧
      c'.bits = c.bits + eliasGammaBits value ∧
      ∀ out, Agree c' out → Agree c out ∧ ∀ d, Sync c d out →
        ∃ d', nextBits d (gammaBits value bw inv) = some d' ∧ Sync c' d' out := by
  have htop : Compressor.gammaTop value.toNat 2 value.toNat = 2 ^ (Nat.log2 value.toNat + 1) :=
    gammaTop_eq value.toNat value.toNat 1 (by omega) (by omega)
      (by have := log2_le_self value.toNat; omega)
  have hi : 2 ^ (Nat.log2 value.toNat + 1) >>> 1 = 2 ^ Nat.log2 value.toNat := by
    rw [Nat.shiftRight_eq_div_pow, pow_succ]; simp
  have hfuel : Nat.log2 value.toNat ≤ 2 ^ Nat.log2 value.toNat >>> 1 := by
    rw [Nat.shiftRight_eq_div_pow]
    cases Nat.log2 value.toNat with
    | zero => simp
    | succ k =>
      rw [pow_succ]; simp
      exact @Nat.lt_two_pow k
  have hlen : ((gammaBits value bw inv).length : Int) = eliasGammaBits value := by
    have : (gammaBits value bw inv).length = 2 * Nat.log2 value.toNat + 1 := by
      unfold gammaBits
      simp only [htop, hi]
      rw [List.length_append, gammaPairBits_length _ _ _ _ _ hfuel]
      rfl
    rw [this, eliasGammaBits_eq]; push_cast; omega
  obtain ⟨c', hw, g1, _, g3, g4⟩ := writeBits_read (gammaBits value bw inv) c
    (gammaBits_le_one value bw inv) h (by rw [hlen]; exact cap)
  exact ⟨c', by rw [gamma_writes_bits]; exact hw, g1, by rw [g3, hlen], g4⟩

theorem wrap64_of_lt {x : Int} (h0 : 0 ≤ x) (h1 : x < 2 ^ 63) : wrap64 x = x := by
  unfold wrap64; omega

theorem gammaTop64_eq (n : Nat) (hn62 : n < 2 ^ 62) : ∀ (fuel j : Nat), 1 ≤ j →
    j ≤ Nat.log2 n + 1 → Nat.log2 n + 1 ≤ fuel + j →
    Compressor.gammaTop64 fuel ((2 ^ j : Nat) : Int) (n : Int)
      = .ok ((2 ^ (Nat.log2 n + 1) : Nat) : Int) := by
  have hL : Nat.log2 n ≤ 61 := by
    by_cases h0 : n = 0
    · subst h0; rw [log2_zero]; omega
    · have := (Nat.log2_lt (k := 62) h0).2 hn62
      omega
  intro fuel
  induction fuel with
  | zero =>
    intro j _ h1 h2
    have : j = Nat.log2 n + 1 := by omega
    subst this
    have hlt := lt_two_pow_log2 n
    unfold Compressor.gammaTop64
    rw [if_neg (by exact_mod_cast not_le.mpr hlt)]
  | succ fuel ih =>
    intro j h0 h1 h2
    unfold Compressor.gammaTop64
    by_cases hle : 2 ^ j ≤ n
    · rw [if_pos (by exact_mod_cast hle)]
      have hn : n ≠ 0 := by
        have := Nat.two_pow_pos j; omega
      have hj : j ≤ Nat.log2 n := (Nat.le_log2 hn).2 hle
      have e : 2 ^ j <<< 1 = 2 ^ (j + 1) := by
        simp [Nat.shiftLeft_eq, pow_succ]
      have e2 : ((2 ^ j : Nat) : Int) <<< 1 = ((2 ^ j <<< 1 : Nat) : Int) := rfl
      have hb : 2 ^ (j + 1) ≤ 2 ^ 62 := Nat.pow_le_pow_right (by omega) (by omega)
      rw [e2, e, wrap64_of_lt (Int.natCast_nonneg _)
        (by have : (2 ^ (j + 1) : Nat) < 2 ^ 63 := by omega
            exact_mod_cast this)]
      exact ih (j + 1) (by omega) (by omega) (by omega)
    · rw [if_neg (by exact_mod_cast hle)]
      have : j = Nat.log2 n + 1 := by
        by_contra hc
        have hj : j ≤ Nat.log2 n := by omega
        by_cases hn : n = 0
        · subst hn
          have := log2_zero
          omega
        · exact hle ((Nat.le_log2 hn).1 hj)
      rw [this]

/-- Below `2^62` the writer with `int`s of 64 bits is the writer with unbounded
integers. -/
theorem gamma64_writes (c : Compressor) (value : Int) (bw inv : Bool) (hv : 1 ≤ value)
    (hlt : value < 2 ^ 62) :
    c.writeInterlacedEliasGamma64 value bw inv
      = orPanic (c.writeInterlacedEliasGamma value bw inv) := by
  have hcast : ((value.toNat : Nat) : Int) = value := Int.toNat_of_nonneg (by omega)
  have hn : value.toNat < 2 ^ 62 := by
    have : ((value.toNat : Nat) : Int) < ((2 ^ 62 : Nat) : Int) := by
      rw [hcast]; push_cast; exact hlt
    exact_mod_cast this
  have hL : Nat.log2 value.toNat ≤ 61 := by
    have h0 : value.toNat ≠ 0 := by omega
    have := (Nat.log2_lt (k := 62) h0).2 hn
    omega
  have htop : Compressor.gammaTop value.toNat 2 value.toNat = 2 ^ (Nat.log2 value.toNat + 1) :=
    gammaTop_eq value.toNat value.toNat 1 (by omega) (by omega)
      (by have := log2_le_self value.toNat; omega)
  have htop64 := gammaTop64_eq value.toNat hn 64 1 (by omega) (by omega) (by omega)
  rw [hcast] at htop64
  have e2 : (((2 ^ 1 : Nat) : Nat) : Int) = 2 := by norm_num
  rw [e2] at htop64
  unfold Compressor.writeInterlacedEliasGamma64 Compressor.writeInterlacedEliasGamma
  simp only [htop64, htop, bind, Except.bind]
  have e3 : (((2 ^ (Nat.log2 value.toNat + 1) : Nat) : Int) >>> 1 >>> 1).toNat
      = 2 ^ (Nat.log2 value.toNat + 1) >>> 1 >>> 1 := by
    have a : ((2 ^ (Nat.log2 value.toNat + 1) : Nat) : Int) >>> 1 >>> 1
        = ((2 ^ (Nat.log2 value.toNat + 1) >>> 1 >>> 1 : Nat) : Int) := rfl
    rw [a, Int.toNat_natCast]
  rw [e3]
  cases Compressor.gammaPairs value.toNat bw inv (2 ^ (Nat.log2 value.toNat + 1) >>> 1 >>> 1)
      (2 ^ (Nat.log2 value.toNat + 1) >>> 1 >>> 1) c with
  | none => rfl
  | some c1 => rfl

theorem gammaTop64_zero (value : Int) (hv : 0 ≤ value) : ∀ fuel : Nat,
    Compressor.gammaTop64 fuel 0 value = .error .fuel := by
  intro fuel
  induction fuel with
  | zero => unfold Compressor.gammaTop64; rw [if_pos hv]
  | succ fuel ih =>
    unfold Compressor.gammaTop64
    rw [if_pos hv]
    have e : wrap64 ((0 : Int) <<< 1) = 0 := by decide
    rw [e]; exact ih

theorem gammaTop64_min (value : Int) (hv : 0 ≤ value) (fuel : Nat) :
    Compressor.gammaTop64 fuel (-2 ^ 63) value = .error .fuel := by
  have hle : (-2 ^ 63 : Int) ≤ value := by omega
  cases fuel with
  | zero => unfold Compressor.gammaTop64; rw [if_pos hle]
  | succ fuel =>
    unfold Compressor.gammaTop64
    rw [if_pos hle]
    have e : wrap64 ((-2 ^ 63 : Int) <<< 1) = 0 := by decide
    rw [e]; exact gammaTop64_zero value hv fuel

/-- From `2^62` on the first loop of the writer never ends: whatever the number of turns
allowed, the loop condition still holds. -/
theorem gammaTop64_never (value : Int) (hv : 2 ^ 62 ≤ value) : ∀ (fuel j : Nat), 1 ≤ j →
    j ≤ 62 → Compressor.gammaTop64 fuel ((2 ^ j : Nat) : Int) value = .error .fuel := by
  intro fuel
  induction fuel with
  | zero =>
    intro j _ hj
    have hb : 2 ^ j ≤ 2 ^ 62 := Nat.pow_le_pow_right (by omega) hj
    have hle : ((2 ^ j : Nat) : Int) ≤ value := by
      have : ((2 ^ j : Nat) : Int) ≤ ((2 ^ 62 : Nat) : Int) := by exact_mod_cast hb
      push_cast at this ⊢
      omega
    unfold Compressor.gammaTop64
    rw [if_pos hle]
  | succ fuel ih =>
    intro j h1 hj
    have hb : 2 ^ j ≤ 2 ^ 62 := Nat.pow_le_pow_right (by omega) hj
    have hle : ((2 ^ j : Nat) : Int) ≤ value := by
      have : ((2 ^ j : Nat) : Int) ≤ ((2 ^ 62 : Nat) : Int) := by exact_mod_cast hb
      push_cast at this ⊢
      omega
    unfold Compressor.gammaTop64
    rw [if_pos hle]
    have e : 2 ^ j <<< 1 = 2 ^ (j + 1) := by
      simp [Nat.shiftLeft_eq, pow_succ]
    have e2 : ((2 ^ j : Nat) : Int) <<< 1 = ((2 ^ j <<< 1 : Nat) : Int) := rfl
    rw [e2, e]
    by_cases h62 : j = 62
    · subst h62
      have e3 : wrap64 ((2 ^ (62 + 1) : Nat) : Int) = -2 ^ 63 := by decide
      rw [e3]
      exact gammaTop64_min value (by omega) fuel
    · have hb2 : 2 ^ (j + 1) ≤ 2 ^ 62 := Nat.pow_le_pow_right (by omega) (by omega)
      rw [wrap64_of_lt (Int.natCast_nonneg _)
        (by have : (2 ^ (j + 1) : Nat) < 2 ^ 63 := by omega
            exact_mod_cast this)]
      exact ih (j + 1) (by omega) (by omega)

theorem gamma64_never (c : Compressor) (value : Int) (bw inv : Bool)
    (hv : 2 ^ 62 ≤ value) :
    (∀ fuel : Nat, Compressor.gammaTop64 fuel 2 value = .error .fuel) ∧
    c.writeInterlacedEliasGamma64 value bw inv = .error .fuel := by
  have h : ∀ fuel : Nat, Compressor.gammaTop64 fuel 2 value = .error .fuel := by
    intro fuel
    have := gammaTop64_never value hv fuel 1 (by omega) (by omega)
    simpa using this
  refine ⟨h, ?_⟩
  unfold Compressor.writeInterlacedEliasGamma64
  rw [h 64]
  rfl

/-- The "copy from new offset" part on a run of at least two matches: it counts the
match and leaves in `bestLength[m]` the length that the search from scratch finds. -/
theorem fromNewOffset_bl (n skip offset : Nat) (s s2 : TaskState) (m0 : Nat)
    (hml : s.o.matchLength[offset]? = some m0)
    (hopt : ∀ p, skip ≤ p → p < n → p < s.o.optimal.length ∧ s.o.optimal.getD p [] ≠ [])
    (h2 : 2 ≤ s.bestLengthSize) (hsz : s.bestLengthSize = 2 ∨ s.bestLengthSize + skip ≤ n)
    (hm0 : 1 ≤ m0) (hmn : m0 + 1 + skip ≤ n) (hlen : n < s.o.bestLength.length)
    (hbl2 : s.o.bestLength[2]? = some 2)
    (hk : ∀ k, 3 ≤ k → k ≤ s.bestLengthSize →
      s.o.bestLength[k]? = some (bestLen s.o.optimal n k))
    (e : fromNewOffset n offset s = some s2) :
    s2.o.bestLength[m0 + 1]? = some (bestLen s.o.optimal n (m0 + 1)) ∧
    s2.o.matchLength[offset]? = some (m0 + 1) := by
  have hO : offset < s.o.matchLength.length := lt_length_of_getElem? hml
  obtain ⟨bl', h1, _, _, _, h6⟩ := extendBestLength_spec s.o.optimal n skip hopt
    s.o.bestLength s.bestLengthSize (m0 + 1) h2 hsz (by omega) hmn hlen hbl2 hk
  have hset : (s.o.matchLength.set offset (m0 + 1))[offset]? = some (m0 + 1) :=
    List.getElem?_set_self hO
  unfold fromNewOffset at e
  simp only [hml, Option.bind_eq_bind, Option.some_bind, store_of_lt _ _ hO] at e
  rw [if_pos (by omega)] at e
  simp only [h1, Option.some_bind, h6, Option.bind_eq_some] at e
  obtain ⟨p, _, b, _, lm, _, e⟩ := e
  split at e
  · simp only [Option.bind_eq_some, Option.pure_def, Option.some.injEq] at e
    obtain ⟨lastMatch, _, e⟩ := e
    subst e
    exact ⟨h6, hset⟩
  · simp only [Option.pure_def, Option.some.injEq] at e
    subst e
    exact ⟨h6, hset⟩

/-- C3 (thread-count invariance): for every input, skip, offset limit, mode flags and
thread count `k ≥ 1`, compressing the chain found with `k` threads gives the same bytes
(and the same `delta[0]`) as compressing the chain found with one thread; the `k`-thread
path runs the dispatched sub-ranges of offsets one after the other, sorts the non-nil
results by starting offset and keeps the first strict minimum of `Bits`. -/
theorem C3_thread_count_invariance (input : List Byte) (skip offsetLimit k : Nat)
    (backwards invert : Bool) (hk : 1 ≤ k) :
    (Optimize input skip offsetLimit k).bind (fun h => Compress h input skip backwards invert) =
    (Optimize input skip offsetLimit 1).bind (fun h => Compress h input skip backwards invert) := by
  rw [optimize_threads input skip offsetLimit k hk]

/-- Witness of C3 on a five-byte input with three threads. -/
theorem C3_thread_count_invariance_witness :
    1 ≤ 3 ∧
    (Optimize [1, 1, 2, 1, 1] 0 32640 3).bind (fun h => Compress h [1, 1, 2, 1, 1] 0 false true) =
    (Optimize [1, 1, 2, 1, 1] 0 32640 1).bind (fun h => Compress h [1, 1, 2, 1, 1] 0 false true) :=
  ⟨by decide, C3_thread_count_invariance [1, 1, 2, 1, 1] 0 32640 3 false true (by decide)⟩

/-- C4 (offset-limit enforcement): for every input, `skip < len(input)`,
`offsetLimit ≥ 1` and thread count, `Optimize` returns a chain on which every block that
is not a literal run (`Offset ≠ 0`) has `1 ≤ Offset ≤ offsetLimit`. -/
theorem C4_offset_limit_enforced (input : List Byte) (skip offsetLimit threads : Nat)
    (hs : skip < input.length) (hl : 1 ≤ offsetLimit) (ht : 1 ≤ threads) :
    ∃ h, Optimize input skip offsetLimit threads = some h ∧
      ∀ b ∈ h, b.Offset ≠ 0 → 1 ≤ b.Offset ∧ b.Offset ≤ offsetLimit := by
  obtain ⟨h, e, hv, -, -⟩ := optimize_valid input skip offsetLimit hs hl
  refine ⟨h, by rw [optimize_threads _ _ _ _ ht]; exact e, ?_⟩
  intro b hb hne
  exact ⟨by omega, valid_offsets hl hv b hb⟩

/-- Witness of C4 on a four-byte input with the short offset limit. -/
theorem C4_offset_limit_enforced_witness :
    0 < ([1, 1, 1, 1] : List Byte).length ∧ 1 ≤ 2176 ∧ 1 ≤ 1 ∧
    ∃ h, Optimize [1, 1, 1, 1] 0 2176 1 = some h ∧
      ∀ b ∈ h, b.Offset ≠ 0 → 1 ≤ b.Offset ∧ b.Offset ≤ 2176 :=
  ⟨by decide, by decide, by decide,
    C4_offset_limit_enforced [1, 1, 1, 1] 0 2176 1 (by decide) (by decide) (by decide)⟩

/-- C5 (`Optimize` never fails under its preconditions): for `skip < len(input)` and
`offsetLimit ≥ 1`, `Optimize` with one thread runs without a panic (no slice index out
of range, no nil dereference) and returns a non-nil block; when its loop ends `optimal[i]`
is non-nil for every `i` in `[skip, len(input))` and still nil below `skip`, so that no
`optimal[index - length]` whose `Bits` the run has read lies below `skip`. -/
theorem C5_optimize_never_fails (input : List Byte) (skip offsetLimit : Nat)
    (hs : skip < input.length) (hl : 1 ≤ offsetLimit) :
    ∃ o h, optimizeState input skip offsetLimit = some o ∧
      Optimize input skip offsetLimit 1 = some h ∧ h ≠ [] ∧
      (∀ i, skip ≤ i → i < input.length → ∃ b, o.optimal[i]? = some b ∧ b ≠ []) ∧
      (∀ i, i < skip → o.optimal[i]? = some []) := by
  obtain ⟨o, e1, h1⟩ := optimizeState_inv input skip offsetLimit hs hl
  obtain ⟨h, e2, hv, -, -⟩ := optimize_valid input skip offsetLimit hs hl
  refine ⟨o, h, e1, e2, valid_ne_nil hv, ?_, ?_⟩
  · intro i i1 i2
    exact ⟨o.optimal.getD i [], getElem?_of_getD_ne (by rw [h1.len_opt]; exact i2),
      valid_ne_nil (h1.opt_ok i i1 i2).valid⟩
  · intro i hi
    have e3 : optimizeLoop input skip offsetLimit (input.length - skip) skip
        (initState input skip offsetLimit) = some o := by
      have := e1
      simp only [optimizeState, initOptimizer_eq input skip hl, Option.some_bind] at this
      exact this
    have hf := optimizeLoop_frame (input.length - skip) (initState_inv input skip hl) hl
      (le_refl _) (by omega) e3 i hi
    rw [getElem?_of_getD_ne (d := []) (by rw [h1.len_opt]; omega), hf]
    show some ((List.replicate input.length ([] : BlockRef)).getD i []) = _
    simp only [List.getD_eq_getElem?_getD, List.getElem?_replicate]
    split <;> rfl

/-- Witness of C5 on a three-byte input with one byte skipped. -/
theorem C5_optimize_never_fails_witness :
    1 < ([5, 5, 5] : List Byte).length ∧ 1 ≤ 32640 ∧
    ∃ o h, optimizeState [5, 5, 5] 1 32640 = some o ∧
      Optimize [5, 5, 5] 1 32640 1 = some h ∧ h ≠ [] ∧
      (∀ i, 1 ≤ i → i < ([5, 5, 5] : List Byte).length → ∃ b, o.optimal[i]? = some b ∧ b ≠ []) ∧
      (∀ i, i < 1 → o.optimal[i]? = some []) :=
  ⟨by decide, by decide, C5_optimize_never_fails [5, 5, 5] 1 32640 (by decide) (by decide)⟩

/-- C10 (no-match boundary): for `skip < len(input)` and `offsetLimit ≥ 1`, if no
position `i` after `skip` and offset `O` in `[1, min(i, offsetLimit)]` has
`input[i] = input[i-O]`, the chain returned by `Optimize` is the root followed by a single
block with `Offset = 0`, `Index = len(input)-1` and
`Bits = eliasGammaBits(n) + 8n` for `n = len(input) - skip`. -/
theorem C10_no_match_all_literal (input : List Byte) (skip offsetLimit threads : Nat)
    (hs : skip < input.length) (hl : 1 ≤ offsetLimit) (ht : 1 ≤ threads)
    (hno : ∀ i, i < input.length → ∀ O, O ≤ i → skip < i ∧ 1 ≤ O ∧ O ≤ offsetLimit →
      input[i]? ≠ input[i - O]?) :
    Optimize input skip offsetLimit threads =
      some [⟨eliasGammaBits ((input.length - skip : Nat) : Int)
          + 8 * ((input.length - skip : Nat) : Int), (input.length : Int) - 1, 0⟩,
        ⟨-1, (skip : Int) - 1, INITIAL_OFFSET⟩] := by
  obtain ⟨h, e, hv, h2, hi⟩ := optimize_valid input skip offsetLimit hs hl
  rw [optimize_threads _ _ _ _ ht, e,
    valid_nomatch hv h2 (fun i hi O hO h1 h2 h3 => hno i hi O hO ⟨h1, h2, h3⟩), hi]
  have : (input.length : Int) - 1 - ((skip : Int) - 1) = ((input.length - skip : Nat) : Int) := by
    omega
  rw [this]

/-- Witness of C10 on the ramp 1, 2, 3. -/
theorem C10_no_match_all_literal_witness :
    Optimize [1, 2, 3] 0 32640 1 =
      some [⟨eliasGammaBits ((([1, 2, 3] : List Byte).length - 0 : Nat) : Int)
          + 8 * ((([1, 2, 3] : List Byte).length - 0 : Nat) : Int),
          (([1, 2, 3] : List Byte).length : Int) - 1, 0⟩,
        ⟨-1, ((0 : Nat) : Int) - 1, INITIAL_OFFSET⟩] :=
  C10_no_match_all_literal [1, 2, 3] 0 32640 1 (by decide) (by decide) (by decide) (by decide)

/-- C1 (round trip): for every non-empty byte sequence `x`, every `offsetLimit` in
`{2176, 32640}` and every combination of `backwards` and `classic`, with
`invert = !classic && !backwards`: `Optimize` with `skip = 0` and one thread returns a
block, `Compress` of it returns bytes, and `Decompress` of these bytes returns exactly
`x` with a nil error. -/
theorem C1_round_trip (x : List Byte) (offsetLimit : Nat) (backwards classic : Bool)
    (hx : x ≠ []) (hl : offsetLimit = 2176 ∨ offsetLimit = 32640) :
    ∃ h out delta, Optimize x 0 offsetLimit 1 = some h ∧
      Compress h x 0 backwards (!classic && !backwards) = some (out, delta) ∧
      Decompress out backwards (!classic && !backwards) = .returned x := by
  have hs : 0 < x.length := List.length_pos.2 hx
  obtain ⟨h, c, e1, _, _, _, _, e2, _, _, e3⟩ :=
    pipeline x 0 offsetLimit 1 backwards (!classic && !backwards) hs (by omega) (Nat.le_refl 1)
  exact ⟨h, c.output, c.delta, e1, e2, e3 rfl (by omega)⟩

/-- Witness of C1 on a six-byte input with a repeat, in the forward mode of the current
format. -/
theorem C1_round_trip_witness :
    ([1, 2, 1, 2, 1, 2] : List Byte) ≠ [] ∧ (32640 = 2176 ∨ 32640 = 32640) ∧
    ∃ h out delta, Optimize [1, 2, 1, 2, 1, 2] 0 32640 1 = some h ∧
      Compress h [1, 2, 1, 2, 1, 2] 0 false (!false && !false) = some (out, delta) ∧
      Decompress out false (!false && !false) = .returned [1, 2, 1, 2, 1, 2] :=
  ⟨by decide, Or.inr rfl, C1_round_trip [1, 2, 1, 2, 1, 2] 32640 false false (by decide) (Or.inr rfl)⟩

/-- C7, refuted: on the one-byte input `[7]` (chain: the root and one literal run),
`Compress` leaves `2` in `delta[0]`; its only call of `readBytes` happens with 2 bytes
written and 1 byte consumed (difference 1), and at the end of the encoding 4 bytes are
written and 1 byte is consumed (difference 3). -/
theorem C7_delta_is_not_written_minus_consumed :
    Optimize [7] 0 32640 1 = some [⟨9, 0, 0⟩, ⟨-1, -1, 1⟩] ∧
    Compress [⟨9, 0, 0⟩, ⟨-1, -1, 1⟩] [7] 0 false true = some ([213, 7, 85, 96], 2) ∧
    Compressor.run [⟨9, 0, 0⟩, ⟨-1, -1, 1⟩] [7] 0 false true =
      some ⟨[213, 7, 85, 96], 4, 1, 3, 16, 0, false, 2, [(2, 1)]⟩ := by
  decide

/-- C7, amended: for every chain produced by `Optimize` and its input, `Compress`
succeeds and the value it leaves in `delta[0]` is the largest value, or 0 if none is
positive, that `diff` has at a call of `readBytes`, where `diff` is the number of bytes of
the output buffer not yet written minus the number of bytes of the input not yet
consumed: `(len(output) - written) - (len(input) - consumed)`. -/
theorem C7_delta_is_max_diff (input : List Byte) (skip offsetLimit threads : Nat)
    (backwards invert : Bool) (hs : skip < input.length) (hl : 1 ≤ offsetLimit)
    (ht : 1 ≤ threads) :
    ∃ h c, Optimize input skip offsetLimit threads = some h ∧
      Compressor.run h input skip backwards invert = some c ∧
      Compress h input skip backwards invert = some (c.output, c.delta) ∧
      c.delta = growth c.output.length input.length c.reads ∧
      c.diff = (c.output.length : Int) - input.length + c.inputIndex - c.outputIndex := by
  obtain ⟨h, c, e1, _, _, _, e2, e3, hd, _, _⟩ :=
    pipeline input skip offsetLimit threads backwards invert hs hl ht
  exact ⟨h, c, e1, e2, e3, hd.delta, hd.diff⟩

/-- Witness of C7, amended, on a six-byte input with a repeat. -/
theorem C7_delta_is_max_diff_witness :
    0 < ([1, 2, 1, 2, 1, 2] : List Byte).length ∧ 1 ≤ 32640 ∧ 1 ≤ 1 ∧
    ∃ h c, Optimize [1, 2, 1, 2, 1, 2] 0 32640 1 = some h ∧
      Compressor.run h [1, 2, 1, 2, 1, 2] 0 false true = some c ∧
      Compress h [1, 2, 1, 2, 1, 2] 0 false true = some (c.output, c.delta) ∧
      c.delta = growth c.output.length ([1, 2, 1, 2, 1, 2] : List Byte).length c.reads ∧
      c.diff = (c.output.length : Int) - ([1, 2, 1, 2, 1, 2] : List Byte).length
        + c.inputIndex - c.outputIndex :=
  ⟨by decide, by decide, by decide,
    C7_delta_is_max_diff [1, 2, 1, 2, 1, 2] 0 32640 1 false true (by decide) (by decide)
      (by decide)⟩

/-- C8, refuted: on the one-byte input `[7]` the returned block has `Bits = 9` and
`Compress` returns 4 bytes, and `9 = 8 * 4 - padding` for no `padding` in `[0, 8)`. -/
theorem C8_bits_is_not_output_length :
    ∃ h out delta, Optimize [7] 0 32640 1 = some h ∧
      Compress h [7] 0 false true = some (out, delta) ∧
      ¬ ∃ padding : Int, 0 ≤ padding ∧ padding < 8 ∧
        headBits h = 8 * (out.length : Int) - padding := by
  refine ⟨[⟨9, 0, 0⟩, ⟨-1, -1, 1⟩], [213, 7, 85, 96], 2, by decide, by decide, ?_⟩
  rintro ⟨p, h1, h2, h3⟩
  simp only [headBits, List.length_cons, List.length_nil] at h3
  omega

/-- C8, amended: for every input, with `h` the block returned by `Optimize` and `out`
the bytes returned by `Compress(h, ...)`, `h.Bits + 18 = 8 * len(out) - padding` for
some `padding` with `0 ≤ padding < 8`: the 18 bits are the end marker, which `Bits` does
not count (one bit for the indicator and 17 for the Elias gamma code of 256). -/
theorem C8_cost_accounting (input : List Byte) (skip offsetLimit threads : Nat)
    (backwards invert : Bool) (hs : skip < input.length) (hl : 1 ≤ offsetLimit)
    (ht : 1 ≤ threads) :
    ∃ h out delta, Optimize input skip offsetLimit threads = some h ∧
      Compress h input skip backwards invert = some (out, delta) ∧
      ∃ padding : Int, 0 ≤ padding ∧ padding < 8 ∧
        headBits h + 18 = 8 * (out.length : Int) - padding := by
  obtain ⟨h, c, e1, hv, _, _, _, e3, _, hlen, _⟩ :=
    pipeline input skip offsetLimit threads backwards invert hs hl ht
  refine ⟨h, c.output, c.delta, e1, e3, 8 * (c.output.length : Int) - (headBits h + 18), ?_, ?_,
    by omega⟩
  all_goals
    have hb := valid_bits_ge hv
    omega

/-- Witness of C8, amended, on a six-byte input with a repeat. -/
theorem C8_cost_accounting_witness :
    0 < ([1, 2, 1, 2, 1, 2] : List Byte).length ∧ 1 ≤ 32640 ∧ 1 ≤ 1 ∧
    ∃ h out delta, Optimize [1, 2, 1, 2, 1, 2] 0 32640 1 = some h ∧
      Compress h [1, 2, 1, 2, 1, 2] 0 false true = some (out, delta) ∧
      ∃ padding : Int, 0 ≤ padding ∧ padding < 8 ∧
        headBits h + 18 = 8 * (out.length : Int) - padding :=
  ⟨by decide, by decide, by decide,
    C8_cost_accounting [1, 2, 1, 2, 1, 2] 0 32640 1 false true (by decide) (by decide)
      (by decide)⟩

/-- C9 (single-byte boundary): for every byte `b`, every `offsetLimit ≥ 1`, every
number of threads and every combination of `backwards` and `classic`, with
`invert = !classic && !backwards`: `Optimize([b], skip = 0)` returns the chain of the
root and one literal run of length 1 (`Index = 0`, `Offset = 0`, `Bits = 9`), `Compress`
of that chain returns bytes, and `Decompress` of these bytes returns `[b]` with a nil
error. -/
theorem C9_single_byte (b : Byte) (offsetLimit threads : Nat) (backwards classic : Bool)
    (hl : 1 ≤ offsetLimit) (ht : 1 ≤ threads) :
    Optimize [b] 0 offsetLimit threads = some [⟨9, 0, 0⟩, ⟨-1, -1, INITIAL_OFFSET⟩] ∧
    ∃ out delta,
      Compress [⟨9, 0, 0⟩, ⟨-1, -1, INITIAL_OFFSET⟩] [b] 0 backwards (!classic && !backwards)
        = some (out, delta) ∧
      Decompress out backwards (!classic && !backwards) = .returned [b] := by
  obtain ⟨h, e, hv, h2, hi⟩ := optimize_chain [b] 0 offsetLimit threads (by simp) hl ht
  have hc := single_chain hv h2 (by simpa using hi)
  subst hc
  obtain ⟨c, hr, _, _, _, _, hdec⟩ :=
    codec [b] 0 offsetLimit backwards (!classic && !backwards) _ hv h2
  refine ⟨e, c.output, c.delta, compress_of_run hr, hdec rfl ?_ (by simp [headIndex])⟩
  intro x hx
  simp only [List.mem_cons, List.mem_singleton, List.mem_nil_iff, or_false] at hx
  rcases hx with rfl | rfl <;> simp [INITIAL_OFFSET]

/-- Witness of C9 on the byte 7 with the short offset limit and two threads, in the
backwards mode. -/
theorem C9_single_byte_witness :
    1 ≤ 2176 ∧ 1 ≤ 2 ∧
    Optimize [7] 0 2176 2 = some [⟨9, 0, 0⟩, ⟨-1, -1, INITIAL_OFFSET⟩] ∧
    ∃ out delta,
      Compress [⟨9, 0, 0⟩, ⟨-1, -1, INITIAL_OFFSET⟩] [7] 0 true (!false && !true)
        = some (out, delta) ∧
      Decompress out true (!false && !true) = .returned [7] :=
  ⟨by decide, by decide, C9_single_byte 7 2176 2 true false (by decide) (by decide)⟩

/-- The `Bits` of the block returned by `Optimize` is the total cost, under the cost
model, of the factorization that the returned chain stands for, and this factorization
is one that the stream format can represent. -/
theorem returned_parse_cost (input : List Byte) (skip offsetLimit threads : Nat)
    (hs : skip < input.length) (hl : 1 ≤ offsetLimit) (ht : 1 ≤ threads) :
    ∃ h, Optimize input skip offsetLimit threads = some h ∧
      Representable input skip offsetLimit (segsOf h) ∧ headBits h = parseCost (segsOf h) := by
  obtain ⟨h, e, hv, h2, hi⟩ := optimize_chain input skip offsetLimit threads hs hl ht
  exact ⟨h, e, representable_of_valid hv h2 hi⟩

/-- C11 (chain shape and skip semantics): for every input and `skip < len(input)`, the
chain returned by `Optimize` starts at a block with `Index = len(input) - 1`, every block
with a non-nil `Chain` has `Chain.Index < Index`, and the chain ends in the root block
(`Offset = 1`, `Index = skip - 1`), the only block of the chain below `skip`; every
position `j` in `skip..len(input)-1` lies in exactly one segment `(Chain.Index, Index]`
of the chain, so the segments have positive length and cover exactly these positions. -/
theorem C11_chain_shape (input : List Byte) (skip offsetLimit threads : Nat)
    (hs : skip < input.length) (hl : 1 ≤ offsetLimit) (ht : 1 ≤ threads) :
    ∃ h body, Optimize input skip offsetLimit threads = some h ∧
      headIndex h = (input.length : Int) - 1 ∧
      (∀ pre b p rest, h = pre ++ b :: p :: rest → p.Index < b.Index) ∧
      h = body ++ [⟨-1, (skip : Int) - 1, 1⟩] ∧ body ≠ [] ∧
      (∀ b ∈ body, (skip : Int) ≤ b.Index) ∧
      (∀ j : Nat, skip ≤ j → j < input.length →
        ∃ i, InSegment h j i ∧ ∀ i', InSegment h j i' → i' = i) := by
  obtain ⟨h, e, hv, h2, hi⟩ := optimize_chain input skip offsetLimit threads hs hl ht
  obtain ⟨body, hb, hge⟩ := valid_root hv
  refine ⟨h, body, e, hi, ?_, hb, ?_, hge, ?_⟩
  · intro pre b p rest hsplit
    exact (valid_cons2.1 (valid_pair hv hsplit)).2.1
  · rintro rfl
    rw [hb] at h2
    simp at h2
  · intro j j1 j2
    exact valid_cover hv j j1 (by rw [hi]; omega)

/-- Witness of C11 on a six-byte input with a repeat and one byte skipped. -/
theorem C11_chain_shape_witness :
    1 < ([1, 2, 1, 2, 1, 2] : List Byte).length ∧ 1 ≤ 32640 ∧ 1 ≤ 1 ∧
    ∃ h body, Optimize [1, 2, 1, 2, 1, 2] 1 32640 1 = some h ∧
      headIndex h = (([1, 2, 1, 2, 1, 2] : List Byte).length : Int) - 1 ∧
      (∀ pre b p rest, h = pre ++ b :: p :: rest → p.Index < b.Index) ∧
      h = body ++ [⟨-1, ((1 : Nat) : Int) - 1, 1⟩] ∧ body ≠ [] ∧
      (∀ b ∈ body, ((1 : Nat) : Int) ≤ b.Index) ∧
      (∀ j : Nat, 1 ≤ j → j < ([1, 2, 1, 2, 1, 2] : List Byte).length →
        ∃ i, InSegment h j i ∧ ∀ i', InSegment h j i' → i' = i) :=
  ⟨by decide, by decide, by decide,
    C11_chain_shape [1, 2, 1, 2, 1, 2] 1 32640 1 (by decide) (by decide) (by decide)⟩

/-- C12 (parse validity): for every input and `skip < len(input)`, every back-reference
block (`Offset ≠ 0`, with a predecessor `p`) on the chain returned by `Optimize` is a real
match: every position `j` with `p.Index < j ≤ Index` lies in the input and has
`j ≥ Offset` and `input[j] = input[j - Offset]`. -/
theorem C12_back_references_match (input : List Byte) (skip offsetLimit threads : Nat)
    (hs : skip < input.length) (hl : 1 ≤ offsetLimit) (ht : 1 ≤ threads) :
    ∃ h, Optimize input skip offsetLimit threads = some h ∧
      ∀ pre b p rest, h = pre ++ b :: p :: rest → b.Offset ≠ 0 →
        ∀ j : Nat, p.Index < (j : Int) → (j : Int) ≤ b.Index →
          b.Offset ≤ j ∧ j < input.length ∧ input[j]? = input[j - b.Offset]? := by
  obtain ⟨h, e, hv, _, _⟩ := optimize_chain input skip offsetLimit threads hs hl ht
  refine ⟨h, e, ?_⟩
  intro pre b p rest hsplit h0 j j1 j2
  obtain ⟨_, _, hlen, hk⟩ := valid_cons2.1 (valid_pair hv hsplit)
  rw [if_neg h0] at hk
  obtain ⟨c1, c2⟩ := hk.2.1 j j1 j2
  exact ⟨c1, by omega, c2⟩

/-- Witness of C12 on a six-byte input with a repeat. -/
theorem C12_back_references_match_witness :
    0 < ([1, 2, 1, 2, 1, 2] : List Byte).length ∧ 1 ≤ 32640 ∧ 1 ≤ 1 ∧
    ∃ h, Optimize [1, 2, 1, 2, 1, 2] 0 32640 1 = some h ∧
      ∀ pre b p rest, h = pre ++ b :: p :: rest → b.Offset ≠ 0 →
        ∀ j : Nat, p.Index < (j : Int) → (j : Int) ≤ b.Index →
          b.Offset ≤ j ∧ j < ([1, 2, 1, 2, 1, 2] : List Byte).length ∧
            ([1, 2, 1, 2, 1, 2] : List Byte)[j]? = ([1, 2, 1, 2, 1, 2] : List Byte)[j - b.Offset]? :=
  ⟨by decide, by decide, by decide,
    C12_back_references_match [1, 2, 1, 2, 1, 2] 0 32640 1 (by decide) (by decide) (by decide)⟩

/-- C16 (the parse is representable by the decoder's state machine): on every chain
returned by `Optimize`, for every block `b` with predecessor `p`: if `p` is the root, `b`
is a literal run; a literal run does not follow a literal run; a back-reference whose
offset is the offset in force (that of the nearest preceding back-reference, or the
initial offset 1) follows a literal run; and a back-reference that follows a
back-reference has another offset and a length of at least 2. -/
theorem C16_parse_is_representable (input : List Byte) (skip offsetLimit threads : Nat)
    (hs : skip < input.length) (hl : 1 ≤ offsetLimit) (ht : 1 ≤ threads) :
    ∃ h, Optimize input skip offsetLimit threads = some h ∧
      ∀ pre b p rest, h = pre ++ b :: p :: rest →
        (rest = [] → b.Offset = 0) ∧
        (b.Offset = 0 → p.Offset ≠ 0) ∧
        (b.Offset ≠ 0 → b.Offset = lastOff (p :: rest) → p.Offset = 0) ∧
        (b.Offset ≠ 0 → p.Offset ≠ 0 → b.Offset ≠ p.Offset ∧ p.Index + 2 ≤ b.Index) := by
  obtain ⟨h, e, hv, _, _⟩ := optimize_chain input skip offsetLimit threads hs hl ht
  refine ⟨h, e, ?_⟩
  intro pre b p rest hsplit
  have hv2 := valid_pair hv hsplit
  obtain ⟨_, _, _, hk⟩ := valid_cons2.1 hv2
  refine ⟨?_, ?_, ?_, ?_⟩
  · rintro rfl
    exact first_literal hv2
  · intro h0
    rw [if_pos h0] at hk
    exact hk.1
  · intro h0 h1
    rw [if_neg h0, if_pos h1.symm] at hk
    exact hk.2.2.1
  · intro h0 hp
    rw [if_neg h0] at hk
    have hlo : lastOff (p :: rest) = p.Offset := by simp [lastOff, hp]
    by_cases h1 : lastOff (p :: rest) = b.Offset
    · rw [if_pos h1] at hk
      exact absurd hk.2.2.1 hp
    · rw [if_neg h1] at hk
      exact ⟨fun e' => h1 (by rw [hlo, e']), hk.2.2.2.1⟩

/-- Witness of C16 on a six-byte input with a repeat. -/
theorem C16_parse_is_representable_witness :
    0 < ([1, 2, 1, 2, 1, 2] : List Byte).length ∧ 1 ≤ 32640 ∧ 1 ≤ 1 ∧
    ∃ h, Optimize [1, 2, 1, 2, 1, 2] 0 32640 1 = some h ∧
      ∀ pre b p rest, h = pre ++ b :: p :: rest →
        (rest = [] → b.Offset = 0) ∧
        (b.Offset = 0 → p.Offset ≠ 0) ∧
        (b.Offset ≠ 0 → b.Offset = lastOff (p :: rest) → p.Offset = 0) ∧
        (b.Offset ≠ 0 → p.Offset ≠ 0 → b.Offset ≠ p.Offset ∧ p.Index + 2 ≤ b.Index) :=
  ⟨by decide, by decide, by decide,
    C16_parse_is_representable [1, 2, 1, 2, 1, 2] 0 32640 1 (by decide) (by decide) (by decide)⟩

/-- C20 (code length): for every integer `v ≥ 1`, `eliasGammaBits(v) = 1 + 2 * k` where
`k = floor(log2(v))`, that is `2^k ≤ v < 2^(k+1)`. -/
theorem C20_elias_gamma_bits (v : Int) (k : Nat) (h1 : 1 ≤ v) (hlo : (2 : Int) ^ k ≤ v)
    (hhi : v < (2 : Int) ^ (k + 1)) : eliasGammaBits v = 1 + 2 * (k : Int) := by
  rw [eliasGammaBits_eq]
  have hn : v.toNat ≠ 0 := by omega
  have hv : ((v.toNat : Nat) : Int) = v := Int.toNat_of_nonneg (by omega)
  have e1 : 2 ^ k ≤ v.toNat := by
    have : ((2 ^ k : Nat) : Int) ≤ (v.toNat : Int) := by rw [hv]; push_cast; exact hlo
    exact_mod_cast this
  have e2 : v.toNat < 2 ^ (k + 1) := by
    have : (v.toNat : Int) < ((2 ^ (k + 1) : Nat) : Int) := by rw [hv]; push_cast; exact hhi
    exact_mod_cast this
  have a1 : k ≤ Nat.log2 v.toNat := (Nat.le_log2 hn).2 e1
  have a2 : Nat.log2 v.toNat < k + 1 := (Nat.log2_lt hn).2 e2
  have : Nat.log2 v.toNat = k := by omega
  rw [this]

/-- Witness of C20 on the value 256 of the end marker: 17 bits. -/
theorem C20_elias_gamma_bits_witness :
    (1 : Int) ≤ 256 ∧ (2 : Int) ^ 8 ≤ 256 ∧ (256 : Int) < (2 : Int) ^ (8 + 1) ∧
    eliasGammaBits 256 = 1 + 2 * ((8 : Nat) : Int) :=
  ⟨by decide, by decide, by decide, C20_elias_gamma_bits 256 8 (by decide) (by decide) (by decide)⟩

/-- C13 (overlapping copy): for every decoder state with `1 ≤ lastOffset ≤ n = len(output)`
and every length `L`, `copyBytes(L)` returns without a fault, changes nothing of the
decoder but `output`, keeps the first `n` bytes of `output` and appends exactly `L` bytes
with `new[n+i] = new[n+i-lastOffset]` for every `i < L`, also when `lastOffset < L`. -/
theorem C13_overlapping_copy (d : Decompressor) (O L : Nat) (hO : 1 ≤ O)
    (hl : d.lastOffset = (O : Int)) (hn : O ≤ d.output.length) :
    ∃ ext : List Byte, ext.length = L ∧
      d.copyBytes L = .ok { d with output := d.output ++ ext } ∧
      (d.output ++ ext).length = d.output.length + L ∧
      (d.output ++ ext).take d.output.length = d.output ∧
      ∀ i, i < L → ∃ b, (d.output ++ ext)[d.output.length + i]? = some b ∧
        (d.output ++ ext)[d.output.length + i - O]? = some b := by
  obtain ⟨ext, h1, h2, h3⟩ := copyBytes_overlap O hO L d hl hn
  refine ⟨ext, h1, h2, by simp [h1], by simp, ?_⟩
  intro i hi
  have hlt : d.output.length + i < (d.output ++ ext).length := by
    simp only [List.length_append, h1]; omega
  refine ⟨(d.output ++ ext)[d.output.length + i], List.getElem?_eq_getElem hlt, ?_⟩
  rw [← h3 i hi]
  exact List.getElem?_eq_getElem hlt

/-- Witness of C13: with the output `[5, 6]` and `lastOffset = 2`, a copy of length 5
repeats the two bytes periodically. -/
theorem C13_overlapping_copy_witness :
    1 ≤ 2 ∧ ((2 : Nat) : Int) = ((2 : Nat) : Int) ∧ 2 ≤ ([5, 6] : List Byte).length ∧
    Decompressor.copyBytes ⟨2, [], [5, 6], 0, 0, 0, false, false, false, 0⟩ 5
      = .ok ⟨2, [], [5, 6, 5, 6, 5, 6, 5], 0, 0, 0, false, false, false, 0⟩ ∧
    ∃ ext : List Byte, ext.length = 5 ∧
      Decompressor.copyBytes ⟨2, [], [5, 6], 0, 0, 0, false, false, false, 0⟩ 5
        = .ok ⟨2, [], [5, 6] ++ ext, 0, 0, 0, false, false, false, 0⟩ ∧
      (([5, 6] : List Byte) ++ ext).length = ([5, 6] : List Byte).length + 5 ∧
      (([5, 6] : List Byte) ++ ext).take ([5, 6] : List Byte).length = [5, 6] ∧
      ∀ i, i < 5 → ∃ b, (([5, 6] : List Byte) ++ ext)[([5, 6] : List Byte).length + i]? = some b ∧
        (([5, 6] : List Byte) ++ ext)[([5, 6] : List Byte).length + i - 2]? = some b :=
  ⟨by decide, rfl, by decide, rfl,
    C13_overlapping_copy ⟨2, [], [5, 6], 0, 0, 0, false, false, false, 0⟩ 2 5 (by decide) rfl
      (by decide)⟩

/-- C17 (exact buffer fill): for every input, `skip < len(input)` and mode, with `h` the
block returned by `Optimize`, `Compress(h, ...)` returns (no write falls outside
`output`, which would fault), and on return the write position stands at
`h.Bits + 18` bits (`8 * outputIndex` less the free bit slots of the byte that collects
bits, no bit of an offset byte pending), and `outputIndex = len(output) =
(h.Bits + 25) / 8`. -/
theorem C17_exact_buffer_fill (input : List Byte) (skip offsetLimit threads : Nat)
    (backwards invert : Bool) (hs : skip < input.length) (hl : 1 ≤ offsetLimit)
    (ht : 1 ≤ threads) :
    ∃ h c, Optimize input skip offsetLimit threads = some h ∧
      Compressor.run h input skip backwards invert = some c ∧
      Compress h input skip backwards invert = some (c.output, c.delta) ∧
      c.backtrack = false ∧
      8 * (c.outputIndex : Int) - (freeBits c.bitMask : Int) = headBits h + 18 ∧
      c.outputIndex = c.output.length ∧
      (c.output.length : Int) = (headBits h + 25) / 8 := by
  obtain ⟨h, e, hv, h2, _⟩ := optimize_chain input skip offsetLimit threads hs hl ht
  obtain ⟨c, hr, hw, _, hbits, hlen, _⟩ := codec input skip offsetLimit backwards invert h hv h2
  have hb := run_backtrack hv hr
  obtain ⟨a1, a2, a3⟩ := buffer_full hw hb hbits hlen (valid_bits_ge hv)
  exact ⟨h, c, e, hr, compress_of_run hr, hb, a3, a1, a2⟩

/-- Witness of C17 on a six-byte input with a repeat. -/
theorem C17_exact_buffer_fill_witness :
    0 < ([1, 2, 1, 2, 1, 2] : List Byte).length ∧ 1 ≤ 32640 ∧ 1 ≤ 1 ∧
    ∃ h c, Optimize [1, 2, 1, 2, 1, 2] 0 32640 1 = some h ∧
      Compressor.run h [1, 2, 1, 2, 1, 2] 0 false true = some c ∧
      Compress h [1, 2, 1, 2, 1, 2] 0 false true = some (c.output, c.delta) ∧
      c.backtrack = false ∧
      8 * (c.outputIndex : Int) - (freeBits c.bitMask : Int) = headBits h + 18 ∧
      c.outputIndex = c.output.length ∧
      (c.output.length : Int) = (headBits h + 25) / 8 :=
  ⟨by decide, by decide, by decide,
    C17_exact_buffer_fill [1, 2, 1, 2, 1, 2] 0 32640 1 false true (by decide) (by decide)
      (by decide)⟩

/-- C14 (deterministic tie-break): at every position `index` of the run of `Optimize`
(one thread; `stateAt` is the optimizer when the main loop reaches `index`, and the run
goes on from it with the call below), `processTask(1, maxOffset, index, ...)` returns
without a fault; with `log` the blocks it creates, in the order of their creation
(offsets ascending), it returns nil iff `log` is empty, and otherwise it returns a block
of `log` whose `Bits` is the least of `log`, the first such block: every block created
before it has strictly more `Bits`. -/
theorem C14_deterministic_tie_break (input : List Byte) (skip offsetLimit index : Nat)
    (hl : 1 ≤ offsetLimit) (h1 : skip ≤ index) (h2 : index < input.length) :
    Optimize input skip offsetLimit 1 =
      (stateAt input skip offsetLimit index).bind (optimizeFrom input skip offsetLimit index) ∧
    ∃ o o' blk log, stateAt input skip offsetLimit index = some o ∧
      processTaskLog o 1 (offsetCeiling index offsetLimit) index skip input
        = some (o', blk, log) ∧
      processTask o 1 (offsetCeiling index offsetLimit) index skip input = some (o', blk) ∧
      (blk = [] ↔ log = []) ∧
      (blk ≠ [] → ∃ i, log[i]? = some blk ∧
        (∀ (j : Nat) (b : BlockRef), log[j]? = some b → headBits blk ≤ headBits b) ∧
        ∀ (j : Nat) (b : BlockRef), j < i → log[j]? = some b → headBits blk < headBits b) := by
  refine ⟨optimize_cut input skip offsetLimit index h1 (by omega), ?_⟩
  obtain ⟨o, e, hP⟩ := stateAt_inv input skip offsetLimit index hl h1 (by omega)
  obtain ⟨o', blk, e1, _, _⟩ := processTask_inv hP hl h1 h2
  have h := processTask_logged o 1 (offsetCeiling index offsetLimit) index skip input
  cases e2 : processTaskLog o 1 (offsetCeiling index offsetLimit) index skip input with
  | none =>
    rw [e2] at h
    have h' : processTask o 1 (offsetCeiling index offsetLimit) index skip input = none := h
    rw [h'] at e1
    cases e1
  | some r =>
    obtain ⟨o2, blk2, log⟩ := r
    rw [e2] at h
    obtain ⟨a1, a2, a3⟩ := h
    exact ⟨o, o2, blk2, log, e, e2, a1, a2, a3⟩

/-- Witness of C14 at position 3 of a six-byte input with a repeat. -/
theorem C14_deterministic_tie_break_witness :
    1 ≤ 32640 ∧ 0 ≤ 3 ∧ 3 < ([1, 2, 1, 2, 1, 2] : List Byte).length ∧
    (Optimize [1, 2, 1, 2, 1, 2] 0 32640 1 =
      (stateAt [1, 2, 1, 2, 1, 2] 0 32640 3).bind (optimizeFrom [1, 2, 1, 2, 1, 2] 0 32640 3) ∧
    ∃ o o' blk log, stateAt [1, 2, 1, 2, 1, 2] 0 32640 3 = some o ∧
      processTaskLog o 1 (offsetCeiling 3 32640) 3 0 [1, 2, 1, 2, 1, 2]
        = some (o', blk, log) ∧
      processTask o 1 (offsetCeiling 3 32640) 3 0 [1, 2, 1, 2, 1, 2] = some (o', blk) ∧
      (blk = [] ↔ log = []) ∧
      (blk ≠ [] → ∃ i, log[i]? = some blk ∧
        (∀ (j : Nat) (b : BlockRef), log[j]? = some b → headBits blk ≤ headBits b) ∧
        ∀ (j : Nat) (b : BlockRef), j < i → log[j]? = some b → headBits blk < headBits b)) :=
  ⟨by decide, by decide, by decide,
    C14_deterministic_tie_break [1, 2, 1, 2, 1, 2] 0 32640 3 (by decide) (by decide)
      (by decide)⟩

/-- C15 (the amortized best-length search equals the naive search): at every position
`index` of the run of `Optimize` (one thread) and for every offset `1..maxOffset` that
matches at `index` and at `index - 1`, the loop of `processTask` reaches the offset
without a fault with a run length `m0 = matchLength[offset] ≥ 1` (the `m0` positions
before `index` match), and its turn for the offset (`processOffset`, that is
`fromLastOffset` and then `fromNewOffset`) returns, sets `matchLength[offset]` to
`m = m0 + 1 ≥ 2` and leaves in `bestLength[m]` the length `L` that the search from
scratch (`bestLen`) finds: `2 ≤ L ≤ m`, every `l` in `[2, m]` has `index - l ≥ skip`
and a block in `optimal[index-l]`, `L` minimises
`optimal[index-l].Bits + eliasGammaBits(l-1)` over `[2, m]`, and every larger `l` in
`[2, m]` costs strictly more. This `L` is the length used for the new-offset candidate:
the candidate is the block with `Bits = optimal[index-L].Bits + 8 +
eliasGammaBits((offset-1)/128+1) + eliasGammaBits(L-1)` and `Chain = optimal[index-L]`;
when it passes the test against `lastMatch[offset]` it is stored there and put to the
test of `optimalBlock`, and otherwise neither changes. -/
theorem C15_best_length_is_naive_search (input : List Byte)
    (skip offsetLimit index offset : Nat) (hl : 1 ≤ offsetLimit) (h1 : skip ≤ index)
    (h2 : index < input.length) (h3 : 1 ≤ offset)
    (h4 : offset ≤ offsetCeiling index offsetLimit)
    (hm : matchAt input index skip offset = some true)
    (hp : matchAt input (index - 1) skip offset = some true) :
    ∃ o s m0 s1 s2 lm1 L b q,
      stateAt input skip offsetLimit index = some o ∧
      processLoop input index skip (offset - 1) 1 ⟨o, 2, []⟩ = some s ∧
      s.o.optimal = o.optimal ∧ s.o.matchLength[offset]? = some m0 ∧ 1 ≤ m0 ∧
      (∀ j, index ≤ j + m0 → j < index → matchAt input j skip offset = some true) ∧
      fromLastOffset index offset s = some s1 ∧ fromNewOffset index offset s1 = some s2 ∧
      processOffset input index skip offset s = some s2 ∧
      s2.o.matchLength[offset]? = some (m0 + 1) ∧
      s2.o.bestLength[m0 + 1]? = some L ∧ L = bestLen o.optimal index (m0 + 1) ∧
      2 ≤ L ∧ L ≤ m0 + 1 ∧
      (∀ l, 2 ≤ l → l ≤ m0 + 1 → skip + l ≤ index ∧
        ∃ b q, o.optimal[index - l]? = some (b :: q) ∧
          lengthCost o.optimal index l = b.Bits + eliasGammaBits ((l : Int) - 1)) ∧
      (∀ l, 2 ≤ l → l ≤ m0 + 1 →
        lengthCost o.optimal index L ≤ lengthCost o.optimal index l) ∧
      (∀ l, L < l → l ≤ m0 + 1 →
        lengthCost o.optimal index L < lengthCost o.optimal index l) ∧
      s1.o.lastMatch[offset]? = some lm1 ∧ o.optimal[index - L]? = some (b :: q) ∧
      (if replaces lm1 index (b.Bits + 8 + eliasGammaBits (((offset - 1) / 128 + 1 : Nat) : Int)
          + eliasGammaBits ((L : Int) - 1)) = true
        then s2.o.lastMatch[offset]? = some
            (⟨b.Bits + 8 + eliasGammaBits (((offset - 1) / 128 + 1 : Nat) : Int)
              + eliasGammaBits ((L : Int) - 1), index, offset⟩ :: b :: q) ∧
          s2.optimalBlock = offer s1.optimalBlock
            (⟨b.Bits + 8 + eliasGammaBits (((offset - 1) / 128 + 1 : Nat) : Int)
              + eliasGammaBits ((L : Int) - 1), index, offset⟩ :: b :: q)
        else s2.o.lastMatch = s1.o.lastMatch ∧ s2.optimalBlock = s1.optimalBlock) := by
  obtain ⟨o, e, hP⟩ := stateAt_inv input skip offsetLimit index hl h1 (by omega)
  have hA : offsetCeiling index offsetLimit + 1 ≤ arraySize input offsetLimit :=
    offsetCeiling_lt_arraySize offsetLimit h2
  obtain ⟨s, e1, hT, eo⟩ := processLoop_inv (offset - 1) hP h1 h2 (le_refl _) (by omega)
  rw [show 1 + (offset - 1) = offset by omega] at hT
  obtain ⟨ll, lm, m0, a1, a2, a3, a4⟩ := hT.slots offset h3 (by omega)
  rw [if_neg (lt_irrefl _)] at a4
  have l2 := lt_length_of_getElem? a2
  have hskip : skip < index := by have := (matches_iff.1 hm).1; omega
  have hskip1 : skip < index - 1 := by have := (matches_iff.1 hp).1; omega
  have hm0 : 1 ≤ m0 := by
    by_contra hc
    have h0 : m0 = 0 := by omega
    have := a4.run_max (by omega)
    rw [h0] at this
    exact this hp
  have hrun : m0 + skip < index := by
    rcases a4.run_lo with h | h
    · omega
    · exact h
  have hopt : ∀ p, skip ≤ p → p < index →
      p < s.o.optimal.length ∧ s.o.optimal.getD p [] ≠ [] := by
    intro p p1 p2
    exact ⟨by rw [hT.len_opt]; omega, valid_ne_nil (hT.opt_ok p p1 p2).valid⟩
  have hfl := fromLastOffset_eq index offset s ll a1 l2
  generalize hs1 : ({ s with
      o := { s.o with
        lastMatch := if ll = [] then s.o.lastMatch
          else s.o.lastMatch.set offset (reuseBlock ll index offset) }
      optimalBlock := if ll = [] then s.optimalBlock
        else offer s.optimalBlock (reuseBlock ll index offset) } : TaskState) = s1 at hfl
  have f1 : s1.o.optimal = s.o.optimal := by rw [← hs1]
  have f2 : s1.o.matchLength = s.o.matchLength := by rw [← hs1]
  have f3 : s1.o.bestLength = s.o.bestLength := by rw [← hs1]
  have f4 : s1.bestLengthSize = s.bestLengthSize := by rw [← hs1]
  have f6 : s1.o.lastMatch = if ll = [] then s.o.lastMatch
        else s.o.lastMatch.set offset (reuseBlock ll index offset) := by rw [← hs1]
  have hlm1 : s1.o.lastMatch[offset]? =
      some (if ll = [] then lm else reuseBlock ll index offset) := by
    rw [f6]
    by_cases c : ll = []
    · rw [if_pos c, if_pos c]; exact a2
    · rw [if_neg c, if_neg c, List.getElem?_set_self l2]
  have l2' : offset < s1.o.lastMatch.length := lt_length_of_getElem? hlm1
  obtain ⟨bl', size', b1, _, _, _, _, _⟩ := fromNewOffset_spec index skip offset s1 m0
    (if ll = [] then lm else reuseBlock ll index offset) (by rw [f2]; exact a3) hlm1
    (by rw [f1]; exact hopt) (by rw [f4]; exact hT.bl_size.1) (by rw [f4]; exact hT.bl_size.2)
    (by intro _; omega)
    (by rw [f3, hT.len_bl]; exact h2)
    (by rw [f3, hT.len_bl]; exact hT.bl_two)
    (by rw [f1, f3, f4]; exact hT.bl_ok)
  cases hfn : fromNewOffset index offset s1 with
  | none => rw [hfn] at b1; cases b1
  | some s2 =>
    rw [hfn] at b1
    have hs2 := Option.some.inj b1
    obtain ⟨g1, g2⟩ := fromNewOffset_bl index skip offset s1 s2 m0 (by rw [f2]; exact a3)
      (by rw [f1]; exact hopt) (by rw [f4]; exact hT.bl_size.1)
      (by rw [f4]; exact hT.bl_size.2)
      hm0 (by omega) (by rw [f3, hT.len_bl]; exact h2)
      (by rw [f3]; exact hT.bl_two (by omega))
      (by rw [f1, f3, f4]; exact hT.bl_ok) hfn
    have eo' : s.o.optimal = o.optimal := eo
    rw [f1, eo'] at g1
    have hr := bestLen_range o.optimal index (m0 + 1)
    have hblock : ∀ l, 2 ≤ l → l ≤ m0 + 1 → skip + l ≤ index ∧
        ∃ b q, o.optimal[index - l]? = some (b :: q) ∧
          lengthCost o.optimal index l = b.Bits + eliasGammaBits ((l : Int) - 1) := by
      intro l l1 l2
      refine ⟨by omega, ?_⟩
      have hp' := hopt (index - l) (by omega) (by omega)
      rw [eo'] at hp'
      cases hq : o.optimal.getD (index - l) [] with
      | nil => exact absurd hq hp'.2
      | cons b q =>
        refine ⟨b, q, ?_, ?_⟩
        · rw [← hq]; exact getElem?_of_getD_ne hp'.1
        · simp only [lengthCost, hq, headBits]
    have hL : bestLen o.optimal index (m0 + 1) ≤ m0 + 1 := by
      have : max (m0 + 1) 2 = m0 + 1 := by omega
      rw [this] at hr
      exact hr.2
    obtain ⟨_, b, q, hbq, _⟩ := hblock (bestLen o.optimal index (m0 + 1)) hr.1 hL
    have hgetD : o.optimal.getD (index - bestLen o.optimal index (m0 + 1)) [] = b :: q := by
      simp only [List.getD_eq_getElem?_getD, hbq, Option.getD_some]
    have hnb : newBlock (s1.o.optimal.getD (index - bestLen s1.o.optimal index (m0 + 1)) [])
        index offset (bestLen s1.o.optimal index (m0 + 1)) =
        ⟨b.Bits + 8 + eliasGammaBits (((offset - 1) / 128 + 1 : Nat) : Int)
          + eliasGammaBits (((bestLen o.optimal index (m0 + 1) : Nat) : Int) - 1),
          index, offset⟩ :: b :: q := by
      rw [f1, eo', hgetD]
      rfl
    have hpo : processOffset input index skip offset s = some s2 := by
      unfold processOffset
      rw [hm]
      simp only [Option.bind_eq_bind, Option.some_bind, if_true, hfl]
      exact hfn
    rw [hnb] at hs2
    generalize (if ll = [] then lm else reuseBlock ll index offset) = lm1 at hlm1 hs2
    refine ⟨o, s, m0, s1, s2, lm1, bestLen o.optimal index (m0 + 1), b, q, e, e1, eo', a3, hm0,
      a4.run, hfl, hfn, hpo, g2, g1, rfl, hr.1, hL, hblock,
      fun l l1 l2 => bestLen_min o.optimal index (m0 + 1) l l1 l2,
      fun l l1 l2 => bestLen_tie o.optimal index (m0 + 1) l l1 l2, hlm1, hbq, ?_⟩
    simp only [hm0, true_and, headBits] at hs2
    by_cases hrep : replaces lm1 index
        (b.Bits + 8 + eliasGammaBits (((offset - 1) / 128 + 1 : Nat) : Int)
          + eliasGammaBits (((bestLen o.optimal index (m0 + 1) : Nat) : Int) - 1)) = true
    · rw [if_pos hrep]
      simp only [hrep, if_true] at hs2
      rw [hs2]
      exact ⟨List.getElem?_set_self l2', rfl⟩
    · rw [if_neg hrep]
      simp only [hrep, if_false] at hs2
      rw [hs2]
      exact ⟨rfl, rfl⟩

/-- Witness of C15 at position 4 and offset 2 of a six-byte input with a repeat, where
the offset matches at the positions 3 and 4. -/
theorem C15_best_length_is_naive_search_witness :
    1 ≤ 32640 ∧ 0 ≤ 4 ∧ 4 < ([1, 2, 1, 2, 1, 2] : List Byte).length ∧ 1 ≤ 2 ∧
    2 ≤ offsetCeiling 4 32640 ∧ matchAt [1, 2, 1, 2, 1, 2] 4 0 2 = some true ∧
    matchAt [1, 2, 1, 2, 1, 2] (4 - 1) 0 2 = some true ∧
    ∃ o s m0 s1 s2 lm1 L b q,
      stateAt [1, 2, 1, 2, 1, 2] 0 32640 4 = some o ∧
      processLoop [1, 2, 1, 2, 1, 2] 4 0 (2 - 1) 1 ⟨o, 2, []⟩ = some s ∧
      s.o.optimal = o.optimal ∧ s.o.matchLength[2]? = some m0 ∧ 1 ≤ m0 ∧
      (∀ j, 4 ≤ j + m0 → j < 4 → matchAt [1, 2, 1, 2, 1, 2] j 0 2 = some true) ∧
      fromLastOffset 4 2 s = some s1 ∧ fromNewOffset 4 2 s1 = some s2 ∧
      processOffset [1, 2, 1, 2, 1, 2] 4 0 2 s = some s2 ∧
      s2.o.matchLength[2]? = some (m0 + 1) ∧
      s2.o.bestLength[m0 + 1]? = some L ∧ L = bestLen o.optimal 4 (m0 + 1) ∧
      2 ≤ L ∧ L ≤ m0 + 1 ∧
      (∀ l, 2 ≤ l → l ≤ m0 + 1 → 0 + l ≤ 4 ∧
        ∃ b q, o.optimal[4 - l]? = some (b :: q) ∧
          lengthCost o.optimal 4 l = b.Bits + eliasGammaBits ((l : Int) - 1)) ∧
      (∀ l, 2 ≤ l → l ≤ m0 + 1 →
        lengthCost o.optimal 4 L ≤ lengthCost o.optimal 4 l) ∧
      (∀ l, L < l → l ≤ m0 + 1 →
        lengthCost o.optimal 4 L < lengthCost o.optimal 4 l) ∧
      s1.o.lastMatch[2]? = some lm1 ∧ o.optimal[4 - L]? = some (b :: q) ∧
      (if replaces lm1 4 (b.Bits + 8 + eliasGammaBits (((2 - 1) / 128 + 1 : Nat) : Int)
          + eliasGammaBits ((L : Int) - 1)) = true
        then s2.o.lastMatch[2]? = some
            (⟨b.Bits + 8 + eliasGammaBits (((2 - 1) / 128 + 1 : Nat) : Int)
              + eliasGammaBits ((L : Int) - 1), 4, 2⟩ :: b :: q) ∧
          s2.optimalBlock = offer s1.optimalBlock
            (⟨b.Bits + 8 + eliasGammaBits (((2 - 1) / 128 + 1 : Nat) : Int)
              + eliasGammaBits ((L : Int) - 1), 4, 2⟩ :: b :: q)
        else s2.o.lastMatch = s1.o.lastMatch ∧ s2.optimalBlock = s1.optimalBlock) :=
  ⟨by decide, by decide, by decide, by decide, by decide, by decide, by decide,
    C15_best_length_is_naive_search [1, 2, 1, 2, 1, 2] 0 32640 4 2 (by decide) (by decide)
      (by decide) (by decide) (by decide) (by decide) (by decide)⟩

theorem linked_suffix {heap : Heap} : ∀ (xs : List Nat) {ys : List Nat},
    Linked heap (xs ++ ys) → Linked heap ys := by
  intro xs
  induction xs with
  | nil => intro ys h; exact h
  | cons x xs ih => intro ys h; exact ih h.2

/-- C19, refuted: on the chain that `Optimize` returns for the one-byte input `[7]`, laid
out in memory with the root at address 0 and the head at address 1, `Compress` returns
the bytes `213, 7, 85, 96` and leaves the chain reversed: the `Chain` of the head is nil
and the `Chain` of the root points to the head, so following `Chain` from the head no
longer reaches the root; a second call of `Compress` with the same head faults (index
out of range) instead of returning the same bytes. -/
theorem C19_compress_modifies_chain :
    Optimize [7] 0 32640 1 = some [⟨9, 0, 0⟩, ⟨-1, -1, 1⟩] ∧
    blocksOf [⟨⟨-1, -1, 1⟩, none⟩, ⟨⟨9, 0, 0⟩, some 0⟩] [1, 0] = [⟨9, 0, 0⟩, ⟨-1, -1, 1⟩] ∧
    CompressHeap [⟨⟨-1, -1, 1⟩, none⟩, ⟨⟨9, 0, 0⟩, some 0⟩] (some 1) [7] 0 false true
      = .ok ([⟨⟨-1, -1, 1⟩, some 1⟩, ⟨⟨9, 0, 0⟩, none⟩], [213, 7, 85, 96], 2) ∧
    CompressHeap [⟨⟨-1, -1, 1⟩, some 1⟩, ⟨⟨9, 0, 0⟩, none⟩] (some 1) [7] 0 false true
      = .error .panic :=
  ⟨by decide, rfl, rfl, rfl⟩

/-- C19, amended: for a chain in memory (distinct addresses `path`, head first, linked
by `Chain` and ending in the root) that `Compress` can encode, `Compress` returns the
bytes that it returns on the list of the blocks of the chain, and it reverses the chain
in place: afterwards `Bits`, `Index` and `Offset` of every node are unchanged, nodes
outside the chain are unchanged, following `Chain` from the root walks the chain
backwards to the head, whose `Chain` is nil; a second call with the same head faults. -/
theorem C19_compress_reverses_chain (heap : Heap) (path : List Nat) (input : List Byte)
    (skip limit : Nat) (backwards invert : Bool) (hnd : path.Nodup) (hl : Linked heap path)
    (h2 : 2 ≤ path.length) (hv : Valid input skip limit (blocksOf heap path)) :
    ∃ heap' out delta,
      Compress (blocksOf heap path) input skip backwards invert = some (out, delta) ∧
      CompressHeap heap path.head? input skip backwards invert = .ok (heap', out, delta) ∧
      heap'.length = heap.length ∧
      (∀ a : Nat, (heap'[a]?).map Node.block = (heap[a]?).map Node.block) ∧
      (∀ a : Nat, a ∉ path → heap'[a]? = heap[a]?) ∧
      Linked heap' path.reverse ∧
      (∃ a n, path.head? = some a ∧ heap'[a]? = some n ∧ n.Chain = none) ∧
      CompressHeap heap' path.head? input skip backwards invert = .error .panic := by
  have hne : path ≠ [] := by
    rintro rfl
    simp at h2
  obtain ⟨heap', b1, b2, b3, b4, e⟩ :=
    compressHeap_eq heap path input skip backwards invert hne hnd hl
  obtain ⟨c, hr, _⟩ := codec input skip limit backwards invert (blocksOf heap path) hv
    (by rw [blocksOf_linked hl]; exact h2)
  rw [compress_of_run hr] at e
  obtain ⟨a, rest, rfl⟩ : ∃ a rest, path = a :: rest := by
    cases path with
    | nil => exact absurd rfl hne
    | cons a rest => exact ⟨a, rest, rfl⟩
  have hlast : Linked heap' [a] := by
    have h := b1
    rw [List.reverse_cons] at h
    exact linked_suffix _ h
  obtain ⟨⟨n, g1, g2⟩, _⟩ := hlast
  obtain ⟨heap2, _, _, _, _, e2⟩ := compressHeap_eq heap' [a] input skip backwards invert
    (by simp) (by simp) ⟨⟨n, g1, g2⟩, trivial⟩
  rw [blocksOf_cons g1, show blocksOf heap' [] = [] from rfl, compress_single] at e2
  exact ⟨heap', c.output, c.delta, compress_of_run hr, e, b2, b3, b4, b1,
    ⟨a, n, rfl, g1, g2⟩, e2⟩

/-- Witness of C19, amended, on the chain of the one-byte input `[7]`. -/
theorem C19_compress_reverses_chain_witness :
    ([1, 0] : List Nat).Nodup ∧
    Linked [⟨⟨-1, -1, 1⟩, none⟩, ⟨⟨9, 0, 0⟩, some 0⟩] [1, 0] ∧
    2 ≤ ([1, 0] : List Nat).length ∧
    Valid [7] 0 32640 (blocksOf [⟨⟨-1, -1, 1⟩, none⟩, ⟨⟨9, 0, 0⟩, some 0⟩] [1, 0]) ∧
    ∃ heap' out delta,
      Compress (blocksOf [⟨⟨-1, -1, 1⟩, none⟩, ⟨⟨9, 0, 0⟩, some 0⟩] [1, 0]) [7] 0 false true
        = some (out, delta) ∧
      CompressHeap [⟨⟨-1, -1, 1⟩, none⟩, ⟨⟨9, 0, 0⟩, some 0⟩] ([1, 0] : List Nat).head? [7] 0
        false true = .ok (heap', out, delta) ∧
      heap'.length = ([⟨⟨-1, -1, 1⟩, none⟩, ⟨⟨9, 0, 0⟩, some 0⟩] : Heap).length ∧
      (∀ a : Nat, (heap'[a]?).map Node.block
        = (([⟨⟨-1, -1, 1⟩, none⟩, ⟨⟨9, 0, 0⟩, some 0⟩] : Heap)[a]?).map Node.block) ∧
      (∀ a : Nat, a ∉ ([1, 0] : List Nat) →
        heap'[a]? = ([⟨⟨-1, -1, 1⟩, none⟩, ⟨⟨9, 0, 0⟩, some 0⟩] : Heap)[a]?) ∧
      Linked heap' ([1, 0] : List Nat).reverse ∧
      (∃ a n, ([1, 0] : List Nat).head? = some a ∧ heap'[a]? = some n ∧ n.Chain = none) ∧
      CompressHeap heap' ([1, 0] : List Nat).head? [7] 0 false true = .error .panic :=
  ⟨by decide, ⟨⟨_, rfl, rfl⟩, ⟨_, rfl, rfl⟩, trivial⟩, by decide,
    (show Valid [7] 0 32640 [⟨9, 0, 0⟩, ⟨-1, -1, 1⟩] from
      ⟨rfl, by decide, by decide, by rw [if_pos rfl]; exact ⟨by decide, by decide⟩⟩),
    C19_compress_reverses_chain [⟨⟨-1, -1, 1⟩, none⟩, ⟨⟨9, 0, 0⟩, some 0⟩] [1, 0] [7] 0 32640
      false true (by decide) ⟨⟨_, rfl, rfl⟩, ⟨_, rfl, rfl⟩, trivial⟩ (by decide)
      (show Valid [7] 0 32640 [⟨9, 0, 0⟩, ⟨-1, -1, 1⟩] from
      ⟨rfl, by decide, by decide, by rw [if_pos rfl]; exact ⟨by decide, by decide⟩⟩)⟩

/-- C18 (the invalid state is unreachable): `Process` applied to `COPY_LITERALS`,
`COPY_FROM_LAST_OFFSET` or `COPY_FROM_NEW_OFFSET` never returns `COPY_UNKNOWN`, and for
every input byte sequence and mode `Decompress` either faults on an out-of-range read or
returns bytes with a nil error: it never returns the "invalid state" error and its loop
always ends. This holds with `int`s of 64 bits (`Process64`, `Decompress64`), which an
arbitrary input can make overflow, and in the model with unbounded integers (`Process`,
`Decompress`). -/
theorem C18_invalid_state_unreachable :
    (∀ (s s' : State) (d d' : Decompressor),
      s = .COPY_LITERALS ∨ s = .COPY_FROM_LAST_OFFSET ∨ s = .COPY_FROM_NEW_OFFSET →
      s.Process64 d = .ok (s', d') → s' ≠ .COPY_UNKNOWN) ∧
    (∀ (input : List Byte) (backwards invert : Bool),
      Decompress64 input backwards invert = .panic ∨
        ∃ out, Decompress64 input backwards invert = .returned out) ∧
    (∀ (s s' : State) (d d' : Decompressor),
      s = .COPY_LITERALS ∨ s = .COPY_FROM_LAST_OFFSET ∨ s = .COPY_FROM_NEW_OFFSET →
      s.Process d = .ok (s', d') → s' ≠ .COPY_UNKNOWN) ∧
    (∀ (input : List Byte) (backwards invert : Bool),
      Decompress input backwards invert = .panic ∨
        ∃ out, Decompress input backwards invert = .returned out) := by
  refine ⟨?_, decompress64_returns_or_faults, fun _ _ _ _ hs e => process_known hs e,
    decompress_returns_or_faults⟩
  intro s s' d d' hs e
  rcases process64_next hs e with h | h | h | h <;> rw [h] <;> simp

/-- C21, refuted for the values from `2^62` on: with `int`s of 64 bits the first loop of
`writeInterlacedEliasGamma`, `for i <= value { i <<= 1 }`, never ends for `value = 2^62`
nor for `value = 2^63 - 1` (the loop condition holds after any number of turns: `i`
goes from `2^62` to `-2^63` and then stays `0`), so in no state of the compressor and
with no flags does the writer return, and no code of these values is written for the
reader to invert. -/
theorem C21_writer_never_ends_from_two_pow_62 :
    (∀ fuel : Nat, Compressor.gammaTop64 fuel 2 (2 ^ 62) = .error .fuel) ∧
    (∀ (c : Compressor) (backwards invert : Bool),
      c.writeInterlacedEliasGamma64 (2 ^ 62) backwards invert = .error .fuel) ∧
    (∀ fuel : Nat, Compressor.gammaTop64 fuel 2 (2 ^ 63 - 1) = .error .fuel) ∧
    (∀ (c : Compressor) (backwards invert : Bool),
      c.writeInterlacedEliasGamma64 (2 ^ 63 - 1) backwards invert = .error .fuel) :=
  ⟨(gamma64_never ⟨[], 0, 0, 0, 0, 0, false, 0, []⟩ (2 ^ 62) false false (by decide)).1,
    fun c bw inv => (gamma64_never c (2 ^ 62) bw inv (by decide)).2,
    (gamma64_never ⟨[], 0, 0, 0, 0, 0, false, 0, []⟩ (2 ^ 63 - 1) false false (by decide)).1,
    fun c bw inv => (gamma64_never c (2 ^ 63 - 1) bw inv (by decide)).2⟩

/-- C21, amended (the interlaced code is self-delimiting and invertible below `2^62`):
for every value `v` with `1 ≤ v < 2^62` and all flags, with `int`s of 64 bits,
`writeInterlacedEliasGamma(v, backwards, invert)` writes the bits
`gammaBits v backwards invert` by its calls of `writeBit`, `eliasGammaBits(v)` bits in
all; and when the next bits of the stream of a decoder `d` with the same `backwards`
flag and `(msb && inverted) = invert` are exactly these bits, `d'` being the decoder
after them, `readInterlacedEliasGamma(msb)` returns `v` and leaves the decoder in `d'`:
it consumes exactly these bits, whatever follows them. The reader with unbounded
integers does the same. -/
theorem C21_gamma_code_invertible (v : Int) (backwards invert msb : Bool)
    (d d' : Decompressor) (hv : 1 ≤ v) (hlt : v < 2 ^ 62) (hd : RInv d)
    (hbw : d.backwards = backwards) (hinv : (msb && d.inverted) = invert)
    (hbits : nextBits d (gammaBits v backwards invert) = some d') :
    (∀ c : Compressor, c.writeInterlacedEliasGamma64 v backwards invert
      = orPanic (writeBits c (gammaBits v backwards invert))) ∧
    ((gammaBits v backwards invert).length : Int) = eliasGammaBits v ∧
    d.readInterlacedEliasGamma64 msb = .ok (v, d') ∧
    ((v.toNat : Nat) : Int) = v ∧
    d.readInterlacedEliasGamma msb = .ok (v.toNat, d') := by
  obtain ⟨a1, a2, a3⟩ := gamma_reads_back v backwards invert msb d d' hv hd hbw hinv hbits
  refine ⟨?_, a1, a3 (by omega), Int.toNat_of_nonneg (by omega), a2⟩
  intro c
  rw [gamma64_writes c v backwards invert hv hlt, gamma_writes_bits]

/-- Witness of C21, amended: the value 5 in the inverted code (bits 0, 1, 0, 0, 1), read
from the second byte of a stream, with three bits left after the code. -/
theorem C21_gamma_code_invertible_witness :
    (1 : Int) ≤ 5 ∧ (5 : Int) < 2 ^ 62 ∧
    RInv ⟨1, [0, 72], [9], 1, 0, 0, false, true, false, 0⟩ ∧
    (⟨1, [0, 72], [9], 1, 0, 0, false, true, false, 0⟩ : Decompressor).backwards = false ∧
    (true && (⟨1, [0, 72], [9], 1, 0, 0, false, true, false, 0⟩ : Decompressor).inverted)
      = true ∧
    gammaBits 5 false true = [0, 1, 0, 0, 1] ∧
    nextBits ⟨1, [0, 72], [9], 1, 0, 0, false, true, false, 0⟩ (gammaBits 5 false true)
      = some ⟨1, [0, 72], [9], 2, 8, 72, false, true, false, 72⟩ ∧
    (∀ c : Compressor, c.writeInterlacedEliasGamma64 5 false true
      = orPanic (writeBits c (gammaBits 5 false true))) ∧
    ((gammaBits 5 false true).length : Int) = eliasGammaBits 5 ∧
    (⟨1, [0, 72], [9], 1, 0, 0, false, true, false, 0⟩ : Decompressor).readInterlacedEliasGamma64
      true = .ok (5, ⟨1, [0, 72], [9], 2, 8, 72, false, true, false, 72⟩) ∧
    (((5 : Int).toNat : Nat) : Int) = 5 ∧
    (⟨1, [0, 72], [9], 1, 0, 0, false, true, false, 0⟩ : Decompressor).readInterlacedEliasGamma
      true = .ok ((5 : Int).toNat, ⟨1, [0, 72], [9], 2, 8, 72, false, true, false, 72⟩) :=
  ⟨by decide, by decide, ⟨by decide, by decide, fun _ => by decide⟩, rfl, rfl, by decide,
    by decide,
    C21_gamma_code_invertible 5 false true true
      ⟨1, [0, 72], [9], 1, 0, 0, false, true, false, 0⟩
      ⟨1, [0, 72], [9], 2, 8, 72, false, true, false, 72⟩ (by decide) (by decide)
      ⟨by decide, by decide, fun _ => by decide⟩ rfl rfl (by decide)⟩

/-- C2, the code against the claim: on the 49 bytes `0..15, 15, 16..47` with `skip = 0`
and `offsetLimit = 32640`, `Optimize` returns a block with `Bits = 407` (a literal run of
16 bytes, a one-byte reuse of the initial offset 1, a literal run of 32 bytes), which
`Compress` encodes in 54 bytes, while the single literal run of 49 bytes is a
representable factorization of cost 403: `Compress` encodes its chain in 53 bytes, which
`Decompress` decodes to the same input. -/
theorem C2_returned_parse_not_minimal :
    Optimize rampWithRepeat 0 32640 1 =
      some [⟨407, 48, 0⟩, ⟨139, 16, 1⟩, ⟨137, 15, 0⟩, ⟨-1, -1, 1⟩] ∧
    (Compress [⟨407, 48, 0⟩, ⟨139, 16, 1⟩, ⟨137, 15, 0⟩, ⟨-1, -1, 1⟩] rampWithRepeat 0 false
      true).map (fun r => r.1.length) = some 54 ∧
    Representable rampWithRepeat 0 32640 [.literal 49] ∧
    parseCost [.literal 49] = 403 ∧
    Compress [⟨403, 48, 0⟩, ⟨-1, -1, 1⟩] rampWithRepeat 0 false true =
      some ([64, 117, 0, 1, 2, 3, 4, 5, 6, 7, 8, 9, 10, 11, 12, 13, 14, 15, 15, 16, 17, 18, 19,
        20, 21, 22, 23, 24, 25, 26, 27, 28, 29, 30, 31, 32, 33, 34, 35, 36, 37, 38, 39, 40, 41,
        42, 43, 44, 45, 46, 47, 85, 88], 2) ∧
    Decompress64 [64, 117, 0, 1, 2, 3, 4, 5, 6, 7, 8, 9, 10, 11, 12, 13, 14, 15, 15, 16, 17, 18,
        19, 20, 21, 22, 23, 24, 25, 26, 27, 28, 29, 30, 31, 32, 33, 34, 35, 36, 37, 38, 39, 40,
        41, 42, 43, 44, 45, 46, 47, 85, 88] false true = .returned rampWithRepeat := by
  refine ⟨by decide!, by decide!, ⟨⟨49, [], rfl⟩, by decide, rfl, rfl⟩, by decide, by decide!,
    by decide!⟩

/-- C6, the code against the claim: on the empty input, in every mode, `Decompress`
faults with an index out of range instead of returning the "invalid state" error, and
so it does on the stream of the one-byte input `[7]` cut after one, two or three of its
four bytes, while it decodes the whole stream; and on every input and in every mode a
run that does not decode an end marker ends in such a fault: `Decompress` either faults
or returns bytes with a nil error, so it never returns the "invalid state" error. The
decoder is the one with `int`s of 64 bits. -/
theorem C6_truncated_input_panics :
    (∀ backwards invert : Bool, Decompress64 [] backwards invert = .panic) ∧
    Compress [⟨9, 0, 0⟩, ⟨-1, -1, 1⟩] [7] 0 false true = some ([213, 7, 85, 96], 2) ∧
    Decompress64 [213, 7, 85, 96] false true = .returned [7] ∧
    Decompress64 [213] false true = .panic ∧ Decompress64 [213, 7] false true = .panic ∧
    Decompress64 [213, 7, 85] false true = .panic ∧
    (∀ (input : List Byte) (backwards invert : Bool),
      Decompress64 input backwards invert = .panic ∨
        ∃ out, Decompress64 input backwards invert = .returned out) :=
  ⟨by decide!, by decide!, by decide!, by decide!, by decide!, by decide!,
    decompress64_returns_or_faults⟩

end Zx0
